import Mathlib

/-!
# OneFlow virtual machine scheduler

A shallow embedding of `oneflow/core/vm/scheduler.cpp`.  Intrusive lists become
Lean lists, objects reached through pointers are stored in maps from
identifiers, and a failed `CHECK` or a null dereference is the result `none`.
-/

namespace oneflow
namespace vm

/-! ## Data model -/

/-- Interpret kind of a stream type. -/
inductive InterpretType where
  | kCompute
  | kInfer
deriving DecidableEq, Repr

/-- Identifier of a stream type together with its interpret kind. -/
structure StreamTypeId where
  stream_type : Nat
  interpret_type : InterpretType
deriving DecidableEq, Repr

/-- Identifier of a stream: stream type and parallel id. -/
structure StreamId where
  stream_type_id : StreamTypeId
  parallel_id : Int
deriving DecidableEq, Repr

/-- Identifier of an instruction type. -/
structure InstrTypeId where
  stream_type_id : StreamTypeId
  opcode : Nat
deriving DecidableEq, Repr

/-- The parallel-id choice carried by a mirrored object operand. -/
inductive ParallelSel where
  | current_parallel_id
  | fixed_parallel_id (p : Int)
  | all_parallel_id
deriving DecidableEq, Repr

/-- Operand naming a logical object and the mirrored objects of it that are meant. -/
structure MirroredObjectOperand where
  logical_object_id : Nat
  sel : ParallelSel
deriving DecidableEq, Repr

/-- Modelled from the spec: `MirroredObjectOperand::has_all_parallel_id` is declared in a
header that is not part of the sources; the operand carries either a parallel id or the
"all parallels" marker. -/
def MirroredObjectOperand.has_all_parallel_id (o : MirroredObjectOperand) : Bool :=
  match o.sel with
  | .all_parallel_id => true
  | _ => false

/-- Modelled from the spec: `MirroredObjectOperand::GetParallelId` is declared in a header
that is not part of the sources; an explicit parallel id wins over the one of the stream. -/
def MirroredObjectOperand.GetParallelId (o : MirroredObjectOperand) (parallel_id : Int) : Int :=
  match o.sel with
  | .fixed_parallel_id p => p
  | _ => parallel_id

/-- The operand variants of an instruction message; `not_set` is an operand none of whose
alternatives is set. -/
inductive InstructionOperand where
  | const_operand (o : MirroredObjectOperand)
  | mutable_operand (o : MirroredObjectOperand)
  | mut2_operand (o : MirroredObjectOperand)
  | double_i_operand (bits : Nat)
  | int64_i_operand (v : Int)
  | uint64_i_operand (v : Nat)
  | bool_i_operand (v : Bool)
  | not_set
deriving DecidableEq, Repr

/-- An instruction message: its type and its ordered operands. -/
structure InstructionMsg where
  instr_type_id : InstrTypeId
  operand : List InstructionOperand
deriving DecidableEq, Repr

/-- Identifier of a mirrored object: logical object id and parallel id. -/
structure MirroredObjectId where
  logical_object_id_value : Nat
  parallel_id : Int
deriving DecidableEq, Repr

/-- A pending access of the instruction of chain `instr_chain` to a mirrored object.  A
chain is named by a number, the count of the chains created before it. -/
structure MirroredObjectAccess where
  instr_chain : Nat
  mirrored_object_id : MirroredObjectId
  is_const_operand : Bool
deriving DecidableEq, Repr

/-- Runtime instance of an instruction message, owning its accesses
(`mirrored_object_id2access`, keyed by the mirrored object id). -/
structure InstrCtx where
  instr_msg : InstructionMsg
  mirrored_object_id2access : List MirroredObjectAccess
deriving DecidableEq, Repr

/-- A logical object with the parallel ids of its mirrored objects, in map order. -/
structure LogicalObject where
  logical_object_id : Nat
  parallel_id2mirrored_object : List Int
deriving DecidableEq, Repr

/-- Runtime descriptor of a stream type: the streams registered under it, in map order. -/
structure StreamRtDesc where
  stream_type_id : StreamTypeId
  stream_id2stream : List StreamId
deriving DecidableEq, Repr

/-- Identifier of a thread context: the stream type it serves and its index. -/
structure ThreadCtxId where
  stream_type_id : StreamTypeId
  thread_id : Nat
deriving DecidableEq, Repr

/-- A thread context with the streams it owns. -/
structure ThreadCtx where
  id : ThreadCtxId
  stream_list : List StreamId
deriving DecidableEq, Repr

/-- A call of `StreamType::Run`, on a message or on a chain. -/
inductive RunEvent where
  | run_instr_msg (m : InstructionMsg)
  | run_instr_chain (c : Nat)
deriving DecidableEq, Repr

/-- What the scheduler takes from code outside `scheduler.cpp`: for each stream type
(named by a number) whether it shares the scheduler thread, the logical object id
transforms, the construction of infer messages, the effect of `StreamType::Run` on the
logical objects (instruction semantics are not part of the scheduler), and the names of
the stream types `ControlStreamType` and `InferStreamType<ControlStreamType>`. -/
structure VmEnv where
  SharingSchedulerThread : Nat → Bool
  GetTypeLogicalObjectId : Nat → Nat
  GetSelfLogicalObjectId : Nat → Nat
  MakeInferInstrMsg : InstructionMsg → InstructionMsg
  RunInstrMsg : List LogicalObject → InstructionMsg → List LogicalObject
  kControlStreamType : Nat
  kInferControlStreamType : Nat

/-- The scheduler and the objects it reaches through pointers.  The fields up to
`thread_ctx_list` are those of `Scheduler`; the maps hold the fields of the chains
(`chain_stream`, `instr_ctx_list`, `in_edges`, `out_edges`, `done`), of the streams
(`running_chain_list`, `thread_ctx`), of the thread contexts (`pending_chain_list`) and of
the mirrored objects (`access_list`).  An edge set is keyed by the chain at the other end
of the edge, and the access map of an `InstrCtx` by the mirrored object id; a keyed set is
held as the list of its elements in the order of their insertion, whereas the source
visits it in the order of the keys (for an edge set, of the addresses of the chains).
`next_chain_id` counts the chains created so far and `run_trace` records the calls of
`StreamType::Run`. -/
structure Scheduler where
  pending_msg_list : List InstructionMsg
  waiting_instr_chain_list : List Nat
  active_stream_list : List StreamId
  id2logical_object : List LogicalObject
  stream_type_id2stream_rt_desc : List StreamRtDesc
  thread_ctx_list : List ThreadCtx
  chain_stream : Nat → StreamId
  instr_ctx_list : Nat → List InstrCtx
  in_edges : Nat → List Nat
  out_edges : Nat → List Nat
  done : Nat → Bool
  running_chain_list : StreamId → List Nat
  thread_ctx : StreamId → ThreadCtxId
  pending_chain_list : ThreadCtxId → List Nat
  access_list : MirroredObjectId → List MirroredObjectAccess
  next_chain_id : Nat
  run_trace : List RunEvent

/-! ## `IsSourceInstruction` -/

/-- The loop of `IsSourceInstruction` over the operands: a mirrored object operand ends it
with `false`; an operand that is no immediate scalar either fails the `CHECK`. -/
def IsSourceInstruction.loop : List InstructionOperand → Option Bool
  | [] => some true
  | .const_operand _ :: _ => some false
  | .mutable_operand _ :: _ => some false
  | .mut2_operand _ :: _ => some false
  | .not_set :: _ => none
  | _ :: rest => IsSourceInstruction.loop rest

/-- `IsSourceInstruction`: whether every operand is an immediate scalar. -/
def IsSourceInstruction (instr_msg : InstructionMsg) : Option Bool :=
  IsSourceInstruction.loop instr_msg.operand

/-! ## `Scheduler::Receive` -/

/-- The loop of `Receive`: for each message of the caller's list, its infer twin is put at
the back of the new list and the message itself is moved behind it.  The result is the
caller's list and the new list after the loop. -/
def Receive.loop (env : VmEnv) :
    List InstructionMsg → List InstructionMsg → List InstructionMsg × List InstructionMsg
  | [], new_instr_msg_list => ([], new_instr_msg_list)
  | compute_instr_msg :: rest, new_instr_msg_list =>
    Receive.loop env rest
      ((new_instr_msg_list ++ [env.MakeInferInstrMsg compute_instr_msg]) ++ [compute_instr_msg])

/-- `Scheduler::Receive`: the scheduler after the call, and the caller's list after it. -/
def Receive (env : VmEnv) (s : Scheduler) (compute_instr_msg_list : List InstructionMsg) :
    Scheduler × List InstructionMsg :=
  let r := Receive.loop env compute_instr_msg_list []
  ({ s with pending_msg_list := s.pending_msg_list ++ r.2 }, r.1)

/-! ## Release of finished chains -/

/-- One round of the inner loop of `ReleaseInstruction`: the access is unlinked from the
access list of its mirrored object, unless it is no longer linked there. -/
def ReleaseInstruction.releaseAccess (s : Scheduler) (access : MirroredObjectAccess) :
    Scheduler :=
  if access ∈ s.access_list access.mirrored_object_id then
    { s with access_list := (Function.update s.access_list access.mirrored_object_id
        ((s.access_list access.mirrored_object_id).erase access)) }
  else s

/-- The first loop of `ReleaseInstruction`: every access of every `InstrCtx` of the chain
is erased from the map of its `InstrCtx` and from the access list of its mirrored object. -/
def ReleaseInstruction.releaseAccesses (instr_chain : Nat) (s : Scheduler) : Scheduler :=
  let s1 := ((s.instr_ctx_list instr_chain).foldl
    (fun acc instr_ctx =>
      instr_ctx.mirrored_object_id2access.foldl ReleaseInstruction.releaseAccess acc) s)
  { s1 with instr_ctx_list := (Function.update s1.instr_ctx_list instr_chain
      ((s1.instr_ctx_list instr_chain).map
        (fun instr_ctx => { instr_ctx with mirrored_object_id2access := [] }))) }

/-- One round of the second loop of `ReleaseInstruction`, for the out-edge to
`out_instr_chain`: the edge leaves the in-edges of its destination, the destination moves
to the back of the ready list when no in-edge is left, and the edge leaves the out-edges
of the released chain. -/
def ReleaseInstruction.releaseEdge (instr_chain : Nat)
    (acc : Scheduler × List Nat) (out_instr_chain : Nat) : Scheduler × List Nat :=
  let s := acc.1
  let s1 := { s with in_edges := (Function.update s.in_edges out_instr_chain
                ((s.in_edges out_instr_chain).erase instr_chain)) }
  let r := if (s1.in_edges out_instr_chain).isEmpty then
      ({ s1 with waiting_instr_chain_list :=
            s1.waiting_instr_chain_list.erase out_instr_chain }, acc.2 ++ [out_instr_chain])
    else (s1, acc.2)
  ({ r.1 with out_edges := (Function.update r.1.out_edges instr_chain
      ((r.1.out_edges instr_chain).erase out_instr_chain)) }, r.2)

/-- `Scheduler::ReleaseInstruction`: the scheduler and the ready list after the call. -/
def ReleaseInstruction (s : Scheduler) (instr_chain : Nat)
    (ready_instr_chain_list : List Nat) : Scheduler × List Nat :=
  let s1 := ReleaseInstruction.releaseAccesses instr_chain s
  (s1.out_edges instr_chain).foldl (ReleaseInstruction.releaseEdge instr_chain)
    (s1, ready_instr_chain_list)

/-- The loop of `TryReleaseFinishedInstrChains` over the running list of the stream, of
which the first argument is the content at the start of the round: while the head chain is
done it is released and erased.  `Stream::DeleteInstrChain` frees the erased chain, which
no list or edge names any more. -/
def TryReleaseFinishedInstrChains.loop (stream : StreamId) :
    List Nat → Scheduler → List Nat → Scheduler × List Nat
  | [], s, ready_instr_chain_list => (s, ready_instr_chain_list)
  | instr_chain :: rest, s, ready_instr_chain_list =>
    if s.done instr_chain then
      let r := ReleaseInstruction s instr_chain ready_instr_chain_list
      TryReleaseFinishedInstrChains.loop stream rest
        { r.1 with running_chain_list := Function.update r.1.running_chain_list stream rest }
        r.2
    else (s, ready_instr_chain_list)

/-- `Scheduler::TryReleaseFinishedInstrChains`. -/
def TryReleaseFinishedInstrChains (s : Scheduler) (stream : StreamId)
    (ready_instr_chain_list : List Nat) : Scheduler × List Nat :=
  TryReleaseFinishedInstrChains.loop stream (s.running_chain_list stream) s
    ready_instr_chain_list

/-! ## Source instructions and chain creation -/

/-- `stream_type.Run(this, instr_msg)`: the call is recorded and acts on the logical
objects. -/
def RunInstrMsg (env : VmEnv) (s : Scheduler) (instr_msg : InstructionMsg) : Scheduler :=
  { s with id2logical_object := env.RunInstrMsg s.id2logical_object instr_msg,
           run_trace := s.run_trace ++ [RunEvent.run_instr_msg instr_msg] }

/-- `Scheduler::FilterAndRunSourceInstructions`: the scheduler and the message list after
the call.  `IsSourceInstruction` is evaluated only for a stream type that shares the
scheduler thread. -/
def FilterAndRunSourceInstructions (env : VmEnv) :
    List InstructionMsg → Scheduler → Option (Scheduler × List InstructionMsg)
  | [], s => some (s, [])
  | instr_msg :: rest, s =>
    if env.SharingSchedulerThread instr_msg.instr_type_id.stream_type_id.stream_type then
      match IsSourceInstruction instr_msg with
      | none => none
      | some true => FilterAndRunSourceInstructions env rest (RunInstrMsg env s instr_msg)
      | some false =>
        (FilterAndRunSourceInstructions env rest s).map (fun r => (r.1, instr_msg :: r.2))
    else
      (FilterAndRunSourceInstructions env rest s).map (fun r => (r.1, instr_msg :: r.2))

/-- Modelled from the spec: `Stream::NewInstrChain` is not part of the sources; it creates
one chain holding one `InstrCtx` for the message, bound to the stream, without edges or
accesses and not done. -/
def NewInstrChain (s : Scheduler) (stream : StreamId) (instr_msg : InstructionMsg) :
    Scheduler × Nat :=
  let c := s.next_chain_id
  ({ s with
      chain_stream := Function.update s.chain_stream c stream,
      instr_ctx_list := (Function.update s.instr_ctx_list c
        [{ instr_msg := instr_msg, mirrored_object_id2access := [] }]),
      in_edges := Function.update s.in_edges c [],
      out_edges := Function.update s.out_edges c [],
      done := Function.update s.done c false,
      next_chain_id := c + 1 }, c)

/-- The inner loop of `MakeInstrChains` over the streams of a stream runtime descriptor. -/
def MakeInstrChains.forStreams (instr_msg : InstructionMsg) :
    List StreamId → Scheduler → List Nat → Scheduler × List Nat
  | [], s, new_instr_chain_list => (s, new_instr_chain_list)
  | stream :: rest, s, new_instr_chain_list =>
    let r := NewInstrChain s stream instr_msg
    MakeInstrChains.forStreams instr_msg rest r.1 (new_instr_chain_list ++ [r.2])

/-- `FindPtr` on `stream_type_id2stream_rt_desc`. -/
def FindStreamRtDesc (s : Scheduler) (stream_type_id : StreamTypeId) : Option StreamRtDesc :=
  s.stream_type_id2stream_rt_desc.find? (fun d => decide (d.stream_type_id = stream_type_id))

/-- `Scheduler::MakeInstrChains`: the scheduler, the message list and the list of new
chains after the call; a message without stream runtime descriptor is a null dereference. -/
def MakeInstrChains :
    List InstructionMsg → Scheduler → List Nat →
      Option (Scheduler × List InstructionMsg × List Nat)
  | [], s, new_instr_chain_list => some (s, [], new_instr_chain_list)
  | instr_msg :: rest, s, new_instr_chain_list =>
    match FindStreamRtDesc s instr_msg.instr_type_id.stream_type_id with
    | none => none
    | some stream_rt_desc =>
      let r := MakeInstrChains.forStreams instr_msg stream_rt_desc.stream_id2stream s
        new_instr_chain_list
      MakeInstrChains rest r.1 r.2

/-! ## Operand resolution -/

/-- `Scheduler::ForEachMirroredObject`: the mirrored objects on which `DoEach` is called,
in order; a missing logical or mirrored object aborts. -/
def ForEachMirroredObject (TransformLogicalObjectId : Nat → Nat)
    (id2logical_object : List LogicalObject) (mirrored_object_operand : MirroredObjectOperand)
    (parallel_id : Int) : Option (List MirroredObjectId) :=
  let logical_object_id := TransformLogicalObjectId mirrored_object_operand.logical_object_id
  match id2logical_object.find? (fun o => decide (o.logical_object_id = logical_object_id)) with
  | none => none
  | some logical_object =>
    if mirrored_object_operand.has_all_parallel_id then
      some (logical_object.parallel_id2mirrored_object.map
        (fun p => { logical_object_id_value := logical_object_id, parallel_id := p }))
    else
      let p := mirrored_object_operand.GetParallelId parallel_id
      if p ∈ logical_object.parallel_id2mirrored_object then
        some [{ logical_object_id_value := logical_object_id, parallel_id := p }]
      else none

/-- Sequencing of two calls of `ForEachMirroredObject`. -/
def ForEachMirroredObject.both (a b : Option (List MirroredObjectId)) :
    Option (List MirroredObjectId) :=
  match a, b with
  | some x, some y => some (x ++ y)
  | _, _ => none

/-- `Scheduler::ForEachConstMirroredObject` for a const operand. -/
def ForEachConstMirroredObject_const (env : VmEnv) (interpret_type : InterpretType)
    (id2logical_object : List LogicalObject) (operand : MirroredObjectOperand)
    (parallel_id : Int) : Option (List MirroredObjectId) :=
  match interpret_type with
  | .kCompute =>
    ForEachMirroredObject.both
      (ForEachMirroredObject env.GetTypeLogicalObjectId id2logical_object operand parallel_id)
      (ForEachMirroredObject env.GetSelfLogicalObjectId id2logical_object operand parallel_id)
  | .kInfer =>
    ForEachMirroredObject env.GetTypeLogicalObjectId id2logical_object operand parallel_id

/-- `Scheduler::ForEachConstMirroredObject` for a mutable operand. -/
def ForEachConstMirroredObject_mutable (env : VmEnv) (interpret_type : InterpretType)
    (id2logical_object : List LogicalObject) (operand : MirroredObjectOperand)
    (parallel_id : Int) : Option (List MirroredObjectId) :=
  match interpret_type with
  | .kCompute =>
    ForEachMirroredObject env.GetTypeLogicalObjectId id2logical_object operand parallel_id
  | .kInfer => some []

/-- `Scheduler::ForEachMutMirroredObject` for a mutable operand. -/
def ForEachMutMirroredObject_mutable (env : VmEnv) (interpret_type : InterpretType)
    (id2logical_object : List LogicalObject) (operand : MirroredObjectOperand)
    (parallel_id : Int) : Option (List MirroredObjectId) :=
  match interpret_type with
  | .kCompute =>
    ForEachMirroredObject env.GetSelfLogicalObjectId id2logical_object operand parallel_id
  | .kInfer =>
    ForEachMirroredObject env.GetTypeLogicalObjectId id2logical_object operand parallel_id

/-- `Scheduler::ForEachMutMirroredObject` for a mut2 operand. -/
def ForEachMutMirroredObject_mut2 (env : VmEnv) (interpret_type : InterpretType)
    (id2logical_object : List LogicalObject) (operand : MirroredObjectOperand)
    (parallel_id : Int) : Option (List MirroredObjectId) :=
  match interpret_type with
  | .kCompute =>
    ForEachMirroredObject.both
      (ForEachMirroredObject env.GetTypeLogicalObjectId id2logical_object operand parallel_id)
      (ForEachMirroredObject env.GetSelfLogicalObjectId id2logical_object operand parallel_id)
  | .kInfer =>
    ForEachMirroredObject env.GetTypeLogicalObjectId id2logical_object operand parallel_id

/-! ## Access registration and dependency linking -/

/-- Kind of access of an operand. -/
inductive OperandAccessType where
  | kConstOperandAccess
  | kMutableOperandAccess
deriving DecidableEq, Repr

/-- `Scheduler::ConsumeMirroredObject`, for the first `InstrCtx` of the chain: the access
is inserted into the map of the `InstrCtx` unless the map has an access for the mirrored
object; only then is it put at the back of the access list of the object. -/
def ConsumeMirroredObject (access_type : OperandAccessType) (instr_chain : Nat)
    (s : Scheduler) (mirrored_object : MirroredObjectId) : Scheduler :=
  match s.instr_ctx_list instr_chain with
  | [] => s
  | instr_ctx :: rest =>
    let is_const_operand := decide (access_type = OperandAccessType.kConstOperandAccess)
    let mirrored_object_access : MirroredObjectAccess :=
      { instr_chain := instr_chain, mirrored_object_id := mirrored_object,
        is_const_operand := is_const_operand }
    let success := !(instr_ctx.mirrored_object_id2access.any
      (fun a => decide (a.mirrored_object_id = mirrored_object)))
    if success then
      { s with
        instr_ctx_list := (Function.update s.instr_ctx_list instr_chain
          ({ instr_ctx with mirrored_object_id2access :=
              instr_ctx.mirrored_object_id2access ++ [mirrored_object_access] } :: rest)),
        access_list := (Function.update s.access_list mirrored_object
          (s.access_list mirrored_object ++ [mirrored_object_access])) }
    else s

/-- `Scheduler::ConnectInstruction`: the edge is inserted into the out-edges of the source
and into the in-edges of the destination, each insertion failing when the set has an edge
with the same key; the `CHECK_EQ` compares the two outcomes. -/
def ConnectInstruction (src_instr_chain dst_instr_chain : Nat) (s : Scheduler) :
    Option Scheduler :=
  let src_inserted := decide (dst_instr_chain ∉ s.out_edges src_instr_chain)
  let s1 := if src_inserted then
      { s with out_edges := (Function.update s.out_edges src_instr_chain
          (s.out_edges src_instr_chain ++ [dst_instr_chain])) }
    else s
  let dst_inserted := decide (src_instr_chain ∉ s1.in_edges dst_instr_chain)
  let s2 := if dst_inserted then
      { s1 with in_edges := (Function.update s1.in_edges dst_instr_chain
          (s1.in_edges dst_instr_chain ++ [src_instr_chain])) }
    else s1
  if src_inserted = dst_inserted then some s2 else none

/-- The first pass of `ConsumeMirroredObjects` over the operands: the mutable accesses. -/
def ConsumeMirroredObjects.mutPass (env : VmEnv) (interpret_type : InterpretType)
    (parallel_id : Int) (instr_chain : Nat) :
    List InstructionOperand → Scheduler → Option Scheduler
  | [], s => some s
  | .mutable_operand o :: rest, s =>
    match ForEachMutMirroredObject_mutable env interpret_type s.id2logical_object o
        parallel_id with
    | none => none
    | some objs =>
      ConsumeMirroredObjects.mutPass env interpret_type parallel_id instr_chain rest
        (objs.foldl
          (ConsumeMirroredObject OperandAccessType.kMutableOperandAccess instr_chain) s)
  | .mut2_operand o :: rest, s =>
    match ForEachMutMirroredObject_mut2 env interpret_type s.id2logical_object o
        parallel_id with
    | none => none
    | some objs =>
      ConsumeMirroredObjects.mutPass env interpret_type parallel_id instr_chain rest
        (objs.foldl
          (ConsumeMirroredObject OperandAccessType.kMutableOperandAccess instr_chain) s)
  | _ :: rest, s =>
    ConsumeMirroredObjects.mutPass env interpret_type parallel_id instr_chain rest s

/-- The second pass of `ConsumeMirroredObjects` over the operands: the const accesses. -/
def ConsumeMirroredObjects.constPass (env : VmEnv) (interpret_type : InterpretType)
    (parallel_id : Int) (instr_chain : Nat) :
    List InstructionOperand → Scheduler → Option Scheduler
  | [], s => some s
  | .const_operand o :: rest, s =>
    match ForEachConstMirroredObject_const env interpret_type s.id2logical_object o
        parallel_id with
    | none => none
    | some objs =>
      ConsumeMirroredObjects.constPass env interpret_type parallel_id instr_chain rest
        (objs.foldl
          (ConsumeMirroredObject OperandAccessType.kConstOperandAccess instr_chain) s)
  | .mutable_operand o :: rest, s =>
    match ForEachConstMirroredObject_mutable env interpret_type s.id2logical_object o
        parallel_id with
    | none => none
    | some objs =>
      ConsumeMirroredObjects.constPass env interpret_type parallel_id instr_chain rest
        (objs.foldl
          (ConsumeMirroredObject OperandAccessType.kConstOperandAccess instr_chain) s)
  | _ :: rest, s =>
    ConsumeMirroredObjects.constPass env interpret_type parallel_id instr_chain rest s

/-- The loop of a mutable access over the access list of its mirrored object, of which the
second argument is the content from the current position on: every access in front of the
own one gives an edge from its chain and is erased from the list. -/
def ConsumeMirroredObjects.linkWrite (instr_chain : Nat)
    (mirrored_object_access : MirroredObjectAccess) :
    List MirroredObjectAccess → Scheduler → Option Scheduler
  | [], s => some s
  | access :: rest, s =>
    if access = mirrored_object_access then some s
    else
      match ConnectInstruction access.instr_chain instr_chain s with
      | none => none
      | some s1 =>
        ConsumeMirroredObjects.linkWrite instr_chain mirrored_object_access rest
          { s1 with access_list := (Function.update s1.access_list
              mirrored_object_access.mirrored_object_id
              ((s1.access_list mirrored_object_access.mirrored_object_id).erase access)) }

/-- One round of the linking loop of `ConsumeMirroredObjects`, for one access of the new
chain. -/
def ConsumeMirroredObjects.link (instr_chain : Nat) (s : Scheduler)
    (mirrored_object_access : MirroredObjectAccess) : Option Scheduler :=
  let access_list := s.access_list mirrored_object_access.mirrored_object_id
  if access_list.length = 1 then some s
  else if mirrored_object_access.is_const_operand then
    match access_list with
    | [] => none
    | first :: _ =>
      if !first.is_const_operand then ConnectInstruction first.instr_chain instr_chain s
      else some s
  else ConsumeMirroredObjects.linkWrite instr_chain mirrored_object_access access_list s

/-- The linking loop of `ConsumeMirroredObjects` over the accesses of the new chain. -/
def ConsumeMirroredObjects.linkAll (instr_chain : Nat) :
    List MirroredObjectAccess → Scheduler → Option Scheduler
  | [], s => some s
  | mirrored_object_access :: rest, s =>
    match ConsumeMirroredObjects.link instr_chain s mirrored_object_access with
    | none => none
    | some s1 => ConsumeMirroredObjects.linkAll instr_chain rest s1

/-- The body of the loop of `ConsumeMirroredObjects` for one new chain: the chain must hold
one `InstrCtx`; its accesses are registered in two passes and then linked. -/
def ConsumeMirroredObjects.chain (env : VmEnv) (s : Scheduler) (instr_chain : Nat) :
    Option Scheduler :=
  let parallel_id := (s.chain_stream instr_chain).parallel_id
  let interpret_type := (s.chain_stream instr_chain).stream_type_id.interpret_type
  match s.instr_ctx_list instr_chain with
  | [instr_ctx] =>
    match ConsumeMirroredObjects.mutPass env interpret_type parallel_id instr_chain
        instr_ctx.instr_msg.operand s with
    | none => none
    | some s1 =>
      match ConsumeMirroredObjects.constPass env interpret_type parallel_id instr_chain
          instr_ctx.instr_msg.operand s1 with
      | none => none
      | some s2 =>
        match s2.instr_ctx_list instr_chain with
        | [] => none
        | instr_ctx2 :: _ =>
          ConsumeMirroredObjects.linkAll instr_chain instr_ctx2.mirrored_object_id2access s2
  | _ => none

/-- The loop of `ConsumeMirroredObjects` over the new chains. -/
def ConsumeMirroredObjects.loop (env : VmEnv) : List Nat → Scheduler → Option Scheduler
  | [], s => some s
  | instr_chain :: rest, s =>
    match ConsumeMirroredObjects.chain env s instr_chain with
    | none => none
    | some s1 => ConsumeMirroredObjects.loop env rest s1

/-- `Scheduler::ConsumeMirroredObjects`. -/
def ConsumeMirroredObjects (env : VmEnv) (new_instr_chain_list : List Nat)
    (s : Scheduler) : Option Scheduler :=
  match new_instr_chain_list with
  | [] => some s
  | begin :: _ =>
    if (s.instr_ctx_list begin).length = 1 then
      ConsumeMirroredObjects.loop env new_instr_chain_list s
    else none

/-- `Scheduler::MergeChains`: nothing is done. -/
def MergeChains (new_instr_chain_list : List Nat) (s : Scheduler) :
    Scheduler × List Nat :=
  (s, new_instr_chain_list)

/-! ## Ready filter and dispatch -/

/-- `Scheduler::FilterReadyChains`: the list of new chains and the ready list after the
call. -/
def FilterReadyChains (s : Scheduler) :
    List Nat → List Nat → List Nat × List Nat
  | [], ready_instr_chain_list => ([], ready_instr_chain_list)
  | instr_chain :: rest, ready_instr_chain_list =>
    if (s.in_edges instr_chain).isEmpty then
      FilterReadyChains s rest (ready_instr_chain_list ++ [instr_chain])
    else
      let r := FilterReadyChains s rest ready_instr_chain_list
      (instr_chain :: r.1, r.2)

/-- Modelled from the spec: the stream types are not part of the sources;
`stream_type.Run(this, instr_chain)` executes the chain synchronously on the scheduler
thread, so the call is recorded, the instructions of the chain act on the logical objects
and the chain is done. -/
def RunInstrChain (env : VmEnv) (s : Scheduler) (instr_chain : Nat) : Scheduler :=
  { s with
    id2logical_object := ((s.instr_ctx_list instr_chain).foldl
      (fun objs instr_ctx => env.RunInstrMsg objs instr_ctx.instr_msg) s.id2logical_object),
    done := (Function.update s.done instr_chain true),
    run_trace := s.run_trace ++ [RunEvent.run_instr_chain instr_chain] }

/-- One round of the loop of `DispatchInstruction`. -/
def DispatchInstruction.step (env : VmEnv) (s : Scheduler) (instr_chain : Nat) :
    Scheduler :=
  let stream := s.chain_stream instr_chain
  let s1 := { s with running_chain_list := (Function.update s.running_chain_list stream
    (s.running_chain_list stream ++ [instr_chain])) }
  let s2 := if stream ∈ s1.active_stream_list then s1
    else { s1 with active_stream_list := s1.active_stream_list ++ [stream] }
  if env.SharingSchedulerThread stream.stream_type_id.stream_type then
    RunInstrChain env s2 instr_chain
  else
    { s2 with pending_chain_list := (Function.update s2.pending_chain_list
        (s2.thread_ctx stream) (s2.pending_chain_list (s2.thread_ctx stream) ++ [instr_chain])) }

/-- `Scheduler::DispatchInstruction`: the scheduler and the ready list after the call. -/
def DispatchInstruction (env : VmEnv) (ready_chain_list : List Nat) (s : Scheduler) :
    Scheduler × List Nat :=
  (ready_chain_list.foldl (DispatchInstruction.step env) s, [])

/-! ## `Scheduler::Schedule` -/

/-- The first loop of `Schedule` over the active streams, of which the first argument is
the content of the active list from the current position on. -/
def Schedule.release (stream_list : List StreamId) (s : Scheduler)
    (ready_instr_chain_list : List Nat) : Scheduler × List Nat :=
  match stream_list with
  | [] => (s, ready_instr_chain_list)
  | stream :: rest =>
    let r := TryReleaseFinishedInstrChains s stream ready_instr_chain_list
    let s1 := if (r.1.running_chain_list stream).isEmpty then
        { r.1 with active_stream_list := r.1.active_stream_list.erase stream }
      else r.1
    Schedule.release rest s1 r.2

/-- The block of `Schedule` that is run for a non-empty pending list: the scheduler and
the ready list after it. -/
def Schedule.ingest (env : VmEnv) (s : Scheduler) (ready_instr_chain_list : List Nat) :
    Option (Scheduler × List Nat) :=
  let tmp_pending_msg_list := s.pending_msg_list
  let s1 := { s with pending_msg_list := [] }
  match FilterAndRunSourceInstructions env tmp_pending_msg_list s1 with
  | none => none
  | some r2 =>
    match MakeInstrChains r2.2 r2.1 [] with
    | none => none
    | some r3 =>
      match ConsumeMirroredObjects env r3.2.2 r3.1 with
      | none => none
      | some s4 =>
        let r5 := MergeChains r3.2.2 s4
        let r6 := FilterReadyChains r5.1 r5.2 ready_instr_chain_list
        some ({ r5.1 with waiting_instr_chain_list :=
                  r5.1.waiting_instr_chain_list ++ r6.1 }, r6.2)

/-- `Scheduler::Schedule`: one tick. -/
def Schedule (env : VmEnv) (s : Scheduler) : Option Scheduler :=
  let r1 := Schedule.release s.active_stream_list s []
  if r1.1.pending_msg_list.length > 0 then
    match Schedule.ingest env r1.1 r1.2 with
    | none => none
    | some r2 => some (DispatchInstruction env r2.2 r2.1).1
  else some (DispatchInstruction env r1.2 r1.1).1

/-- `Scheduler::Empty`. -/
def Empty (s : Scheduler) : Bool :=
  s.pending_msg_list.isEmpty && s.waiting_instr_chain_list.isEmpty
    && s.active_stream_list.isEmpty

/-- Modelled from the spec: `ThreadCtx::TryReceiveAndRun` is not part of the sources; the
worker drains the pending list of its thread context and marks the chains done. -/
def TryReceiveAndRun (s : Scheduler) (t : ThreadCtxId) : Scheduler :=
  { s with
    done := (fun c => if c ∈ s.pending_chain_list t then true else s.done c),
    pending_chain_list := (Function.update s.pending_chain_list t []) }

/-! ## `Scheduler::__Init__` -/

/-- Descriptor of the streams of one stream type.  `parallel_num` and `num_threads` are
what the methods of these names return. -/
structure StreamDesc where
  stream_type_id : StreamTypeId
  num_machines : Int
  num_streams_per_machine : Int
  num_streams_per_thread : Int
  start_parallel_id : Int
  parallel_num : Nat
  num_threads : Nat
deriving DecidableEq, Repr

/-- Modelled from the spec: `BalancedSplitter` is not part of the sources; the size of part
`i` when `total_num` items are split into `split_num` equal-sized chunks with the
remainder distributed to the low indices. -/
def BalancedSplitter.size (total_num split_num i : Nat) : Nat :=
  total_num / split_num + (if i < total_num % split_num then 1 else 0)

/-- A scheduler without messages, chains, streams or objects. -/
def Scheduler.blank : Scheduler where
  pending_msg_list := []
  waiting_instr_chain_list := []
  active_stream_list := []
  id2logical_object := []
  stream_type_id2stream_rt_desc := []
  thread_ctx_list := []
  chain_stream := fun _ =>
    { stream_type_id := { stream_type := 0, interpret_type := InterpretType.kCompute },
      parallel_id := 0 }
  instr_ctx_list := fun _ => []
  in_edges := fun _ => []
  out_edges := fun _ => []
  done := fun _ => false
  running_chain_list := fun _ => []
  thread_ctx := fun x => { stream_type_id := x.stream_type_id, thread_id := 0 }
  pending_chain_list := fun _ => []
  access_list := fun _ => []
  next_chain_id := 0
  run_trace := []

/-- `CheckControlStreamDesc` of `__Init__`. -/
def CheckControlStreamDesc (stream_desc : StreamDesc) : Bool :=
  decide (stream_desc.num_machines = 1) && decide (stream_desc.num_streams_per_machine = 1)
    && decide (stream_desc.num_streams_per_thread = 1)
    && decide (stream_desc.start_parallel_id = 0)

/-- The loop of `__Init__` over the threads of one stream descriptor: thread `i` gets a
thread context and the streams of part `i` of the balanced split, with consecutive
parallel ids; inserting a stream id a second time fails the `CHECK`. -/
def __Init__.threads (stream_desc : StreamDesc) :
    List Nat → Nat → Scheduler → StreamRtDesc → Option (Scheduler × StreamRtDesc)
  | [], _, s, stream_rt_desc => some (s, stream_rt_desc)
  | i :: rest, rel_parallel_id, s, stream_rt_desc =>
    let n := BalancedSplitter.size stream_desc.parallel_num stream_desc.num_threads i
    let streams : List StreamId := (List.range n).map (fun k =>
      { stream_type_id := stream_desc.stream_type_id,
        parallel_id := stream_desc.start_parallel_id + ((rel_parallel_id + k : Nat) : Int) })
    if streams.all (fun x => decide (x ∉ stream_rt_desc.stream_id2stream)) then
      let thread_ctx : ThreadCtx :=
        { id := { stream_type_id := stream_desc.stream_type_id, thread_id := i },
          stream_list := streams }
      __Init__.threads stream_desc rest (rel_parallel_id + n)
        { s with
          thread_ctx_list := s.thread_ctx_list ++ [thread_ctx],
          thread_ctx := (fun x => if x ∈ streams then thread_ctx.id else s.thread_ctx x) }
        { stream_rt_desc with
          stream_id2stream := stream_rt_desc.stream_id2stream ++ streams }
    else none

/-- The loop of `__Init__` over the stream descriptors; the two flags tell whether the
control stream type and its infer counterpart have been met. -/
def __Init__.loop (env : VmEnv) :
    List StreamDesc → Scheduler → Bool → Bool → Option (Scheduler × Bool × Bool)
  | [], s, has_control_stream_type, has_infer_control_stream_type =>
    some (s, has_control_stream_type, has_infer_control_stream_type)
  | stream_desc :: rest, s, has_control_stream_type, has_infer_control_stream_type =>
    let is_control :=
      decide (stream_desc.stream_type_id.stream_type = env.kControlStreamType)
    let is_infer_control := !is_control &&
      decide (stream_desc.stream_type_id.stream_type = env.kInferControlStreamType)
    if (is_control || is_infer_control) && !CheckControlStreamDesc stream_desc then none
    else
      match __Init__.threads stream_desc (List.range stream_desc.num_threads) 0 s
          { stream_type_id := stream_desc.stream_type_id, stream_id2stream := [] } with
      | none => none
      | some r =>
        __Init__.loop env rest
          { r.1 with stream_type_id2stream_rt_desc :=
              r.1.stream_type_id2stream_rt_desc ++ [r.2] }
          (has_control_stream_type || is_control)
          (has_infer_control_stream_type || is_infer_control)

/-- `Scheduler::__Init__` on the stream descriptors of the `VmDesc`, in map order: the
control stream type must be there, and so must its infer counterpart. -/
def __Init__ (env : VmEnv) (vm_desc : List StreamDesc) : Option Scheduler :=
  match __Init__.loop env vm_desc Scheduler.blank false false with
  | none => none
  | some r => if r.2.1 && decide (r.2.1 = r.2.2) then some r.1 else none

/-! ## Reachable states -/

/-- The states of a scheduler: it is initialised, callers hand over messages, the
scheduler thread runs ticks and worker threads run the chains pending for them. -/
inductive Reachable (env : VmEnv) : Scheduler → Prop where
  | init (vm_desc : List StreamDesc) (s : Scheduler) :
      __Init__ env vm_desc = some s → Reachable env s
  | receive (s : Scheduler) (l : List InstructionMsg) :
      Reachable env s → Reachable env (Receive env s l).1
  | schedule (s s1 : Scheduler) :
      Reachable env s → Schedule env s = some s1 → Reachable env s1
  | try_receive_and_run (s : Scheduler) (t : ThreadCtxId) :
      Reachable env s → Reachable env (TryReceiveAndRun s t)

/-- A chain is live while it is on the waiting list or on a running list. -/
def Live (s : Scheduler) (c : Nat) : Prop :=
  c ∈ s.waiting_instr_chain_list ∨ ∃ stream, c ∈ s.running_chain_list stream

/-! ## Frames: what an operation leaves alone -/

/-- The second scheduler differs from the first at most in the access lists of the mirrored objects and the access maps of the chains. -/
structure FrameAccess (s s1 : Scheduler) : Prop where
  pending_msg_list : s1.pending_msg_list = s.pending_msg_list
  waiting_instr_chain_list : s1.waiting_instr_chain_list = s.waiting_instr_chain_list
  active_stream_list : s1.active_stream_list = s.active_stream_list
  id2logical_object : s1.id2logical_object = s.id2logical_object
  stream_type_id2stream_rt_desc : s1.stream_type_id2stream_rt_desc = s.stream_type_id2stream_rt_desc
  thread_ctx_list : s1.thread_ctx_list = s.thread_ctx_list
  chain_stream : s1.chain_stream = s.chain_stream
  in_edges : s1.in_edges = s.in_edges
  out_edges : s1.out_edges = s.out_edges
  done : s1.done = s.done
  running_chain_list : s1.running_chain_list = s.running_chain_list
  thread_ctx : s1.thread_ctx = s.thread_ctx
  pending_chain_list : s1.pending_chain_list = s.pending_chain_list
  next_chain_id : s1.next_chain_id = s.next_chain_id
  run_trace : s1.run_trace = s.run_trace

/-- The second scheduler differs from the first at most in the access lists of the mirrored
objects and the edges. -/
structure FrameEdge (s s1 : Scheduler) : Prop where
  pending_msg_list : s1.pending_msg_list = s.pending_msg_list
  waiting_instr_chain_list : s1.waiting_instr_chain_list = s.waiting_instr_chain_list
  active_stream_list : s1.active_stream_list = s.active_stream_list
  id2logical_object : s1.id2logical_object = s.id2logical_object
  stream_type_id2stream_rt_desc : s1.stream_type_id2stream_rt_desc = s.stream_type_id2stream_rt_desc
  thread_ctx_list : s1.thread_ctx_list = s.thread_ctx_list
  chain_stream : s1.chain_stream = s.chain_stream
  instr_ctx_list : s1.instr_ctx_list = s.instr_ctx_list
  done : s1.done = s.done
  running_chain_list : s1.running_chain_list = s.running_chain_list
  thread_ctx : s1.thread_ctx = s.thread_ctx
  pending_chain_list : s1.pending_chain_list = s.pending_chain_list
  next_chain_id : s1.next_chain_id = s.next_chain_id
  run_trace : s1.run_trace = s.run_trace

/-- The second scheduler differs from the first at most in the stream runtime descriptors
and the thread contexts. -/
structure FrameInit (s s1 : Scheduler) : Prop where
  pending_msg_list : s1.pending_msg_list = s.pending_msg_list
  waiting_instr_chain_list : s1.waiting_instr_chain_list = s.waiting_instr_chain_list
  active_stream_list : s1.active_stream_list = s.active_stream_list
  id2logical_object : s1.id2logical_object = s.id2logical_object
  chain_stream : s1.chain_stream = s.chain_stream
  instr_ctx_list : s1.instr_ctx_list = s.instr_ctx_list
  in_edges : s1.in_edges = s.in_edges
  out_edges : s1.out_edges = s.out_edges
  done : s1.done = s.done
  running_chain_list : s1.running_chain_list = s.running_chain_list
  pending_chain_list : s1.pending_chain_list = s.pending_chain_list
  access_list : s1.access_list = s.access_list
  next_chain_id : s1.next_chain_id = s.next_chain_id
  run_trace : s1.run_trace = s.run_trace

/-- The second scheduler differs from the first at most in the accesses and the edges. -/
structure FrameLink (s s1 : Scheduler) : Prop where
  pending_msg_list : s1.pending_msg_list = s.pending_msg_list
  waiting_instr_chain_list : s1.waiting_instr_chain_list = s.waiting_instr_chain_list
  active_stream_list : s1.active_stream_list = s.active_stream_list
  id2logical_object : s1.id2logical_object = s.id2logical_object
  stream_type_id2stream_rt_desc : s1.stream_type_id2stream_rt_desc = s.stream_type_id2stream_rt_desc
  thread_ctx_list : s1.thread_ctx_list = s.thread_ctx_list
  chain_stream : s1.chain_stream = s.chain_stream
  done : s1.done = s.done
  running_chain_list : s1.running_chain_list = s.running_chain_list
  thread_ctx : s1.thread_ctx = s.thread_ctx
  pending_chain_list : s1.pending_chain_list = s.pending_chain_list
  next_chain_id : s1.next_chain_id = s.next_chain_id
  run_trace : s1.run_trace = s.run_trace

/-- The second scheduler differs from the first at most in the accesses, the edges, the waiting list, the running lists and the active list. -/
structure FrameRelease (s s1 : Scheduler) : Prop where
  pending_msg_list : s1.pending_msg_list = s.pending_msg_list
  id2logical_object : s1.id2logical_object = s.id2logical_object
  stream_type_id2stream_rt_desc : s1.stream_type_id2stream_rt_desc = s.stream_type_id2stream_rt_desc
  thread_ctx_list : s1.thread_ctx_list = s.thread_ctx_list
  chain_stream : s1.chain_stream = s.chain_stream
  done : s1.done = s.done
  thread_ctx : s1.thread_ctx = s.thread_ctx
  pending_chain_list : s1.pending_chain_list = s.pending_chain_list
  next_chain_id : s1.next_chain_id = s.next_chain_id
  run_trace : s1.run_trace = s.run_trace

/-- The second scheduler differs from the first at most in the logical objects and the record of the calls of `Run`. -/
structure FrameRun (s s1 : Scheduler) : Prop where
  pending_msg_list : s1.pending_msg_list = s.pending_msg_list
  waiting_instr_chain_list : s1.waiting_instr_chain_list = s.waiting_instr_chain_list
  active_stream_list : s1.active_stream_list = s.active_stream_list
  stream_type_id2stream_rt_desc : s1.stream_type_id2stream_rt_desc = s.stream_type_id2stream_rt_desc
  thread_ctx_list : s1.thread_ctx_list = s.thread_ctx_list
  chain_stream : s1.chain_stream = s.chain_stream
  instr_ctx_list : s1.instr_ctx_list = s.instr_ctx_list
  in_edges : s1.in_edges = s.in_edges
  out_edges : s1.out_edges = s.out_edges
  done : s1.done = s.done
  running_chain_list : s1.running_chain_list = s.running_chain_list
  thread_ctx : s1.thread_ctx = s.thread_ctx
  pending_chain_list : s1.pending_chain_list = s.pending_chain_list
  access_list : s1.access_list = s.access_list
  next_chain_id : s1.next_chain_id = s.next_chain_id

/-- The second scheduler differs from the first at most in the fields of the chains and the chain counter. -/
structure FrameNew (s s1 : Scheduler) : Prop where
  pending_msg_list : s1.pending_msg_list = s.pending_msg_list
  waiting_instr_chain_list : s1.waiting_instr_chain_list = s.waiting_instr_chain_list
  active_stream_list : s1.active_stream_list = s.active_stream_list
  id2logical_object : s1.id2logical_object = s.id2logical_object
  stream_type_id2stream_rt_desc : s1.stream_type_id2stream_rt_desc = s.stream_type_id2stream_rt_desc
  thread_ctx_list : s1.thread_ctx_list = s.thread_ctx_list
  running_chain_list : s1.running_chain_list = s.running_chain_list
  thread_ctx : s1.thread_ctx = s.thread_ctx
  pending_chain_list : s1.pending_chain_list = s.pending_chain_list
  access_list : s1.access_list = s.access_list
  run_trace : s1.run_trace = s.run_trace

/-- The second scheduler differs from the first at most in the running lists, the active list, the pending chain lists, the done flags, the logical objects and the record of the calls of `Run`. -/
structure FrameDispatch (s s1 : Scheduler) : Prop where
  pending_msg_list : s1.pending_msg_list = s.pending_msg_list
  waiting_instr_chain_list : s1.waiting_instr_chain_list = s.waiting_instr_chain_list
  stream_type_id2stream_rt_desc : s1.stream_type_id2stream_rt_desc = s.stream_type_id2stream_rt_desc
  thread_ctx_list : s1.thread_ctx_list = s.thread_ctx_list
  chain_stream : s1.chain_stream = s.chain_stream
  instr_ctx_list : s1.instr_ctx_list = s.instr_ctx_list
  in_edges : s1.in_edges = s.in_edges
  out_edges : s1.out_edges = s.out_edges
  thread_ctx : s1.thread_ctx = s.thread_ctx
  access_list : s1.access_list = s.access_list
  next_chain_id : s1.next_chain_id = s.next_chain_id

/-! ## Notions of the specification -/

/-- Number of streams registered under the stream runtime descriptor of the message. -/
def numStreams (s : Scheduler) (m : InstructionMsg) : Nat :=
  match FindStreamRtDesc s m.instr_type_id.stream_type_id with
  | some d => d.stream_id2stream.length
  | none => 0

/-- An immediate scalar operand. -/
def InstructionOperand.is_immediate : InstructionOperand → Bool
  | .double_i_operand _ => true
  | .int64_i_operand _ => true
  | .uint64_i_operand _ => true
  | .bool_i_operand _ => true
  | _ => false

/-- A message for the source fast path: its stream type shares the scheduler thread and
its operands are all immediate scalars. -/
def IsFastPath (env : VmEnv) (m : InstructionMsg) : Bool :=
  env.SharingSchedulerThread m.instr_type_id.stream_type_id.stream_type
    && m.operand.all InstructionOperand.is_immediate

/-- The chains from which one access of a new chain gets an edge, given the accesses `pre`
in front of it on the access list of its mirrored object: for a const access the chain of
the first access if that one is not const, for a mutable access the chains of all. -/
def linkSources (pre : List MirroredObjectAccess) (mine : MirroredObjectAccess) : List Nat :=
  if mine.is_const_operand then
    match pre with
    | [] => []
    | first :: _ => if first.is_const_operand then [] else [first.instr_chain]
  else pre.map MirroredObjectAccess.instr_chain

/-- The second scheduler has the edges of the first and in addition an edge to chain `n`
from each chain of `srcs`. -/
structure EdgesAdded (s s1 : Scheduler) (n : Nat) (srcs : List Nat) : Prop where
  in_edges : ∀ d x, x ∈ s1.in_edges d ↔ x ∈ s.in_edges d ∨ (d = n ∧ x ∈ srcs)
  out_edges : ∀ c x, x ∈ s1.out_edges c ↔ x ∈ s.out_edges c ∨ (x = n ∧ c ∈ srcs)
  in_nodup : ∀ d, (s.in_edges d).Nodup → (s1.in_edges d).Nodup
  out_nodup : ∀ c, (s.out_edges c).Nodup → (s1.out_edges c).Nodup

/-- An edge is in the out-edges of its source if and only if it is in the in-edges of its
destination. -/
def EdgeSym (s : Scheduler) : Prop :=
  ∀ c d, d ∈ s.out_edges c ↔ c ∈ s.in_edges d

/-- An access list is well formed when every access behind the first is const: it holds at
most one mutable access, and that one in front. -/
def AccessListWf (l : List MirroredObjectAccess) : Prop :=
  ∀ a ∈ l.tail, a.is_const_operand = true

/-- The state of the registration of the accesses of the new chain `n`, whose message is
`m`, started in `s0`: the `InstrCtx` of the chain holds the accesses `accs`, at most one
for a mirrored object, and each is at the back of the access list of its object. -/
structure Registered (s0 s : Scheduler) (n : Nat) (m : InstructionMsg)
    (accs : List MirroredObjectAccess) : Prop where
  ctx : s.instr_ctx_list n = [{ instr_msg := m, mirrored_object_id2access := accs }]
  nodup : (accs.map MirroredObjectAccess.mirrored_object_id).Nodup
  own : ∀ a ∈ accs, a.instr_chain = n
  al : ∀ obj, s.access_list obj
    = s0.access_list obj ++ accs.filter (fun a => decide (a.mirrored_object_id = obj))
  others : ∀ c, c ≠ n → s.instr_ctx_list c = s0.instr_ctx_list c
  frame : FrameAccess s0 s

/-! ## Invariants -/

/-- The invariant of the chain graph and the chain lists, for a scheduler together with
the transient ready list and the list of new chains of a tick: the lists share no chain
and hold no chain twice, a chain is on the running list of its own stream only, chains,
edges and accesses are about chains created so far, the edge sets are symmetric and without
repetition, a chain with an in-edge is waiting or new, a waiting chain has an in-edge, a
chain that is not yet dispatched is not done, and a chain pending for a worker is on the
running list of its stream, pending for the thread of that stream only, and not done. -/
structure GraphInv (s : Scheduler) (ready new : List Nat) : Prop where
  nodup : (s.waiting_instr_chain_list ++ (ready ++ new)).Nodup
  running_nodup : ∀ st, (s.running_chain_list st).Nodup
  running_stream : ∀ st c, c ∈ s.running_chain_list st → s.chain_stream c = st
  running_disjoint : ∀ st c, c ∈ s.running_chain_list st →
    c ∉ s.waiting_instr_chain_list ++ (ready ++ new)
  lt_next : ∀ c, c ∈ s.waiting_instr_chain_list ++ (ready ++ new) → c < s.next_chain_id
  running_lt_next : ∀ st c, c ∈ s.running_chain_list st → c < s.next_chain_id
  edge_lt_next : ∀ c d, c ∈ s.in_edges d → c < s.next_chain_id ∧ d < s.next_chain_id
  access_lt_next : ∀ obj a, a ∈ s.access_list obj → a.instr_chain < s.next_chain_id
  sym : EdgeSym s
  in_nodup : ∀ d, (s.in_edges d).Nodup
  out_nodup : ∀ c, (s.out_edges c).Nodup
  dst_waiting : ∀ c d, c ∈ s.in_edges d → d ∈ s.waiting_instr_chain_list ∨ d ∈ new
  waiting_in : ∀ d, d ∈ s.waiting_instr_chain_list → s.in_edges d ≠ []
  not_done : ∀ c, c ∈ s.waiting_instr_chain_list ++ (ready ++ new) → s.done c = false
  pending : ∀ t c, c ∈ s.pending_chain_list t →
    s.done c = false ∧ c ∈ s.running_chain_list (s.chain_stream c)
      ∧ t = s.thread_ctx (s.chain_stream c)

/-- The invariant of the order of the chains, with `k` the first chain whose accesses are
not registered yet: the access lists are well formed and hold accesses of chains before
`k` only, every edge goes from a chain to a chain created later, and the chains from `k`
on hold one `InstrCtx` without accesses. -/
structure OrderInv (s : Scheduler) (k : Nat) : Prop where
  wf : ∀ obj, AccessListWf (s.access_list obj)
  access_lt : ∀ obj a, a ∈ s.access_list obj → a.instr_chain < k
  edge_lt : ∀ c d, c ∈ s.in_edges d → c < d
  fresh : ∀ c, k ≤ c → c < s.next_chain_id →
    ∃ m, s.instr_ctx_list c = [{ instr_msg := m, mirrored_object_id2access := [] }]

/-- The scheduler at a point of its run, with the content of the transient ready list: in
between the operations, where the list does not exist, and inside a tick after the release
phase and after the ready filter. -/
inductive Reached (env : VmEnv) : Scheduler → List Nat → Prop where
  | idle (s : Scheduler) : Reachable env s → Reached env s []
  | released (s : Scheduler) : Reachable env s →
      Reached env (Schedule.release s.active_stream_list s []).1
        (Schedule.release s.active_stream_list s []).2
  | ingested (s : Scheduler) (r : Scheduler × List Nat) : Reachable env s →
      Schedule.ingest env (Schedule.release s.active_stream_list s []).1
        (Schedule.release s.active_stream_list s []).2 = some r →
      Reached env r.1 r.2

/-! ## A scheduler with a Nop stream and the control stream -/

namespace test

/-- Stream type ids of the scenario: `ControlStreamType` is stream type 0, the Nop stream
type is stream type 2, and the infer counterpart of a stream type is the next number. -/
def kControlStreamTypeId : StreamTypeId :=
  { stream_type := 0, interpret_type := InterpretType.kCompute }

/-- Stream type id of `InferStreamType<ControlStreamType>`. -/
def kInferControlStreamTypeId : StreamTypeId :=
  { stream_type := 1, interpret_type := InterpretType.kInfer }

/-- Stream type id of the Nop stream type. -/
def kNopStreamTypeId : StreamTypeId :=
  { stream_type := 2, interpret_type := InterpretType.kCompute }

/-- Stream type id of the infer counterpart of the Nop stream type. -/
def kInferNopStreamTypeId : StreamTypeId :=
  { stream_type := 3, interpret_type := InterpretType.kInfer }

/-- Modelled from the spec: `InstructionMsg::MakeInferInstrMsg` is not part of the sources;
the infer twin is the same message on the infer counterpart of its stream type. -/
def MakeInferInstrMsg (m : InstructionMsg) : InstructionMsg :=
  { m with instr_type_id :=
      { m.instr_type_id with stream_type_id :=
          { stream_type := m.instr_type_id.stream_type_id.stream_type + 1,
            interpret_type := InterpretType.kInfer } } }

/-- Modelled from the spec: the control stream type is not part of the sources; its
instruction `NewSymbol` (opcode 0, operands the symbol and the parallel number) creates a
logical object with one mirrored object per parallel id, the infer twin under the type id
of the symbol and the compute instruction under its own id.  Other instructions leave the
logical objects alone. -/
def RunInstrMsg (objs : List LogicalObject) (m : InstructionMsg) : List LogicalObject :=
  match m.instr_type_id.opcode, m.operand with
  | 0, [InstructionOperand.uint64_i_operand v, InstructionOperand.int64_i_operand n] =>
    if m.instr_type_id.stream_type_id.stream_type = 0 then
      objs ++ [{ logical_object_id := 2 * v,
                 parallel_id2mirrored_object := (List.range n.toNat).map (fun k => (k : Int)) }]
    else if m.instr_type_id.stream_type_id.stream_type = 1 then
      objs ++ [{ logical_object_id := 2 * v + 1,
                 parallel_id2mirrored_object := (List.range n.toNat).map (fun k => (k : Int)) }]
    else objs
  | _, _ => objs

/-- The environment of the scenario; `nop_sharing` says whether the Nop stream type shares
the scheduler thread, the other stream types do. -/
def env (nop_sharing : Bool) : VmEnv where
  SharingSchedulerThread := fun t => if t = 2 then nop_sharing else true
  GetTypeLogicalObjectId := fun v => 2 * v + 1
  GetSelfLogicalObjectId := fun v => 2 * v
  MakeInferInstrMsg := MakeInferInstrMsg
  RunInstrMsg := RunInstrMsg
  kControlStreamType := 0
  kInferControlStreamType := 1

/-- `StreamDesc::New(stream_type_id, 1, 1, 1)`. -/
def NewStreamDesc (stream_type_id : StreamTypeId) : StreamDesc :=
  { stream_type_id := stream_type_id, num_machines := 1, num_streams_per_machine := 1,
    num_streams_per_thread := 1, start_parallel_id := 0, parallel_num := 1, num_threads := 1 }

/-- The `VmDesc` of the tests of `nop_stream_type_test.cpp`: the Nop and the control stream
descriptor. -/
def vm_desc_of_test : List StreamDesc :=
  [NewStreamDesc kControlStreamTypeId, NewStreamDesc kNopStreamTypeId]

/-- A `VmDesc` with the control and the Nop stream descriptor and their infer
counterparts. -/
def vm_desc : List StreamDesc :=
  [NewStreamDesc kControlStreamTypeId, NewStreamDesc kInferControlStreamTypeId,
   NewStreamDesc kNopStreamTypeId, NewStreamDesc kInferNopStreamTypeId]

/-- The scheduler made from `vm_desc`. -/
def scheduler (nop_sharing : Bool) : Scheduler :=
  (__Init__ (env nop_sharing) vm_desc).getD Scheduler.blank

/-- A scheduler with exactly the streams of the tests, the control stream and one Nop
stream, put together by hand (`__Init__` refuses their `VmDesc`, which lacks the infer
counterpart of the control stream type). -/
def scheduler_of_test : Scheduler :=
  { Scheduler.blank with
    stream_type_id2stream_rt_desc :=
      [{ stream_type_id := kControlStreamTypeId,
         stream_id2stream := [{ stream_type_id := kControlStreamTypeId, parallel_id := 0 }] },
       { stream_type_id := kNopStreamTypeId,
         stream_id2stream := [{ stream_type_id := kNopStreamTypeId, parallel_id := 0 }] }],
    thread_ctx_list :=
      [{ id := { stream_type_id := kControlStreamTypeId, thread_id := 0 },
         stream_list := [{ stream_type_id := kControlStreamTypeId, parallel_id := 0 }] },
       { id := { stream_type_id := kNopStreamTypeId, thread_id := 0 },
         stream_list := [{ stream_type_id := kNopStreamTypeId, parallel_id := 0 }] }] }

/-- `NewInstruction("Nop")`. -/
def nop_instr_msg : InstructionMsg :=
  { instr_type_id := { stream_type_id := kNopStreamTypeId, opcode := 0 }, operand := [] }

/-- `ControlStreamType().NewSymbol(symbol_value, parallel_num)`. -/
def NewSymbol (symbol_value : Nat) (parallel_num : Int) : InstructionMsg :=
  { instr_type_id := { stream_type_id := kControlStreamTypeId, opcode := 0 },
    operand := [InstructionOperand.uint64_i_operand symbol_value,
                InstructionOperand.int64_i_operand parallel_num] }

/-- A Nop instruction after `add_mut_operand(symbol_value)`. -/
def nop_mut_instr_msg (symbol_value : Nat) : InstructionMsg :=
  { instr_type_id := { stream_type_id := kNopStreamTypeId, opcode := 0 },
    operand := [InstructionOperand.mutable_operand
      { logical_object_id := symbol_value, sel := ParallelSel.current_parallel_id }] }

/-- The Nop stream. -/
def nop_stream : StreamId := { stream_type_id := kNopStreamTypeId, parallel_id := 0 }

/-- The stream of the infer counterpart of the Nop stream type. -/
def infer_nop_stream : StreamId :=
  { stream_type_id := kInferNopStreamTypeId, parallel_id := 0 }

/-- The scheduler after `Receive` of one Nop instruction without operands. -/
def s1_received (nop_sharing : Bool) : Scheduler :=
  (Receive (env nop_sharing) (scheduler nop_sharing) [nop_instr_msg]).1

/-- The messages of the second scenario: a symbol and two Nop instructions that mutate it. -/
def s2_msgs : List InstructionMsg :=
  [NewSymbol 9527 1, nop_mut_instr_msg 9527, nop_mut_instr_msg 9527]

/-- The scheduler after `Receive` of the messages of the second scenario. -/
def s2_received (nop_sharing : Bool) : Scheduler :=
  (Receive (env nop_sharing) (scheduler nop_sharing) s2_msgs).1

/-- The scheduler after `Receive` of the messages of the second scenario and one tick. -/
def s2_scheduled (nop_sharing : Bool) : Scheduler :=
  (Schedule (env nop_sharing) (s2_received nop_sharing)).getD Scheduler.blank

/-- A scheduler in the middle of dependency linking: chain 0 holds a mutable access to the
mirrored object (19055, 0), and chain 1, of a Nop instruction that mutates symbol 9527, is
new and has no access yet. -/
def link_state : Scheduler :=
  { Scheduler.blank with
    id2logical_object := [{ logical_object_id := 19054, parallel_id2mirrored_object := [0] },
      { logical_object_id := 19055, parallel_id2mirrored_object := [0] }],
    chain_stream := fun _ => nop_stream,
    instr_ctx_list := fun c =>
      if c = 1 then [{ instr_msg := nop_mut_instr_msg 9527, mirrored_object_id2access := [] }]
      else [],
    access_list := fun obj =>
      if obj = { logical_object_id_value := 19055, parallel_id := 0 } then
        [{ instr_chain := 0,
           mirrored_object_id := { logical_object_id_value := 19055, parallel_id := 0 },
           is_const_operand := false }]
      else [],
    next_chain_id := 2 }

/-- The scheduler `link_state` after the accesses of chain 1 have been registered and
linked. -/
def link_state_linked : Scheduler :=
  (ConsumeMirroredObjects.chain (env false) link_state 1).getD Scheduler.blank

end test

/-! ## The access table of the specification -/

/-- The mirrored objects that an operand writes according to the access table of the
specification: a `mutable` operand writes its Self object under compute and its Type object
under infer, a `mut2` operand writes its Type object and its Self object under compute and
its Type object under infer; a `const` operand and an immediate operand write nothing.
`Type` and `Self` are the resolutions of the operand by `ForEachMirroredObject`. -/
def AccessTable.writes (env : VmEnv) (interpret_type : InterpretType)
    (id2logical_object : List LogicalObject) (parallel_id : Int) :
    InstructionOperand → Option (List MirroredObjectId)
  | .mutable_operand o =>
    match interpret_type with
    | .kCompute =>
      ForEachMirroredObject env.GetSelfLogicalObjectId id2logical_object o parallel_id
    | .kInfer =>
      ForEachMirroredObject env.GetTypeLogicalObjectId id2logical_object o parallel_id
  | .mut2_operand o =>
    match interpret_type with
    | .kCompute =>
      ForEachMirroredObject.both
        (ForEachMirroredObject env.GetTypeLogicalObjectId id2logical_object o parallel_id)
        (ForEachMirroredObject env.GetSelfLogicalObjectId id2logical_object o parallel_id)
    | .kInfer =>
      ForEachMirroredObject env.GetTypeLogicalObjectId id2logical_object o parallel_id
  | _ => some []

/-- The mirrored objects that an operand reads according to the access table of the
specification: a `mutable` operand reads its Type object under compute and nothing under
infer, a `const` operand reads its Type object and its Self object under compute and its
Type object under infer; a `mut2` operand and an immediate operand read nothing. -/
def AccessTable.reads (env : VmEnv) (interpret_type : InterpretType)
    (id2logical_object : List LogicalObject) (parallel_id : Int) :
    InstructionOperand → Option (List MirroredObjectId)
  | .mutable_operand o =>
    match interpret_type with
    | .kCompute =>
      ForEachMirroredObject env.GetTypeLogicalObjectId id2logical_object o parallel_id
    | .kInfer => some []
  | .const_operand o =>
    match interpret_type with
    | .kCompute =>
      ForEachMirroredObject.both
        (ForEachMirroredObject env.GetTypeLogicalObjectId id2logical_object o parallel_id)
        (ForEachMirroredObject env.GetSelfLogicalObjectId id2logical_object o parallel_id)
    | .kInfer =>
      ForEachMirroredObject env.GetTypeLogicalObjectId id2logical_object o parallel_id
  | _ => some []

/-- The entries of one column of the access table for the operands of an instruction, in
the order of the operands; `none` when an operand does not resolve. -/
def AccessTable.collect (column : InstructionOperand → Option (List MirroredObjectId)) :
    List InstructionOperand → Option (List MirroredObjectId)
  | [] => some []
  | operand :: rest =>
    match column operand, AccessTable.collect column rest with
    | some objs, some more => some (objs ++ more)
    | _, _ => none

/-- The accesses of chain `instr_chain` to the mirrored objects `objs`, const or mutable. -/
def AccessTable.accesses (instr_chain : Nat) (is_const_operand : Bool)
    (objs : List MirroredObjectId) : List MirroredObjectAccess :=
  objs.map (fun obj =>
    { instr_chain := instr_chain, mirrored_object_id := obj,
      is_const_operand := is_const_operand })

namespace test

/-- A Nop instruction with a const operand for the symbol. -/
def nop_const_instr_msg (symbol_value : Nat) : InstructionMsg :=
  { instr_type_id := { stream_type_id := kNopStreamTypeId, opcode := 0 },
    operand := [InstructionOperand.const_operand
      { logical_object_id := symbol_value, sel := ParallelSel.current_parallel_id }] }

/-- The const access of chain `c` to the mirrored object of parallel id 0 of a logical
object. -/
def const_access (c : Nat) (logical_object_id : Nat) : MirroredObjectAccess :=
  { instr_chain := c,
    mirrored_object_id := { logical_object_id_value := logical_object_id, parallel_id := 0 },
    is_const_operand := true }

/-- A scheduler in the middle of dependency linking: chains 0 and 1, of Nop instructions
with symbol 9527 as const operand, hold const accesses to the mirrored objects (19055, 0)
and (19054, 0), the Type and the Self object of the symbol; chain 2, of a Nop instruction
that mutates the symbol, is new and has no access yet. -/
def write_state : Scheduler :=
  { Scheduler.blank with
    id2logical_object := [{ logical_object_id := 19054, parallel_id2mirrored_object := [0] },
      { logical_object_id := 19055, parallel_id2mirrored_object := [0] }],
    chain_stream := fun _ => nop_stream,
    instr_ctx_list := fun c =>
      if c = 2 then [{ instr_msg := nop_mut_instr_msg 9527, mirrored_object_id2access := [] }]
      else if c < 2 then
        [{ instr_msg := nop_const_instr_msg 9527,
           mirrored_object_id2access := [const_access c 19055, const_access c 19054] }]
      else [],
    running_chain_list := fun st => if st = nop_stream then [0, 1] else [],
    active_stream_list := [nop_stream],
    access_list := fun obj =>
      if obj = { logical_object_id_value := 19055, parallel_id := 0 } then
        [const_access 0 19055, const_access 1 19055]
      else if obj = { logical_object_id_value := 19054, parallel_id := 0 } then
        [const_access 0 19054, const_access 1 19054]
      else [],
    next_chain_id := 3 }

/-- The scheduler `write_state` after the accesses of chain 2 have been registered and
linked. -/
def write_state_linked : Scheduler :=
  (ConsumeMirroredObjects.chain (env false) write_state 2).getD Scheduler.blank

end test

/-! ## Notions of the specification: liveness and draining -/

/-- A chain is in the hands of the scheduler: it is live, on the transient ready list or
new. -/
def InHand (s : Scheduler) (ready new : List Nat) (c : Nat) : Prop :=
  Live s c ∨ c ∈ ready ∨ c ∈ new

/-- The invariant of the accesses and of the sources of the edges: an access on the access
list of a mirrored object is an access to that object, is held by an `InstrCtx` of its
chain and is on the list once; the accesses held by a chain name the chain; the chain of
an access on an access list is in the hands of the scheduler, and so is the source of every
edge. -/
structure LiveInv (s : Scheduler) (ready new : List Nat) : Prop where
  al_obj : ∀ obj a, a ∈ s.access_list obj → a.mirrored_object_id = obj
  al_own : ∀ obj a, a ∈ s.access_list obj →
    ∃ ctx ∈ s.instr_ctx_list a.instr_chain, a ∈ ctx.mirrored_object_id2access
  al_nodup : ∀ obj, (s.access_list obj).Nodup
  ctx_own : ∀ c ctx a, ctx ∈ s.instr_ctx_list c → a ∈ ctx.mirrored_object_id2access →
    a.instr_chain = c
  al_live : ∀ obj a, a ∈ s.access_list obj → InHand s ready new a.instr_chain
  src_live : ∀ c d, c ∈ s.in_edges d → InHand s ready new c

/-- The invariant of the active list: it holds no stream twice, and a stream is active if
and only if its running list is not empty. -/
structure ActiveInv (s : Scheduler) : Prop where
  nodup : s.active_stream_list.Nodup
  active_iff : ∀ st, st ∈ s.active_stream_list ↔ s.running_chain_list st ≠ []

/-- The chains that a tick releases from the running list of a stream: the longest prefix
of chains that are done. -/
def releasedChains (s : Scheduler) (stream : StreamId) : List Nat :=
  (s.running_chain_list stream).takeWhile s.done

/-- A dependency path: live chains, each with an edge to the next. -/
def DependencyPath (s : Scheduler) (path : List Nat) : Prop :=
  path.Chain' (fun c d => c ∈ s.in_edges d) ∧ ∀ c ∈ path, Live s c

/-- The worker threads run: any number of calls of `TryReceiveAndRun`. -/
inductive WorkersRun (s : Scheduler) : Scheduler → Prop where
  | refl : WorkersRun s s
  | step (s1 : Scheduler) (t : ThreadCtxId) :
      WorkersRun s s1 → WorkersRun s (TryReceiveAndRun s1 t)

/-- A run of `n` ticks without `Receive`: before each tick the worker threads run, and
every chain on the running list of an active stream is done when the tick starts. -/
inductive Drained (env : VmEnv) (s : Scheduler) : Nat → Scheduler → Prop where
  | zero : Drained env s 0 s
  | tick (n : Nat) (s1 s2 s3 : Scheduler) :
      Drained env s n s1 → WorkersRun s1 s2 →
      (∀ st ∈ s2.active_stream_list, ∀ c ∈ s2.running_chain_list st, s2.done c = true) →
      Schedule env s2 = some s3 → Drained env s (n + 1) s3

namespace test

/-- The loop of the tests over the thread contexts: `TryReceiveAndRun` on each. -/
def run_workers (s : Scheduler) : Scheduler :=
  s.thread_ctx_list.foldl (fun acc t => TryReceiveAndRun acc t.id) s

/-- The scheduler of the second scenario after the first tick and `n` rounds of
`TryReceiveAndRun` on every thread context followed by a tick. -/
def s2_drained (nop_sharing : Bool) : Nat → Scheduler
  | 0 => s2_scheduled nop_sharing
  | n + 1 =>
    (Schedule (env nop_sharing) (run_workers (s2_drained nop_sharing n))).getD Scheduler.blank

end test

/-- What the release phase does to the chains in the hands of the scheduler, between a
scheduler with its ready list and a later one: waiting chains stay or move to the ready
list, ready chains stay, and edges and accesses are only erased. -/
structure Kept (s : Scheduler) (ready : List Nat) (s1 : Scheduler) (ready1 : List Nat) :
    Prop where
  in_hand : ∀ x, x ∈ s.waiting_instr_chain_list ∨ x ∈ ready →
    x ∈ s1.waiting_instr_chain_list ∨ x ∈ ready1
  waiting : ∀ x, x ∈ s1.waiting_instr_chain_list → x ∈ s.waiting_instr_chain_list
  ready_mono : ∀ x, x ∈ ready → x ∈ ready1
  ready_from : ∀ x, x ∈ ready1 → x ∈ ready ∨ x ∈ s.waiting_instr_chain_list
  in_edges : ∀ d x, x ∈ s1.in_edges d → x ∈ s.in_edges d
  out_edges : ∀ c x, x ∈ s1.out_edges c → x ∈ s.out_edges c
  access_list : ∀ obj x, x ∈ s1.access_list obj → x ∈ s.access_list obj

/-! ## Notions of the specification: duplicate accesses -/

/-- Registration of accesses, in order, behind the accesses `accs` that a chain holds: an
access to a mirrored object of which the chain holds an access already is dropped. -/
def AccessTable.register (accs new : List MirroredObjectAccess) : List MirroredObjectAccess :=
  new.foldl (fun acc a =>
    if a.mirrored_object_id ∈ acc.map MirroredObjectAccess.mirrored_object_id then acc
    else acc ++ [a]) accs

namespace test

/-- A Nop instruction after `add_mut_operand(symbol_value)` and
`add_const_operand(symbol_value)`: under compute the mutable operand writes the Self object
and reads the Type object of the symbol, and the const operand reads both once more. -/
def nop_dup_instr_msg (symbol_value : Nat) : InstructionMsg :=
  { instr_type_id := { stream_type_id := kNopStreamTypeId, opcode := 0 },
    operand := [InstructionOperand.mutable_operand
        { logical_object_id := symbol_value, sel := ParallelSel.current_parallel_id },
      InstructionOperand.const_operand
        { logical_object_id := symbol_value, sel := ParallelSel.current_parallel_id }] }

/-- The scheduler after `Receive` of a symbol and of a Nop instruction that names the
symbol in two operands. -/
def dup_received : Scheduler :=
  (Receive (env false) (scheduler false) [NewSymbol 9527 1, nop_dup_instr_msg 9527]).1

/-- The scheduler `dup_received` after one tick. -/
def dup_scheduled : Scheduler :=
  (Schedule (env false) dup_received).getD Scheduler.blank

/-- The scheduler `write_state` with the instruction of the new chain 2 naming the symbol
in two operands. -/
def dup_state : Scheduler :=
  { write_state with
    instr_ctx_list := fun c =>
      if c = 2 then [{ instr_msg := nop_dup_instr_msg 9527, mirrored_object_id2access := [] }]
      else write_state.instr_ctx_list c }

end test

end vm

/-! # Collective boxing executor

A shallow embedding of `oneflow/core/job/collective_boxing_executor.cpp`. -/

namespace boxing
namespace collective

/-! ## Data model -/

/-- Modelled from the spec: the kinds of collective operation of an `OpDesc` (the message
types are declared outside the sources); `kOpTypeInvalid` stands for every value that is
none of the five kinds. -/
inductive OpType where
  | kOpTypeInvalid
  | kOpTypeAllReduce
  | kOpTypeReduceScatter
  | kOpTypeAllGather
  | kOpTypeReduce
  | kOpTypeBroadcast
deriving DecidableEq, Repr

/-- Modelled from the spec: the reduce methods; `kReduceMethodInvalid` stands for every
value other than `kReduceMethodSum`. -/
inductive ReduceMethod where
  | kReduceMethodInvalid
  | kReduceMethodSum
deriving DecidableEq, Repr

/-- Modelled from the spec: the backends of a collective operation; `kBackendInvalid`
stands for every value other than `kBackendNCCL`. -/
inductive Backend where
  | kBackendInvalid
  | kBackendNCCL
deriving DecidableEq, Repr

/-- Modelled from the spec: a device, named by its machine and its device id. -/
structure DeviceDesc where
  machine_id : Int
  device_id : Int
deriving DecidableEq, Repr

/-- Modelled from the spec: an ordered list of devices; the rank of a device is its
index. -/
structure DeviceSet where
  device : List DeviceDesc
deriving DecidableEq, Repr

/-- Modelled from the spec: the description of a collective operation.  A data type is
named by a number and a shape is the list of its dimensions. -/
structure OpDesc where
  name : String
  op_type : OpType
  reduce_method : ReduceMethod
  root : Int
  data_type : Nat
  shape : List Int
  num_ranks : Int
  backend : Backend
deriving DecidableEq, Repr

/-- Modelled from the spec: a planned collective request. -/
structure RequestDesc where
  op_desc : OpDesc
  device_set : DeviceSet
  order : Int
  depth : Int
deriving DecidableEq, Repr

/-- Modelled from the spec: what a caller of `Enqueue` names, an operation and a rank. -/
structure RankDesc where
  op_desc : OpDesc
  rank : Int
deriving DecidableEq, Repr

/-- Modelled from the spec: the buffers and the completion callback of one rank of a
request; buffers and callbacks are named by numbers. -/
structure RuntimeRequestInfo where
  send_buff : Nat
  recv_buff : Nat
  callback : Nat
deriving DecidableEq, Repr

/-- The plan: for each job its requests, in the order in which the map
`job_id2request_set` is visited. -/
structure CollectiveBoxingPlan where
  job_id2request_set : List (Int × List RequestDesc)
deriving DecidableEq, Repr

/-- The options of `CollectiveBoxingConf` that the executor reads. -/
structure CollectiveBoxingConf where
  nccl_num_streams : Int
  nccl_fusion_threshold_mb : Int
  enable_fusion : Bool
deriving DecidableEq, Repr

/-- What the executor takes from code outside `collective_boxing_executor.cpp`: the id of
this machine (`Global<MachineCtx>`), the configuration (`Global<ResourceDesc>`), the size
in bytes of a data type, the translation of a data type for the collective library, and
`std::sort`, of which the result for a comparison function and a list is taken as given. -/
structure Env where
  this_machine_id : Int
  collective_boxing_conf : CollectiveBoxingConf
  GetSizeOfDataType : Nat → Nat
  GetNcclDataType : Nat → Nat
  std_sort : (RequestDesc → RequestDesc → Bool) → List RequestDesc → List RequestDesc

/-- Modelled from the spec: `Shape::elem_cnt` is not part of the sources; the number of
elements of a shape is the product of its dimensions. -/
def Shape.elem_cnt (shape : List Int) : Int :=
  shape.foldl (fun acc d => acc * d) 1

/-! ## Helpers of the anonymous namespace -/

/-- The reduce operations of the collective library. -/
inductive ncclRedOp_t where
  | ncclSum
deriving DecidableEq, Repr

/-- `GetNcclReduceOp`: every method but the sum is unimplemented. -/
def GetNcclReduceOp (reduce_method : ReduceMethod) : Option ncclRedOp_t :=
  if reduce_method = ReduceMethod.kReduceMethodSum then some ncclRedOp_t.ncclSum else none

/-- `SortRequestsByOrder`: `std::sort` with the comparison of the orders. -/
def SortRequestsByOrder (env : Env) (requests : List RequestDesc) : List RequestDesc :=
  env.std_sort (fun a b => decide (a.order < b.order)) requests

/-- `IsDeviceOnThisMachine`. -/
def IsDeviceOnThisMachine (env : Env) (device_desc : DeviceDesc) : Bool :=
  decide (device_desc.machine_id = env.this_machine_id)

/-- `HasDeviceOnThisMachine`. -/
def HasDeviceOnThisMachine (env : Env) (device_set : DeviceSet) : Bool :=
  device_set.device.any (fun device_desc => IsDeviceOnThisMachine env device_desc)

/-! ## Grouping of requests -/

/-- `CollectiveBoxingExecutorBackend::GroupRequests`, the default grouping: one group for
each request, put at the back of `groups`. -/
def CollectiveBoxingExecutorBackend.GroupRequests (requests : List RequestDesc)
    (groups : List (List RequestDesc)) : List (List RequestDesc) :=
  requests.foldl (fun groups request => groups ++ [[request]]) groups

/-- A collective primitive issued to the collective library, with its arguments; `root` is
meant for a reduce and a broadcast only, and the reduce operation of the reducing kinds is
the sum. -/
structure NcclCall where
  op_type : OpType
  send_buff : Nat
  recv_buff : Nat
  count : Int
  nccl_data_type : Nat
  root : Int
  comm : Nat
  stream : Nat
deriving DecidableEq, Repr

/-- An entry of the event list: the device, the event handle, and the callbacks that the
callback of the entry invokes, in order. -/
structure Event where
  device_id : Int
  cuda_event : Nat
  callback : List Nat
deriving DecidableEq, Repr

/-- The communicators of the devices of a device set: for each device id, one communicator
for each stream id. -/
structure CommTable where
  device_set : DeviceSet
  device_id2stream_id2comm : List (Int × List Nat)
deriving DecidableEq, Repr

/-- The state of `NcclCollectiveBoxingExecutorBackend`.  Communicators, streams and events
of the device library are named by numbers.  `nccl_calls` records the collective
primitives issued and `next_cuda_event` counts the events created. -/
structure NcclCollectiveBoxingExecutorBackend where
  num_streams_ : Int
  fusion_threshold_ : Int
  device_set2device_id2stream_id2comm_ : List CommTable
  device_id2stream_id2stream_ : List (Int × List Nat)
  event_list_ : List Event
  shutdown_ : Bool
  current_stream_id_ : Int
  nccl_calls : List NcclCall
  next_cuda_event : Nat
deriving DecidableEq, Repr

/-- The constructor of `NcclCollectiveBoxingExecutorBackend`, up to the start of the poll
thread: the number of streams must be positive and the fusion threshold, given in
megabytes, must not be negative. -/
def NcclCollectiveBoxingExecutorBackend.new (env : Env) :
    Option NcclCollectiveBoxingExecutorBackend :=
  let collective_boxing_conf := env.collective_boxing_conf
  if ¬ (collective_boxing_conf.nccl_num_streams > 0) then none
  else if ¬ (collective_boxing_conf.nccl_fusion_threshold_mb ≥ 0) then none
  else some
    { num_streams_ := collective_boxing_conf.nccl_num_streams,
      fusion_threshold_ := collective_boxing_conf.nccl_fusion_threshold_mb * 1024 * 1024,
      device_set2device_id2stream_id2comm_ := [],
      device_id2stream_id2stream_ := [],
      event_list_ := [],
      shutdown_ := false,
      current_stream_id_ := 0,
      nccl_calls := [],
      next_cuda_event := 0 }

/-- The loop of `NcclCollectiveBoxingExecutorBackend::GroupRequests` over the requests,
with the output vector, the current group and its size: a request that meets a non-empty
group with another device set, or that would bring the size over the threshold, has the
group put at the back of the output vector first. -/
def NcclCollectiveBoxingExecutorBackend.GroupRequests.loop (env : Env)
    (fusion_threshold_ : Int) :
    List RequestDesc → List (List RequestDesc) → List RequestDesc → Int →
      List (List RequestDesc) × List RequestDesc × Int
  | [], groups, group, group_size => (groups, group, group_size)
  | request :: rest, groups, group, group_size =>
    let size := Shape.elem_cnt request.op_desc.shape
      * (env.GetSizeOfDataType request.op_desc.data_type : Int)
    let close :=
      match group with
      | [] => true
      | front :: _ =>
        decide (request.device_set ≠ front.device_set)
          || decide (group_size + size > fusion_threshold_)
    if close && !group.isEmpty then
      NcclCollectiveBoxingExecutorBackend.GroupRequests.loop env fusion_threshold_ rest
        (groups ++ [group]) [request] (0 + size)
    else
      NcclCollectiveBoxingExecutorBackend.GroupRequests.loop env fusion_threshold_ rest
        groups (group ++ [request]) (group_size + size)

/-- `NcclCollectiveBoxingExecutorBackend::GroupRequests`: the output vector after the
call. -/
def NcclCollectiveBoxingExecutorBackend.GroupRequests (env : Env)
    (self : NcclCollectiveBoxingExecutorBackend) (requests : List RequestDesc)
    (groups : List (List RequestDesc)) : List (List RequestDesc) :=
  let r := NcclCollectiveBoxingExecutorBackend.GroupRequests.loop env self.fusion_threshold_
    requests groups [] 0
  if !r.2.1.isEmpty then r.1 ++ [r.2.1] else r.1

/-! ## Notions of the specification -/

/-- The size in bytes of the data of a request: `elem_cnt × sizeof(data_type)`. -/
def RequestDesc.bytes (env : Env) (request : RequestDesc) : Int :=
  Shape.elem_cnt request.op_desc.shape
    * (env.GetSizeOfDataType request.op_desc.data_type : Int)

/-- The cumulative size in bytes of the requests of a group. -/
def groupBytes (env : Env) (group : List RequestDesc) : Int :=
  (group.map (RequestDesc.bytes env)).sum

/-- The head of a group starts it in view of the group `before`: its device set differs
from that of the head of `before`, or its bytes added to those of `before` exceed the
threshold. -/
def StartsNewGroup (env : Env) (fusion_threshold : Int) (before group : List RequestDesc) :
    Prop :=
  ∃ front request, before.head? = some front ∧ group.head? = some request
    ∧ (request.device_set ≠ front.device_set
        ∨ groupBytes env before + RequestDesc.bytes env request > fusion_threshold)

/-- Every request of a group behind its head joined it: it has the device set of the head,
and its bytes added to those of the requests in front of it do not exceed the threshold. -/
def JoinsGroup (env : Env) (fusion_threshold : Int) (group : List RequestDesc) : Prop :=
  (∀ front, group.head? = some front → ∀ request ∈ group,
      request.device_set = front.device_set)
    ∧ ∀ k, 2 ≤ k → k ≤ group.length → groupBytes env (group.take k) ≤ fusion_threshold

/-! ## Requests for the scenarios -/

namespace test

/-- Modelled from the spec: `GetSizeOfDataType` is not part of the sources; data type 2 is
a four-byte float, data type 3 an eight-byte double, and the others are bytes. -/
def GetSizeOfDataType (data_type : Nat) : Nat :=
  if data_type = 2 then 4 else if data_type = 3 then 8 else 1

/-- An environment with machine 0 as this machine, one stream, fusion enabled and the given
fusion threshold in megabytes; `std_sort` is a sort by insertion. -/
def env (nccl_fusion_threshold_mb : Int) : Env where
  this_machine_id := 0
  collective_boxing_conf :=
    { nccl_num_streams := 1, nccl_fusion_threshold_mb := nccl_fusion_threshold_mb,
      enable_fusion := true }
  GetSizeOfDataType := GetSizeOfDataType
  GetNcclDataType := fun data_type => data_type
  std_sort := fun lt requests => requests.insertionSort (fun a b => lt b a = false)

/-- The devices 0 and 1 of machine 0. -/
def device_set_a : DeviceSet :=
  { device := [{ machine_id := 0, device_id := 0 }, { machine_id := 0, device_id := 1 }] }

/-- The devices 0 and 2 of machine 0. -/
def device_set_b : DeviceSet :=
  { device := [{ machine_id := 0, device_id := 0 }, { machine_id := 0, device_id := 2 }] }

/-- An all-reduce of `elem_cnt` floats over a device set. -/
def all_reduce (name : String) (elem_cnt : Int) (device_set : DeviceSet) (order : Int) :
    RequestDesc :=
  { op_desc :=
      { name := name, op_type := OpType.kOpTypeAllReduce,
        reduce_method := ReduceMethod.kReduceMethodSum, root := 0, data_type := 2,
        shape := [elem_cnt], num_ranks := 2, backend := Backend.kBackendNCCL },
    device_set := device_set, order := order, depth := 0 }

/-- A request of 48 MiB on `device_set_a`. -/
def request_48 : RequestDesc := all_reduce "a" 12582912 device_set_a 0

/-- A request of 80 MiB on `device_set_a`. -/
def request_80 : RequestDesc := all_reduce "b" 20971520 device_set_a 1

/-- The backend as constructed, with the fusion threshold of the configuration. -/
def backend (nccl_fusion_threshold_mb : Int) : NcclCollectiveBoxingExecutorBackend :=
  (NcclCollectiveBoxingExecutorBackend.new (env nccl_fusion_threshold_mb)).getD
    { num_streams_ := 0, fusion_threshold_ := 0, device_set2device_id2stream_id2comm_ := [],
      device_id2stream_id2stream_ := [], event_list_ := [], shutdown_ := false,
      current_stream_id_ := 0, nccl_calls := [], next_cuda_event := 0 }

end test

/-! ## `NcclCollectiveBoxingExecutorBackend::ExecuteGroup` -/

/-- The ranks that have arrived for a request with their runtime information: a
`std::map`, held in the order of the ranks. -/
abbrev RankMap := List (Int × RuntimeRequestInfo)

/-- `at` with a signed index on a vector: an index that is negative or not below the size
is out of range. -/
def vectorAt {α : Type} (v : List α) (i : Int) : Option α :=
  if i < 0 then none else v[i.toNat]?

/-- `device_id2callbacks[device_id].push_back(callback)` on a map that is held in the
order of its keys. -/
def pushCallback (device_id : Int) (callback : Nat) :
    List (Int × List Nat) → List (Int × List Nat)
  | [] => [(device_id, [callback])]
  | entry :: rest =>
    if device_id = entry.1 then (entry.1, entry.2 ++ [callback]) :: rest
    else if device_id < entry.1 then (device_id, [callback]) :: entry :: rest
    else entry :: pushCallback device_id callback rest

/-- The body of the inner loop of `ExecuteGroup`, for one rank of one request: the
communicator and the stream of the device of the rank are looked up, the callback is
noted for the device and the primitive of the operation is issued.  An out-of-range rank,
a missing communicator or stream, an operation that is none of the five, a reduce method
other than the sum and a number of ranks that does not divide the number of elements of an
all-gather or a reduce-scatter end the program. -/
def NcclCollectiveBoxingExecutorBackend.ExecuteGroup.rank (env : Env)
    (self : NcclCollectiveBoxingExecutorBackend) (stream_id : Int)
    (device_id2stream_id2comm : List (Int × List Nat)) (request_desc : RequestDesc)
    (acc : List NcclCall × List (Int × List Nat))
    (rank7request_info : Int × RuntimeRequestInfo) :
    Option (List NcclCall × List (Int × List Nat)) :=
  let op_desc := request_desc.op_desc
  let rank := rank7request_info.1
  let request_info := rank7request_info.2
  match vectorAt request_desc.device_set.device rank with
  | none => none
  | some device_desc =>
    let device_id := device_desc.device_id
    match (device_id2stream_id2comm.lookup device_id).bind (fun v => vectorAt v stream_id) with
    | none => none
    | some comm =>
      match (self.device_id2stream_id2stream_.lookup device_id).bind
          (fun v => vectorAt v stream_id) with
      | none => none
      | some stream =>
        let nccl_data_type := env.GetNcclDataType op_desc.data_type
        let op_type := op_desc.op_type
        let num_ranks := op_desc.num_ranks
        let elem_cnt := Shape.elem_cnt op_desc.shape
        let device_id2callbacks := pushCallback device_id request_info.callback acc.2
        let call (count : Int) : NcclCall :=
          { op_type := op_type, send_buff := request_info.send_buff,
            recv_buff := request_info.recv_buff, count := count,
            nccl_data_type := nccl_data_type, root := op_desc.root, comm := comm,
            stream := stream }
        match op_type with
        | .kOpTypeAllReduce =>
          match GetNcclReduceOp op_desc.reduce_method with
          | none => none
          | some _ => some (acc.1 ++ [call elem_cnt], device_id2callbacks)
        | .kOpTypeAllGather =>
          if num_ranks = 0 ∨ Int.tmod elem_cnt num_ranks ≠ 0 then none
          else some (acc.1 ++ [call (Int.tdiv elem_cnt num_ranks)], device_id2callbacks)
        | .kOpTypeReduceScatter =>
          if num_ranks = 0 ∨ Int.tmod elem_cnt num_ranks ≠ 0 then none
          else
            match GetNcclReduceOp op_desc.reduce_method with
            | none => none
            | some _ =>
              some (acc.1 ++ [call (Int.tdiv elem_cnt num_ranks)], device_id2callbacks)
        | .kOpTypeReduce =>
          match GetNcclReduceOp op_desc.reduce_method with
          | none => none
          | some _ => some (acc.1 ++ [call elem_cnt], device_id2callbacks)
        | .kOpTypeBroadcast => some (acc.1 ++ [call elem_cnt], device_id2callbacks)
        | .kOpTypeInvalid => none

/-- The loop of `ExecuteGroup` over the ranks of one request. -/
def NcclCollectiveBoxingExecutorBackend.ExecuteGroup.ranks (env : Env)
    (self : NcclCollectiveBoxingExecutorBackend) (stream_id : Int)
    (device_id2stream_id2comm : List (Int × List Nat)) (request_desc : RequestDesc) :
    RankMap → List NcclCall × List (Int × List Nat) →
      Option (List NcclCall × List (Int × List Nat))
  | [], acc => some acc
  | rank7request_info :: rest, acc =>
    match NcclCollectiveBoxingExecutorBackend.ExecuteGroup.rank env self stream_id
        device_id2stream_id2comm request_desc acc rank7request_info with
    | none => none
    | some acc1 =>
      NcclCollectiveBoxingExecutorBackend.ExecuteGroup.ranks env self stream_id
        device_id2stream_id2comm request_desc rest acc1

/-- The loop of `ExecuteGroup` over the requests of the group and their rank maps. -/
def NcclCollectiveBoxingExecutorBackend.ExecuteGroup.requests (env : Env)
    (self : NcclCollectiveBoxingExecutorBackend) (stream_id : Int)
    (device_id2stream_id2comm : List (Int × List Nat)) :
    List (RequestDesc × RankMap) → List NcclCall × List (Int × List Nat) →
      Option (List NcclCall × List (Int × List Nat))
  | [], acc => some acc
  | request7ranks :: rest, acc =>
    match NcclCollectiveBoxingExecutorBackend.ExecuteGroup.ranks env self stream_id
        device_id2stream_id2comm request7ranks.1 request7ranks.2 acc with
    | none => none
    | some acc1 =>
      NcclCollectiveBoxingExecutorBackend.ExecuteGroup.requests env self stream_id
        device_id2stream_id2comm rest acc1

/-- The last loop of `ExecuteGroup`, over the devices with callbacks: an event is created
and recorded on the stream of the device, and an entry with the callbacks of the device is
put at the back of the event list. -/
def NcclCollectiveBoxingExecutorBackend.ExecuteGroup.events (stream_id : Int) :
    List (Int × List Nat) → NcclCollectiveBoxingExecutorBackend →
      Option NcclCollectiveBoxingExecutorBackend
  | [], self => some self
  | device_id7callbacks :: rest, self =>
    match (self.device_id2stream_id2stream_.lookup device_id7callbacks.1).bind
        (fun v => vectorAt v stream_id) with
    | none => none
    | some _ =>
      NcclCollectiveBoxingExecutorBackend.ExecuteGroup.events stream_id rest
        { self with
          event_list_ := (self.event_list_ ++
            [{ device_id := device_id7callbacks.1, cuda_event := self.next_cuda_event,
               callback := device_id7callbacks.2 }]),
          next_cuda_event := self.next_cuda_event + 1 }

/-- `NcclCollectiveBoxingExecutorBackend::ExecuteGroup`: the backend after the call. -/
def NcclCollectiveBoxingExecutorBackend.ExecuteGroup (env : Env)
    (self : NcclCollectiveBoxingExecutorBackend) (group : List RequestDesc)
    (ranks : List RankMap) : Option NcclCollectiveBoxingExecutorBackend :=
  if group.length ≠ ranks.length then none
  else
    match group with
    | [] => some self
    | front :: _ =>
      let stream_id := self.current_stream_id_
      let self1 := { self with
        current_stream_id_ := (Int.tmod (self.current_stream_id_ + 1) self.num_streams_) }
      match self1.device_set2device_id2stream_id2comm_.find?
          (fun t => decide (t.device_set = front.device_set)) with
      | none => none
      | some table =>
        match NcclCollectiveBoxingExecutorBackend.ExecuteGroup.requests env self1 stream_id
            table.device_id2stream_id2comm (group.zip ranks) ([], []) with
        | none => none
        | some r =>
          NcclCollectiveBoxingExecutorBackend.ExecuteGroup.events stream_id r.2
            { self1 with nccl_calls := self1.nccl_calls ++ r.1 }

/-! ## The executor -/

/-- The state of a request: `RequestState`. -/
structure RequestState where
  request_desc : RequestDesc
  job_id : Int
  group_id : Nat
  local_ranks : List Int
  ready_ranks : RankMap
deriving DecidableEq, Repr

/-- The state of a group: `GroupState`.  `backend` names the backend that the pointer of
the group state points to; the sets of request ids are held in the order of the ids. -/
structure GroupState where
  backend : Backend
  request_ids : List Nat
  requests : List RequestDesc
  ready_request_ids : List Nat
deriving DecidableEq, Repr

/-- An entry of the record of what `Enqueue` did: a rank has been registered for a request
with its runtime information, or `ExecuteGroup` has been invoked for a group with the rank
maps of its requests. -/
inductive EnqueueEvent where
  | ready_rank (request_id : Nat) (rank : Int) (request_info : RuntimeRequestInfo)
  | execute_group (group_id : Nat) (ranks : List RankMap)
deriving DecidableEq, Repr

/-- The state of `CollectiveBoxingExecutor`.  The map `backends_` has one entry, for
`kBackendNCCL`, and `backends_` is the backend of that entry.  `enqueue_trace` records
what the calls of `Enqueue` did. -/
structure CollectiveBoxingExecutor where
  collective_boxing_plan_ : CollectiveBoxingPlan
  backends_ : NcclCollectiveBoxingExecutorBackend
  name2request_id_ : List (String × Nat)
  request_id2request_state_ : List RequestState
  group_id2group_state_ : List GroupState
  job_id2group_ids_ : List (Int × List Nat)
  current_job_id_ : Int
  current_group_idx_in_job_ : Int
  enqueue_trace : List EnqueueEvent
deriving DecidableEq, Repr

/-- Insertion of a key into a `std::set` of numbers, held in the order of the keys. -/
def setInsert {α : Type} [LinearOrder α] (x : α) : List α → List α
  | [] => [x]
  | y :: rest => if x < y then x :: y :: rest else if x = y then y :: rest
      else y :: setInsert x rest

/-- Insertion of a rank with its runtime information into a rank map that has no entry for
the rank. -/
def RankMap.insert (rank : Int) (request_info : RuntimeRequestInfo) : RankMap → RankMap
  | [] => [(rank, request_info)]
  | entry :: rest =>
    if rank < entry.1 then (rank, request_info) :: entry :: rest
    else entry :: RankMap.insert rank request_info rest

/-- `RequestState::AddReadyRank`: the rank must be a local rank of the request, the
operation must be the planned one, not all local ranks may have arrived yet and the rank
must not have arrived before. -/
def RequestState.AddReadyRank (self : RequestState) (rank_desc : RankDesc)
    (request_info : RuntimeRequestInfo) : Option RequestState :=
  if rank_desc.rank ∉ self.local_ranks then none
  else if rank_desc.op_desc ≠ self.request_desc.op_desc then none
  else if ¬ (self.ready_ranks.length < self.local_ranks.length) then none
  else if rank_desc.rank ∈ self.ready_ranks.map Prod.fst then none
  else some { self with
    ready_ranks := (RankMap.insert rank_desc.rank request_info self.ready_ranks) }

/-- `RequestState::IsReady`. -/
def RequestState.IsReady (self : RequestState) : Bool :=
  decide (self.ready_ranks.length = self.local_ranks.length)

/-- `GroupState::AddReadyRequest`: the request must be one of the group and must not be
ready already. -/
def GroupState.AddReadyRequest (self : GroupState) (request_id : Nat) : Option GroupState :=
  if request_id ∉ self.request_ids then none
  else if request_id ∈ self.ready_request_ids then none
  else some { self with ready_request_ids := setInsert request_id self.ready_request_ids }

/-- `GroupState::IsReady`. -/
def GroupState.IsReady (self : GroupState) : Bool :=
  decide (self.ready_request_ids.length = self.request_ids.length)

/-! ## `CollectiveBoxingExecutor::Enqueue` -/

/-- The first block of `Enqueue`: the request is looked up by the name of the operation, a
job is latched when none is in flight and otherwise the request must belong to the job in
flight; the rank is registered, and the request is marked ready in its group when all its
local ranks have arrived. -/
def CollectiveBoxingExecutor.Enqueue.arrive (self : CollectiveBoxingExecutor)
    (rank_desc : RankDesc) (request_info : RuntimeRequestInfo) :
    Option CollectiveBoxingExecutor :=
  match self.name2request_id_.lookup rank_desc.op_desc.name with
  | none => none
  | some request_id =>
    match self.request_id2request_state_[request_id]? with
    | none => none
    | some request_state =>
      let latched :=
        if self.current_job_id_ = -1 then
          some { self with current_job_id_ := request_state.job_id,
                           current_group_idx_in_job_ := 0 }
        else if self.current_job_id_ = request_state.job_id then some self
        else none
      match latched with
      | none => none
      | some self1 =>
        match request_state.AddReadyRank rank_desc request_info with
        | none => none
        | some request_state1 =>
          let self2 := { self1 with
            request_id2request_state_ :=
              (self1.request_id2request_state_.set request_id request_state1),
            enqueue_trace := (self1.enqueue_trace ++
              [EnqueueEvent.ready_rank request_id rank_desc.rank request_info]) }
          if request_state1.IsReady then
            match self2.group_id2group_state_[request_state1.group_id]? with
            | none => none
            | some group_state =>
              match group_state.AddReadyRequest request_id with
              | none => none
              | some group_state1 =>
                some { self2 with
                  group_id2group_state_ :=
                    (self2.group_id2group_state_.set request_state1.group_id group_state1) }
          else some self2

/-- The loop of `Enqueue` that builds the rank maps of a group: for each request of the
group, in the order of the request ids, the ready ranks of the request are moved to the
back of `ranks` and cleared. -/
def CollectiveBoxingExecutor.Enqueue.moveRanks :
    List Nat → List RequestState → List RankMap → Option (List RequestState × List RankMap)
  | [], request_id2request_state_, ranks => some (request_id2request_state_, ranks)
  | request_id :: rest, request_id2request_state_, ranks =>
    match request_id2request_state_[request_id]? with
    | none => none
    | some request_state =>
      CollectiveBoxingExecutor.Enqueue.moveRanks rest
        (request_id2request_state_.set request_id { request_state with ready_ranks := [] })
        (ranks ++ [request_state.ready_ranks])

/-- The loop of `Enqueue` over the groups of the job in flight, of which the first
argument holds the ids from `current_group_idx_in_job_` on: while the group is ready it is
executed by its backend with the ranks of its requests, its ready requests are cleared and
the index is advanced. -/
def CollectiveBoxingExecutor.Enqueue.loop (env : Env) :
    List Nat → CollectiveBoxingExecutor → Option CollectiveBoxingExecutor
  | [], self => some self
  | group_id :: rest, self =>
    match self.group_id2group_state_[group_id]? with
    | none => none
    | some group_state =>
      if group_state.IsReady then
        match CollectiveBoxingExecutor.Enqueue.moveRanks group_state.request_ids
            self.request_id2request_state_ [] with
        | none => none
        | some r =>
          let executed :=
            match group_state.backend with
            | .kBackendNCCL =>
              NcclCollectiveBoxingExecutorBackend.ExecuteGroup env self.backends_
                group_state.requests r.2
            | .kBackendInvalid => none
          match executed with
          | none => none
          | some backend =>
            CollectiveBoxingExecutor.Enqueue.loop env rest
              { self with
                backends_ := backend,
                request_id2request_state_ := r.1,
                group_id2group_state_ := (self.group_id2group_state_.set group_id
                  { group_state with ready_request_ids := [] }),
                current_group_idx_in_job_ := self.current_group_idx_in_job_ + 1,
                enqueue_trace := (self.enqueue_trace ++
                  [EnqueueEvent.execute_group group_id r.2]) }
      else some self

/-- `CollectiveBoxingExecutor::Enqueue`.  The comparisons of the index with the size of the
vector are unsigned: a negative index is not below the size. -/
def CollectiveBoxingExecutor.Enqueue (env : Env) (self : CollectiveBoxingExecutor)
    (rank_desc : RankDesc) (request_info : RuntimeRequestInfo) :
    Option CollectiveBoxingExecutor :=
  match CollectiveBoxingExecutor.Enqueue.arrive self rank_desc request_info with
  | none => none
  | some self1 =>
    match self1.job_id2group_ids_.lookup self1.current_job_id_ with
    | none => none
    | some group_ids =>
      let remaining :=
        if self1.current_group_idx_in_job_ < 0 then []
        else group_ids.drop self1.current_group_idx_in_job_.toNat
      match CollectiveBoxingExecutor.Enqueue.loop env remaining self1 with
      | none => none
      | some self2 =>
        if self2.current_group_idx_in_job_ = (group_ids.length : Int) then
          some { self2 with current_job_id_ := -1, current_group_idx_in_job_ := -1 }
        else some self2

/-! ## `CollectiveBoxingExecutor::Init` -/

/-- The rough grouping of `Init`: a request opens a new rough group when fusion is
disabled, when there is no rough group yet, or when its depth, backend or device set is
not that of the head of the last rough group; otherwise it joins the last rough group. -/
def CollectiveBoxingExecutor.Init.roughGroups (env : Env) :
    List RequestDesc → List (List RequestDesc) → List (List RequestDesc)
  | [], rough_groups => rough_groups
  | request :: rest, rough_groups =>
    let joins :=
      match rough_groups.getLast? with
      | none => none
      | some back =>
        match back.head? with
        | none => none
        | some front =>
          if (!env.collective_boxing_conf.enable_fusion)
              || decide (request.depth ≠ front.depth)
              || decide (request.op_desc.backend ≠ front.op_desc.backend)
              || decide (request.device_set ≠ front.device_set) then none
          else some back
    match joins with
    | none => CollectiveBoxingExecutor.Init.roughGroups env rest (rough_groups ++ [[request]])
    | some back =>
      CollectiveBoxingExecutor.Init.roughGroups env rest
        (rough_groups.dropLast ++ [back ++ [request]])

/-- The local ranks of a request: the ranks of its device set whose device is on this
machine. -/
def CollectiveBoxingExecutor.Init.localRanks (env : Env) (request : RequestDesc) :
    List Int :=
  ((List.range request.device_set.device.length).filter (fun rank =>
    match request.device_set.device[rank]? with
    | some device_desc => IsDeviceOnThisMachine env device_desc
    | none => false)).map (fun (rank : Nat) => (rank : Int))

/-- The loop of `Init` over the requests of a group: each request gets the next request
id, under which its name must not be registered yet, and a request state. -/
def CollectiveBoxingExecutor.Init.addRequests (env : Env) (job_id : Int) (group_id : Nat) :
    List RequestDesc → CollectiveBoxingExecutor → List Nat →
      Option (CollectiveBoxingExecutor × List Nat)
  | [], self, request_ids => some (self, request_ids)
  | request :: rest, self, request_ids =>
    let local_ranks := CollectiveBoxingExecutor.Init.localRanks env request
    let request_id := self.name2request_id_.length
    if (self.name2request_id_.lookup request.op_desc.name).isSome then none
    else
      CollectiveBoxingExecutor.Init.addRequests env job_id group_id rest
        { self with
          name2request_id_ := (self.name2request_id_ ++ [(request.op_desc.name, request_id)]),
          request_id2request_state_ := (self.request_id2request_state_ ++
            [{ request_desc := request, job_id := job_id, group_id := group_id,
               local_ranks := local_ranks, ready_ranks := [] }]) }
        (setInsert request_id request_ids)

/-- `job_id2group_ids_[job_id].push_back(group_id)`. -/
def pushGroupId (job_id : Int) (group_id : Nat) :
    List (Int × List Nat) → List (Int × List Nat)
  | [] => [(job_id, [group_id])]
  | entry :: rest =>
    if job_id = entry.1 then (entry.1, entry.2 ++ [group_id]) :: rest
    else if job_id < entry.1 then (job_id, [group_id]) :: entry :: rest
    else entry :: pushGroupId job_id group_id rest

/-- The loop of `Init` over the groups that the backend made of a rough group: each group
gets the next group id, its requests get their states, and the group id is put at the back
of the groups of the job. -/
def CollectiveBoxingExecutor.Init.addGroups (env : Env) (job_id : Int) (backend : Backend) :
    List (List RequestDesc) → CollectiveBoxingExecutor → Option CollectiveBoxingExecutor
  | [], self => some self
  | group :: rest, self =>
    let group_id := self.group_id2group_state_.length
    match CollectiveBoxingExecutor.Init.addRequests env job_id group_id group self [] with
    | none => none
    | some r =>
      CollectiveBoxingExecutor.Init.addGroups env job_id backend rest
        { r.1 with
          group_id2group_state_ := (r.1.group_id2group_state_ ++
            [{ backend := backend, request_ids := r.2, requests := group,
               ready_request_ids := [] }]),
          job_id2group_ids_ := (pushGroupId job_id group_id r.1.job_id2group_ids_) }

/-- The loop of `Init` over the rough groups of a job: the backend of the head of the rough
group must be one of `backends_`, which holds the NCCL backend only; it groups the
requests of the rough group. -/
def CollectiveBoxingExecutor.Init.addRoughGroups (env : Env) (job_id : Int) :
    List (List RequestDesc) → CollectiveBoxingExecutor → Option CollectiveBoxingExecutor
  | [], self => some self
  | rough_group :: rest, self =>
    match rough_group.head? with
    | none => none
    | some front =>
      match front.op_desc.backend with
      | .kBackendInvalid => none
      | .kBackendNCCL =>
        let groups := NcclCollectiveBoxingExecutorBackend.GroupRequests env self.backends_
          rough_group []
        match CollectiveBoxingExecutor.Init.addGroups env job_id Backend.kBackendNCCL groups
            self with
        | none => none
        | some self1 => CollectiveBoxingExecutor.Init.addRoughGroups env job_id rest self1

/-- The check of `Init` by `std::adjacent_find`: no request is followed by one of smaller
depth. -/
def CollectiveBoxingExecutor.Init.depthsAscend : List RequestDesc → Bool
  | a :: b :: rest =>
    !decide (a.depth > b.depth) && CollectiveBoxingExecutor.Init.depthsAscend (b :: rest)
  | _ => true

/-- The body of the loop of `Init` for one job of the plan. -/
def CollectiveBoxingExecutor.Init.job (env : Env) (self : CollectiveBoxingExecutor)
    (job_id7topo_desc : Int × List RequestDesc) : Option CollectiveBoxingExecutor :=
  let job_id := job_id7topo_desc.1
  let request_set := job_id7topo_desc.2
  let requests := SortRequestsByOrder env
    (request_set.filter (fun request => HasDeviceOnThisMachine env request.device_set))
  if !CollectiveBoxingExecutor.Init.depthsAscend requests then none
  else
    let rough_groups := CollectiveBoxingExecutor.Init.roughGroups env requests []
    CollectiveBoxingExecutor.Init.addRoughGroups env job_id rough_groups self

/-- The loop of `Init` over the jobs of the plan. -/
def CollectiveBoxingExecutor.Init.jobs (env : Env) :
    List (Int × List RequestDesc) → CollectiveBoxingExecutor →
      Option CollectiveBoxingExecutor
  | [], self => some self
  | job_id7topo_desc :: rest, self =>
    match CollectiveBoxingExecutor.Init.job env self job_id7topo_desc with
    | none => none
    | some self1 => CollectiveBoxingExecutor.Init.jobs env rest self1

/-- `CollectiveBoxingExecutor::Init`. -/
def CollectiveBoxingExecutor.Init (env : Env) (self : CollectiveBoxingExecutor) :
    Option CollectiveBoxingExecutor :=
  CollectiveBoxingExecutor.Init.jobs env self.collective_boxing_plan_.job_id2request_set self

/-- The executor at the start of its constructor, with the plan and the backend after the
initialisation of the backend: no request, no group and no job in flight. -/
def CollectiveBoxingExecutor.blank (plan : CollectiveBoxingPlan)
    (backend : NcclCollectiveBoxingExecutorBackend) : CollectiveBoxingExecutor where
  collective_boxing_plan_ := plan
  backends_ := backend
  name2request_id_ := []
  request_id2request_state_ := []
  group_id2group_state_ := []
  job_id2group_ids_ := []
  current_job_id_ := -1
  current_group_idx_in_job_ := -1
  enqueue_trace := []

/-! ## An executor for the scenarios -/

namespace test

/-- The backend of the scenarios after its initialisation, with one stream: the
communicators and the streams of the devices 0, 1 and 2 of this machine. -/
def backend_ready (nccl_fusion_threshold_mb : Int) : NcclCollectiveBoxingExecutorBackend :=
  { backend nccl_fusion_threshold_mb with
    device_set2device_id2stream_id2comm_ :=
      [{ device_set := device_set_a, device_id2stream_id2comm := [(0, [100]), (1, [101])] },
       { device_set := device_set_b, device_id2stream_id2comm := [(0, [102]), (2, [103])] }],
    device_id2stream_id2stream_ := [(0, [200]), (1, [201]), (2, [202])] }

/-- A plan with two jobs: job 7 with the requests of 80 MiB and 48 MiB on `device_set_a`,
given out of order, and job 8 with one request on `device_set_b`. -/
def plan : CollectiveBoxingPlan :=
  { job_id2request_set :=
      [(7, [request_80, request_48]), (8, [all_reduce "c" 1024 device_set_b 0])] }

/-- The executor made of `plan` at a fusion threshold of 96 MiB: the groups 0 and 1 of job
7, with the requests 0 (48 MiB) and 1 (80 MiB), and group 2 of job 8 with request 2. -/
def executor : CollectiveBoxingExecutor :=
  (CollectiveBoxingExecutor.Init (env 96)
    (CollectiveBoxingExecutor.blank plan (backend_ready 96))).getD
    (CollectiveBoxingExecutor.blank plan (backend_ready 96))

/-- The rank descriptor of a rank of a request. -/
def rank_of (request : RequestDesc) (rank : Int) : RankDesc :=
  { op_desc := request.op_desc, rank := rank }

/-- Runtime information with the buffers and the callback named by one number. -/
def info (n : Nat) : RuntimeRequestInfo := { send_buff := n, recv_buff := n, callback := n }

/-- A sequence of calls of `Enqueue`; `none` when one of them fails. -/
def enqueue_all (env : Env) :
    List (RankDesc × RuntimeRequestInfo) → CollectiveBoxingExecutor →
      Option CollectiveBoxingExecutor
  | [], self => some self
  | call :: rest, self =>
    match CollectiveBoxingExecutor.Enqueue env self call.1 call.2 with
    | none => none
    | some self1 => enqueue_all env rest self1

end test

/-! ## Notions of the specification: runs of `Enqueue` -/

/-- The executors reached from an executor by successful calls of `Enqueue`. -/
inductive Enqueued (env : Env) (self : CollectiveBoxingExecutor) :
    CollectiveBoxingExecutor → Prop where
  | refl : Enqueued env self self
  | step (self1 self2 : CollectiveBoxingExecutor) (rank_desc : RankDesc)
      (request_info : RuntimeRequestInfo) :
      Enqueued env self self1 →
      CollectiveBoxingExecutor.Enqueue env self1 rank_desc request_info = some self2 →
      Enqueued env self self2

/-- The groups for which `ExecuteGroup` has been invoked, in the order of the
invocations. -/
def executedGroups (trace : List EnqueueEvent) : List Nat :=
  trace.filterMap (fun ev =>
    match ev with
    | .execute_group group_id _ => some group_id
    | .ready_rank _ _ _ => none)

/-- The part of a trace since the last execution of a group: the events behind the last
invocation of `ExecuteGroup` for the group, or all events when there is none. -/
def sinceExecuted (group_id : Nat) (trace : List EnqueueEvent) : List EnqueueEvent :=
  trace.foldl (fun acc ev =>
    match ev with
    | .execute_group g _ => if g = group_id then [] else acc ++ [ev]
    | .ready_rank _ _ _ => acc ++ [ev]) []

/-- The rank map that a trace leaves for a request of a group: the ranks registered for the
request, with their runtime information, since the last execution of the group. -/
def pendingRanks (request_id group_id : Nat) (trace : List EnqueueEvent) : RankMap :=
  trace.foldl (fun ranks ev =>
    match ev with
    | .execute_group g _ => if g = group_id then [] else ranks
    | .ready_rank r rank request_info =>
      if r = request_id then RankMap.insert rank request_info ranks else ranks) []

/-- The tables of the executor are consistent, as `Init` makes them: the requests of a
group exist and name the group as theirs, every request is one of its group, no request
occurs twice in a group, no rank occurs twice among the local ranks of a request, and no
job has the id -1, which stands for no job. -/
structure WellFormed (e : CollectiveBoxingExecutor) : Prop where
  member : ∀ (g : Nat) (gs : GroupState), e.group_id2group_state_[g]? = some gs → ∀ r ∈ gs.request_ids,
    ∃ st : RequestState, e.request_id2request_state_[r]? = some st ∧ st.group_id = g
  group : ∀ (r : Nat) (st : RequestState), e.request_id2request_state_[r]? = some st →
    ∃ gs : GroupState, e.group_id2group_state_[st.group_id]? = some gs ∧ r ∈ gs.request_ids
  ids_nodup : ∀ (g : Nat) (gs : GroupState), e.group_id2group_state_[g]? = some gs → gs.request_ids.Nodup
  ranks_nodup : ∀ (r : Nat) (st : RequestState), e.request_id2request_state_[r]? = some st → st.local_ranks.Nodup
  job : ∀ (r : Nat) (st : RequestState), e.request_id2request_state_[r]? = some st → st.job_id ≠ -1

/-- No job is in flight, no rank and no request is ready and nothing is recorded. -/
structure Idle (e : CollectiveBoxingExecutor) : Prop where
  current_job_id : e.current_job_id_ = -1
  current_group_idx_in_job : e.current_group_idx_in_job_ = -1
  ready_ranks : ∀ st ∈ e.request_id2request_state_, st.ready_ranks = []
  ready_request_ids : ∀ gs ∈ e.group_id2group_state_, gs.ready_request_ids = []
  enqueue_trace : e.enqueue_trace = []

/-- The second executor has the tables of the first: the same names, jobs, requests and
groups; only the ready ranks, the ready requests, the job in flight, the backend and the
trace may differ. -/
structure SameTables (e e1 : CollectiveBoxingExecutor) : Prop where
  name2request_id : e1.name2request_id_ = e.name2request_id_
  job_id2group_ids : e1.job_id2group_ids_ = e.job_id2group_ids_
  request : e1.request_id2request_state_.map (fun st => { st with ready_ranks := [] })
    = e.request_id2request_state_.map (fun st => { st with ready_ranks := [] })
  group : e1.group_id2group_state_.map (fun gs => { gs with ready_request_ids := [] })
    = e.group_id2group_state_.map (fun gs => { gs with ready_request_ids := [] })

/-- What holds of an invocation of `ExecuteGroup` for group `g` with the rank maps
`ranks`, made when the trace was `pre`: there is one rank map for each request of the
group, in the order of the request ids; the rank map of a request is what the trace left
for it, so it holds the ranks registered since the last execution of the group, and its
keys are the local ranks of the request, each once. -/
def ExecutedWithAllRanks (e : CollectiveBoxingExecutor) (pre : List EnqueueEvent)
    (g : Nat) (ranks : List RankMap) : Prop :=
  ∃ gs : GroupState, e.group_id2group_state_[g]? = some gs
    ∧ ranks.length = gs.request_ids.length
    ∧ ∀ (i r : Nat), gs.request_ids[i]? = some r →
        ∃ st : RequestState, e.request_id2request_state_[r]? = some st
          ∧ ranks[i]? = some (pendingRanks r g pre)
          ∧ ((pendingRanks r g pre).map Prod.fst).Nodup
          ∧ (∀ k, k ∈ (pendingRanks r g pre).map Prod.fst ↔ k ∈ st.local_ranks)
          ∧ ∀ k request_info, (k, request_info) ∈ pendingRanks r g pre
              ↔ EnqueueEvent.ready_rank r k request_info ∈ sinceExecuted g pre

/-- The executions recorded so far are complete rounds of jobs, each the list of the
groups of a job in order, followed, when a job is in flight, by the groups of that job in
front of `current_group_idx_in_job_`, which is below the number of the groups of the
job. -/
def InRounds (e : CollectiveBoxingExecutor) : Prop :=
  ∃ rounds : List (Int × List Nat),
    (∀ round ∈ rounds, e.job_id2group_ids_.lookup round.1 = some round.2)
    ∧ ((e.current_job_id_ = -1 ∧ e.current_group_idx_in_job_ = -1
          ∧ executedGroups e.enqueue_trace = (rounds.map Prod.snd).flatten)
      ∨ (e.current_job_id_ ≠ -1
          ∧ ∃ group_ids, e.job_id2group_ids_.lookup e.current_job_id_ = some group_ids
            ∧ 0 ≤ e.current_group_idx_in_job_
            ∧ e.current_group_idx_in_job_ < (group_ids.length : Int)
            ∧ executedGroups e.enqueue_trace = (rounds.map Prod.snd).flatten
                ++ group_ids.take e.current_group_idx_in_job_.toNat))

/-- The invariant of the requests and groups under `Enqueue`: the tables are consistent,
the ready ranks of a request are what the trace left for it, they are local ranks of the
request without repetition, a ready request of a group is a request of the group whose
local ranks have all arrived, and every recorded execution had all the ranks of its
requests. -/
structure EnqueueCore (e : CollectiveBoxingExecutor) : Prop where
  wf : WellFormed e
  pending : ∀ (r : Nat) (st : RequestState), e.request_id2request_state_[r]? = some st →
    st.ready_ranks = pendingRanks r st.group_id e.enqueue_trace
  keys : ∀ (r : Nat) (st : RequestState), e.request_id2request_state_[r]? = some st →
    (st.ready_ranks.map Prod.fst).Nodup
      ∧ ∀ k ∈ st.ready_ranks.map Prod.fst, k ∈ st.local_ranks
  ready : ∀ (g : Nat) (gs : GroupState), e.group_id2group_state_[g]? = some gs →
    gs.ready_request_ids.Nodup
      ∧ ∀ r ∈ gs.ready_request_ids, r ∈ gs.request_ids
          ∧ ∃ st : RequestState, e.request_id2request_state_[r]? = some st ∧ st.IsReady = true
  executed : ∀ (i g : Nat) (ranks : List RankMap),
    e.enqueue_trace[i]? = some (EnqueueEvent.execute_group g ranks) →
      ExecutedWithAllRanks e (e.enqueue_trace.take i) g ranks

/-- The invariant of the executor under `Enqueue`: that of the requests and groups, and
the executions are in rounds. -/
structure EnqueueInv (e : CollectiveBoxingExecutor) : Prop where
  core : EnqueueCore e
  rounds : InRounds e

/-! ## Notions of the specification: the tables made by `Init` -/

/-- The request states and group states under construction by `Init` are consistent: the
requirements of `WellFormed`, and no rank and no request is ready. -/
structure TablesWf (requests : List RequestState) (groups : List GroupState) : Prop where
  member : ∀ (g : Nat) (gs : GroupState), groups[g]? = some gs → ∀ r ∈ gs.request_ids,
    ∃ st : RequestState, requests[r]? = some st ∧ st.group_id = g
  group : ∀ (r : Nat) (st : RequestState), requests[r]? = some st →
    ∃ gs : GroupState, groups[st.group_id]? = some gs ∧ r ∈ gs.request_ids
  ids_nodup : ∀ (g : Nat) (gs : GroupState), groups[g]? = some gs → gs.request_ids.Nodup
  ranks_nodup : ∀ (r : Nat) (st : RequestState), requests[r]? = some st →
    st.local_ranks.Nodup
  job : ∀ (r : Nat) (st : RequestState), requests[r]? = some st → st.job_id ≠ -1
  ready_ranks : ∀ st ∈ requests, st.ready_ranks = []
  ready_request_ids : ∀ gs ∈ groups, gs.ready_request_ids = []

/-- The group ids of every job ascend, and they are ids of groups that exist. -/
def GroupIdsAscend (e : CollectiveBoxingExecutor) : Prop :=
  ∀ entry ∈ e.job_id2group_ids_,
    entry.2.Pairwise (fun a b => a < b) ∧ ∀ g ∈ entry.2, g < e.group_id2group_state_.length

/-- The invariant of `Init`: the tables are consistent, every request has a name, the group
ids of every job ascend, no job is in flight and nothing is recorded. -/
structure InitInv (e : CollectiveBoxingExecutor) : Prop where
  tables : TablesWf e.request_id2request_state_ e.group_id2group_state_
  names : e.name2request_id_.length = e.request_id2request_state_.length
  ascend : GroupIdsAscend e
  current_job_id : e.current_job_id_ = -1
  current_group_idx_in_job : e.current_group_idx_in_job_ = -1
  enqueue_trace : e.enqueue_trace = []

namespace test

/-- Calls of `Enqueue` on `executor`: the ranks of the requests of job 7, with the ranks
of request "b" between those of request "a", and then rank 0 of the request of job 8. -/
def calls : List (RankDesc × RuntimeRequestInfo) :=
  [(rank_of request_48 0, info 10), (rank_of request_80 0, info 20),
   (rank_of request_80 1, info 21), (rank_of request_48 1, info 11),
   (rank_of (all_reduce "c" 1024 device_set_b 0) 0, info 30)]

/-- The executor after the first `n` of the calls `calls`. -/
def enqueued (n : Nat) : CollectiveBoxingExecutor :=
  (enqueue_all (env 96) (calls.take n) executor).getD executor

end test

/-! ## Notions of the specification: the intake of `Init` -/

/-- What is taken of `std::sort` in `SortRequestsByOrder`: the result is a permutation of
the requests in which no request has a smaller order than a request in front of it. -/
def SortsByOrder (env : Env) : Prop :=
  ∀ requests : List RequestDesc,
    (SortRequestsByOrder env requests).Perm requests
      ∧ (SortRequestsByOrder env requests).Pairwise (fun a b => a.order ≤ b.order)

/-- The conditions under which the rough grouping of `Init` lets a request start a rough
group in view of the head `front` of the last rough group: fusion is disabled, or the
depth, the backend or the device set of the request is not that of `front`. -/
def StartsRoughGroup (env : Env) (front request : RequestDesc) : Prop :=
  env.collective_boxing_conf.enable_fusion = false
    ∨ request.depth ≠ front.depth
    ∨ request.op_desc.backend ≠ front.op_desc.backend
    ∨ request.device_set ≠ front.device_set

/-! ## Notions of the specification: the pairs of a group -/

/-- The (request, rank) pairs of a group with the runtime information of the rank, in the
order in which `ExecuteGroup` visits them: request by request, and in a request by
ascending rank, as the rank map holds them. -/
def groupPairs (group : List RequestDesc) (ranks : List RankMap) :
    List (RequestDesc × Int × RuntimeRequestInfo) :=
  (group.zip ranks).flatMap (fun request7ranks =>
    request7ranks.2.map (fun rank7request_info => (request7ranks.1, rank7request_info)))

/-- The device id of the device on which a pair is located: that of the device of the rank
in the device set of the request. -/
def pairDeviceId (pair : RequestDesc × Int × RuntimeRequestInfo) : Option Int :=
  (vectorAt pair.1.device_set.device pair.2.1).map DeviceDesc.device_id

/-- The count argument that the specification gives for an operation: the number of
elements, divided by the number of ranks for an all-gather and a reduce-scatter. -/
def countArgument (op_desc : OpDesc) : Int :=
  match op_desc.op_type with
  | .kOpTypeAllGather | .kOpTypeReduceScatter =>
    Shape.elem_cnt op_desc.shape / op_desc.num_ranks
  | _ => Shape.elem_cnt op_desc.shape

/-! ## The callback of an entry of the event list -/

/-- Modelled from the spec: `Maybe<void>` is not part of the sources; a status is `Ok` or
an error, named by a number. -/
inductive Maybe where
  | Ok
  | Error (code : Nat)
deriving DecidableEq, Repr

/-- The callback of an entry of the event list, the function that `ExecuteGroup` makes of
the callbacks noted for a device: given a status it invokes those callbacks in order, each
with that status.  The result lists the invocations. -/
def Event.call (self : Event) (status : Maybe) : List (Nat × Maybe) :=
  self.callback.map (fun callback => (callback, status))

/-! ## The poll thread of the event list -/

/-- The results of `cudaEventQuery` that the poll thread tells apart; `cudaErrorUnknown`
stands for every value other than `cudaSuccess` and `cudaErrorNotReady`. -/
inductive cudaError_t where
  | cudaSuccess
  | cudaErrorNotReady
  | cudaErrorUnknown
deriving DecidableEq, Repr

/-- How a sweep of the event list ends: the iterator reaches `event_list_.end()` and the
loop is left, `CudaCheck` ends the program, or the iterator is incremented although it is
`event_list_.end()` already, of which the behaviour is undefined. -/
inductive PollEnd where
  | completed
  | fatal
  | past_the_end
deriving DecidableEq, Repr

/-- A sweep of the event list: the event list when the sweep ends, the entries that were
queried, in order, the invocations of the callbacks noted by `ExecuteGroup`, in order, and
how the sweep ended. -/
structure PollSweep where
  event_list_ : List Event
  queried : List Event
  invoked : List (Nat × Maybe)
  ending : PollEnd
deriving DecidableEq, Repr

/-- The `for` loop of the poll thread over the event list, one sweep.  The first argument
holds the entries from the iterator on and `passed` those in front of it; `cudaSetDevice`
and `cudaEventDestroy` are taken to succeed and the result of `cudaEventQuery` is given for
each event handle.  On `cudaErrorNotReady` the body increments the iterator and continues,
so that the increment of the loop follows; on `cudaSuccess` the callback of the entry is
invoked with `Ok` and the entry is erased with `erase(it++)`, and the increment of the loop
follows; another result fails `CudaCheck`. -/
def NcclCollectiveBoxingExecutorBackend.poll.sweep (cudaEventQuery : Nat → cudaError_t) :
    List Event → List Event → List Event → List (Nat × Maybe) → PollSweep
  | [], passed, queried, invoked =>
    { event_list_ := passed, queried := queried, invoked := invoked,
      ending := PollEnd.completed }
  | it :: rest, passed, queried, invoked =>
    match cudaEventQuery it.cuda_event with
    | .cudaErrorNotReady =>
      match rest with
      | [] =>
        { event_list_ := passed ++ [it], queried := queried ++ [it], invoked := invoked,
          ending := PollEnd.past_the_end }
      | next :: rest1 =>
        NcclCollectiveBoxingExecutorBackend.poll.sweep cudaEventQuery rest1
          (passed ++ [it, next]) (queried ++ [it]) invoked
    | .cudaSuccess =>
      match rest with
      | [] =>
        { event_list_ := passed, queried := queried ++ [it],
          invoked := invoked ++ it.call Maybe.Ok, ending := PollEnd.past_the_end }
      | next :: rest1 =>
        NcclCollectiveBoxingExecutorBackend.poll.sweep cudaEventQuery rest1
          (passed ++ [next]) (queried ++ [it]) (invoked ++ it.call Maybe.Ok)
    | .cudaErrorUnknown =>
      { event_list_ := passed ++ it :: rest, queried := queried ++ [it], invoked := invoked,
        ending := PollEnd.fatal }

/-- One sweep of the poll thread over the event list of the backend. -/
def NcclCollectiveBoxingExecutorBackend.poll (cudaEventQuery : Nat → cudaError_t)
    (self : NcclCollectiveBoxingExecutorBackend) : PollSweep :=
  NcclCollectiveBoxingExecutorBackend.poll.sweep cudaEventQuery self.event_list_ [] [] []

namespace test

/-- A plan whose job 7 has two requests of the name "a", of the same depth. -/
def plan_twice : CollectiveBoxingPlan :=
  { job_id2request_set :=
      [(7, [all_reduce "a" 1024 device_set_a 0, all_reduce "a" 2048 device_set_a 1])] }

/-- The backend after `ExecuteGroup` for the two requests of job 7 of `plan` as one group,
with the ranks 0 and 1 of each. -/
def backend_executed : NcclCollectiveBoxingExecutorBackend :=
  (NcclCollectiveBoxingExecutorBackend.ExecuteGroup (env 96) (backend_ready 96)
    [request_48, request_80]
    [[(0, info 10), (1, info 11)], [(0, info 20), (1, info 21)]]).getD (backend_ready 96)

/-- Every event has completed. -/
def all_success (_ : Nat) : cudaError_t := cudaError_t.cudaSuccess

/-- No event has completed. -/
def none_ready (_ : Nat) : cudaError_t := cudaError_t.cudaErrorNotReady

end test

/-! ## Notions of the specification: operations that `ExecuteGroup` refuses -/

/-- The operations for which the specification lets `ExecuteGroup` fail: the kind is none of
the five, the kind is an all-gather or a reduce-scatter and the number of ranks does not
divide the number of elements, or the kind is a reducing one and the reduce method is not
the sum. -/
def RefusedOp (op_desc : OpDesc) : Prop :=
  op_desc.op_type = OpType.kOpTypeInvalid
    ∨ ((op_desc.op_type = OpType.kOpTypeAllGather
          ∨ op_desc.op_type = OpType.kOpTypeReduceScatter)
        ∧ ¬ op_desc.num_ranks ∣ Shape.elem_cnt op_desc.shape)
    ∨ ((op_desc.op_type = OpType.kOpTypeAllReduce
          ∨ op_desc.op_type = OpType.kOpTypeReduceScatter
          ∨ op_desc.op_type = OpType.kOpTypeReduce)
        ∧ op_desc.reduce_method ≠ ReduceMethod.kReduceMethodSum)

/-- The primitive that the specification gives for a pair of a group: the kind, the
buffers, the count argument, the data type and the root are those of the pair, whatever
the communicator and the stream. -/
def IssuedFor (env : Env) (pair : RequestDesc × Int × RuntimeRequestInfo) (call : NcclCall) :
    Prop :=
  call.op_type = pair.1.op_desc.op_type
    ∧ call.count = countArgument pair.1.op_desc
    ∧ call.send_buff = pair.2.2.send_buff
    ∧ call.recv_buff = pair.2.2.recv_buff
    ∧ call.nccl_data_type = env.GetNcclDataType pair.1.op_desc.data_type
    ∧ call.root = pair.1.op_desc.root

/-- A primitive issued for a pair by `ExecuteGroup` with the stream id `stream_id` and the
communicators `comms` of the device set: it is the primitive that the specification gives,
on the communicator and the stream of the device of the pair; the operation is none that
is refused, and for an all-gather and a reduce-scatter the number of ranks is not zero and
the count is the truncated quotient. -/
def IssuedOn (env : Env) (self : NcclCollectiveBoxingExecutorBackend) (stream_id : Int)
    (comms : List (Int × List Nat)) (pair : RequestDesc × Int × RuntimeRequestInfo)
    (call : NcclCall) : Prop :=
  IssuedFor env pair call
    ∧ ¬ RefusedOp pair.1.op_desc
    ∧ ((pair.1.op_desc.op_type = OpType.kOpTypeAllGather
          ∨ pair.1.op_desc.op_type = OpType.kOpTypeReduceScatter) →
        pair.1.op_desc.num_ranks ≠ 0
          ∧ call.count = Int.tdiv (Shape.elem_cnt pair.1.op_desc.shape)
              pair.1.op_desc.num_ranks)
    ∧ ∃ device_id, pairDeviceId pair = some device_id
        ∧ (self.device_id2stream_id2stream_.lookup device_id).bind
            (fun v => vectorAt v stream_id) = some call.stream
        ∧ (comms.lookup device_id).bind (fun v => vectorAt v stream_id) = some call.comm

/-- The callback of a pair is noted for the device of the pair. -/
def NotedFor (pair : RequestDesc × Int × RuntimeRequestInfo) (noted : Int × Nat) : Prop :=
  pairDeviceId pair = some noted.1 ∧ noted.2 = pair.2.2.callback

namespace test

/-- An all-gather of `elem_cnt` floats over `device_set_a`, with two ranks. -/
def all_gather (name : String) (elem_cnt : Int) : RequestDesc :=
  { all_reduce name elem_cnt device_set_a 0 with
    op_desc := { (all_reduce name elem_cnt device_set_a 0).op_desc with
      op_type := OpType.kOpTypeAllGather } }

end test

/-! ## The keys of the rendezvous -/

/-- `std::to_string` on an integer: the decimal digits of the value, behind a minus sign
when it is negative. -/
def to_string (value : Int) : String :=
  match value with
  | Int.ofNat n => Nat.repr n
  | Int.negSucc n => "-" ++ Nat.repr (n + 1)

/-- `GetNcclUniqueIdRpcKey`. -/
def GetNcclUniqueIdRpcKey (name : String) (stream_id : Int) : String :=
  "CollectiveBoxingExecutorNcclUniqueIdRpcKey-" ++ name ++ "-" ++ to_string stream_id

/-- The number that a list of decimal digits stands for. -/
def decimalValue (digits : List Char) : Nat :=
  digits.foldl (fun acc c => acc * 10 + (c.toNat - 48)) 0
/-! ## Notions of the specification: the tables of the plan -/

/-- The tables that `Init` makes of the plan line up.  Every request has a name.  The
request ids of a group are consecutive numbers, as many as the group has requests, and
the state of the `i`-th of them is that of the `i`-th request of the group; a group is not
empty.  The local ranks of a request are the ranks of its device set on this machine, and
every request satisfies `P`.  The jobs are held in the order of their ids; the group of a
request is one of the groups of its job, and the requests of the groups of a job are
requests of the job. -/
structure PlanTables (env : Env) (P : RequestDesc → Prop) (e : CollectiveBoxingExecutor) :
    Prop where
  names : e.name2request_id_.length = e.request_id2request_state_.length
  lined : ∀ (g : Nat) (gs : GroupState), e.group_id2group_state_[g]? = some gs →
    ∃ start, gs.request_ids = List.range' start gs.requests.length
      ∧ ∀ (i : Nat) (request : RequestDesc), gs.requests[i]? = some request →
          ∃ st : RequestState, e.request_id2request_state_[start + i]? = some st
            ∧ st.request_desc = request
  populated : ∀ (g : Nat) (gs : GroupState), e.group_id2group_state_[g]? = some gs →
    gs.requests ≠ []
  local_ranks : ∀ (r : Nat) (st : RequestState), e.request_id2request_state_[r]? = some st →
    st.local_ranks = CollectiveBoxingExecutor.Init.localRanks env st.request_desc
  planned : ∀ (r : Nat) (st : RequestState), e.request_id2request_state_[r]? = some st →
    P st.request_desc
  jobs_sorted : (e.job_id2group_ids_.map Prod.fst).Pairwise (fun a b => a < b)
  job_of_request : ∀ (r : Nat) (st : RequestState),
    e.request_id2request_state_[r]? = some st →
    ∃ group_ids, e.job_id2group_ids_.lookup st.job_id = some group_ids
      ∧ st.group_id ∈ group_ids
  requests_of_job : ∀ (job_id : Int) (group_ids : List Nat),
    e.job_id2group_ids_.lookup job_id = some group_ids → ∀ g ∈ group_ids,
    ∃ gs : GroupState, e.group_id2group_state_[g]? = some gs
      ∧ ∀ r ∈ gs.request_ids, ∀ st : RequestState,
          e.request_id2request_state_[r]? = some st → st.job_id = job_id

/-- Every request whose local ranks have all arrived is ready in its group. -/
def ReadyComplete (e : CollectiveBoxingExecutor) : Prop :=
  ∀ (r : Nat) (st : RequestState), e.request_id2request_state_[r]? = some st →
    st.IsReady = true →
    ∃ gs : GroupState, e.group_id2group_state_[st.group_id]? = some gs
      ∧ r ∈ gs.ready_request_ids

/-- The (request, rank) pairs for which a trace records a call of `Enqueue`, in the order
of the calls. -/
def arrivals (trace : List EnqueueEvent) : List (Nat × Int) :=
  trace.filterMap (fun ev =>
    match ev with
    | .ready_rank request_id rank _ => some (request_id, rank)
    | .execute_group _ _ => none)

/-- The (request, local rank) pairs of a job: for every request of the job, in the order of
the request ids, its local ranks. -/
def jobPairs (e : CollectiveBoxingExecutor) (job_id : Int) : List (Nat × Int) :=
  (List.range e.request_id2request_state_.length).flatMap (fun request_id =>
    match e.request_id2request_state_[request_id]? with
    | some request_state =>
      if request_state.job_id = job_id then
        request_state.local_ranks.map (fun rank => (request_id, rank))
      else []
    | none => [])

end collective
end boxing

namespace vm

/-! # Theorems -/

/-! ## Frame lemmas -/

theorem FrameAccess_refl (s : Scheduler) : FrameAccess s s := by
  constructor <;> rfl

theorem FrameAccess_trans {s s1 s2 : Scheduler} (h1 : FrameAccess s s1) (h2 : FrameAccess s1 s2) :
    FrameAccess s s2 := by
  constructor
  · exact h2.pending_msg_list.trans h1.pending_msg_list
  · exact h2.waiting_instr_chain_list.trans h1.waiting_instr_chain_list
  · exact h2.active_stream_list.trans h1.active_stream_list
  · exact h2.id2logical_object.trans h1.id2logical_object
  · exact h2.stream_type_id2stream_rt_desc.trans h1.stream_type_id2stream_rt_desc
  · exact h2.thread_ctx_list.trans h1.thread_ctx_list
  · exact h2.chain_stream.trans h1.chain_stream
  · exact h2.in_edges.trans h1.in_edges
  · exact h2.out_edges.trans h1.out_edges
  · exact h2.done.trans h1.done
  · exact h2.running_chain_list.trans h1.running_chain_list
  · exact h2.thread_ctx.trans h1.thread_ctx
  · exact h2.pending_chain_list.trans h1.pending_chain_list
  · exact h2.next_chain_id.trans h1.next_chain_id
  · exact h2.run_trace.trans h1.run_trace

theorem FrameLink_refl (s : Scheduler) : FrameLink s s := by
  constructor <;> rfl

theorem FrameLink_trans {s s1 s2 : Scheduler} (h1 : FrameLink s s1) (h2 : FrameLink s1 s2) :
    FrameLink s s2 := by
  constructor
  · exact h2.pending_msg_list.trans h1.pending_msg_list
  · exact h2.waiting_instr_chain_list.trans h1.waiting_instr_chain_list
  · exact h2.active_stream_list.trans h1.active_stream_list
  · exact h2.id2logical_object.trans h1.id2logical_object
  · exact h2.stream_type_id2stream_rt_desc.trans h1.stream_type_id2stream_rt_desc
  · exact h2.thread_ctx_list.trans h1.thread_ctx_list
  · exact h2.chain_stream.trans h1.chain_stream
  · exact h2.done.trans h1.done
  · exact h2.running_chain_list.trans h1.running_chain_list
  · exact h2.thread_ctx.trans h1.thread_ctx
  · exact h2.pending_chain_list.trans h1.pending_chain_list
  · exact h2.next_chain_id.trans h1.next_chain_id
  · exact h2.run_trace.trans h1.run_trace

theorem FrameRelease_refl (s : Scheduler) : FrameRelease s s := by
  constructor <;> rfl

theorem FrameRelease_trans {s s1 s2 : Scheduler} (h1 : FrameRelease s s1) (h2 : FrameRelease s1 s2) :
    FrameRelease s s2 := by
  constructor
  · exact h2.pending_msg_list.trans h1.pending_msg_list
  · exact h2.id2logical_object.trans h1.id2logical_object
  · exact h2.stream_type_id2stream_rt_desc.trans h1.stream_type_id2stream_rt_desc
  · exact h2.thread_ctx_list.trans h1.thread_ctx_list
  · exact h2.chain_stream.trans h1.chain_stream
  · exact h2.done.trans h1.done
  · exact h2.thread_ctx.trans h1.thread_ctx
  · exact h2.pending_chain_list.trans h1.pending_chain_list
  · exact h2.next_chain_id.trans h1.next_chain_id
  · exact h2.run_trace.trans h1.run_trace

theorem FrameRun_refl (s : Scheduler) : FrameRun s s := by
  constructor <;> rfl

theorem FrameRun_trans {s s1 s2 : Scheduler} (h1 : FrameRun s s1) (h2 : FrameRun s1 s2) :
    FrameRun s s2 := by
  constructor
  · exact h2.pending_msg_list.trans h1.pending_msg_list
  · exact h2.waiting_instr_chain_list.trans h1.waiting_instr_chain_list
  · exact h2.active_stream_list.trans h1.active_stream_list
  · exact h2.stream_type_id2stream_rt_desc.trans h1.stream_type_id2stream_rt_desc
  · exact h2.thread_ctx_list.trans h1.thread_ctx_list
  · exact h2.chain_stream.trans h1.chain_stream
  · exact h2.instr_ctx_list.trans h1.instr_ctx_list
  · exact h2.in_edges.trans h1.in_edges
  · exact h2.out_edges.trans h1.out_edges
  · exact h2.done.trans h1.done
  · exact h2.running_chain_list.trans h1.running_chain_list
  · exact h2.thread_ctx.trans h1.thread_ctx
  · exact h2.pending_chain_list.trans h1.pending_chain_list
  · exact h2.access_list.trans h1.access_list
  · exact h2.next_chain_id.trans h1.next_chain_id

theorem FrameNew_refl (s : Scheduler) : FrameNew s s := by
  constructor <;> rfl

theorem FrameNew_trans {s s1 s2 : Scheduler} (h1 : FrameNew s s1) (h2 : FrameNew s1 s2) :
    FrameNew s s2 := by
  constructor
  · exact h2.pending_msg_list.trans h1.pending_msg_list
  · exact h2.waiting_instr_chain_list.trans h1.waiting_instr_chain_list
  · exact h2.active_stream_list.trans h1.active_stream_list
  · exact h2.id2logical_object.trans h1.id2logical_object
  · exact h2.stream_type_id2stream_rt_desc.trans h1.stream_type_id2stream_rt_desc
  · exact h2.thread_ctx_list.trans h1.thread_ctx_list
  · exact h2.running_chain_list.trans h1.running_chain_list
  · exact h2.thread_ctx.trans h1.thread_ctx
  · exact h2.pending_chain_list.trans h1.pending_chain_list
  · exact h2.access_list.trans h1.access_list
  · exact h2.run_trace.trans h1.run_trace

theorem FrameDispatch_refl (s : Scheduler) : FrameDispatch s s := by
  constructor <;> rfl

theorem FrameDispatch_trans {s s1 s2 : Scheduler} (h1 : FrameDispatch s s1) (h2 : FrameDispatch s1 s2) :
    FrameDispatch s s2 := by
  constructor
  · exact h2.pending_msg_list.trans h1.pending_msg_list
  · exact h2.waiting_instr_chain_list.trans h1.waiting_instr_chain_list
  · exact h2.stream_type_id2stream_rt_desc.trans h1.stream_type_id2stream_rt_desc
  · exact h2.thread_ctx_list.trans h1.thread_ctx_list
  · exact h2.chain_stream.trans h1.chain_stream
  · exact h2.instr_ctx_list.trans h1.instr_ctx_list
  · exact h2.in_edges.trans h1.in_edges
  · exact h2.out_edges.trans h1.out_edges
  · exact h2.thread_ctx.trans h1.thread_ctx
  · exact h2.access_list.trans h1.access_list
  · exact h2.next_chain_id.trans h1.next_chain_id

theorem FrameAccess_to_FrameLink {s s1 : Scheduler} (h : FrameAccess s s1) : FrameLink s s1 := by
  constructor
  · exact h.pending_msg_list
  · exact h.waiting_instr_chain_list
  · exact h.active_stream_list
  · exact h.id2logical_object
  · exact h.stream_type_id2stream_rt_desc
  · exact h.thread_ctx_list
  · exact h.chain_stream
  · exact h.done
  · exact h.running_chain_list
  · exact h.thread_ctx
  · exact h.pending_chain_list
  · exact h.next_chain_id
  · exact h.run_trace

theorem FrameLink_to_FrameRelease {s s1 : Scheduler} (h : FrameLink s s1) : FrameRelease s s1 := by
  constructor
  · exact h.pending_msg_list
  · exact h.id2logical_object
  · exact h.stream_type_id2stream_rt_desc
  · exact h.thread_ctx_list
  · exact h.chain_stream
  · exact h.done
  · exact h.thread_ctx
  · exact h.pending_chain_list
  · exact h.next_chain_id
  · exact h.run_trace

theorem FrameRun_to_FrameDispatch {s s1 : Scheduler} (h : FrameRun s s1) : FrameDispatch s s1 := by
  constructor
  · exact h.pending_msg_list
  · exact h.waiting_instr_chain_list
  · exact h.stream_type_id2stream_rt_desc
  · exact h.thread_ctx_list
  · exact h.chain_stream
  · exact h.instr_ctx_list
  · exact h.in_edges
  · exact h.out_edges
  · exact h.thread_ctx
  · exact h.access_list
  · exact h.next_chain_id

theorem FrameEdge_refl (s : Scheduler) : FrameEdge s s := by
  constructor <;> rfl

theorem FrameEdge_trans {s s1 s2 : Scheduler} (h1 : FrameEdge s s1) (h2 : FrameEdge s1 s2) :
    FrameEdge s s2 := by
  constructor
  · exact h2.pending_msg_list.trans h1.pending_msg_list
  · exact h2.waiting_instr_chain_list.trans h1.waiting_instr_chain_list
  · exact h2.active_stream_list.trans h1.active_stream_list
  · exact h2.id2logical_object.trans h1.id2logical_object
  · exact h2.stream_type_id2stream_rt_desc.trans h1.stream_type_id2stream_rt_desc
  · exact h2.thread_ctx_list.trans h1.thread_ctx_list
  · exact h2.chain_stream.trans h1.chain_stream
  · exact h2.instr_ctx_list.trans h1.instr_ctx_list
  · exact h2.done.trans h1.done
  · exact h2.running_chain_list.trans h1.running_chain_list
  · exact h2.thread_ctx.trans h1.thread_ctx
  · exact h2.pending_chain_list.trans h1.pending_chain_list
  · exact h2.next_chain_id.trans h1.next_chain_id
  · exact h2.run_trace.trans h1.run_trace

theorem FrameEdge_to_FrameLink {s s1 : Scheduler} (h : FrameEdge s s1) : FrameLink s s1 := by
  constructor
  · exact h.pending_msg_list
  · exact h.waiting_instr_chain_list
  · exact h.active_stream_list
  · exact h.id2logical_object
  · exact h.stream_type_id2stream_rt_desc
  · exact h.thread_ctx_list
  · exact h.chain_stream
  · exact h.done
  · exact h.running_chain_list
  · exact h.thread_ctx
  · exact h.pending_chain_list
  · exact h.next_chain_id
  · exact h.run_trace

theorem foldl_rel {α : Type} (R : Scheduler → Scheduler → Prop)
    (hrefl : ∀ s, R s s) (htrans : ∀ s s1 s2, R s s1 → R s1 s2 → R s s2)
    (f : Scheduler → α → Scheduler) (hf : ∀ s a, R s (f s a)) (l : List α) (s : Scheduler) :
    R s (l.foldl f s) := by
  induction l generalizing s with
  | nil => exact hrefl s
  | cons a rest ih => exact htrans _ _ _ (hf s a) (ih (f s a))

theorem ReleaseInstruction_releaseAccess_frame (s : Scheduler) (a : MirroredObjectAccess) :
    FrameAccess s (ReleaseInstruction.releaseAccess s a) := by
  unfold ReleaseInstruction.releaseAccess
  split <;> constructor <;> rfl

theorem ReleaseInstruction_releaseAccesses_frame (c : Nat) (s : Scheduler) :
    FrameAccess s (ReleaseInstruction.releaseAccesses c s) := by
  have h : FrameAccess s ((s.instr_ctx_list c).foldl
      (fun acc instr_ctx =>
        instr_ctx.mirrored_object_id2access.foldl ReleaseInstruction.releaseAccess acc) s) :=
    foldl_rel FrameAccess FrameAccess_refl (fun _ _ _ => FrameAccess_trans) _
      (fun s1 ctx => foldl_rel FrameAccess FrameAccess_refl (fun _ _ _ => FrameAccess_trans) _
        ReleaseInstruction_releaseAccess_frame _ s1) _ s
  refine FrameAccess_trans h ?_
  unfold ReleaseInstruction.releaseAccesses
  constructor <;> rfl

theorem ReleaseInstruction_releaseEdge_frame (c : Nat) (acc : Scheduler × List Nat)
    (d : Nat) : FrameRelease acc.1 (ReleaseInstruction.releaseEdge c acc d).1 := by
  unfold ReleaseInstruction.releaseEdge
  dsimp only
  split <;> constructor <;> rfl

theorem foldl_rel_fst {α β : Type} (R : Scheduler → Scheduler → Prop)
    (hrefl : ∀ s, R s s) (htrans : ∀ s s1 s2, R s s1 → R s1 s2 → R s s2)
    (f : Scheduler × β → α → Scheduler × β) (hf : ∀ acc a, R acc.1 (f acc a).1) (l : List α)
    (acc : Scheduler × β) : R acc.1 (l.foldl f acc).1 := by
  induction l generalizing acc with
  | nil => exact hrefl _
  | cons a rest ih => exact htrans _ _ _ (hf acc a) (ih (f acc a))

theorem ReleaseInstruction_frame (s : Scheduler) (c : Nat) (ready : List Nat) :
    FrameRelease s (ReleaseInstruction s c ready).1 := by
  unfold ReleaseInstruction
  dsimp only
  exact FrameRelease_trans (FrameLink_to_FrameRelease (FrameAccess_to_FrameLink
      (ReleaseInstruction_releaseAccesses_frame c s)))
    (foldl_rel_fst FrameRelease FrameRelease_refl (fun _ _ _ => FrameRelease_trans) _
      (ReleaseInstruction_releaseEdge_frame c) _ (ReleaseInstruction.releaseAccesses c s, ready))

theorem TryReleaseFinishedInstrChains_loop_frame (stream : StreamId) (l : List Nat)
    (s : Scheduler) (ready : List Nat) :
    FrameRelease s (TryReleaseFinishedInstrChains.loop stream l s ready).1 := by
  induction l generalizing s ready with
  | nil => exact FrameRelease_refl s
  | cons c rest ih =>
    unfold TryReleaseFinishedInstrChains.loop
    split
    · refine FrameRelease_trans (FrameRelease_trans (ReleaseInstruction_frame s c ready) ?_)
        (ih _ _)
      constructor <;> rfl
    · exact FrameRelease_refl s

theorem TryReleaseFinishedInstrChains_frame (s : Scheduler) (stream : StreamId)
    (ready : List Nat) :
    FrameRelease s (TryReleaseFinishedInstrChains s stream ready).1 :=
  TryReleaseFinishedInstrChains_loop_frame stream _ s ready

theorem Schedule_release_frame (l : List StreamId) (s : Scheduler) (ready : List Nat) :
    FrameRelease s (Schedule.release l s ready).1 := by
  induction l generalizing s ready with
  | nil => exact FrameRelease_refl s
  | cons st rest ih =>
    unfold Schedule.release
    refine FrameRelease_trans (FrameRelease_trans
      (TryReleaseFinishedInstrChains_frame s st ready) ?_) (ih _ _)
    split <;> constructor <;> rfl

theorem RunInstrMsg_frame (env : VmEnv) (s : Scheduler) (m : InstructionMsg) :
    FrameRun s (RunInstrMsg env s m) := by
  constructor <;> rfl

theorem FilterAndRunSourceInstructions_frame (env : VmEnv) (l : List InstructionMsg)
    (s : Scheduler) (r : Scheduler × List InstructionMsg)
    (h : FilterAndRunSourceInstructions env l s = some r) : FrameRun s r.1 := by
  induction l generalizing s r with
  | nil =>
    simp only [FilterAndRunSourceInstructions, Option.some.injEq] at h
    subst h
    exact FrameRun_refl s
  | cons m rest ih =>
    unfold FilterAndRunSourceInstructions at h
    split at h
    · split at h
      · exact absurd h (by simp)
      · exact FrameRun_trans (RunInstrMsg_frame env s m) (ih _ _ h)
      · simp only [Option.map_eq_some'] at h
        obtain ⟨r1, h1, h2⟩ := h
        subst h2
        exact ih s r1 h1
    · simp only [Option.map_eq_some'] at h
      obtain ⟨r1, h1, h2⟩ := h
      subst h2
      exact ih s r1 h1

theorem NewInstrChain_frame (s : Scheduler) (stream : StreamId) (m : InstructionMsg) :
    FrameNew s (NewInstrChain s stream m).1 := by
  constructor <;> rfl

theorem MakeInstrChains_forStreams_frame (m : InstructionMsg) (l : List StreamId)
    (s : Scheduler) (new : List Nat) :
    FrameNew s (MakeInstrChains.forStreams m l s new).1 := by
  induction l generalizing s new with
  | nil => exact FrameNew_refl s
  | cons st rest ih =>
    unfold MakeInstrChains.forStreams
    exact FrameNew_trans (NewInstrChain_frame s st m) (ih _ _)

theorem MakeInstrChains_frame (l : List InstructionMsg) (s : Scheduler) (new : List Nat)
    (r : Scheduler × List InstructionMsg × List Nat)
    (h : MakeInstrChains l s new = some r) : FrameNew s r.1 := by
  induction l generalizing s new r with
  | nil =>
    simp only [MakeInstrChains, Option.some.injEq] at h
    subst h
    exact FrameNew_refl s
  | cons m rest ih =>
    unfold MakeInstrChains at h
    split at h
    · exact absurd h (by simp)
    · exact FrameNew_trans (MakeInstrChains_forStreams_frame _ _ _ _) (ih _ _ _ h)

theorem ConsumeMirroredObject_frame (t : OperandAccessType) (c : Nat) (s : Scheduler)
    (obj : MirroredObjectId) : FrameAccess s (ConsumeMirroredObject t c s obj) := by
  unfold ConsumeMirroredObject
  split
  · exact FrameAccess_refl s
  · dsimp only
    split <;> constructor <;> rfl

theorem ConsumeMirroredObject_foldl_frame (t : OperandAccessType) (c : Nat)
    (objs : List MirroredObjectId) (s : Scheduler) :
    FrameAccess s (objs.foldl (ConsumeMirroredObject t c) s) :=
  foldl_rel FrameAccess FrameAccess_refl (fun _ _ _ => FrameAccess_trans) _
    (ConsumeMirroredObject_frame t c) objs s

theorem ConsumeMirroredObjects_mutPass_frame (env : VmEnv) (it : InterpretType) (pid : Int)
    (c : Nat) (ops : List InstructionOperand) (s s1 : Scheduler)
    (h : ConsumeMirroredObjects.mutPass env it pid c ops s = some s1) : FrameAccess s s1 := by
  induction ops generalizing s with
  | nil =>
    simp only [ConsumeMirroredObjects.mutPass, Option.some.injEq] at h
    subst h
    exact FrameAccess_refl s
  | cons op rest ih =>
    cases op <;> simp only [ConsumeMirroredObjects.mutPass] at h
    case mutable_operand o =>
      split at h
      · exact absurd h (by simp)
      · exact FrameAccess_trans (ConsumeMirroredObject_foldl_frame _ _ _ _) (ih _ h)
    case mut2_operand o =>
      split at h
      · exact absurd h (by simp)
      · exact FrameAccess_trans (ConsumeMirroredObject_foldl_frame _ _ _ _) (ih _ h)
    all_goals exact ih _ h

theorem ConsumeMirroredObjects_constPass_frame (env : VmEnv) (it : InterpretType) (pid : Int)
    (c : Nat) (ops : List InstructionOperand) (s s1 : Scheduler)
    (h : ConsumeMirroredObjects.constPass env it pid c ops s = some s1) : FrameAccess s s1 := by
  induction ops generalizing s with
  | nil =>
    simp only [ConsumeMirroredObjects.constPass, Option.some.injEq] at h
    subst h
    exact FrameAccess_refl s
  | cons op rest ih =>
    cases op <;> simp only [ConsumeMirroredObjects.constPass] at h
    case const_operand o =>
      split at h
      · exact absurd h (by simp)
      · exact FrameAccess_trans (ConsumeMirroredObject_foldl_frame _ _ _ _) (ih _ h)
    case mutable_operand o =>
      split at h
      · exact absurd h (by simp)
      · exact FrameAccess_trans (ConsumeMirroredObject_foldl_frame _ _ _ _) (ih _ h)
    all_goals exact ih _ h

theorem ConnectInstruction_frame (src dst : Nat) (s s1 : Scheduler)
    (h : ConnectInstruction src dst s = some s1) : FrameEdge s s1 := by
  unfold ConnectInstruction at h
  dsimp only at h
  by_cases h1 : dst ∈ s.out_edges src <;> by_cases h2 : src ∈ s.in_edges dst <;>
    simp [h1, h2] at h <;> (subst h; constructor <;> rfl)

theorem ConsumeMirroredObjects_linkWrite_frame (c : Nat) (mine : MirroredObjectAccess)
    (l : List MirroredObjectAccess) (s s1 : Scheduler)
    (h : ConsumeMirroredObjects.linkWrite c mine l s = some s1) : FrameEdge s s1 := by
  induction l generalizing s with
  | nil =>
    simp only [ConsumeMirroredObjects.linkWrite, Option.some.injEq] at h
    subst h
    exact FrameEdge_refl s
  | cons a rest ih =>
    unfold ConsumeMirroredObjects.linkWrite at h
    split at h
    · simp only [Option.some.injEq] at h
      subst h
      exact FrameEdge_refl s
    · split at h
      · exact absurd h (by simp)
      · rename_i s2 h2
        refine FrameEdge_trans (FrameEdge_trans (ConnectInstruction_frame _ _ _ _ h2) ?_)
          (ih _ h)
        constructor <;> rfl

theorem ConsumeMirroredObjects_link_frame (c : Nat) (s s1 : Scheduler)
    (mine : MirroredObjectAccess)
    (h : ConsumeMirroredObjects.link c s mine = some s1) : FrameEdge s s1 := by
  unfold ConsumeMirroredObjects.link at h
  dsimp only at h
  split at h
  · simp only [Option.some.injEq] at h
    subst h
    exact FrameEdge_refl s
  · split at h
    · split at h
      · exact absurd h (by simp)
      · split at h
        · exact ConnectInstruction_frame _ _ _ _ h
        · simp only [Option.some.injEq] at h
          subst h
          exact FrameEdge_refl s
    · exact ConsumeMirroredObjects_linkWrite_frame _ _ _ _ _ h

theorem ConsumeMirroredObjects_linkAll_frame (c : Nat) (l : List MirroredObjectAccess)
    (s s1 : Scheduler) (h : ConsumeMirroredObjects.linkAll c l s = some s1) :
    FrameEdge s s1 := by
  induction l generalizing s with
  | nil =>
    simp only [ConsumeMirroredObjects.linkAll, Option.some.injEq] at h
    subst h
    exact FrameEdge_refl s
  | cons a rest ih =>
    unfold ConsumeMirroredObjects.linkAll at h
    split at h
    · exact absurd h (by simp)
    · rename_i s2 h2
      exact FrameEdge_trans (ConsumeMirroredObjects_link_frame _ _ _ _ h2) (ih _ h)

theorem ConsumeMirroredObjects_chain_frame (env : VmEnv) (s s1 : Scheduler) (c : Nat)
    (h : ConsumeMirroredObjects.chain env s c = some s1) : FrameLink s s1 := by
  unfold ConsumeMirroredObjects.chain at h
  dsimp only at h
  split at h
  · split at h
    · exact absurd h (by simp)
    · rename_i s2 h2
      split at h
      · exact absurd h (by simp)
      · rename_i s3 h3
        split at h
        · exact absurd h (by simp)
        · exact FrameLink_trans (FrameLink_trans
            (FrameAccess_to_FrameLink (ConsumeMirroredObjects_mutPass_frame _ _ _ _ _ _ _ h2))
            (FrameAccess_to_FrameLink (ConsumeMirroredObjects_constPass_frame _ _ _ _ _ _ _ h3)))
            (FrameEdge_to_FrameLink (ConsumeMirroredObjects_linkAll_frame _ _ _ _ h))
  · exact absurd h (by simp)

theorem ConsumeMirroredObjects_loop_frame (env : VmEnv) (l : List Nat) (s s1 : Scheduler)
    (h : ConsumeMirroredObjects.loop env l s = some s1) : FrameLink s s1 := by
  induction l generalizing s with
  | nil =>
    simp only [ConsumeMirroredObjects.loop, Option.some.injEq] at h
    subst h
    exact FrameLink_refl s
  | cons a rest ih =>
    unfold ConsumeMirroredObjects.loop at h
    split at h
    · exact absurd h (by simp)
    · rename_i s2 h2
      exact FrameLink_trans (ConsumeMirroredObjects_chain_frame _ _ _ _ h2) (ih _ h)

theorem ConsumeMirroredObjects_eq_loop (env : VmEnv) (l : List Nat) (s s1 : Scheduler)
    (h : ConsumeMirroredObjects env l s = some s1) :
    ConsumeMirroredObjects.loop env l s = some s1 := by
  unfold ConsumeMirroredObjects at h
  split at h
  · simpa [ConsumeMirroredObjects.loop] using h
  · split at h
    · exact h
    · exact absurd h (by simp)

theorem ConsumeMirroredObjects_frame (env : VmEnv) (l : List Nat) (s s1 : Scheduler)
    (h : ConsumeMirroredObjects env l s = some s1) : FrameLink s s1 :=
  ConsumeMirroredObjects_loop_frame env l s s1 (ConsumeMirroredObjects_eq_loop env l s s1 h)

theorem RunInstrChain_frame (env : VmEnv) (s : Scheduler) (c : Nat) :
    FrameDispatch s (RunInstrChain env s c) := by
  constructor <;> rfl

theorem DispatchInstruction_step_frame (env : VmEnv) (s : Scheduler) (c : Nat) :
    FrameDispatch s (DispatchInstruction.step env s c) := by
  unfold DispatchInstruction.step
  dsimp only
  split <;> split <;> constructor <;> rfl

theorem DispatchInstruction_frame (env : VmEnv) (l : List Nat) (s : Scheduler) :
    FrameDispatch s (DispatchInstruction env l s).1 :=
  foldl_rel FrameDispatch FrameDispatch_refl (fun _ _ _ => FrameDispatch_trans) _
    (DispatchInstruction_step_frame env) l s


/-! ## `Receive` -/

theorem Receive_loop_eq (env : VmEnv) (l acc : List InstructionMsg) :
    Receive.loop env l acc = ([], acc ++ l.flatMap (fun m => [env.MakeInferInstrMsg m, m])) := by
  induction l generalizing acc with
  | nil => simp [Receive.loop]
  | cons m rest ih => simp [Receive.loop, ih, List.flatMap_cons]

/-- C8: after `Receive` the pending list is its previous content followed by the infer twin
of each message and the message, in the order of the input, and the caller's list is
empty. -/
theorem Receive_interleaves_infer_twins (env : VmEnv) (s : Scheduler)
    (l : List InstructionMsg) :
    (Receive env s l).1.pending_msg_list
        = s.pending_msg_list ++ l.flatMap (fun m => [env.MakeInferInstrMsg m, m])
      ∧ (Receive env s l).2 = [] := by
  simp [Receive, Receive_loop_eq]

/-- C9: on a scheduler with an empty pending list, `Receive` of the one Nop message of
`TestNopStreamTypeNoArgument` leaves two messages pending, not one, and `Receive` of the
three messages of `TestNopStreamTypeOneArgument` leaves six, not three. -/
theorem Receive_pending_size_of_tests :
    (test.scheduler true).pending_msg_list = []
      ∧ (Receive (test.env true) (test.scheduler true)
          [test.nop_instr_msg]).1.pending_msg_list.length = 2
      ∧ (Receive (test.env true) (test.scheduler true)
          test.s2_msgs).1.pending_msg_list.length = 6 := by
  decide

/-! ## `MakeInstrChains` -/

theorem MakeInstrChains_forStreams_spec (m : InstructionMsg) (l : List StreamId)
    (s : Scheduler) (new : List Nat) :
    (MakeInstrChains.forStreams m l s new).2 = new ++ List.range' s.next_chain_id l.length
      ∧ (MakeInstrChains.forStreams m l s new).1.next_chain_id = s.next_chain_id + l.length
      ∧ (∀ c, c < s.next_chain_id →
          (MakeInstrChains.forStreams m l s new).1.instr_ctx_list c = s.instr_ctx_list c
          ∧ (MakeInstrChains.forStreams m l s new).1.chain_stream c = s.chain_stream c
          ∧ (MakeInstrChains.forStreams m l s new).1.in_edges c = s.in_edges c
          ∧ (MakeInstrChains.forStreams m l s new).1.out_edges c = s.out_edges c
          ∧ (MakeInstrChains.forStreams m l s new).1.done c = s.done c)
      ∧ (∀ i, i < l.length →
          (MakeInstrChains.forStreams m l s new).1.instr_ctx_list (s.next_chain_id + i)
            = [{ instr_msg := m, mirrored_object_id2access := [] }]
          ∧ l.get? i = some
              ((MakeInstrChains.forStreams m l s new).1.chain_stream (s.next_chain_id + i))
          ∧ (MakeInstrChains.forStreams m l s new).1.in_edges (s.next_chain_id + i) = []
          ∧ (MakeInstrChains.forStreams m l s new).1.out_edges (s.next_chain_id + i) = []
          ∧ (MakeInstrChains.forStreams m l s new).1.done (s.next_chain_id + i) = false) := by
  induction l generalizing s new with
  | nil => simp [MakeInstrChains.forStreams]
  | cons st rest ih =>
    unfold MakeInstrChains.forStreams
    dsimp only
    obtain ⟨h1, h2, h3, h4⟩ := ih (NewInstrChain s st m).1 (new ++ [(NewInstrChain s st m).2])
    have hn : (NewInstrChain s st m).1.next_chain_id = s.next_chain_id + 1 := rfl
    have hc : (NewInstrChain s st m).2 = s.next_chain_id := rfl
    rw [hn] at h1 h2 h3 h4
    refine ⟨?_, ?_, ?_, ?_⟩
    · rw [h1, hc, List.length_cons, List.append_assoc]
      congr 1
    · rw [h2, List.length_cons]; omega
    · intro c hc
      obtain ⟨a1, a2, a3, a4, a5⟩ := h3 c (by omega)
      have hne : c ≠ s.next_chain_id := by omega
      refine ⟨?_, ?_, ?_, ?_, ?_⟩
      · rw [a1]; simp [NewInstrChain, Function.update_noteq hne]
      · rw [a2]; simp [NewInstrChain, Function.update_noteq hne]
      · rw [a3]; simp [NewInstrChain, Function.update_noteq hne]
      · rw [a4]; simp [NewInstrChain, Function.update_noteq hne]
      · rw [a5]; simp [NewInstrChain, Function.update_noteq hne]
    · intro i hi
      simp only [List.length_cons] at hi
      cases i with
      | zero =>
        obtain ⟨a1, a2, a3, a4, a5⟩ := h3 s.next_chain_id (by omega)
        simp only [Nat.add_zero]
        refine ⟨?_, ?_, ?_, ?_, ?_⟩
        · rw [a1]; simp [NewInstrChain]
        · rw [a2]; simp [NewInstrChain]
        · rw [a3]; simp [NewInstrChain]
        · rw [a4]; simp [NewInstrChain]
        · rw [a5]; simp [NewInstrChain]
      | succ j =>
        have hj : j < rest.length := by omega
        have := h4 j hj
        have e : s.next_chain_id + 1 + j = s.next_chain_id + (j + 1) := by omega
        rw [e] at this
        simpa using this

theorem FindStreamRtDesc_frame (s s1 : Scheduler)
    (h : s1.stream_type_id2stream_rt_desc = s.stream_type_id2stream_rt_desc)
    (t : StreamTypeId) : FindStreamRtDesc s1 t = FindStreamRtDesc s t := by
  simp [FindStreamRtDesc, h]

theorem numStreams_frame (s s1 : Scheduler)
    (h : s1.stream_type_id2stream_rt_desc = s.stream_type_id2stream_rt_desc)
    (m : InstructionMsg) : numStreams s1 m = numStreams s m := by
  simp [numStreams, FindStreamRtDesc_frame s s1 h]

theorem MakeInstrChains_spec (msgs : List InstructionMsg) (s : Scheduler)
    (new : List Nat)
    (h : ∀ m ∈ msgs, (FindStreamRtDesc s m.instr_type_id.stream_type_id).isSome = true) :
    ∃ s1, MakeInstrChains msgs s new
        = some (s1, [], new ++ List.range' s.next_chain_id ((msgs.map (numStreams s)).sum))
      ∧ s1.next_chain_id = s.next_chain_id + (msgs.map (numStreams s)).sum
      ∧ (∀ c, c < s.next_chain_id →
          s1.instr_ctx_list c = s.instr_ctx_list c ∧ s1.chain_stream c = s.chain_stream c
          ∧ s1.in_edges c = s.in_edges c ∧ s1.out_edges c = s.out_edges c
          ∧ s1.done c = s.done c)
      ∧ (∀ c, s.next_chain_id ≤ c → c < s1.next_chain_id →
          (∃ m ∈ msgs, s1.instr_ctx_list c
              = [{ instr_msg := m, mirrored_object_id2access := [] }]
            ∧ ∃ d, FindStreamRtDesc s m.instr_type_id.stream_type_id = some d
                ∧ s1.chain_stream c ∈ d.stream_id2stream)
          ∧ s1.in_edges c = [] ∧ s1.out_edges c = [] ∧ s1.done c = false) := by
  induction msgs generalizing s new with
  | nil => exact ⟨s, by simp [MakeInstrChains], by simp, fun c _ => ⟨rfl, rfl, rfl, rfl, rfl⟩,
      fun c h1 h2 => absurd h2 (by omega)⟩
  | cons m rest ih =>
    have hm := h m (List.mem_cons_self _ _)
    obtain ⟨d, hd⟩ := Option.isSome_iff_exists.mp hm
    obtain ⟨f1, f2, f3, f4⟩ := MakeInstrChains_forStreams_spec m d.stream_id2stream s new
    have hfr := MakeInstrChains_forStreams_frame m d.stream_id2stream s new
    have hdesc := hfr.stream_type_id2stream_rt_desc
    have hrest : ∀ m1 ∈ rest, (FindStreamRtDesc (MakeInstrChains.forStreams m
        d.stream_id2stream s new).1 m1.instr_type_id.stream_type_id).isSome = true := by
      intro m1 hm1
      rw [FindStreamRtDesc_frame _ _ hdesc]
      exact h m1 (List.mem_cons_of_mem _ hm1)
    obtain ⟨s1, g1, g2, g3, g4⟩ := ih (MakeInstrChains.forStreams m d.stream_id2stream s new).1
      (MakeInstrChains.forStreams m d.stream_id2stream s new).2 hrest
    have hnum : numStreams s m = d.stream_id2stream.length := by simp [numStreams, hd]
    have hmap : List.map (numStreams (MakeInstrChains.forStreams m d.stream_id2stream s new).1)
        rest = List.map (numStreams s) rest := by
      apply List.map_congr_left
      intro a _
      exact numStreams_frame _ _ hdesc a
    rw [hmap, f2] at g1 g2
    rw [f2] at g3 g4
    refine ⟨s1, ?_, ?_, ?_, ?_⟩
    · unfold MakeInstrChains
      rw [hd]
      dsimp only
      rw [g1, f1]
      simp only [List.map_cons, List.sum_cons, hnum, List.append_assoc]
      rw [List.range'_append_1, Nat.add_comm]
    · rw [g2]; simp [hnum]; omega
    · intro c hc
      obtain ⟨a1, a2, a3, a4, a5⟩ := g3 c (by omega)
      obtain ⟨b1, b2, b3, b4, b5⟩ := f3 c hc
      exact ⟨a1.trans b1, a2.trans b2, a3.trans b3, a4.trans b4, a5.trans b5⟩
    · intro c hc1 hc2
      by_cases hlt : c < s.next_chain_id + d.stream_id2stream.length
      · obtain ⟨a1, a2, a3, a4, a5⟩ := g3 c hlt
        obtain ⟨i, rfl⟩ : ∃ i, c = s.next_chain_id + i := ⟨c - s.next_chain_id, by omega⟩
        obtain ⟨b1, b2, b3, b4, b5⟩ := f4 i (by omega)
        have hmem : s1.chain_stream (s.next_chain_id + i) ∈ d.stream_id2stream := by
          rw [a2]; exact List.get?_mem b2
        exact ⟨⟨m, List.mem_cons_self _ _, a1.trans b1, d, hd, hmem⟩,
          a3.trans b3, a4.trans b4, a5.trans b5⟩
      · obtain ⟨⟨m1, hm1, a1, d1, a3, a4⟩, a5⟩ := g4 c (by omega) hc2
        rw [FindStreamRtDesc_frame _ _ hdesc] at a3
        exact ⟨⟨m1, List.mem_cons_of_mem _ hm1, a1, d1, a3, a4⟩, a5⟩


/-- C7: when every message has a stream runtime descriptor, `MakeInstrChains` returns, the
message list is empty afterwards, the new chains are the next `k` chains, where `k` is the
sum over the messages of the number of streams under the descriptor of the message, and
each of them holds exactly one `InstrCtx`, that of one of the messages and without
accesses. -/
theorem MakeInstrChains_chain_count (s : Scheduler) (msgs : List InstructionMsg)
    (h : ∀ m ∈ msgs, (FindStreamRtDesc s m.instr_type_id.stream_type_id).isSome = true) :
    ∃ s1 new, MakeInstrChains msgs s [] = some (s1, [], new)
      ∧ new = List.range' s.next_chain_id ((msgs.map (numStreams s)).sum)
      ∧ new.length = (msgs.map (numStreams s)).sum
      ∧ s1.next_chain_id = s.next_chain_id + (msgs.map (numStreams s)).sum
      ∧ ∀ c ∈ new, ∃ m ∈ msgs,
          s1.instr_ctx_list c = [{ instr_msg := m, mirrored_object_id2access := [] }] := by
  obtain ⟨s1, h1, h2, _, h4⟩ := MakeInstrChains_spec msgs s [] h
  refine ⟨s1, _, h1, by simp, by simp, h2, ?_⟩
  intro c hc
  simp only [List.nil_append, List.mem_range'_1] at hc
  obtain ⟨⟨m, hm, hctx, _⟩, _⟩ := h4 c hc.1 (by omega)
  exact ⟨m, hm, hctx⟩

/-- Witness of C7: the infer twin of a Nop message and the message give two chains on a
scheduler with one stream for each of the two stream types. -/
theorem MakeInstrChains_chain_count_witness :
    (∀ m ∈ [test.MakeInferInstrMsg test.nop_instr_msg, test.nop_instr_msg],
        (FindStreamRtDesc (test.scheduler false) m.instr_type_id.stream_type_id).isSome = true)
      ∧ ∃ s1 new, MakeInstrChains
            [test.MakeInferInstrMsg test.nop_instr_msg, test.nop_instr_msg]
            (test.scheduler false) [] = some (s1, [], new)
          ∧ new = [0, 1]
          ∧ new.length = 2
          ∧ s1.next_chain_id = 2
          ∧ ∀ c ∈ new, ∃ m ∈ [test.MakeInferInstrMsg test.nop_instr_msg, test.nop_instr_msg],
              s1.instr_ctx_list c = [{ instr_msg := m, mirrored_object_id2access := [] }] :=
  ⟨by decide, MakeInstrChains_chain_count (test.scheduler false)
    [test.MakeInferInstrMsg test.nop_instr_msg, test.nop_instr_msg] (by decide)⟩

/-! ## The source fast path -/

theorem IsSourceInstruction_loop_eq (ops : List InstructionOperand)
    (h : InstructionOperand.not_set ∉ ops) :
    IsSourceInstruction.loop ops = some (ops.all InstructionOperand.is_immediate) := by
  induction ops with
  | nil => rfl
  | cons op rest ih =>
    have hr : InstructionOperand.not_set ∉ rest := fun hx => h (List.mem_cons_of_mem _ hx)
    cases op <;>
      simp [IsSourceInstruction.loop, InstructionOperand.is_immediate, ih hr] at h ⊢

theorem FilterAndRunSourceInstructions_spec (env : VmEnv) (msgs : List InstructionMsg)
    (s : Scheduler) (h : ∀ m ∈ msgs, InstructionOperand.not_set ∉ m.operand) :
    ∃ s1, FilterAndRunSourceInstructions env msgs s
        = some (s1, msgs.filter (fun m => !IsFastPath env m))
      ∧ s1.run_trace
        = s.run_trace ++ (msgs.filter (IsFastPath env)).map RunEvent.run_instr_msg := by
  induction msgs generalizing s with
  | nil => exact ⟨s, by simp [FilterAndRunSourceInstructions]⟩
  | cons m rest ih =>
    have hr : ∀ m ∈ rest, InstructionOperand.not_set ∉ m.operand :=
      fun x hx => h x (List.mem_cons_of_mem _ hx)
    have hm := IsSourceInstruction_loop_eq m.operand (h m (List.mem_cons_self _ _))
    unfold FilterAndRunSourceInstructions
    by_cases hs : env.SharingSchedulerThread m.instr_type_id.stream_type_id.stream_type = true
    · by_cases ha : m.operand.all InstructionOperand.is_immediate = true
      · obtain ⟨s1, h1, h2⟩ := ih (RunInstrMsg env s m) hr
        refine ⟨s1, ?_, ?_⟩
        · simp only [hs, if_true, IsSourceInstruction, hm, ha, h1]
          simp [IsFastPath, hs, ha]
        · rw [h2]
          simp [IsFastPath, hs, ha, RunInstrMsg]
      · obtain ⟨s1, h1, h2⟩ := ih s hr
        have ha' : m.operand.all InstructionOperand.is_immediate = false := by
          simpa using ha
        refine ⟨s1, ?_, ?_⟩
        · simp only [hs, if_true, IsSourceInstruction, hm, ha', h1]
          simp [IsFastPath, hs, ha']
        · rw [h2]
          simp [IsFastPath, hs, ha']
    · obtain ⟨s1, h1, h2⟩ := ih s hr
      have hs' : env.SharingSchedulerThread m.instr_type_id.stream_type_id.stream_type
          = false := by simpa using hs
      refine ⟨s1, ?_, ?_⟩
      · simp only [hs', h1]
        simp [IsFastPath, hs']
      · rw [h2]
        simp [IsFastPath, hs']


theorem ConsumeMirroredObject_msgs (t : OperandAccessType) (c : Nat) (s : Scheduler)
    (obj : MirroredObjectId) (d : Nat) :
    ((ConsumeMirroredObject t c s obj).instr_ctx_list d).map InstrCtx.instr_msg
      = (s.instr_ctx_list d).map InstrCtx.instr_msg := by
  unfold ConsumeMirroredObject
  split
  · rfl
  · rename_i ctx rest hl
    dsimp only
    split
    · by_cases hd : d = c
      · subst hd
        simp [hl]
      · simp [Function.update_noteq hd]
    · rfl

theorem ConsumeMirroredObject_foldl_msgs (t : OperandAccessType) (c : Nat)
    (objs : List MirroredObjectId) (s : Scheduler) (d : Nat) :
    ((objs.foldl (ConsumeMirroredObject t c) s).instr_ctx_list d).map InstrCtx.instr_msg
      = (s.instr_ctx_list d).map InstrCtx.instr_msg := by
  induction objs generalizing s with
  | nil => rfl
  | cons o rest ih => simp only [List.foldl_cons]; rw [ih, ConsumeMirroredObject_msgs]

theorem ConsumeMirroredObjects_mutPass_msgs (env : VmEnv) (it : InterpretType) (pid : Int)
    (c : Nat) (ops : List InstructionOperand) (s s1 : Scheduler)
    (h : ConsumeMirroredObjects.mutPass env it pid c ops s = some s1) (d : Nat) :
    (s1.instr_ctx_list d).map InstrCtx.instr_msg
      = (s.instr_ctx_list d).map InstrCtx.instr_msg := by
  induction ops generalizing s with
  | nil =>
    simp only [ConsumeMirroredObjects.mutPass, Option.some.injEq] at h
    subst h
    rfl
  | cons op rest ih =>
    cases op <;> simp only [ConsumeMirroredObjects.mutPass] at h
    case mutable_operand o =>
      split at h
      · exact absurd h (by simp)
      · rw [ih _ h, ConsumeMirroredObject_foldl_msgs]
    case mut2_operand o =>
      split at h
      · exact absurd h (by simp)
      · rw [ih _ h, ConsumeMirroredObject_foldl_msgs]
    all_goals exact ih _ h

theorem ConsumeMirroredObjects_constPass_msgs (env : VmEnv) (it : InterpretType) (pid : Int)
    (c : Nat) (ops : List InstructionOperand) (s s1 : Scheduler)
    (h : ConsumeMirroredObjects.constPass env it pid c ops s = some s1) (d : Nat) :
    (s1.instr_ctx_list d).map InstrCtx.instr_msg
      = (s.instr_ctx_list d).map InstrCtx.instr_msg := by
  induction ops generalizing s with
  | nil =>
    simp only [ConsumeMirroredObjects.constPass, Option.some.injEq] at h
    subst h
    rfl
  | cons op rest ih =>
    cases op <;> simp only [ConsumeMirroredObjects.constPass] at h
    case const_operand o =>
      split at h
      · exact absurd h (by simp)
      · rw [ih _ h, ConsumeMirroredObject_foldl_msgs]
    case mutable_operand o =>
      split at h
      · exact absurd h (by simp)
      · rw [ih _ h, ConsumeMirroredObject_foldl_msgs]
    all_goals exact ih _ h

theorem ConsumeMirroredObjects_chain_msgs (env : VmEnv) (s s1 : Scheduler) (c : Nat)
    (h : ConsumeMirroredObjects.chain env s c = some s1) (d : Nat) :
    (s1.instr_ctx_list d).map InstrCtx.instr_msg
      = (s.instr_ctx_list d).map InstrCtx.instr_msg := by
  unfold ConsumeMirroredObjects.chain at h
  dsimp only at h
  split at h
  · split at h
    · exact absurd h (by simp)
    · rename_i s2 h2
      split at h
      · exact absurd h (by simp)
      · rename_i s3 h3
        split at h
        · exact absurd h (by simp)
        · rw [(ConsumeMirroredObjects_linkAll_frame _ _ _ _ h).instr_ctx_list,
            ConsumeMirroredObjects_constPass_msgs _ _ _ _ _ _ _ h3,
            ConsumeMirroredObjects_mutPass_msgs _ _ _ _ _ _ _ h2]
  · exact absurd h (by simp)

theorem ConsumeMirroredObjects_loop_msgs (env : VmEnv) (l : List Nat) (s s1 : Scheduler)
    (h : ConsumeMirroredObjects.loop env l s = some s1) (d : Nat) :
    (s1.instr_ctx_list d).map InstrCtx.instr_msg
      = (s.instr_ctx_list d).map InstrCtx.instr_msg := by
  induction l generalizing s with
  | nil =>
    simp only [ConsumeMirroredObjects.loop, Option.some.injEq] at h
    subst h
    rfl
  | cons a rest ih =>
    unfold ConsumeMirroredObjects.loop at h
    split at h
    · exact absurd h (by simp)
    · rename_i s2 h2
      rw [ih _ h, ConsumeMirroredObjects_chain_msgs _ _ _ _ h2]

theorem FilterReadyChains_mem (s : Scheduler) (new ready : List Nat) (c : Nat) :
    (c ∈ (FilterReadyChains s new ready).1 ↔ c ∈ new ∧ s.in_edges c ≠ [])
      ∧ (c ∈ (FilterReadyChains s new ready).2 ↔ c ∈ ready ∨ (c ∈ new ∧ s.in_edges c = [])) := by
  induction new generalizing ready with
  | nil => simp [FilterReadyChains]
  | cons a rest ih =>
    unfold FilterReadyChains
    by_cases he : (s.in_edges a).isEmpty = true
    · simp only [he, if_true]
      have hnil : s.in_edges a = [] := List.isEmpty_iff.mp he
      obtain ⟨h1, h2⟩ := ih (ready ++ [a])
      rw [h1, h2]
      by_cases hca : c = a
      · subst hca
        simp [hnil]
      · simp [hca]
    · have he' : (s.in_edges a).isEmpty = false := by simpa using he
      simp only [he', Bool.false_eq_true, if_false]
      have hnil : s.in_edges a ≠ [] := fun hx => he (List.isEmpty_iff.mpr hx)
      obtain ⟨h1, h2⟩ := ih ready
      simp only [List.mem_cons, h1, h2]
      by_cases hca : c = a
      · subst hca
        simp [hnil]
      · simp [hca]

theorem DispatchInstruction_step_trace (env : VmEnv) (s : Scheduler) (c : Nat) :
    ∃ tr : List Nat, (DispatchInstruction.step env s c).run_trace
      = s.run_trace ++ tr.map RunEvent.run_instr_chain := by
  by_cases hs : env.SharingSchedulerThread (s.chain_stream c).stream_type_id.stream_type = true
  · refine ⟨[c], ?_⟩
    simp only [DispatchInstruction.step, hs, if_true, RunInstrChain]
    split <;> rfl
  · refine ⟨[], ?_⟩
    have hs' : env.SharingSchedulerThread (s.chain_stream c).stream_type_id.stream_type
        = false := by simpa using hs
    simp only [DispatchInstruction.step, hs', Bool.false_eq_true, if_false]
    split <;> simp

theorem DispatchInstruction_trace (env : VmEnv) (l : List Nat) (s : Scheduler) :
    ∃ tr : List Nat, (DispatchInstruction env l s).1.run_trace
      = s.run_trace ++ tr.map RunEvent.run_instr_chain := by
  unfold DispatchInstruction
  dsimp only
  induction l generalizing s with
  | nil => exact ⟨[], by simp⟩
  | cons c rest ih =>
    obtain ⟨tr1, h1⟩ := DispatchInstruction_step_trace env s c
    obtain ⟨tr2, h2⟩ := ih (DispatchInstruction.step env s c)
    refine ⟨tr1 ++ tr2, ?_⟩
    simp only [List.foldl_cons]
    rw [h2, h1]
    simp

theorem MakeInstrChains_isSome (l : List InstructionMsg) (s : Scheduler) (new : List Nat)
    (r : Scheduler × List InstructionMsg × List Nat) (h : MakeInstrChains l s new = some r) :
    ∀ m ∈ l, (FindStreamRtDesc s m.instr_type_id.stream_type_id).isSome = true := by
  induction l generalizing s new with
  | nil => intro m hm; exact absurd hm (List.not_mem_nil _)
  | cons a rest ih =>
    unfold MakeInstrChains at h
    split at h
    · exact absurd h (by simp)
    · rename_i d hd
      intro m hm
      rcases List.mem_cons.mp hm with rfl | hm
      · simp [hd]
      · have := ih _ _ h m hm
        rwa [FindStreamRtDesc_frame _ _
          (MakeInstrChains_forStreams_frame _ _ _ _).stream_type_id2stream_rt_desc] at this

theorem Schedule_ingest_spec (env : VmEnv) (s : Scheduler) (ready : List Nat)
    (r : Scheduler × List Nat)
    (hset : ∀ m ∈ s.pending_msg_list, InstructionOperand.not_set ∉ m.operand)
    (h : Schedule.ingest env s ready = some r) :
    r.1.pending_msg_list = []
      ∧ r.1.run_trace = s.run_trace
          ++ (s.pending_msg_list.filter (IsFastPath env)).map RunEvent.run_instr_msg
      ∧ r.1.next_chain_id = s.next_chain_id
          + ((s.pending_msg_list.filter (fun m => !IsFastPath env m)).map (numStreams s)).sum
      ∧ (∀ c, s.next_chain_id ≤ c → c < r.1.next_chain_id →
          ∃ m ∈ s.pending_msg_list, IsFastPath env m = false
            ∧ (r.1.instr_ctx_list c).map InstrCtx.instr_msg = [m])
      ∧ (∀ c ∈ r.1.waiting_instr_chain_list,
          c ∈ s.waiting_instr_chain_list ∨ (s.next_chain_id ≤ c ∧ c < r.1.next_chain_id)) := by
  unfold Schedule.ingest at h
  dsimp only at h
  obtain ⟨s2, h2, h2t⟩ := FilterAndRunSourceInstructions_spec env s.pending_msg_list
    { s with pending_msg_list := [] } hset
  have f2 := FilterAndRunSourceInstructions_frame _ _ _ _ h2
  rw [h2] at h
  dsimp only at h
  split at h
  · exact absurd h (by simp)
  · rename_i r3 h3
    split at h
    · exact absurd h (by simp)
    · rename_i s4 h4
      simp only [MergeChains, Option.some.injEq] at h
      subst h
      dsimp only
      have f4 := ConsumeMirroredObjects_frame _ _ _ _ h4
      have hmsgs := ConsumeMirroredObjects_loop_msgs _ _ _ _
        (ConsumeMirroredObjects_eq_loop _ _ _ _ h4)
      obtain ⟨s3, g1, g2, g3, g4⟩ := MakeInstrChains_spec _ s2 []
        (MakeInstrChains_isSome _ _ _ _ h3)
      rw [g1] at h3
      simp only [Option.some.injEq] at h3
      subst h3
      dsimp only at f4 hmsgs h4 ⊢
      have hdesc : s2.stream_type_id2stream_rt_desc = s.stream_type_id2stream_rt_desc :=
        f2.stream_type_id2stream_rt_desc
      have hnext : s2.next_chain_id = s.next_chain_id := f2.next_chain_id
      have hmap : List.map (numStreams s2)
          (s.pending_msg_list.filter (fun m => !IsFastPath env m))
          = List.map (numStreams s) (s.pending_msg_list.filter (fun m => !IsFastPath env m)) :=
        List.map_congr_left (fun a _ => numStreams_frame _ _ hdesc a)
      rw [hmap, hnext] at g2
      rw [hnext] at g4
      have hn4 : s4.next_chain_id = s3.next_chain_id := f4.next_chain_id
      refine ⟨?_, ?_, ?_, ?_, ?_⟩
      · rw [f4.pending_msg_list, (MakeInstrChains_frame _ _ _ _ g1).pending_msg_list,
          f2.pending_msg_list]
      · rw [f4.run_trace, (MakeInstrChains_frame _ _ _ _ g1).run_trace, h2t]
      · rw [hn4, g2]
      · intro c hc1 hc2
        rw [hn4] at hc2
        obtain ⟨⟨m, hm, hctx, _⟩, _⟩ := g4 c hc1 hc2
        rw [List.mem_filter] at hm
        refine ⟨m, hm.1, by simpa using hm.2, ?_⟩
        rw [hmsgs c, hctx]
        rfl
      · intro c hc
        rcases List.mem_append.mp hc with hc | hc
        · left
          rw [f4.waiting_instr_chain_list,
            (MakeInstrChains_frame _ _ _ _ g1).waiting_instr_chain_list,
            f2.waiting_instr_chain_list] at hc
          exact hc
        · right
          have := ((FilterReadyChains_mem s4 _ ready c).1.mp hc).1
          simp only [List.nil_append, List.mem_range'_1, hnext, hmap] at this
          rw [hn4, g2]
          exact this


theorem ReleaseInstruction_releaseEdge_waiting (c : Nat) (acc : Scheduler × List Nat)
    (d : Nat) : ∀ x ∈ (ReleaseInstruction.releaseEdge c acc d).1.waiting_instr_chain_list,
      x ∈ acc.1.waiting_instr_chain_list := by
  intro x hx
  unfold ReleaseInstruction.releaseEdge at hx
  dsimp only at hx
  split at hx
  · exact List.mem_of_mem_erase hx
  · exact hx

theorem Schedule_release_waiting (l : List StreamId) (s : Scheduler) (ready : List Nat) :
    ∀ x ∈ (Schedule.release l s ready).1.waiting_instr_chain_list,
      x ∈ s.waiting_instr_chain_list := by
  have hrefl : ∀ s : Scheduler, ∀ x ∈ s.waiting_instr_chain_list,
      x ∈ s.waiting_instr_chain_list := fun _ _ h => h
  have htrans : ∀ s s1 s2 : Scheduler,
      (∀ x ∈ s1.waiting_instr_chain_list, x ∈ s.waiting_instr_chain_list) →
      (∀ x ∈ s2.waiting_instr_chain_list, x ∈ s1.waiting_instr_chain_list) →
      ∀ x ∈ s2.waiting_instr_chain_list, x ∈ s.waiting_instr_chain_list :=
    fun _ _ _ h1 h2 x hx => h1 x (h2 x hx)
  have hrel : ∀ (s : Scheduler) (c : Nat) (ready : List Nat),
      ∀ x ∈ (ReleaseInstruction s c ready).1.waiting_instr_chain_list,
        x ∈ s.waiting_instr_chain_list := by
    intro s c ready x hx
    unfold ReleaseInstruction at hx
    dsimp only at hx
    have := foldl_rel_fst
      (fun s s1 => ∀ x ∈ s1.waiting_instr_chain_list, x ∈ s.waiting_instr_chain_list)
      hrefl htrans _ (ReleaseInstruction_releaseEdge_waiting c)
      ((ReleaseInstruction.releaseAccesses c s).out_edges c)
      (ReleaseInstruction.releaseAccesses c s, ready) x hx
    rw [(ReleaseInstruction_releaseAccesses_frame c s).waiting_instr_chain_list] at this
    exact this
  have hloop : ∀ (st : StreamId) (l : List Nat) (s : Scheduler) (ready : List Nat),
      ∀ x ∈ (TryReleaseFinishedInstrChains.loop st l s ready).1.waiting_instr_chain_list,
        x ∈ s.waiting_instr_chain_list := by
    intro st l
    induction l with
    | nil => intro s ready x hx; exact hx
    | cons c rest ih =>
      intro s ready x hx
      unfold TryReleaseFinishedInstrChains.loop at hx
      split at hx
      · have := ih _ _ x hx
        exact hrel s c ready x this
      · exact hx
  induction l generalizing s ready with
  | nil => intro x hx; exact hx
  | cons st rest ih =>
    intro x hx
    unfold Schedule.release at hx
    have h1 := ih _ _ x hx
    have h2 : x ∈ (TryReleaseFinishedInstrChains s st ready).1.waiting_instr_chain_list := by
      revert h1
      dsimp only
      split <;> exact id
    exact hloop st _ s ready x h2

/-- C6: the source fast path.  `FilterAndRunSourceInstructions` removes from the message
list exactly the messages for the fast path and calls `Run` for each of them, in order,
without touching the waiting list or creating a chain; after a tick on a non-empty pending
list the pending list is empty, `Run` has been called for these messages (before the runs
of dispatched chains), the chains created are those of the other messages, and a chain on
the waiting list was there before or is one of the chains created. -/
theorem Schedule_source_fast_path (env : VmEnv) (s s1 : Scheduler)
    (hset : ∀ m ∈ s.pending_msg_list, InstructionOperand.not_set ∉ m.operand)
    (hne : s.pending_msg_list ≠ []) (h : Schedule env s = some s1) :
    (∃ s2, FilterAndRunSourceInstructions env s.pending_msg_list s
          = some (s2, s.pending_msg_list.filter (fun m => !IsFastPath env m))
        ∧ s2.run_trace = s.run_trace
            ++ (s.pending_msg_list.filter (IsFastPath env)).map RunEvent.run_instr_msg
        ∧ s2.waiting_instr_chain_list = s.waiting_instr_chain_list
        ∧ s2.next_chain_id = s.next_chain_id)
      ∧ s1.pending_msg_list = []
      ∧ (∃ tr : List Nat, s1.run_trace = s.run_trace
          ++ (s.pending_msg_list.filter (IsFastPath env)).map RunEvent.run_instr_msg
          ++ tr.map RunEvent.run_instr_chain)
      ∧ s1.next_chain_id = s.next_chain_id
          + ((s.pending_msg_list.filter (fun m => !IsFastPath env m)).map (numStreams s)).sum
      ∧ (∀ c, s.next_chain_id ≤ c → c < s1.next_chain_id →
          ∃ m ∈ s.pending_msg_list, IsFastPath env m = false
            ∧ (s1.instr_ctx_list c).map InstrCtx.instr_msg = [m])
      ∧ (∀ c ∈ s1.waiting_instr_chain_list,
          c ∈ s.waiting_instr_chain_list ∨ (s.next_chain_id ≤ c ∧ c < s1.next_chain_id)) := by
  constructor
  · obtain ⟨s2, h2, h2t⟩ := FilterAndRunSourceInstructions_spec env s.pending_msg_list s hset
    have f2 := FilterAndRunSourceInstructions_frame _ _ _ _ h2
    exact ⟨s2, h2, h2t, f2.waiting_instr_chain_list, f2.next_chain_id⟩
  · unfold Schedule at h
    dsimp only at h
    have fr := Schedule_release_frame s.active_stream_list s []
    have hw := Schedule_release_waiting s.active_stream_list s []
    have hlen : (Schedule.release s.active_stream_list s []).1.pending_msg_list.length > 0 := by
      rw [fr.pending_msg_list]
      exact List.length_pos.mpr hne
    rw [if_pos hlen] at h
    split at h
    · exact absurd h (by simp)
    · rename_i r2 h2
      simp only [Option.some.injEq] at h
      subst h
      have hset' : ∀ m ∈ (Schedule.release s.active_stream_list s []).1.pending_msg_list,
          InstructionOperand.not_set ∉ m.operand := by
        rw [fr.pending_msg_list]; exact hset
      obtain ⟨a1, a2, a3, a4, a5⟩ := Schedule_ingest_spec env _ _ _ hset' h2
      have fd := DispatchInstruction_frame env r2.2 r2.1
      obtain ⟨tr, htr⟩ := DispatchInstruction_trace env r2.2 r2.1
      rw [fr.pending_msg_list, fr.run_trace] at a2
      rw [fr.pending_msg_list, fr.next_chain_id,
        List.map_congr_left (fun a _ => numStreams_frame _ _ fr.stream_type_id2stream_rt_desc a)]
        at a3
      rw [fr.pending_msg_list, fr.next_chain_id] at a4
      rw [fr.next_chain_id] at a5
      refine ⟨?_, ⟨tr, ?_⟩, ?_, ?_, ?_⟩
      · rw [fd.pending_msg_list, a1]
      · rw [htr, a2]
      · rw [fd.next_chain_id, a3]
      · intro c hc1 hc2
        rw [fd.next_chain_id] at hc2
        rw [fd.instr_ctx_list]
        exact a4 c hc1 hc2
      · intro c hc
        rw [fd.waiting_instr_chain_list] at hc
        rw [fd.next_chain_id]
        rcases a5 c hc with hx | hx
        · exact Or.inl (hw c hx)
        · exact Or.inr hx

theorem test_s2_scheduled_eq (b : Bool) :
    Schedule (test.env b) (test.s2_received b) = some (test.s2_scheduled b) := by
  cases b <;> rfl

/-- Witness of C6: the tick on the messages of the second scenario, two of which (the
symbol and its infer twin) go the fast path. -/
theorem Schedule_source_fast_path_witness :
    (∀ m ∈ (test.s2_received true).pending_msg_list, InstructionOperand.not_set ∉ m.operand)
      ∧ (test.s2_received true).pending_msg_list ≠ []
      ∧ (test.s2_received true).pending_msg_list.filter (IsFastPath (test.env true))
          = [test.MakeInferInstrMsg (test.NewSymbol 9527 1), test.NewSymbol 9527 1]
      ∧ (test.s2_scheduled true).pending_msg_list = []
      ∧ (test.s2_scheduled true).next_chain_id = (test.s2_received true).next_chain_id + 4
      ∧ (∀ c ∈ (test.s2_scheduled true).waiting_instr_chain_list,
          c ∈ (test.s2_received true).waiting_instr_chain_list
            ∨ ((test.s2_received true).next_chain_id ≤ c
                ∧ c < (test.s2_scheduled true).next_chain_id)) :=
  have h := Schedule_source_fast_path (test.env true) (test.s2_received true)
    (test.s2_scheduled true) (by decide) (by decide) (test_s2_scheduled_eq true)
  ⟨by decide, by decide, by decide, h.2.1, h.2.2.2.1, h.2.2.2.2.2⟩


/-! ## The first scenario: one Nop instruction without operands -/

/-- C10, counterexample: on a scheduler with a Nop stream whose stream type shares the
scheduler thread, after `Receive` of one Nop instruction without operands and one tick the
active list has size 0, not 1, and the running list of the Nop stream is empty: the
message went the source fast path and no chain was created.  This is so on the scheduler
that `__Init__` makes of the control and Nop stream descriptors and their infer
counterparts, and on the scheduler with the control stream and the Nop stream alone. -/
theorem Schedule_nop_sharing_no_chain :
    (Schedule (test.env true) (test.s1_received true)).map
        (fun s => (s.pending_msg_list, s.waiting_instr_chain_list,
          s.active_stream_list.length, s.running_chain_list test.nop_stream,
          s.next_chain_id))
        = some ([], [], 0, [], 0)
      ∧ (Schedule (test.env true)
          (Receive (test.env true) test.scheduler_of_test [test.nop_instr_msg]).1).map
        (fun s => (s.pending_msg_list, s.waiting_instr_chain_list,
          s.active_stream_list.length, s.running_chain_list test.nop_stream,
          s.next_chain_id))
        = some ([], [], 0, [], 0) :=
  ⟨by decide, by decide⟩

/-- C10, as amended: on a scheduler without messages, waiting chains and active streams,
with one stream, of the stream type of the instruction, under the descriptor of a Nop
instruction without operands whose infer twin goes the source fast path, `Receive` of the instruction and one tick end with empty
pending and waiting lists; when the Nop stream type shares the scheduler thread, `Run` has
been called for the message, no chain exists and the active list and the running list of
the Nop stream are empty; when it does not, the active list holds the Nop stream alone and
its running list holds exactly one chain, whose single instruction is the message. -/
theorem Schedule_nop_without_operands (env : VmEnv) (s : Scheduler) (nop : InstructionMsg)
    (nop_stream : StreamId)
    (hp : s.pending_msg_list = []) (hw : s.waiting_instr_chain_list = [])
    (ha : s.active_stream_list = []) (hr : s.running_chain_list nop_stream = [])
    (hops : nop.operand = []) (hiops : (env.MakeInferInstrMsg nop).operand = [])
    (hish : env.SharingSchedulerThread
      (env.MakeInferInstrMsg nop).instr_type_id.stream_type_id.stream_type = true)
    (hdesc : ∃ d, FindStreamRtDesc s nop.instr_type_id.stream_type_id = some d
      ∧ d.stream_id2stream = [nop_stream])
    (hst : nop_stream.stream_type_id = nop.instr_type_id.stream_type_id) :
    ∃ s1, Schedule env (Receive env s [nop]).1 = some s1
      ∧ s1.pending_msg_list = [] ∧ s1.waiting_instr_chain_list = []
      ∧ (env.SharingSchedulerThread nop.instr_type_id.stream_type_id.stream_type = true →
          s1.active_stream_list = [] ∧ s1.running_chain_list nop_stream = []
          ∧ s1.next_chain_id = s.next_chain_id
          ∧ s1.run_trace = s.run_trace ++ [RunEvent.run_instr_msg (env.MakeInferInstrMsg nop),
              RunEvent.run_instr_msg nop])
      ∧ (env.SharingSchedulerThread nop.instr_type_id.stream_type_id.stream_type = false →
          s1.active_stream_list = [nop_stream]
          ∧ s1.running_chain_list nop_stream = [s.next_chain_id]
          ∧ s1.instr_ctx_list s.next_chain_id
              = [{ instr_msg := nop, mirrored_object_id2access := [] }]) := by
  obtain ⟨d, hd, hds⟩ := hdesc
  have hrecv : (Receive env s [nop]).1
      = { s with pending_msg_list := [env.MakeInferInstrMsg nop, nop] } := by
    simp [Receive, Receive.loop, hp]
  rw [hrecv]
  simp only [FindStreamRtDesc] at hd
  by_cases hsh : env.SharingSchedulerThread nop.instr_type_id.stream_type_id.stream_type = true
  · simp [Schedule, Schedule.release, Schedule.ingest, ha, FilterAndRunSourceInstructions,
        IsSourceInstruction, IsSourceInstruction.loop, hops, hiops, hish, hsh, MakeInstrChains,
        ConsumeMirroredObjects, MergeChains, FilterReadyChains, DispatchInstruction, hw, hr,
        RunInstrMsg]
  · have hsh' : env.SharingSchedulerThread nop.instr_type_id.stream_type_id.stream_type
        = false := by simpa using hsh
    simp [Schedule, Schedule.release, Schedule.ingest, ha, FilterAndRunSourceInstructions,
        IsSourceInstruction, IsSourceInstruction.loop, hops, hiops, hish, hsh', MakeInstrChains,
        ConsumeMirroredObjects, MergeChains, FilterReadyChains, DispatchInstruction, hw, hr,
        RunInstrMsg, FindStreamRtDesc, hd, hds, MakeInstrChains.forStreams, NewInstrChain,
        ConsumeMirroredObjects.loop, ConsumeMirroredObjects.chain,
        ConsumeMirroredObjects.mutPass, ConsumeMirroredObjects.constPass,
        ConsumeMirroredObjects.linkAll, DispatchInstruction.step, hst]

/-- Witness of C10 as amended: the scheduler of the scenario, with the Nop stream type
sharing the scheduler thread and with it not sharing. -/
theorem Schedule_nop_without_operands_witness :
    (∃ s1, Schedule (test.env true)
          (Receive (test.env true) (test.scheduler true) [test.nop_instr_msg]).1 = some s1
        ∧ s1.active_stream_list = [] ∧ s1.running_chain_list test.nop_stream = [])
      ∧ (∃ s1, Schedule (test.env false)
          (Receive (test.env false) (test.scheduler false) [test.nop_instr_msg]).1 = some s1
        ∧ s1.pending_msg_list = [] ∧ s1.waiting_instr_chain_list = []
        ∧ s1.active_stream_list = [test.nop_stream]
        ∧ s1.running_chain_list test.nop_stream = [0]
        ∧ s1.instr_ctx_list 0
            = [{ instr_msg := test.nop_instr_msg, mirrored_object_id2access := [] }]) := by
  constructor
  · obtain ⟨s1, h1, _, _, h4, _⟩ := Schedule_nop_without_operands (test.env true)
      (test.scheduler true) test.nop_instr_msg test.nop_stream (by decide) (by decide)
      (by decide) (by decide) (by decide) (by decide) (by decide)
      ⟨{ stream_type_id := test.kNopStreamTypeId, stream_id2stream := [test.nop_stream] },
        by decide, rfl⟩ (by decide)
    exact ⟨s1, h1, (h4 (by decide)).1, (h4 (by decide)).2.1⟩
  · obtain ⟨s1, h1, h2, h3, _, h5⟩ := Schedule_nop_without_operands (test.env false)
      (test.scheduler false) test.nop_instr_msg test.nop_stream (by decide) (by decide)
      (by decide) (by decide) (by decide) (by decide) (by decide)
      ⟨{ stream_type_id := test.kNopStreamTypeId, stream_id2stream := [test.nop_stream] },
        by decide, rfl⟩ (by decide)
    exact ⟨s1, h1, h2, h3, h5 (by decide)⟩


/-! ## Edges added by dependency linking -/

theorem EdgesAdded_refl (s : Scheduler) (n : Nat) : EdgesAdded s s n [] := by
  constructor
  · intro d x; simp
  · intro c x; simp
  · intro d h; exact h
  · intro c h; exact h

theorem EdgesAdded_trans {s s1 s2 : Scheduler} {n : Nat} {l1 l2 : List Nat}
    (h1 : EdgesAdded s s1 n l1) (h2 : EdgesAdded s1 s2 n l2) :
    EdgesAdded s s2 n (l1 ++ l2) := by
  constructor
  · intro d x
    rw [h2.in_edges, h1.in_edges, List.mem_append]
    tauto
  · intro c x
    rw [h2.out_edges, h1.out_edges, List.mem_append]
    tauto
  · intro d h; exact h2.in_nodup d (h1.in_nodup d h)
  · intro c h; exact h2.out_nodup c (h1.out_nodup c h)

theorem EdgesAdded_sym {s s1 : Scheduler} {n : Nat} {l : List Nat}
    (h : EdgesAdded s s1 n l) (hs : EdgeSym s) : EdgeSym s1 := by
  intro c d
  rw [h.out_edges, h.in_edges, hs c d]

theorem EdgesAdded_of_eq {s s1 : Scheduler} {n : Nat} {l : List Nat}
    (hi : s1.in_edges = s.in_edges) (ho : s1.out_edges = s.out_edges) (hl : l = []) :
    EdgesAdded s s1 n l := by
  subst hl
  constructor
  · intro d x; simp [hi]
  · intro c x; simp [ho]
  · intro d h; rw [hi]; exact h
  · intro c h; rw [ho]; exact h

theorem ConnectInstruction_spec (src dst : Nat) (s : Scheduler)
    (hsym : dst ∈ s.out_edges src ↔ src ∈ s.in_edges dst) :
    ∃ s1, ConnectInstruction src dst s = some s1 ∧ s1.access_list = s.access_list
      ∧ EdgesAdded s s1 dst [src] := by
  unfold ConnectInstruction
  dsimp only
  by_cases h1 : dst ∈ s.out_edges src
  · have h2 : src ∈ s.in_edges dst := hsym.mp h1
    refine ⟨s, by simp [h1, h2], rfl, ?_⟩
    constructor
    · intro d x
      constructor
      · exact Or.inl
      · rintro (h | ⟨rfl, hx⟩)
        · exact h
        · simp only [List.mem_singleton] at hx; subst hx; exact h2
    · intro c x
      constructor
      · exact Or.inl
      · rintro (h | ⟨rfl, hx⟩)
        · exact h
        · simp only [List.mem_singleton] at hx; subst hx; exact h1
    · intro d h; exact h
    · intro c h; exact h
  · have h2 : src ∉ s.in_edges dst := fun hx => h1 (hsym.mpr hx)
    refine ⟨{ s with
        in_edges := (Function.update s.in_edges dst (s.in_edges dst ++ [src])),
        out_edges := (Function.update s.out_edges src (s.out_edges src ++ [dst])) },
      by simp [h1, h2], rfl, ?_⟩
    constructor
    · intro d x
      by_cases hd : d = dst
      · subst hd
        simp [List.mem_append]
      · simp [Function.update_noteq hd, hd]
    · intro c x
      by_cases hc : c = src
      · subst hc
        simp [List.mem_append]
      · simp [Function.update_noteq hc, hc]
    · intro d hnd
      by_cases hd : d = dst
      · subst hd
        simp only [Function.update_same]
        exact List.Nodup.append hnd (List.nodup_singleton _)
          (by simpa [List.disjoint_singleton] using h2)
      · simpa [Function.update_noteq hd] using hnd
    · intro c hnd
      by_cases hc : c = src
      · subst hc
        simp only [Function.update_same]
        exact List.Nodup.append hnd (List.nodup_singleton _)
          (by simpa [List.disjoint_singleton] using h1)
      · simpa [Function.update_noteq hc] using hnd

theorem ConsumeMirroredObjects_linkWrite_spec (n : Nat) (mine : MirroredObjectAccess)
    (pre post : List MirroredObjectAccess) (s : Scheduler) (hsym : EdgeSym s)
    (hpre : mine ∉ pre)
    (hal : s.access_list mine.mirrored_object_id = pre ++ mine :: post) :
    ∃ s1, ConsumeMirroredObjects.linkWrite n mine (pre ++ mine :: post) s = some s1
      ∧ s1.access_list
          = Function.update s.access_list mine.mirrored_object_id (mine :: post)
      ∧ EdgesAdded s s1 n (pre.map MirroredObjectAccess.instr_chain) := by
  induction pre generalizing s with
  | nil =>
    refine ⟨s, by simp [ConsumeMirroredObjects.linkWrite], ?_, by simpa using EdgesAdded_refl s n⟩
    simp only [List.nil_append] at hal
    rw [← hal, Function.update_eq_self]
  | cons a pre1 ih =>
    have hne : a ≠ mine := fun h => hpre (h ▸ List.mem_cons_self _ _)
    have hpre1 : mine ∉ pre1 := fun h => hpre (List.mem_cons_of_mem _ h)
    obtain ⟨s2, hc, hal2, he2⟩ := ConnectInstruction_spec a.instr_chain n s (hsym _ _)
    have hsym2 : EdgeSym s2 := EdgesAdded_sym he2 hsym
    have hal3 : (s2.access_list mine.mirrored_object_id).erase a = pre1 ++ mine :: post := by
      rw [hal2, hal]
      simp
    obtain ⟨s1, h1, hal1, he1⟩ := ih
      { s2 with access_list := (Function.update s2.access_list mine.mirrored_object_id
          ((s2.access_list mine.mirrored_object_id).erase a)) }
      hsym2 hpre1 (by simp [hal3])
    refine ⟨s1, ?_, ?_, ?_⟩
    · simp only [List.cons_append, ConsumeMirroredObjects.linkWrite, hne, if_false, hc]
      exact h1
    · rw [hal1]
      simp [hal2]
    · have he3 : EdgesAdded s2 { s2 with access_list := (Function.update s2.access_list
          mine.mirrored_object_id ((s2.access_list mine.mirrored_object_id).erase a)) } n [] :=
        EdgesAdded_of_eq rfl rfl rfl
      have := EdgesAdded_trans he2 (EdgesAdded_trans he3 he1)
      simpa using this

theorem ConsumeMirroredObjects_link_spec (n : Nat) (s : Scheduler)
    (mine : MirroredObjectAccess) (pre : List MirroredObjectAccess) (hsym : EdgeSym s)
    (hpre : mine ∉ pre) (hal : s.access_list mine.mirrored_object_id = pre ++ [mine]) :
    ∃ s1, ConsumeMirroredObjects.link n s mine = some s1
      ∧ s1.access_list = Function.update s.access_list mine.mirrored_object_id
          (if mine.is_const_operand then pre ++ [mine] else [mine])
      ∧ EdgesAdded s s1 n (linkSources pre mine) := by
  unfold ConsumeMirroredObjects.link
  dsimp only
  cases pre with
  | nil =>
    refine ⟨s, by simp [hal], ?_, ?_⟩
    · simp only [List.nil_append] at hal
      simp only [List.nil_append, ite_self]
      rw [← hal, Function.update_eq_self]
    · have : linkSources [] mine = [] := by
        unfold linkSources; split <;> rfl
      rw [this]
      exact EdgesAdded_refl s n
  | cons first pre1 =>
    have hlen : ¬ (s.access_list mine.mirrored_object_id).length = 1 := by
      rw [hal]; simp
    rw [if_neg hlen]
    by_cases hc : mine.is_const_operand = true
    · rw [if_pos hc, hal]
      dsimp only [List.cons_append]
      by_cases hf : first.is_const_operand = true
      · refine ⟨s, by simp [hf], ?_, ?_⟩
        · simp only [hc, if_true]
          have hal' : first :: (pre1 ++ [mine])
              = s.access_list mine.mirrored_object_id := by rw [hal]; rfl
          rw [hal', Function.update_eq_self]
        · have : linkSources (first :: pre1) mine = [] := by
            simp [linkSources, hc, hf]
          rw [this]
          exact EdgesAdded_refl s n
      · obtain ⟨s1, h1, hal1, he1⟩ := ConnectInstruction_spec first.instr_chain n s (hsym _ _)
        refine ⟨s1, by simp [hf, h1], ?_, ?_⟩
        · simp only [hc, if_true]
          have hal' : first :: (pre1 ++ [mine])
              = s.access_list mine.mirrored_object_id := by rw [hal]; rfl
          rw [hal', Function.update_eq_self, hal1]
        · have : linkSources (first :: pre1) mine = [first.instr_chain] := by
            simp [linkSources, hc, hf]
          rw [this]
          exact he1
    · rw [if_neg hc, hal]
      obtain ⟨s1, h1, hal1, he1⟩ := ConsumeMirroredObjects_linkWrite_spec n mine
        (first :: pre1) [] s hsym hpre hal
      refine ⟨s1, h1, ?_, ?_⟩
      · rw [hal1]; simp [hc]
      · have : linkSources (first :: pre1) mine
            = (first :: pre1).map MirroredObjectAccess.instr_chain := by
          simp [linkSources, hc]
        rw [this]
        exact he1

theorem ConsumeMirroredObjects_linkAll_spec (n : Nat)
    (old : MirroredObjectId → List MirroredObjectAccess) (accs : List MirroredObjectAccess)
    (s : Scheduler) (hsym : EdgeSym s)
    (hnd : (accs.map MirroredObjectAccess.mirrored_object_id).Nodup)
    (hal : ∀ mine ∈ accs, s.access_list mine.mirrored_object_id
        = old mine.mirrored_object_id ++ [mine] ∧ mine ∉ old mine.mirrored_object_id) :
    ∃ s1, ConsumeMirroredObjects.linkAll n accs s = some s1
      ∧ (∀ mine ∈ accs, s1.access_list mine.mirrored_object_id
          = if mine.is_const_operand then old mine.mirrored_object_id ++ [mine] else [mine])
      ∧ (∀ obj, obj ∉ accs.map MirroredObjectAccess.mirrored_object_id →
          s1.access_list obj = s.access_list obj)
      ∧ EdgesAdded s s1 n
          (accs.flatMap (fun mine => linkSources (old mine.mirrored_object_id) mine)) := by
  induction accs generalizing s with
  | nil =>
    exact ⟨s, rfl, fun _ h => absurd h (List.not_mem_nil _), fun _ _ => rfl,
      EdgesAdded_refl s n⟩
  | cons mine rest ih =>
    rw [List.map_cons, List.nodup_cons] at hnd
    obtain ⟨hal0, hpre0⟩ := hal mine (List.mem_cons_self _ _)
    obtain ⟨s2, h2, hal2, he2⟩ := ConsumeMirroredObjects_link_spec n s mine
      (old mine.mirrored_object_id) hsym hpre0 hal0
    have hne : ∀ m1 ∈ rest, m1.mirrored_object_id ≠ mine.mirrored_object_id := by
      intro m1 hm1 heq
      exact hnd.1 (heq ▸ List.mem_map_of_mem _ hm1)
    have hal' : ∀ m1 ∈ rest, s2.access_list m1.mirrored_object_id
        = old m1.mirrored_object_id ++ [m1] ∧ m1 ∉ old m1.mirrored_object_id := by
      intro m1 hm1
      rw [hal2, Function.update_noteq (hne m1 hm1)]
      exact hal m1 (List.mem_cons_of_mem _ hm1)
    obtain ⟨s1, h1, a1, b1, e1⟩ := ih s2 (EdgesAdded_sym he2 hsym) hnd.2 hal'
    refine ⟨s1, ?_, ?_, ?_, ?_⟩
    · simp only [ConsumeMirroredObjects.linkAll, h2]
      exact h1
    · intro m1 hm1
      rcases List.mem_cons.mp hm1 with rfl | hm1
      · rw [b1 _ hnd.1, hal2, Function.update_same]
      · exact a1 m1 hm1
    · intro obj hobj
      rw [List.map_cons, List.mem_cons, not_or] at hobj
      rw [b1 obj hobj.2, hal2, Function.update_noteq hobj.1]
    · rw [List.flatMap_cons]
      exact EdgesAdded_trans he2 e1


/-! ## Registration of the accesses of a new chain -/

theorem Registered_init (s : Scheduler) (n : Nat) (m : InstructionMsg)
    (h : s.instr_ctx_list n = [{ instr_msg := m, mirrored_object_id2access := [] }]) :
    Registered s s n m [] :=
  { ctx := h, nodup := List.nodup_nil, own := fun _ ha => absurd ha (List.not_mem_nil _),
    al := fun _ => by simp, others := fun _ _ => rfl, frame := FrameAccess_refl s }

theorem ConsumeMirroredObject_registered (t : OperandAccessType) (s0 s : Scheduler) (n : Nat)
    (m : InstructionMsg) (accs : List MirroredObjectAccess) (obj : MirroredObjectId)
    (h : Registered s0 s n m accs) :
    ∃ accs1, Registered s0 (ConsumeMirroredObject t n s obj) n m accs1 := by
  unfold ConsumeMirroredObject
  rw [h.ctx]
  dsimp only
  by_cases hany : (accs.any (fun a => decide (a.mirrored_object_id = obj))) = true
  · refine ⟨accs, ?_⟩
    simp only [hany, Bool.not_true, Bool.false_eq_true, if_false]
    exact h
  · have hany' : (accs.any (fun a => decide (a.mirrored_object_id = obj))) = false := by
      simpa using hany
    have hnot : ∀ a ∈ accs, a.mirrored_object_id ≠ obj := by
      intro a ha heq
      apply hany
      rw [List.any_eq_true]
      exact ⟨a, ha, by simpa using heq⟩
    refine ⟨accs ++ [MirroredObjectAccess.mk n obj
      (decide (t = OperandAccessType.kConstOperandAccess))], ?_⟩
    simp only [hany', Bool.not_false, if_true]
    constructor
    · simp
    · rw [List.map_append, List.nodup_append]
      refine ⟨h.nodup, by simp, ?_⟩
      intro x hx1 hx2
      simp only [List.map_cons, List.map_nil, List.mem_singleton] at hx2
      subst hx2
      obtain ⟨a, ha, hao⟩ := List.mem_map.mp hx1
      exact hnot a ha hao
    · intro a ha
      rcases List.mem_append.mp ha with ha | ha
      · exact h.own a ha
      · simp only [List.mem_singleton] at ha
        subst ha
        rfl
    · intro o
      by_cases ho : o = obj
      · subst ho
        simp [h.al o, List.filter_append]
      · have ho' : obj ≠ o := fun hx => ho hx.symm
        simp [Function.update_noteq ho, h.al o, List.filter_append, ho']
    · intro c hc
      simp only [Function.update_noteq hc]
      exact h.others c hc
    · exact FrameAccess_trans h.frame (by constructor <;> rfl)

theorem ConsumeMirroredObject_foldl_registered (t : OperandAccessType) (s0 : Scheduler)
    (n : Nat) (m : InstructionMsg) (objs : List MirroredObjectId) (s : Scheduler)
    (accs : List MirroredObjectAccess) (h : Registered s0 s n m accs) :
    ∃ accs1, Registered s0 (objs.foldl (ConsumeMirroredObject t n) s) n m accs1 := by
  induction objs generalizing s accs with
  | nil => exact ⟨accs, h⟩
  | cons o rest ih =>
    obtain ⟨accs1, h1⟩ := ConsumeMirroredObject_registered t s0 s n m accs o h
    exact ih _ accs1 h1

theorem ConsumeMirroredObjects_mutPass_registered (env : VmEnv) (it : InterpretType)
    (pid : Int) (s0 : Scheduler) (n : Nat) (m : InstructionMsg)
    (ops : List InstructionOperand) (s s1 : Scheduler) (accs : List MirroredObjectAccess)
    (h : Registered s0 s n m accs)
    (hp : ConsumeMirroredObjects.mutPass env it pid n ops s = some s1) :
    ∃ accs1, Registered s0 s1 n m accs1 := by
  induction ops generalizing s accs with
  | nil =>
    simp only [ConsumeMirroredObjects.mutPass, Option.some.injEq] at hp
    subst hp
    exact ⟨accs, h⟩
  | cons op rest ih =>
    cases op <;> simp only [ConsumeMirroredObjects.mutPass] at hp
    case mutable_operand o =>
      split at hp
      · exact absurd hp (by simp)
      · obtain ⟨accs1, h1⟩ := ConsumeMirroredObject_foldl_registered _ s0 n m _ s accs h
        exact ih _ accs1 h1 hp
    case mut2_operand o =>
      split at hp
      · exact absurd hp (by simp)
      · obtain ⟨accs1, h1⟩ := ConsumeMirroredObject_foldl_registered _ s0 n m _ s accs h
        exact ih _ accs1 h1 hp
    all_goals exact ih _ accs h hp

theorem ConsumeMirroredObjects_constPass_registered (env : VmEnv) (it : InterpretType)
    (pid : Int) (s0 : Scheduler) (n : Nat) (m : InstructionMsg)
    (ops : List InstructionOperand) (s s1 : Scheduler) (accs : List MirroredObjectAccess)
    (h : Registered s0 s n m accs)
    (hp : ConsumeMirroredObjects.constPass env it pid n ops s = some s1) :
    ∃ accs1, Registered s0 s1 n m accs1 := by
  induction ops generalizing s accs with
  | nil =>
    simp only [ConsumeMirroredObjects.constPass, Option.some.injEq] at hp
    subst hp
    exact ⟨accs, h⟩
  | cons op rest ih =>
    cases op <;> simp only [ConsumeMirroredObjects.constPass] at hp
    case const_operand o =>
      split at hp
      · exact absurd hp (by simp)
      · obtain ⟨accs1, h1⟩ := ConsumeMirroredObject_foldl_registered _ s0 n m _ s accs h
        exact ih _ accs1 h1 hp
    case mutable_operand o =>
      split at hp
      · exact absurd hp (by simp)
      · obtain ⟨accs1, h1⟩ := ConsumeMirroredObject_foldl_registered _ s0 n m _ s accs h
        exact ih _ accs1 h1 hp
    all_goals exact ih _ accs h hp

theorem Registered_filter (s0 s : Scheduler) (n : Nat) (m : InstructionMsg)
    (accs : List MirroredObjectAccess) (h : Registered s0 s n m accs) :
    (∀ mine ∈ accs, s.access_list mine.mirrored_object_id
        = s0.access_list mine.mirrored_object_id ++ [mine])
      ∧ (∀ obj, obj ∉ accs.map MirroredObjectAccess.mirrored_object_id →
          s.access_list obj = s0.access_list obj) := by
  constructor
  · intro mine hm
    rw [h.al]
    congr 1
    have hnd := h.nodup
    clear h
    induction accs with
    | nil => exact absurd hm (List.not_mem_nil _)
    | cons a rest ih =>
      rw [List.map_cons, List.nodup_cons] at hnd
      rcases List.mem_cons.mp hm with rfl | hm
      · have : rest.filter (fun a => decide (a.mirrored_object_id = mine.mirrored_object_id))
            = [] := by
          rw [List.filter_eq_nil_iff]
          intro b hb hbo
          exact hnd.1 (by
            have : b.mirrored_object_id = mine.mirrored_object_id := by simpa using hbo
            rw [← this]; exact List.mem_map_of_mem _ hb)
        simp [List.filter_cons, this]
      · have hne : a.mirrored_object_id ≠ mine.mirrored_object_id := by
          intro heq
          exact hnd.1 (heq ▸ List.mem_map_of_mem _ hm)
        simp only [List.filter_cons, hne, decide_False, Bool.false_eq_true, if_false]
        exact ih hm hnd.2
  · intro obj hobj
    rw [h.al]
    have : accs.filter (fun a => decide (a.mirrored_object_id = obj)) = [] := by
      rw [List.filter_eq_nil_iff]
      intro b hb hbo
      exact hobj (by
        have : b.mirrored_object_id = obj := by simpa using hbo
        rw [← this]; exact List.mem_map_of_mem _ hb)
    rw [this, List.append_nil]

/-- What the body of the loop of `ConsumeMirroredObjects` does for a new chain `n` without
accesses: once the two registration passes have returned, linking returns too; the chain
holds accesses `accs`, at most one for a mirrored object; the access list of the object of a
const access is the former list followed by the access, that of a mutable access is the
access alone and the other access lists are as before; and the edges added are those
given by `linkSources` on the former lists. -/
theorem ConsumeMirroredObjects_chain_spec (env : VmEnv) (s : Scheduler) (n : Nat)
    (m : InstructionMsg) (hsym : EdgeSym s)
    (hctx : s.instr_ctx_list n = [{ instr_msg := m, mirrored_object_id2access := [] }])
    (hfresh : ∀ obj, ∀ a ∈ s.access_list obj, a.instr_chain ≠ n) :
    (∀ s1 s2,
        ConsumeMirroredObjects.mutPass env (s.chain_stream n).stream_type_id.interpret_type
          (s.chain_stream n).parallel_id n m.operand s = some s1 →
        ConsumeMirroredObjects.constPass env (s.chain_stream n).stream_type_id.interpret_type
          (s.chain_stream n).parallel_id n m.operand s1 = some s2 →
        ∃ s3, ConsumeMirroredObjects.chain env s n = some s3)
      ∧ ∀ s3, ConsumeMirroredObjects.chain env s n = some s3 →
        ∃ accs, s3.instr_ctx_list n = [{ instr_msg := m, mirrored_object_id2access := accs }]
          ∧ (accs.map MirroredObjectAccess.mirrored_object_id).Nodup
          ∧ (∀ a ∈ accs, a.instr_chain = n)
          ∧ (∀ c, c ≠ n → s3.instr_ctx_list c = s.instr_ctx_list c)
          ∧ (∀ mine ∈ accs, s3.access_list mine.mirrored_object_id
              = if mine.is_const_operand then s.access_list mine.mirrored_object_id ++ [mine]
                else [mine])
          ∧ (∀ obj, obj ∉ accs.map MirroredObjectAccess.mirrored_object_id →
              s3.access_list obj = s.access_list obj)
          ∧ EdgesAdded s s3 n
              (accs.flatMap
                (fun mine => linkSources (s.access_list mine.mirrored_object_id) mine)) := by
  have key : ∀ s1 s2,
      ConsumeMirroredObjects.mutPass env (s.chain_stream n).stream_type_id.interpret_type
        (s.chain_stream n).parallel_id n m.operand s = some s1 →
      ConsumeMirroredObjects.constPass env (s.chain_stream n).stream_type_id.interpret_type
        (s.chain_stream n).parallel_id n m.operand s1 = some s2 →
      ∃ accs s3, ConsumeMirroredObjects.chain env s n = some s3
        ∧ s3.instr_ctx_list n = [{ instr_msg := m, mirrored_object_id2access := accs }]
        ∧ (accs.map MirroredObjectAccess.mirrored_object_id).Nodup
        ∧ (∀ a ∈ accs, a.instr_chain = n)
        ∧ (∀ c, c ≠ n → s3.instr_ctx_list c = s.instr_ctx_list c)
        ∧ (∀ mine ∈ accs, s3.access_list mine.mirrored_object_id
            = if mine.is_const_operand then s.access_list mine.mirrored_object_id ++ [mine]
              else [mine])
        ∧ (∀ obj, obj ∉ accs.map MirroredObjectAccess.mirrored_object_id →
            s3.access_list obj = s.access_list obj)
        ∧ EdgesAdded s s3 n
            (accs.flatMap
              (fun mine => linkSources (s.access_list mine.mirrored_object_id) mine)) := by
    intro s1 s2 h1 h2
    obtain ⟨accs1, r1⟩ := ConsumeMirroredObjects_mutPass_registered env _ _ s n m _ s s1 []
      (Registered_init s n m hctx) h1
    obtain ⟨accs, r2⟩ := ConsumeMirroredObjects_constPass_registered env _ _ s n m _ s1 s2
      accs1 r1 h2
    obtain ⟨f1, f2⟩ := Registered_filter s s2 n m accs r2
    have hsym2 : EdgeSym s2 := by
      intro c d
      rw [r2.frame.out_edges, r2.frame.in_edges]
      exact hsym c d
    have hal : ∀ mine ∈ accs, s2.access_list mine.mirrored_object_id
        = s.access_list mine.mirrored_object_id ++ [mine]
          ∧ mine ∉ s.access_list mine.mirrored_object_id := by
      intro mine hm
      exact ⟨f1 mine hm, fun hx => hfresh _ mine hx (r2.own mine hm)⟩
    obtain ⟨s3, h3, a3, b3, e3⟩ := ConsumeMirroredObjects_linkAll_spec n s.access_list accs s2
      hsym2 r2.nodup hal
    have fr3 := ConsumeMirroredObjects_linkAll_frame _ _ _ _ h3
    refine ⟨accs, s3, ?_, ?_, r2.nodup, r2.own, ?_, a3, ?_, ?_⟩
    · unfold ConsumeMirroredObjects.chain
      simp only [hctx, h1, h2, r2.ctx, h3]
    · rw [fr3.instr_ctx_list, r2.ctx]
    · intro c hc
      rw [fr3.instr_ctx_list]
      exact r2.others c hc
    · intro obj hobj
      rw [b3 obj hobj, f2 obj hobj]
    · constructor
      · intro d x
        rw [e3.in_edges, r2.frame.in_edges]
      · intro c x
        rw [e3.out_edges, r2.frame.out_edges]
      · intro d hd
        exact e3.in_nodup d (by rw [r2.frame.in_edges]; exact hd)
      · intro c hc
        exact e3.out_nodup c (by rw [r2.frame.out_edges]; exact hc)
  constructor
  · intro s1 s2 h1 h2
    obtain ⟨_, s3, h3, _⟩ := key s1 s2 h1 h2
    exact ⟨s3, h3⟩
  · intro s3 h3
    have h3' := h3
    unfold ConsumeMirroredObjects.chain at h3'
    simp only [hctx] at h3'
    split at h3'
    · exact absurd h3' (by simp)
    · rename_i s1 h1
      split at h3'
      · exact absurd h3' (by simp)
      · rename_i s2 h2
        obtain ⟨accs, s3', h4, rest⟩ := key s1 s2 h1 h2
        rw [h3] at h4
        simp only [Option.some.injEq] at h4
        subst h4
        exact ⟨accs, rest⟩


theorem mem_linkSources (pre : List MirroredObjectAccess) (mine : MirroredObjectAccess)
    (hwf : AccessListWf pre) (c : Nat) :
    c ∈ linkSources pre mine ↔ ∃ a ∈ pre, a.instr_chain = c
      ∧ (a.is_const_operand = false ∨ mine.is_const_operand = false) := by
  unfold linkSources
  by_cases hm : mine.is_const_operand = true
  · rw [if_pos hm]
    cases pre with
    | nil => simp
    | cons first rest =>
      have hrest : ∀ a ∈ rest, a.is_const_operand = true := hwf
      by_cases hf : first.is_const_operand = true
      · simp only [hf, if_true, List.not_mem_nil, false_iff]
        rintro ⟨a, ha, _, hx⟩
        rcases hx with hx | hx
        · rcases List.mem_cons.mp ha with rfl | ha
          · rw [hf] at hx; exact absurd hx (by simp)
          · rw [hrest a ha] at hx; exact absurd hx (by simp)
        · rw [hm] at hx; exact absurd hx (by simp)
      · have hf' : first.is_const_operand = false := by simpa using hf
        simp only [hf', Bool.false_eq_true, if_false, List.mem_singleton]
        constructor
        · rintro rfl
          exact ⟨first, List.mem_cons_self _ _, rfl, Or.inl hf'⟩
        · rintro ⟨a, ha, hc, hx⟩
          rcases List.mem_cons.mp ha with rfl | ha
          · exact hc.symm
          · rcases hx with hx | hx
            · rw [hrest a ha] at hx; exact absurd hx (by simp)
            · rw [hm] at hx; exact absurd hx (by simp)
  · have hm' : mine.is_const_operand = false := by simpa using hm
    rw [if_neg hm]
    simp only [List.mem_map]
    constructor
    · rintro ⟨a, ha, hc⟩
      exact ⟨a, ha, hc, Or.inr hm'⟩
    · rintro ⟨a, ha, hc, _⟩
      exact ⟨a, ha, hc⟩

/-- C5: data-flow ordering.  Let `n` be a new chain without accesses and edges, in a
scheduler with symmetric edge sets and well-formed access lists none of which holds an
access of `n`.  Once the registration passes have returned, linking returns; and after it,
for every access `mine` of `n` and every access `a` that was on the access list of the
mirrored object of `mine`, `n` has an in-edge from the chain of `a` whenever `a` or `mine`
is mutable; and every in-edge of `n` comes from such a pair, so none is due to two const
accesses. -/
theorem ConsumeMirroredObjects_chain_data_flow (env : VmEnv) (s : Scheduler) (n : Nat)
    (m : InstructionMsg) (hsym : EdgeSym s)
    (hwf : ∀ obj, AccessListWf (s.access_list obj))
    (hctx : s.instr_ctx_list n = [{ instr_msg := m, mirrored_object_id2access := [] }])
    (hfresh : ∀ obj, ∀ a ∈ s.access_list obj, a.instr_chain ≠ n)
    (hin : s.in_edges n = []) :
    (∀ s1 s2,
        ConsumeMirroredObjects.mutPass env (s.chain_stream n).stream_type_id.interpret_type
          (s.chain_stream n).parallel_id n m.operand s = some s1 →
        ConsumeMirroredObjects.constPass env (s.chain_stream n).stream_type_id.interpret_type
          (s.chain_stream n).parallel_id n m.operand s1 = some s2 →
        ∃ s3, ConsumeMirroredObjects.chain env s n = some s3)
      ∧ ∀ s3, ConsumeMirroredObjects.chain env s n = some s3 →
        ∃ accs, s3.instr_ctx_list n = [{ instr_msg := m, mirrored_object_id2access := accs }]
          ∧ (∀ mine ∈ accs, ∀ a ∈ s.access_list mine.mirrored_object_id,
              (a.is_const_operand = false ∨ mine.is_const_operand = false) →
                a.instr_chain ∈ s3.in_edges n ∧ n ∈ s3.out_edges a.instr_chain)
          ∧ (∀ c ∈ s3.in_edges n, ∃ mine ∈ accs, ∃ a ∈ s.access_list mine.mirrored_object_id,
              a.instr_chain = c
                ∧ (a.is_const_operand = false ∨ mine.is_const_operand = false)) := by
  obtain ⟨h1, h2⟩ := ConsumeMirroredObjects_chain_spec env s n m hsym hctx hfresh
  refine ⟨h1, ?_⟩
  intro s3 h3
  obtain ⟨accs, hc, _, _, _, _, _, he⟩ := h2 s3 h3
  refine ⟨accs, hc, ?_, ?_⟩
  · intro mine hm a ha hx
    have hmem : a.instr_chain ∈ accs.flatMap
        (fun mine => linkSources (s.access_list mine.mirrored_object_id) mine) := by
      rw [List.mem_flatMap]
      exact ⟨mine, hm, (mem_linkSources _ mine (hwf _) _).mpr ⟨a, ha, rfl, hx⟩⟩
    exact ⟨(he.in_edges n _).mpr (Or.inr ⟨rfl, hmem⟩),
      (he.out_edges _ n).mpr (Or.inr ⟨rfl, hmem⟩)⟩
  · intro c hcin
    rcases (he.in_edges n c).mp hcin with hx | ⟨_, hx⟩
    · rw [hin] at hx
      exact absurd hx (List.not_mem_nil _)
    · rw [List.mem_flatMap] at hx
      obtain ⟨mine, hm, hx⟩ := hx
      obtain ⟨a, ha, hac, hor⟩ := (mem_linkSources _ mine (hwf _) c).mp hx
      exact ⟨mine, hm, a, ha, hac, hor⟩

theorem test_link_state_linked_eq :
    ConsumeMirroredObjects.chain (test.env false) test.link_state 1
      = some test.link_state_linked := by
  rfl

theorem test_link_state_wf : ∀ obj, AccessListWf (test.link_state.access_list obj) := by
  intro obj a ha
  simp only [test.link_state] at ha
  split at ha <;> simp at ha

/-- Witness of C5: chain 1 reads the mirrored object (19055, 0), on whose access list the
mutable access of chain 0 is pending, and gets an in-edge from chain 0, its only one. -/
theorem ConsumeMirroredObjects_chain_data_flow_witness :
    test.link_state_linked.in_edges 1 = [0]
      ∧ ∃ accs, test.link_state_linked.instr_ctx_list 1
          = [{ instr_msg := test.nop_mut_instr_msg 9527, mirrored_object_id2access := accs }]
        ∧ (∀ mine ∈ accs, ∀ a ∈ test.link_state.access_list mine.mirrored_object_id,
            (a.is_const_operand = false ∨ mine.is_const_operand = false) →
              a.instr_chain ∈ test.link_state_linked.in_edges 1
                ∧ 1 ∈ test.link_state_linked.out_edges a.instr_chain)
        ∧ (∀ c ∈ test.link_state_linked.in_edges 1,
            ∃ mine ∈ accs, ∃ a ∈ test.link_state.access_list mine.mirrored_object_id,
              a.instr_chain = c
                ∧ (a.is_const_operand = false ∨ mine.is_const_operand = false)) :=
  ⟨by decide, (ConsumeMirroredObjects_chain_data_flow (test.env false) test.link_state 1
    (test.nop_mut_instr_msg 9527)
    (fun c d => ⟨fun h => absurd (show d ∈ ([] : List Nat) from h) (List.not_mem_nil _),
      fun h => absurd (show c ∈ ([] : List Nat) from h) (List.not_mem_nil _)⟩)
    test_link_state_wf rfl
    (by
      intro obj a ha
      simp only [test.link_state] at ha
      split at ha
      · simp only [List.mem_singleton] at ha
        subst ha
        decide
      · exact absurd ha (List.not_mem_nil _))
    rfl).2 test.link_state_linked test_link_state_linked_eq⟩


/-! ## The invariants are kept: release phase -/

theorem GraphInv_congr {s s1 : Scheduler} {ready new : List Nat} (h : GraphInv s ready new)
    (hw : s1.waiting_instr_chain_list = s.waiting_instr_chain_list)
    (hr : s1.running_chain_list = s.running_chain_list)
    (hcs : s1.chain_stream = s.chain_stream)
    (hn : s1.next_chain_id = s.next_chain_id)
    (hi : s1.in_edges = s.in_edges) (ho : s1.out_edges = s.out_edges)
    (hd : s1.done = s.done) (hp : s1.pending_chain_list = s.pending_chain_list)
    (htc : s1.thread_ctx = s.thread_ctx)
    (hal : ∀ obj a, a ∈ s1.access_list obj → a ∈ s.access_list obj) :
    GraphInv s1 ready new := by
  constructor
  · rw [hw]; exact h.nodup
  · rw [hr]; exact h.running_nodup
  · rw [hr, hcs]; exact h.running_stream
  · rw [hr, hw]; exact h.running_disjoint
  · rw [hw, hn]; exact h.lt_next
  · rw [hr, hn]; exact h.running_lt_next
  · rw [hi, hn]; exact h.edge_lt_next
  · intro obj a ha; rw [hn]; exact h.access_lt_next obj a (hal obj a ha)
  · intro c d; rw [ho, hi]; exact h.sym c d
  · rw [hi]; exact h.in_nodup
  · rw [ho]; exact h.out_nodup
  · rw [hi, hw]; exact h.dst_waiting
  · rw [hi, hw]; exact h.waiting_in
  · rw [hw, hd]; exact h.not_done
  · rw [hp, hd, hr, hcs, htc]; exact h.pending

theorem AccessListWf_sublist {l l1 : List MirroredObjectAccess} (h : l1.Sublist l)
    (hwf : AccessListWf l) : AccessListWf l1 := by
  induction h with
  | slnil => exact hwf
  | cons a hs ih =>
    rename_i l2 l3
    apply ih
    intro b hb
    cases l3 with
    | nil => exact absurd hb (List.not_mem_nil _)
    | cons x rest =>
      exact hwf b (List.mem_of_mem_tail hb)
  | cons₂ a hs _ =>
    rename_i l2 l3
    intro b hb
    exact hwf b (hs.subset hb)

theorem ReleaseInstruction_releaseAccess_mem (s : Scheduler) (a : MirroredObjectAccess)
    (obj : MirroredObjectId) :
    ((ReleaseInstruction.releaseAccess s a).access_list obj).Sublist (s.access_list obj) := by
  unfold ReleaseInstruction.releaseAccess
  split
  · by_cases ho : obj = a.mirrored_object_id
    · subst ho
      simp only [Function.update_same]
      exact List.erase_sublist _ _
    · simp only [Function.update_noteq ho]
      exact List.Sublist.refl _
  · exact List.Sublist.refl _

theorem ReleaseInstruction_releaseAccesses_mem (c : Nat) (s : Scheduler)
    (obj : MirroredObjectId) :
    ((ReleaseInstruction.releaseAccesses c s).access_list obj).Sublist
      (s.access_list obj) := by
  unfold ReleaseInstruction.releaseAccesses
  dsimp only
  have hrefl : ∀ s : Scheduler, (s.access_list obj).Sublist (s.access_list obj) :=
    fun _ => List.Sublist.refl _
  have htrans : ∀ s s1 s2 : Scheduler, (s1.access_list obj).Sublist (s.access_list obj) →
      (s2.access_list obj).Sublist (s1.access_list obj) →
      (s2.access_list obj).Sublist (s.access_list obj) := fun _ _ _ h1 h2 => h2.trans h1
  exact foldl_rel (fun s s1 => (s1.access_list obj).Sublist (s.access_list obj)) hrefl htrans _
    (fun s1 ctx => foldl_rel
      (fun s s1 => (s1.access_list obj).Sublist (s.access_list obj)) hrefl htrans _
      (fun s2 a => ReleaseInstruction_releaseAccess_mem s2 a obj) _ s1) _ s

theorem ReleaseInstruction_releaseAccesses_ctx (c : Nat) (s : Scheduler) (d : Nat) :
    (ReleaseInstruction.releaseAccesses c s).instr_ctx_list d
      = if d = c then (s.instr_ctx_list c).map
          (fun instr_ctx => { instr_ctx with mirrored_object_id2access := [] })
        else s.instr_ctx_list d := by
  have h : ((s.instr_ctx_list c).foldl
      (fun acc instr_ctx =>
        instr_ctx.mirrored_object_id2access.foldl ReleaseInstruction.releaseAccess acc)
      s).instr_ctx_list = s.instr_ctx_list := by
    have := foldl_rel (fun s s1 : Scheduler => s1.instr_ctx_list = s.instr_ctx_list)
      (fun _ => rfl) (fun _ _ _ h1 h2 => h2.trans h1)
      (fun acc (instr_ctx : InstrCtx) =>
        instr_ctx.mirrored_object_id2access.foldl ReleaseInstruction.releaseAccess acc)
      (fun s1 ctx => foldl_rel (fun s s1 : Scheduler => s1.instr_ctx_list = s.instr_ctx_list)
        (fun _ => rfl) (fun _ _ _ h1 h2 => h2.trans h1) ReleaseInstruction.releaseAccess
        (fun s2 a => by unfold ReleaseInstruction.releaseAccess; split <;> rfl) _ s1)
      (s.instr_ctx_list c) s
    exact this
  unfold ReleaseInstruction.releaseAccesses
  dsimp only
  rw [h]
  by_cases hd : d = c
  · subst hd; simp
  · simp [Function.update_noteq hd, hd]

theorem ReleaseInstruction_releaseAccesses_inv (c : Nat) (s : Scheduler)
    (ready new : List Nat) (k : Nat) (hg : GraphInv s ready new) (ho : OrderInv s k) :
    GraphInv (ReleaseInstruction.releaseAccesses c s) ready new
      ∧ OrderInv (ReleaseInstruction.releaseAccesses c s) k := by
  have fr := ReleaseInstruction_releaseAccesses_frame c s
  have hsub := ReleaseInstruction_releaseAccesses_mem c s
  constructor
  · exact GraphInv_congr hg fr.waiting_instr_chain_list fr.running_chain_list fr.chain_stream
      fr.next_chain_id fr.in_edges fr.out_edges fr.done fr.pending_chain_list fr.thread_ctx
      (fun obj a ha => (hsub obj).subset ha)
  · constructor
    · intro obj
      exact AccessListWf_sublist (hsub obj) (ho.wf obj)
    · intro obj a ha
      exact ho.access_lt obj a ((hsub obj).subset ha)
    · rw [fr.in_edges]; exact ho.edge_lt
    · intro d hd1 hd2
      rw [fr.next_chain_id] at hd2
      obtain ⟨m, hm⟩ := ho.fresh d hd1 hd2
      rw [ReleaseInstruction_releaseAccesses_ctx]
      split
      · rename_i hdc
        subst hdc
        exact ⟨m, by rw [hm]; rfl⟩
      · exact ⟨m, hm⟩


theorem ReleaseInstruction_releaseEdge_eq (c d : Nat) (s : Scheduler) (ready : List Nat) :
    ReleaseInstruction.releaseEdge c (s, ready) d
      = ({ s with
            in_edges := (Function.update s.in_edges d ((s.in_edges d).erase c)),
            out_edges := (Function.update s.out_edges c ((s.out_edges c).erase d)),
            waiting_instr_chain_list :=
              (if (s.in_edges d).erase c = [] then s.waiting_instr_chain_list.erase d
               else s.waiting_instr_chain_list) },
          if (s.in_edges d).erase c = [] then ready ++ [d] else ready) := by
  unfold ReleaseInstruction.releaseEdge
  dsimp only
  by_cases h : (s.in_edges d).erase c = []
  · simp [h]
  · have h' : ((s.in_edges d).erase c).isEmpty = false := by
      cases hl : (s.in_edges d).erase c with
      | nil => exact absurd hl h
      | cons _ _ => rfl
    simp [h, h']

theorem ReleaseInstruction_releaseEdge_inv (c d : Nat) (s : Scheduler) (ready : List Nat)
    (k : Nat) (hg : GraphInv s ready []) (ho : OrderInv s k) (hd : d ∈ s.out_edges c) :
    GraphInv (ReleaseInstruction.releaseEdge c (s, ready) d).1
        (ReleaseInstruction.releaseEdge c (s, ready) d).2 []
      ∧ OrderInv (ReleaseInstruction.releaseEdge c (s, ready) d).1 k
      ∧ (ReleaseInstruction.releaseEdge c (s, ready) d).1.out_edges c
          = (s.out_edges c).erase d
      ∧ (ReleaseInstruction.releaseEdge c (s, ready) d).1.running_chain_list
          = s.running_chain_list
      ∧ (ReleaseInstruction.releaseEdge c (s, ready) d).1.done = s.done := by
  rw [ReleaseInstruction_releaseEdge_eq]
  dsimp only
  have hcin : c ∈ s.in_edges d := (hg.sym c d).mp hd
  have hdw : d ∈ s.waiting_instr_chain_list := by
    rcases hg.dst_waiting c d hcin with h | h
    · exact h
    · exact absurd h (List.not_mem_nil _)
  have hnd := hg.nodup
  simp only [List.append_nil] at hnd
  rw [List.nodup_append] at hnd
  obtain ⟨hwn, hrn, hdis⟩ := hnd
  have hdr : d ∉ ready := fun h => hdis hdw h
  have hin_erase : ∀ x y, x ∈ Function.update s.in_edges d ((s.in_edges d).erase c) y →
      x ∈ s.in_edges y := by
    intro x y hx
    by_cases hy : y = d
    · subst hy
      rw [Function.update_same] at hx
      exact List.mem_of_mem_erase hx
    · rwa [Function.update_noteq hy] at hx
  have hmemw : ∀ x, x ∈ (if (s.in_edges d).erase c = [] then s.waiting_instr_chain_list.erase d
      else s.waiting_instr_chain_list) → x ∈ s.waiting_instr_chain_list := by
    intro x hx
    split at hx
    · exact List.mem_of_mem_erase hx
    · exact hx
  have hmemr : ∀ x, x ∈ (if (s.in_edges d).erase c = [] then ready ++ [d] else ready) →
      x ∈ ready ∨ x = d := by
    intro x hx
    split at hx
    · rcases List.mem_append.mp hx with h | h
      · exact Or.inl h
      · exact Or.inr (List.mem_singleton.mp h)
    · exact Or.inl hx
  have hall : ∀ x, x ∈ (if (s.in_edges d).erase c = [] then s.waiting_instr_chain_list.erase d
      else s.waiting_instr_chain_list)
        ++ ((if (s.in_edges d).erase c = [] then ready ++ [d] else ready) ++ []) →
      x ∈ s.waiting_instr_chain_list ++ (ready ++ []) := by
    intro x hx
    simp only [List.append_nil] at hx ⊢
    rcases List.mem_append.mp hx with h | h
    · exact List.mem_append_left _ (hmemw x h)
    · rcases hmemr x h with h | h
      · exact List.mem_append_right _ h
      · exact List.mem_append_left _ (h ▸ hdw)
  refine ⟨?_, ?_, by simp, rfl, rfl⟩
  · constructor
    · dsimp only
      simp only [List.append_nil]
      split
      · rw [List.nodup_append]
        refine ⟨hwn.erase d, ?_, ?_⟩
        · rw [List.nodup_append]
          exact ⟨hrn, List.nodup_singleton d, by
            intro x hx1 hx2
            rw [List.mem_singleton] at hx2
            exact hdr (hx2 ▸ hx1)⟩
        · intro x hx1 hx2
          rw [hwn.mem_erase_iff] at hx1
          rcases List.mem_append.mp hx2 with h | h
          · exact hdis hx1.2 h
          · exact hx1.1 (List.mem_singleton.mp h)
      · rw [List.nodup_append]
        exact ⟨hwn, hrn, hdis⟩
    · exact hg.running_nodup
    · exact hg.running_stream
    · intro st x hx hmem
      exact hg.running_disjoint st x hx (hall x hmem)
    · intro x hx
      exact hg.lt_next x (hall x hx)
    · exact hg.running_lt_next
    · intro x y hx
      exact hg.edge_lt_next x y (hin_erase x y hx)
    · exact hg.access_lt_next
    · intro x y
      dsimp only
      by_cases hx : x = c <;> by_cases hy : y = d
      · subst hx; subst hy
        simp only [Function.update_same]
        constructor
        · intro h
          exact absurd h (List.Nodup.not_mem_erase (hg.out_nodup x))
        · intro h
          exact absurd h (List.Nodup.not_mem_erase (hg.in_nodup y))
      · subst hx
        simp only [Function.update_same, Function.update_noteq hy]
        rw [List.mem_erase_of_ne hy]
        exact hg.sym x y
      · subst hy
        simp only [Function.update_same, Function.update_noteq hx]
        rw [List.mem_erase_of_ne hx]
        exact hg.sym x y
      · simp only [Function.update_noteq hx, Function.update_noteq hy]
        exact hg.sym x y
    · intro y
      dsimp only
      by_cases hy : y = d
      · subst hy
        rw [Function.update_same]
        exact (hg.in_nodup y).erase c
      · rw [Function.update_noteq hy]
        exact hg.in_nodup y
    · intro x
      dsimp only
      by_cases hx : x = c
      · subst hx
        rw [Function.update_same]
        exact (hg.out_nodup x).erase d
      · rw [Function.update_noteq hx]
        exact hg.out_nodup x
    · intro x y hx
      left
      dsimp only at hx ⊢
      by_cases hy : y = d
      · subst hy
        rw [Function.update_same] at hx
        have hne : (s.in_edges y).erase c ≠ [] := List.ne_nil_of_mem hx
        rw [if_neg hne]
        exact hdw
      · rw [Function.update_noteq hy] at hx
        have hyw : y ∈ s.waiting_instr_chain_list := by
          rcases hg.dst_waiting x y hx with h | h
          · exact h
          · exact absurd h (List.not_mem_nil _)
        split
        · exact (List.mem_erase_of_ne hy).mpr hyw
        · exact hyw
    · intro y hy
      dsimp only at hy ⊢
      by_cases hyd : y = d
      · subst hyd
        rw [Function.update_same]
        split at hy
        · exact absurd hy (List.Nodup.not_mem_erase hwn)
        · assumption
      · rw [Function.update_noteq hyd]
        exact hg.waiting_in y (hmemw y hy)
    · intro x hx
      exact hg.not_done x (hall x hx)
    · exact hg.pending
  · constructor
    · exact ho.wf
    · exact ho.access_lt
    · intro x y hx
      exact ho.edge_lt x y (hin_erase x y hx)
    · exact ho.fresh


theorem OrderInv_congr {s s1 : Scheduler} {k : Nat} (h : OrderInv s k)
    (hal : s1.access_list = s.access_list) (hi : s1.in_edges = s.in_edges)
    (hc : s1.instr_ctx_list = s.instr_ctx_list) (hn : s1.next_chain_id = s.next_chain_id) :
    OrderInv s1 k := by
  constructor
  · rw [hal]; exact h.wf
  · rw [hal]; exact h.access_lt
  · rw [hi]; exact h.edge_lt
  · rw [hc, hn]; exact h.fresh

theorem ReleaseInstruction_foldl_inv (c : Nat) (k : Nat) (l : List Nat) (s : Scheduler)
    (ready : List Nat) (hl : s.out_edges c = l) (hg : GraphInv s ready [])
    (ho : OrderInv s k) :
    GraphInv (l.foldl (ReleaseInstruction.releaseEdge c) (s, ready)).1
        (l.foldl (ReleaseInstruction.releaseEdge c) (s, ready)).2 []
      ∧ OrderInv (l.foldl (ReleaseInstruction.releaseEdge c) (s, ready)).1 k
      ∧ (l.foldl (ReleaseInstruction.releaseEdge c) (s, ready)).1.running_chain_list
          = s.running_chain_list
      ∧ (l.foldl (ReleaseInstruction.releaseEdge c) (s, ready)).1.done = s.done := by
  induction l generalizing s ready with
  | nil => exact ⟨hg, ho, rfl, rfl⟩
  | cons d rest ih =>
    have hd : d ∈ s.out_edges c := by rw [hl]; exact List.mem_cons_self _ _
    obtain ⟨g1, o1, e1, r1, d1⟩ := ReleaseInstruction_releaseEdge_inv c d s ready k hg ho hd
    have hl1 : (ReleaseInstruction.releaseEdge c (s, ready) d).1.out_edges c = rest := by
      rw [e1, hl, List.erase_cons_head]
    obtain ⟨g2, o2, r2, d2⟩ := ih (ReleaseInstruction.releaseEdge c (s, ready) d).1
      (ReleaseInstruction.releaseEdge c (s, ready) d).2 hl1 g1 o1
    simp only [List.foldl_cons]
    exact ⟨g2, o2, r2.trans r1, d2.trans d1⟩

theorem ReleaseInstruction_inv (s : Scheduler) (c : Nat) (ready : List Nat) (k : Nat)
    (hg : GraphInv s ready []) (ho : OrderInv s k) :
    GraphInv (ReleaseInstruction s c ready).1 (ReleaseInstruction s c ready).2 []
      ∧ OrderInv (ReleaseInstruction s c ready).1 k
      ∧ (ReleaseInstruction s c ready).1.running_chain_list = s.running_chain_list
      ∧ (ReleaseInstruction s c ready).1.done = s.done := by
  obtain ⟨g1, o1⟩ := ReleaseInstruction_releaseAccesses_inv c s ready [] k hg ho
  have fr := ReleaseInstruction_releaseAccesses_frame c s
  obtain ⟨g2, o2, r2, d2⟩ := ReleaseInstruction_foldl_inv c k _
    (ReleaseInstruction.releaseAccesses c s) ready rfl g1 o1
  unfold ReleaseInstruction
  dsimp only
  exact ⟨g2, o2, r2.trans fr.running_chain_list, d2.trans fr.done⟩

theorem TryReleaseFinishedInstrChains_loop_inv (stream : StreamId) (k : Nat) (l : List Nat)
    (s : Scheduler) (ready : List Nat) (hl : s.running_chain_list stream = l)
    (hg : GraphInv s ready []) (ho : OrderInv s k) :
    GraphInv (TryReleaseFinishedInstrChains.loop stream l s ready).1
        (TryReleaseFinishedInstrChains.loop stream l s ready).2 []
      ∧ OrderInv (TryReleaseFinishedInstrChains.loop stream l s ready).1 k := by
  induction l generalizing s ready with
  | nil => exact ⟨hg, ho⟩
  | cons c rest ih =>
    unfold TryReleaseFinishedInstrChains.loop
    by_cases hdone : s.done c = true
    · simp only [hdone, if_true]
      obtain ⟨g1, o1, r1, d1⟩ := ReleaseInstruction_inv s c ready k hg ho
      apply ih
      · simp
      · have hrun : (ReleaseInstruction s c ready).1.running_chain_list stream = c :: rest := by
          rw [r1, hl]
        have hnd := g1.running_nodup stream
        rw [hrun, List.nodup_cons] at hnd
        have hsub : ∀ st x, x ∈ Function.update (ReleaseInstruction s c ready).1.running_chain_list
            stream rest st → x ∈ (ReleaseInstruction s c ready).1.running_chain_list st := by
          intro st x hx
          by_cases hst : st = stream
          · subst hst
            rw [Function.update_same] at hx
            rw [hrun]
            exact List.mem_cons_of_mem _ hx
          · rwa [Function.update_noteq hst] at hx
        constructor
        · exact g1.nodup
        · intro st
          dsimp only
          by_cases hst : st = stream
          · subst hst
            rw [Function.update_same]
            exact hnd.2
          · rw [Function.update_noteq hst]
            exact g1.running_nodup st
        · intro st x hx
          exact g1.running_stream st x (hsub st x hx)
        · intro st x hx
          exact g1.running_disjoint st x (hsub st x hx)
        · exact g1.lt_next
        · intro st x hx
          exact g1.running_lt_next st x (hsub st x hx)
        · exact g1.edge_lt_next
        · exact g1.access_lt_next
        · exact g1.sym
        · exact g1.in_nodup
        · exact g1.out_nodup
        · exact g1.dst_waiting
        · exact g1.waiting_in
        · exact g1.not_done
        · intro t x hx
          obtain ⟨hx1, hx2, hx3⟩ := g1.pending t x hx
          refine ⟨hx1, ?_, hx3⟩
          dsimp only
          by_cases hst : (ReleaseInstruction s c ready).1.chain_stream x = stream
          · rw [hst, Function.update_same]
            rw [hst, hrun] at hx2
            rcases List.mem_cons.mp hx2 with h | h
            · subst h
              rw [d1, hdone] at hx1
              exact absurd hx1 (by simp)
            · exact h
          · rw [Function.update_noteq hst]
            exact hx2
      · exact OrderInv_congr o1 rfl rfl rfl rfl
    · simp only [hdone, if_false]
      exact ⟨hg, ho⟩

theorem Schedule_release_inv (k : Nat) (l : List StreamId) (s : Scheduler)
    (ready : List Nat) (hg : GraphInv s ready []) (ho : OrderInv s k) :
    GraphInv (Schedule.release l s ready).1 (Schedule.release l s ready).2 []
      ∧ OrderInv (Schedule.release l s ready).1 k := by
  induction l generalizing s ready with
  | nil => exact ⟨hg, ho⟩
  | cons st rest ih =>
    unfold Schedule.release
    obtain ⟨g1, o1⟩ := TryReleaseFinishedInstrChains_loop_inv st k _ s ready rfl hg ho
    apply ih
    · dsimp only
      split
      · exact GraphInv_congr g1 rfl rfl rfl rfl rfl rfl rfl rfl rfl (fun _ _ h => h)
      · exact g1
    · dsimp only
      split
      · exact OrderInv_congr o1 rfl rfl rfl rfl
      · exact o1


/-! ## The invariants are kept: chain creation -/

theorem MakeInstrChains_forStreams_ge (m : InstructionMsg) (l : List StreamId)
    (s : Scheduler) (new : List Nat) (c : Nat) (hc : s.next_chain_id + l.length ≤ c) :
    (MakeInstrChains.forStreams m l s new).1.instr_ctx_list c = s.instr_ctx_list c
      ∧ (MakeInstrChains.forStreams m l s new).1.chain_stream c = s.chain_stream c
      ∧ (MakeInstrChains.forStreams m l s new).1.in_edges c = s.in_edges c
      ∧ (MakeInstrChains.forStreams m l s new).1.out_edges c = s.out_edges c
      ∧ (MakeInstrChains.forStreams m l s new).1.done c = s.done c := by
  induction l generalizing s new with
  | nil => exact ⟨rfl, rfl, rfl, rfl, rfl⟩
  | cons st rest ih =>
    unfold MakeInstrChains.forStreams
    dsimp only
    simp only [List.length_cons] at hc
    have hn : (NewInstrChain s st m).1.next_chain_id = s.next_chain_id + 1 := rfl
    obtain ⟨a1, a2, a3, a4, a5⟩ := ih (NewInstrChain s st m).1
      (new ++ [(NewInstrChain s st m).2]) (by rw [hn]; omega)
    have hne : c ≠ s.next_chain_id := by omega
    refine ⟨?_, ?_, ?_, ?_, ?_⟩
    · rw [a1]; simp [NewInstrChain, Function.update_noteq hne]
    · rw [a2]; simp [NewInstrChain, Function.update_noteq hne]
    · rw [a3]; simp [NewInstrChain, Function.update_noteq hne]
    · rw [a4]; simp [NewInstrChain, Function.update_noteq hne]
    · rw [a5]; simp [NewInstrChain, Function.update_noteq hne]

theorem MakeInstrChains_ge (msgs : List InstructionMsg) (s : Scheduler) (new : List Nat)
    (r : Scheduler × List InstructionMsg × List Nat)
    (h : MakeInstrChains msgs s new = some r) (c : Nat) (hc : r.1.next_chain_id ≤ c) :
    r.1.instr_ctx_list c = s.instr_ctx_list c ∧ r.1.chain_stream c = s.chain_stream c
      ∧ r.1.in_edges c = s.in_edges c ∧ r.1.out_edges c = s.out_edges c
      ∧ r.1.done c = s.done c := by
  induction msgs generalizing s new with
  | nil =>
    simp only [MakeInstrChains, Option.some.injEq] at h
    subst h
    exact ⟨rfl, rfl, rfl, rfl, rfl⟩
  | cons m rest ih =>
    unfold MakeInstrChains at h
    split at h
    · exact absurd h (by simp)
    · rename_i d hd
      obtain ⟨a1, a2, a3, a4, a5⟩ := ih _ _ h
      have hn := (MakeInstrChains_forStreams_spec m d.stream_id2stream s new).2.1
      have hmono : (MakeInstrChains.forStreams m d.stream_id2stream s new).1.next_chain_id
          ≤ r.1.next_chain_id := by
        obtain ⟨s1, g1, g2, _⟩ := MakeInstrChains_spec rest
          (MakeInstrChains.forStreams m d.stream_id2stream s new).1
          (MakeInstrChains.forStreams m d.stream_id2stream s new).2
          (MakeInstrChains_isSome _ _ _ _ h)
        rw [g1] at h
        simp only [Option.some.injEq] at h
        subst h
        dsimp only
        omega
      obtain ⟨b1, b2, b3, b4, b5⟩ := MakeInstrChains_forStreams_ge m d.stream_id2stream s new c
        (by omega)
      exact ⟨a1.trans b1, a2.trans b2, a3.trans b3, a4.trans b4, a5.trans b5⟩

theorem MakeInstrChains_inv (msgs : List InstructionMsg) (s : Scheduler) (ready : List Nat)
    (r : Scheduler × List InstructionMsg × List Nat)
    (h : MakeInstrChains msgs s [] = some r)
    (hg : GraphInv s ready []) (ho : OrderInv s s.next_chain_id) :
    GraphInv r.1 ready r.2.2 ∧ OrderInv r.1 s.next_chain_id
      ∧ r.2.2 = List.range' s.next_chain_id (r.1.next_chain_id - s.next_chain_id)
      ∧ s.next_chain_id ≤ r.1.next_chain_id := by
  obtain ⟨s1, g1, g2, g3, g4⟩ := MakeInstrChains_spec msgs s [] (MakeInstrChains_isSome _ _ _ _ h)
  have hge := MakeInstrChains_ge msgs s [] r h
  have fr := MakeInstrChains_frame _ _ _ _ h
  rw [g1] at h
  simp only [Option.some.injEq] at h
  subst h
  dsimp only at hge fr ⊢
  simp only [List.nil_append]
  have hcnt : s1.next_chain_id - s.next_chain_id = (msgs.map (numStreams s)).sum := by omega
  rw [hcnt]
  have hsame : ∀ c, ¬ (s.next_chain_id ≤ c ∧ c < s1.next_chain_id) →
      s1.instr_ctx_list c = s.instr_ctx_list c ∧ s1.chain_stream c = s.chain_stream c
      ∧ s1.in_edges c = s.in_edges c ∧ s1.out_edges c = s.out_edges c
      ∧ s1.done c = s.done c := by
    intro c hc
    by_cases hlt : c < s.next_chain_id
    · exact g3 c hlt
    · exact hge c (by omega)
  have hold : ∀ c, c ∈ s.waiting_instr_chain_list ++ (ready ++ []) → c < s.next_chain_id :=
    hg.lt_next
  have hmemnew : ∀ c, c ∈ List.range' s.next_chain_id ((msgs.map (numStreams s)).sum) ↔
      (s.next_chain_id ≤ c ∧ c < s1.next_chain_id) := by
    intro c
    rw [List.mem_range'_1, g2]
  have hin : ∀ x d, x ∈ s1.in_edges d → x ∈ s.in_edges d ∧ s1.in_edges d = s.in_edges d := by
    intro x d hx
    by_cases hd : s.next_chain_id ≤ d ∧ d < s1.next_chain_id
    · rw [(g4 d hd.1 hd.2).2.1] at hx
      exact absurd hx (List.not_mem_nil _)
    · have := (hsame d hd).2.2.1
      rw [this] at hx
      exact ⟨hx, this⟩
  have hall : ∀ c, c ∈ s1.waiting_instr_chain_list
      ++ (ready ++ List.range' s.next_chain_id ((msgs.map (numStreams s)).sum)) →
      (c ∈ s.waiting_instr_chain_list ++ (ready ++ []) ∧ c < s.next_chain_id)
        ∨ (s.next_chain_id ≤ c ∧ c < s1.next_chain_id) := by
    intro c hc
    rw [fr.waiting_instr_chain_list, ← List.append_assoc, List.mem_append] at hc
    rcases hc with hc | hc
    · left
      have : c ∈ s.waiting_instr_chain_list ++ (ready ++ []) := by simpa using hc
      exact ⟨this, hold c this⟩
    · right
      exact (hmemnew c).mp hc
  refine ⟨?_, ?_, rfl, by omega⟩
  · constructor
    · rw [fr.waiting_instr_chain_list, ← List.append_assoc, List.nodup_append]
      refine ⟨by simpa using hg.nodup, List.nodup_range' _ _, ?_⟩
      intro c hc1 hc2
      have h1 := hold c (by simpa using hc1)
      have h2 := (hmemnew c).mp hc2
      omega
    · rw [fr.running_chain_list]; exact hg.running_nodup
    · intro st c hc
      rw [fr.running_chain_list] at hc
      have hlt := hg.running_lt_next st c hc
      rw [(hsame c (by omega)).2.1]
      exact hg.running_stream st c hc
    · intro st c hc hmem
      rw [fr.running_chain_list] at hc
      have hlt := hg.running_lt_next st c hc
      rcases hall c hmem with ⟨h1, _⟩ | h1
      · exact hg.running_disjoint st c hc h1
      · omega
    · intro c hc
      rcases hall c hc with ⟨_, h1⟩ | h1 <;> omega
    · intro st c hc
      rw [fr.running_chain_list] at hc
      have := hg.running_lt_next st c hc
      omega
    · intro x d hx
      have := hg.edge_lt_next x d (hin x d hx).1
      omega
    · intro obj a ha
      rw [fr.access_list] at ha
      have := hg.access_lt_next obj a ha
      omega
    · intro c d
      constructor
      · intro hd
        by_cases hc : s.next_chain_id ≤ c ∧ c < s1.next_chain_id
        · rw [(g4 c hc.1 hc.2).2.2.1] at hd
          exact absurd hd (List.not_mem_nil _)
        · rw [(hsame c hc).2.2.2.1] at hd
          have hcin := (hg.sym c d).mp hd
          have hlt := hg.edge_lt_next c d hcin
          rw [(hsame d (by omega)).2.2.1]
          exact hcin
      · intro hcin
        obtain ⟨hcin', _⟩ := hin c d hcin
        have hlt := hg.edge_lt_next c d hcin'
        rw [(hsame c (by omega)).2.2.2.1]
        exact (hg.sym c d).mpr hcin'
    · intro d
      by_cases hd : s.next_chain_id ≤ d ∧ d < s1.next_chain_id
      · rw [(g4 d hd.1 hd.2).2.1]; exact List.nodup_nil
      · rw [(hsame d hd).2.2.1]; exact hg.in_nodup d
    · intro c
      by_cases hc : s.next_chain_id ≤ c ∧ c < s1.next_chain_id
      · rw [(g4 c hc.1 hc.2).2.2.1]; exact List.nodup_nil
      · rw [(hsame c hc).2.2.2.1]; exact hg.out_nodup c
    · intro x d hx
      left
      rw [fr.waiting_instr_chain_list]
      rcases hg.dst_waiting x d (hin x d hx).1 with h1 | h1
      · exact h1
      · exact absurd h1 (List.not_mem_nil _)
    · intro d hd
      rw [fr.waiting_instr_chain_list] at hd
      have hlt := hold d (List.mem_append_left _ hd)
      rw [(hsame d (by omega)).2.2.1]
      exact hg.waiting_in d hd
    · intro c hc
      rcases hall c hc with ⟨h1, h2⟩ | h1
      · rw [(hsame c (by omega)).2.2.2.2]
        exact hg.not_done c h1
      · exact (g4 c h1.1 h1.2).2.2.2
    · intro t c hc
      rw [fr.pending_chain_list] at hc
      obtain ⟨h1, h2, h3⟩ := hg.pending t c hc
      have hlt := hg.running_lt_next _ c h2
      obtain ⟨_, e2, _, _, e5⟩ := hsame c (by omega)
      rw [e5, e2, fr.running_chain_list, fr.thread_ctx]
      exact ⟨h1, h2, h3⟩
  · constructor
    · rw [fr.access_list]; exact ho.wf
    · rw [fr.access_list]; exact ho.access_lt
    · intro x d hx
      exact ho.edge_lt x d (hin x d hx).1
    · intro c hc1 hc2
      obtain ⟨⟨m, _, hm, _⟩, _⟩ := g4 c hc1 hc2
      exact ⟨m, hm⟩


/-! ## The invariants are kept: dependency linking -/

theorem linkSources_subset (pre : List MirroredObjectAccess) (mine : MirroredObjectAccess)
    (c : Nat) (h : c ∈ linkSources pre mine) : ∃ a ∈ pre, a.instr_chain = c := by
  unfold linkSources at h
  split at h
  · cases pre with
    | nil => exact absurd h (List.not_mem_nil _)
    | cons first rest =>
      dsimp only at h
      split at h
      · exact absurd h (List.not_mem_nil _)
      · rw [List.mem_singleton] at h
        exact ⟨first, List.mem_cons_self _ _, h.symm⟩
  · obtain ⟨a, ha, hc⟩ := List.mem_map.mp h
    exact ⟨a, ha, hc⟩

theorem AccessListWf_append_const (l : List MirroredObjectAccess) (a : MirroredObjectAccess)
    (hwf : AccessListWf l) (ha : a.is_const_operand = true) : AccessListWf (l ++ [a]) := by
  cases l with
  | nil => intro b hb; exact absurd hb (List.not_mem_nil _)
  | cons x rest =>
    intro b hb
    simp only [List.cons_append, List.tail_cons, List.mem_append, List.mem_singleton] at hb
    rcases hb with hb | hb
    · exact hwf b hb
    · rw [hb]; exact ha

theorem ConsumeMirroredObjects_chain_inv (env : VmEnv) (s s3 : Scheduler)
    (ready new : List Nat) (n : Nat) (hg : GraphInv s ready new) (ho : OrderInv s n)
    (hn : n ∈ new) (h : ConsumeMirroredObjects.chain env s n = some s3) :
    GraphInv s3 ready new ∧ OrderInv s3 (n + 1) := by
  have hnlt : n < s.next_chain_id := hg.lt_next n
    (List.mem_append_right _ (List.mem_append_right _ hn))
  obtain ⟨m, hctx⟩ := ho.fresh n (Nat.le_refl n) hnlt
  have hfresh : ∀ obj, ∀ a ∈ s.access_list obj, a.instr_chain ≠ n := by
    intro obj a ha
    have := ho.access_lt obj a ha
    omega
  obtain ⟨accs, hc3, hnd, hown, hothers, hmine, hrest, he⟩ :=
    (ConsumeMirroredObjects_chain_spec env s n m hg.sym hctx hfresh).2 s3 h
  have fr := ConsumeMirroredObjects_chain_frame env s s3 n h
  have hsrc : ∀ x, x ∈ accs.flatMap
      (fun mine => linkSources (s.access_list mine.mirrored_object_id) mine) →
      ∃ obj, ∃ a ∈ s.access_list obj, a.instr_chain = x := by
    intro x hx
    rw [List.mem_flatMap] at hx
    obtain ⟨mine, _, hx⟩ := hx
    obtain ⟨a, ha, hax⟩ := linkSources_subset _ _ _ hx
    exact ⟨_, a, ha, hax⟩
  have hal : ∀ obj a, a ∈ s3.access_list obj →
      a ∈ s.access_list obj ∨ (a ∈ accs ∧ a.instr_chain = n) := by
    intro obj a ha
    by_cases hobj : obj ∈ accs.map MirroredObjectAccess.mirrored_object_id
    · obtain ⟨mine, hm, hmo⟩ := List.mem_map.mp hobj
      subst hmo
      rw [hmine mine hm] at ha
      split at ha
      · rcases List.mem_append.mp ha with ha | ha
        · exact Or.inl ha
        · rw [List.mem_singleton] at ha
          subst ha
          exact Or.inr ⟨hm, hown _ hm⟩
      · rw [List.mem_singleton] at ha
        subst ha
        exact Or.inr ⟨hm, hown _ hm⟩
    · rw [hrest obj hobj] at ha
      exact Or.inl ha
  constructor
  · constructor
    · rw [fr.waiting_instr_chain_list]; exact hg.nodup
    · rw [fr.running_chain_list]; exact hg.running_nodup
    · rw [fr.running_chain_list, fr.chain_stream]; exact hg.running_stream
    · rw [fr.running_chain_list, fr.waiting_instr_chain_list]; exact hg.running_disjoint
    · rw [fr.waiting_instr_chain_list, fr.next_chain_id]; exact hg.lt_next
    · rw [fr.running_chain_list, fr.next_chain_id]; exact hg.running_lt_next
    · intro x d hx
      rw [fr.next_chain_id]
      rcases (he.in_edges d x).mp hx with hx | ⟨hd, hx⟩
      · exact hg.edge_lt_next x d hx
      · obtain ⟨obj, a, ha, hax⟩ := hsrc x hx
        have := hg.access_lt_next obj a ha
        subst hd
        exact ⟨by omega, hnlt⟩
    · intro obj a ha
      rw [fr.next_chain_id]
      rcases hal obj a ha with ha | ⟨_, ha⟩
      · exact hg.access_lt_next obj a ha
      · omega
    · exact EdgesAdded_sym he hg.sym
    · intro d; exact he.in_nodup d (hg.in_nodup d)
    · intro c; exact he.out_nodup c (hg.out_nodup c)
    · intro x d hx
      rw [fr.waiting_instr_chain_list]
      rcases (he.in_edges d x).mp hx with hx | ⟨hd, _⟩
      · exact hg.dst_waiting x d hx
      · subst hd; exact Or.inr hn
    · intro d hd
      rw [fr.waiting_instr_chain_list] at hd
      have hne := hg.waiting_in d hd
      obtain ⟨x, hx⟩ := List.exists_mem_of_ne_nil _ hne
      exact List.ne_nil_of_mem ((he.in_edges d x).mpr (Or.inl hx))
    · rw [fr.waiting_instr_chain_list, fr.done]; exact hg.not_done
    · rw [fr.pending_chain_list, fr.done, fr.running_chain_list, fr.chain_stream,
        fr.thread_ctx]
      exact hg.pending
  · constructor
    · intro obj
      by_cases hobj : obj ∈ accs.map MirroredObjectAccess.mirrored_object_id
      · obtain ⟨mine, hm, hmo⟩ := List.mem_map.mp hobj
        subst hmo
        rw [hmine mine hm]
        split
        · rename_i hconst
          exact AccessListWf_append_const _ _ (ho.wf _) hconst
        · intro b hb
          exact absurd hb (List.not_mem_nil _)
      · rw [hrest obj hobj]
        exact ho.wf obj
    · intro obj a ha
      rcases hal obj a ha with ha | ⟨_, ha⟩
      · have := ho.access_lt obj a ha
        omega
      · omega
    · intro x d hx
      rcases (he.in_edges d x).mp hx with hx | ⟨hd, hx⟩
      · exact ho.edge_lt x d hx
      · obtain ⟨obj, a, ha, hax⟩ := hsrc x hx
        have := ho.access_lt obj a ha
        omega
    · intro c hc1 hc2
      rw [fr.next_chain_id] at hc2
      rw [hothers c (by omega)]
      exact ho.fresh c (by omega) hc2

theorem ConsumeMirroredObjects_loop_inv (env : VmEnv) (ready new : List Nat) (cnt : Nat)
    (k : Nat) (s s1 : Scheduler) (hnew : ∀ c ∈ List.range' k cnt, c ∈ new)
    (hg : GraphInv s ready new) (ho : OrderInv s k)
    (h : ConsumeMirroredObjects.loop env (List.range' k cnt) s = some s1) :
    GraphInv s1 ready new ∧ OrderInv s1 (k + cnt) := by
  induction cnt generalizing k s with
  | zero =>
    simp only [List.range'_zero, ConsumeMirroredObjects.loop, Option.some.injEq] at h
    subst h
    exact ⟨hg, ho⟩
  | succ cnt ih =>
    rw [List.range'_succ] at h hnew
    unfold ConsumeMirroredObjects.loop at h
    split at h
    · exact absurd h (by simp)
    · rename_i s2 h2
      obtain ⟨g2, o2⟩ := ConsumeMirroredObjects_chain_inv env s s2 ready new k hg ho
        (hnew k (List.mem_cons_self _ _)) h2
      have := ih (k + 1) s2 (fun c hc => hnew c (List.mem_cons_of_mem _ hc)) g2 o2 h
      have e : k + 1 + cnt = k + (cnt + 1) := by omega
      rw [e] at this
      exact this


/-! ## The invariants are kept: ready filter and dispatch -/

theorem FilterReadyChains_nodup (s : Scheduler) (new ready : List Nat)
    (h : (ready ++ new).Nodup) :
    ((FilterReadyChains s new ready).1 ++ (FilterReadyChains s new ready).2).Nodup := by
  induction new generalizing ready with
  | nil => simpa [FilterReadyChains] using h
  | cons a rest ih =>
    unfold FilterReadyChains
    by_cases he : (s.in_edges a).isEmpty = true
    · simp only [he, if_true]
      apply ih
      simpa using h
    · have he' : (s.in_edges a).isEmpty = false := by simpa using he
      simp only [he', Bool.false_eq_true, if_false]
      have h1 : (ready ++ rest).Nodup := by
        have := h
        rw [List.nodup_append] at this ⊢
        refine ⟨this.1, (List.nodup_cons.mp this.2.1).2, ?_⟩
        intro x hx1 hx2
        exact this.2.2 hx1 (List.mem_cons_of_mem _ hx2)
      have h2 := ih ready h1
      simp only [List.cons_append, List.nodup_cons]
      refine ⟨?_, h2⟩
      intro hmem
      rw [List.mem_append] at hmem
      have hm1 := FilterReadyChains_mem s rest ready a
      rw [List.nodup_append] at h
      rcases hmem with hmem | hmem
      · exact (List.nodup_cons.mp h.2.1).1 (hm1.1.mp hmem).1
      · rcases hm1.2.mp hmem with hx | hx
        · exact h.2.2 hx (List.mem_cons_self _ _)
        · exact (List.nodup_cons.mp h.2.1).1 hx.1

theorem FilterReadyChains_inv (s : Scheduler) (ready new : List Nat) (k : Nat)
    (hg : GraphInv s ready new) (ho : OrderInv s k) :
    GraphInv { s with waiting_instr_chain_list :=
          s.waiting_instr_chain_list ++ (FilterReadyChains s new ready).1 }
        (FilterReadyChains s new ready).2 []
      ∧ OrderInv { s with waiting_instr_chain_list :=
          s.waiting_instr_chain_list ++ (FilterReadyChains s new ready).1 } k := by
  have hm := FilterReadyChains_mem s new ready
  have hall : ∀ c, c ∈ (s.waiting_instr_chain_list ++ (FilterReadyChains s new ready).1)
      ++ ((FilterReadyChains s new ready).2 ++ []) →
      c ∈ s.waiting_instr_chain_list ++ (ready ++ new) := by
    intro c hc
    simp only [List.append_nil, List.mem_append] at hc ⊢
    rcases hc with (hc | hc) | hc
    · exact Or.inl hc
    · exact Or.inr (Or.inr ((hm c).1.mp hc).1)
    · rcases (hm c).2.mp hc with hx | hx
      · exact Or.inr (Or.inl hx)
      · exact Or.inr (Or.inr hx.1)
  constructor
  · constructor
    · dsimp only
      have hnd := hg.nodup
      rw [List.nodup_append] at hnd
      have h2 := FilterReadyChains_nodup s new ready hnd.2.1
      simp only [List.append_nil, List.append_assoc]
      rw [List.nodup_append]
      refine ⟨hnd.1, h2, ?_⟩
      intro x hx1 hx2
      apply hnd.2.2 hx1
      rcases List.mem_append.mp hx2 with hx | hx
      · exact List.mem_append_right _ ((hm x).1.mp hx).1
      · rcases (hm x).2.mp hx with hy | hy
        · exact List.mem_append_left _ hy
        · exact List.mem_append_right _ hy.1
    · exact hg.running_nodup
    · exact hg.running_stream
    · intro st c hc hmem
      exact hg.running_disjoint st c hc (hall c hmem)
    · intro c hc
      exact hg.lt_next c (hall c hc)
    · exact hg.running_lt_next
    · exact hg.edge_lt_next
    · exact hg.access_lt_next
    · exact hg.sym
    · exact hg.in_nodup
    · exact hg.out_nodup
    · intro x d hx
      left
      dsimp only
      rcases hg.dst_waiting x d hx with h | h
      · exact List.mem_append_left _ h
      · exact List.mem_append_right _ ((hm d).1.mpr ⟨h, List.ne_nil_of_mem hx⟩)
    · intro d hd
      dsimp only at hd ⊢
      rcases List.mem_append.mp hd with h | h
      · exact hg.waiting_in d h
      · exact ((hm d).1.mp h).2
    · intro c hc
      exact hg.not_done c (hall c hc)
    · exact hg.pending
  · exact OrderInv_congr ho rfl rfl rfl rfl

theorem DispatchInstruction_step_inv (env : VmEnv) (s : Scheduler) (c : Nat)
    (rest : List Nat) (k : Nat) (hg : GraphInv s (c :: rest) []) (ho : OrderInv s k) :
    GraphInv (DispatchInstruction.step env s c) rest []
      ∧ OrderInv (DispatchInstruction.step env s c) k
      ∧ (DispatchInstruction.step env s c).next_chain_id = s.next_chain_id := by
  have fr := DispatchInstruction_step_frame env s c
  refine ⟨?_, OrderInv_congr ho fr.access_list fr.in_edges fr.instr_ctx_list fr.next_chain_id,
    fr.next_chain_id⟩
  have hnd := hg.nodup
  simp only [List.append_nil] at hnd
  have hcmem : c ∈ s.waiting_instr_chain_list ++ (c :: rest ++ []) :=
    List.mem_append_right _ (by simp)
  have hcw : c ∉ s.waiting_instr_chain_list ++ (rest ++ []) := by
    simp only [List.append_nil]
    intro hx
    rw [List.nodup_append] at hnd
    rcases List.mem_append.mp hx with hx | hx
    · exact hnd.2.2 hx (List.mem_cons_self _ _)
    · exact (List.nodup_cons.mp hnd.2.1).1 hx
  have hcrun : ∀ st, c ∉ s.running_chain_list st := by
    intro st hx
    exact hg.running_disjoint st c hx hcmem
  have hsub : ∀ x, x ∈ s.waiting_instr_chain_list ++ (rest ++ []) →
      x ∈ s.waiting_instr_chain_list ++ (c :: rest ++ []) := by
    intro x hx
    simp only [List.append_nil, List.mem_append, List.mem_cons] at hx ⊢
    tauto
  have hrun : ∀ st x, x ∈ (DispatchInstruction.step env s c).running_chain_list st ↔
      x ∈ s.running_chain_list st ∨ (x = c ∧ st = s.chain_stream c) := by
    intro st x
    have : (DispatchInstruction.step env s c).running_chain_list
        = Function.update s.running_chain_list (s.chain_stream c)
            (s.running_chain_list (s.chain_stream c) ++ [c]) := by
      unfold DispatchInstruction.step
      dsimp only
      split <;> split <;> rfl
    rw [this]
    by_cases hst : st = s.chain_stream c
    · subst hst
      simp
    · simp [Function.update_noteq hst, hst]
  have hrunnd : ∀ st, ((DispatchInstruction.step env s c).running_chain_list st).Nodup := by
    intro st
    have : (DispatchInstruction.step env s c).running_chain_list
        = Function.update s.running_chain_list (s.chain_stream c)
            (s.running_chain_list (s.chain_stream c) ++ [c]) := by
      unfold DispatchInstruction.step
      dsimp only
      split <;> split <;> rfl
    rw [this]
    by_cases hst : st = s.chain_stream c
    · subst hst
      rw [Function.update_same, List.nodup_append]
      exact ⟨hg.running_nodup _, List.nodup_singleton c, by
        intro x hx1 hx2
        rw [List.mem_singleton] at hx2
        exact hcrun _ (hx2 ▸ hx1)⟩
    · rw [Function.update_noteq hst]
      exact hg.running_nodup st
  have hdone : ∀ x, x ≠ c → (DispatchInstruction.step env s c).done x = s.done x := by
    intro x hx
    unfold DispatchInstruction.step
    dsimp only
    split
    · split <;> simp [RunInstrChain, Function.update_noteq hx]
    · split <;> rfl
  have hpeq : (DispatchInstruction.step env s c).pending_chain_list
      = if env.SharingSchedulerThread (s.chain_stream c).stream_type_id.stream_type = true
        then s.pending_chain_list
        else Function.update s.pending_chain_list (s.thread_ctx (s.chain_stream c))
          (s.pending_chain_list (s.thread_ctx (s.chain_stream c)) ++ [c]) := by
    unfold DispatchInstruction.step
    dsimp only
    split <;> split <;> rfl
  have hdeq : env.SharingSchedulerThread (s.chain_stream c).stream_type_id.stream_type
      ≠ true → (DispatchInstruction.step env s c).done = s.done := by
    intro hsh
    unfold DispatchInstruction.step
    dsimp only
    rw [if_neg hsh]
    split <;> rfl
  have hpend : ∀ t x, x ∈ (DispatchInstruction.step env s c).pending_chain_list t →
      x ∈ s.pending_chain_list t
        ∨ (x = c ∧ (DispatchInstruction.step env s c).done c = false
            ∧ t = s.thread_ctx (s.chain_stream c)) := by
    intro t x hx
    rw [hpeq] at hx
    split at hx
    · exact Or.inl hx
    · rename_i hsh
      by_cases ht : t = s.thread_ctx (s.chain_stream c)
      · subst ht
        rw [Function.update_same, List.mem_append, List.mem_singleton] at hx
        rcases hx with hx | hx
        · exact Or.inl hx
        · refine Or.inr ⟨hx, ?_, rfl⟩
          rw [hdeq hsh]
          exact hg.not_done c hcmem
      · rw [Function.update_noteq ht] at hx
        exact Or.inl hx
  constructor
  · rw [fr.waiting_instr_chain_list]
    simp only [List.append_nil]
    rw [List.nodup_append] at hnd ⊢
    exact ⟨hnd.1, (List.nodup_cons.mp hnd.2.1).2,
      fun x hx1 hx2 => hnd.2.2 hx1 (List.mem_cons_of_mem _ hx2)⟩
  · exact hrunnd
  · intro st x hx
    rw [fr.chain_stream]
    rcases (hrun st x).mp hx with h | ⟨h1, h2⟩
    · exact hg.running_stream st x h
    · rw [h1, h2]
  · intro st x hx
    rw [fr.waiting_instr_chain_list]
    rcases (hrun st x).mp hx with h | ⟨h1, _⟩
    · exact fun hm => hg.running_disjoint st x h (hsub x hm)
    · rw [h1]; exact hcw
  · rw [fr.waiting_instr_chain_list, fr.next_chain_id]
    exact fun x hx => hg.lt_next x (hsub x hx)
  · intro st x hx
    rw [fr.next_chain_id]
    rcases (hrun st x).mp hx with h | ⟨h1, _⟩
    · exact hg.running_lt_next st x h
    · rw [h1]; exact hg.lt_next c hcmem
  · rw [fr.in_edges, fr.next_chain_id]; exact hg.edge_lt_next
  · rw [fr.access_list, fr.next_chain_id]; exact hg.access_lt_next
  · intro x y; rw [fr.out_edges, fr.in_edges]; exact hg.sym x y
  · rw [fr.in_edges]; exact hg.in_nodup
  · rw [fr.out_edges]; exact hg.out_nodup
  · rw [fr.in_edges, fr.waiting_instr_chain_list]; exact hg.dst_waiting
  · rw [fr.in_edges, fr.waiting_instr_chain_list]; exact hg.waiting_in
  · intro x hx
    rw [fr.waiting_instr_chain_list] at hx
    have hne : x ≠ c := fun h => hcw (h ▸ hx)
    rw [hdone x hne]
    exact hg.not_done x (hsub x hx)
  · intro t x hx
    rw [fr.chain_stream, fr.thread_ctx]
    rcases hpend t x hx with h | ⟨h1, h2, h3⟩
    · obtain ⟨d1, d2, d3⟩ := hg.pending t x h
      have hne : x ≠ c := fun he => hcrun _ (he ▸ d2)
      rw [hdone x hne]
      exact ⟨d1, (hrun _ x).mpr (Or.inl d2), d3⟩
    · subst h1
      exact ⟨h2, (hrun _ x).mpr (Or.inr ⟨rfl, rfl⟩), h3⟩

theorem DispatchInstruction_inv (env : VmEnv) (ready : List Nat) (s : Scheduler) (k : Nat)
    (hg : GraphInv s ready []) (ho : OrderInv s k) :
    GraphInv (DispatchInstruction env ready s).1 [] []
      ∧ OrderInv (DispatchInstruction env ready s).1 k
      ∧ (DispatchInstruction env ready s).1.next_chain_id = s.next_chain_id := by
  unfold DispatchInstruction
  dsimp only
  induction ready generalizing s with
  | nil => exact ⟨hg, ho, rfl⟩
  | cons c rest ih =>
    obtain ⟨g1, o1, n1⟩ := DispatchInstruction_step_inv env s c rest k hg ho
    obtain ⟨g2, o2, n2⟩ := ih (DispatchInstruction.step env s c) g1 o1
    simp only [List.foldl_cons]
    exact ⟨g2, o2, n2.trans n1⟩


/-! ## The invariants hold in every reachable state -/

theorem FrameInit_refl (s : Scheduler) : FrameInit s s := by
  constructor <;> rfl

theorem FrameInit_trans {s s1 s2 : Scheduler} (h1 : FrameInit s s1) (h2 : FrameInit s1 s2) :
    FrameInit s s2 := by
  constructor
  · exact h2.pending_msg_list.trans h1.pending_msg_list
  · exact h2.waiting_instr_chain_list.trans h1.waiting_instr_chain_list
  · exact h2.active_stream_list.trans h1.active_stream_list
  · exact h2.id2logical_object.trans h1.id2logical_object
  · exact h2.chain_stream.trans h1.chain_stream
  · exact h2.instr_ctx_list.trans h1.instr_ctx_list
  · exact h2.in_edges.trans h1.in_edges
  · exact h2.out_edges.trans h1.out_edges
  · exact h2.done.trans h1.done
  · exact h2.running_chain_list.trans h1.running_chain_list
  · exact h2.pending_chain_list.trans h1.pending_chain_list
  · exact h2.access_list.trans h1.access_list
  · exact h2.next_chain_id.trans h1.next_chain_id
  · exact h2.run_trace.trans h1.run_trace

theorem Init_threads_frame (stream_desc : StreamDesc) (l : List Nat) (rel : Nat)
    (s : Scheduler) (rt : StreamRtDesc) (r : Scheduler × StreamRtDesc)
    (h : __Init__.threads stream_desc l rel s rt = some r) : FrameInit s r.1 := by
  induction l generalizing rel s rt with
  | nil =>
    simp only [__Init__.threads, Option.some.injEq] at h
    subst h
    exact FrameInit_refl s
  | cons i rest ih =>
    unfold __Init__.threads at h
    dsimp only at h
    split at h
    · exact FrameInit_trans (by constructor <;> rfl) (ih _ _ _ h)
    · exact absurd h (by simp)

theorem Init_loop_frame (env : VmEnv) (l : List StreamDesc) (s : Scheduler) (b1 b2 : Bool)
    (r : Scheduler × Bool × Bool) (h : __Init__.loop env l s b1 b2 = some r) :
    FrameInit s r.1 := by
  induction l generalizing s b1 b2 with
  | nil =>
    simp only [__Init__.loop, Option.some.injEq] at h
    subst h
    exact FrameInit_refl s
  | cons d rest ih =>
    unfold __Init__.loop at h
    dsimp only at h
    split at h
    · exact absurd h (by simp)
    · split at h
      · exact absurd h (by simp)
      · rename_i r1 h1
        exact FrameInit_trans (FrameInit_trans (Init_threads_frame _ _ _ _ _ _ h1)
          (by constructor <;> rfl)) (ih _ _ _ h)

theorem Init_frame (env : VmEnv) (vm_desc : List StreamDesc) (s : Scheduler)
    (h : __Init__ env vm_desc = some s) : FrameInit Scheduler.blank s := by
  unfold __Init__ at h
  split at h
  · exact absurd h (by simp)
  · rename_i r hr
    split at h
    · simp only [Option.some.injEq] at h
      subst h
      exact Init_loop_frame _ _ _ _ _ _ hr
    · exact absurd h (by simp)

theorem Init_inv (env : VmEnv) (vm_desc : List StreamDesc) (s : Scheduler)
    (h : __Init__ env vm_desc = some s) :
    GraphInv s [] [] ∧ OrderInv s s.next_chain_id := by
  have fr := Init_frame env vm_desc s h
  constructor
  · constructor
    · rw [fr.waiting_instr_chain_list]; exact List.nodup_nil
    · intro st; rw [fr.running_chain_list]; exact List.nodup_nil
    · intro st c hc; rw [fr.running_chain_list] at hc; exact absurd hc (List.not_mem_nil _)
    · intro st c hc; rw [fr.running_chain_list] at hc; exact absurd hc (List.not_mem_nil _)
    · intro c hc; rw [fr.waiting_instr_chain_list] at hc; exact absurd hc (List.not_mem_nil _)
    · intro st c hc; rw [fr.running_chain_list] at hc; exact absurd hc (List.not_mem_nil _)
    · intro c d hc; rw [fr.in_edges] at hc; exact absurd hc (List.not_mem_nil _)
    · intro obj a ha; rw [fr.access_list] at ha; exact absurd ha (List.not_mem_nil _)
    · intro c d
      rw [fr.in_edges, fr.out_edges]
      exact ⟨fun hx => absurd hx (List.not_mem_nil _), fun hx => absurd hx (List.not_mem_nil _)⟩
    · intro d; rw [fr.in_edges]; exact List.nodup_nil
    · intro c; rw [fr.out_edges]; exact List.nodup_nil
    · intro c d hc; rw [fr.in_edges] at hc; exact absurd hc (List.not_mem_nil _)
    · intro d hd; rw [fr.waiting_instr_chain_list] at hd; exact absurd hd (List.not_mem_nil _)
    · intro c hc; rw [fr.waiting_instr_chain_list] at hc; exact absurd hc (List.not_mem_nil _)
    · intro t c hc; rw [fr.pending_chain_list] at hc; exact absurd hc (List.not_mem_nil _)
  · constructor
    · intro obj a ha
      rw [fr.access_list] at ha
      exact absurd ha (List.not_mem_nil _)
    · intro obj a ha; rw [fr.access_list] at ha; exact absurd ha (List.not_mem_nil _)
    · intro c d hc; rw [fr.in_edges] at hc; exact absurd hc (List.not_mem_nil _)
    · intro c hc1 hc2; omega

theorem TryReceiveAndRun_inv (s : Scheduler) (t : ThreadCtxId) (k : Nat)
    (hg : GraphInv s [] []) (ho : OrderInv s k) :
    GraphInv (TryReceiveAndRun s t) [] [] ∧ OrderInv (TryReceiveAndRun s t) k := by
  refine ⟨?_, OrderInv_congr ho rfl rfl rfl rfl⟩
  have hnp : ∀ c, c ∈ s.waiting_instr_chain_list ++ ([] ++ []) → c ∉ s.pending_chain_list t := by
    intro c hc hp
    exact hg.running_disjoint _ c (hg.pending t c hp).2.1 hc
  constructor
  · exact hg.nodup
  · exact hg.running_nodup
  · exact hg.running_stream
  · exact hg.running_disjoint
  · exact hg.lt_next
  · exact hg.running_lt_next
  · exact hg.edge_lt_next
  · exact hg.access_lt_next
  · exact hg.sym
  · exact hg.in_nodup
  · exact hg.out_nodup
  · exact hg.dst_waiting
  · exact hg.waiting_in
  · intro c hc
    simp only [TryReceiveAndRun, if_neg (hnp c hc)]
    exact hg.not_done c hc
  · intro t1 c hc
    simp only [TryReceiveAndRun] at hc ⊢
    by_cases ht : t1 = t
    · subst ht
      rw [Function.update_same] at hc
      exact absurd hc (List.not_mem_nil _)
    · rw [Function.update_noteq ht] at hc
      obtain ⟨h1, h2, h3⟩ := hg.pending t1 c hc
      have hnot : c ∉ s.pending_chain_list t := by
        intro hx
        exact ht (h3.trans (hg.pending t c hx).2.2.symm)
      rw [if_neg hnot]
      exact ⟨h1, h2, h3⟩

theorem Schedule_ingest_inv (env : VmEnv) (s : Scheduler) (ready : List Nat)
    (r : Scheduler × List Nat) (hg : GraphInv s ready [])
    (ho : OrderInv s s.next_chain_id) (h : Schedule.ingest env s ready = some r) :
    GraphInv r.1 r.2 [] ∧ OrderInv r.1 r.1.next_chain_id := by
  unfold Schedule.ingest at h
  dsimp only at h
  split at h
  · exact absurd h (by simp)
  · rename_i r2 h2
    split at h
    · exact absurd h (by simp)
    · rename_i r3 h3
      split at h
      · exact absurd h (by simp)
      · rename_i s4 h4
        simp only [MergeChains, Option.some.injEq] at h
        subst h
        dsimp only
        have f2 := FilterAndRunSourceInstructions_frame _ _ _ _ h2
        have g2 : GraphInv r2.1 ready [] :=
          GraphInv_congr hg f2.waiting_instr_chain_list f2.running_chain_list f2.chain_stream
            f2.next_chain_id f2.in_edges f2.out_edges f2.done f2.pending_chain_list
            f2.thread_ctx (fun obj a ha => by rw [f2.access_list] at ha; exact ha)
        have o2 : OrderInv r2.1 r2.1.next_chain_id := by
          have := OrderInv_congr ho f2.access_list f2.in_edges f2.instr_ctx_list
            f2.next_chain_id
          rw [f2.next_chain_id]
          exact this
        obtain ⟨g3, o3, hnew, hle⟩ := MakeInstrChains_inv _ _ ready _ h3 g2 o2
        have h4' := ConsumeMirroredObjects_eq_loop _ _ _ _ h4
        rw [hnew] at h4'
        obtain ⟨g4, o4⟩ := ConsumeMirroredObjects_loop_inv env ready r3.2.2 _ _ r3.1 s4
          (fun c hc => by rw [hnew]; exact hc) g3 o3 h4'
        have f4 := ConsumeMirroredObjects_frame _ _ _ _ h4
        have hk : r2.1.next_chain_id + (r3.1.next_chain_id - r2.1.next_chain_id)
            = s4.next_chain_id := by
          rw [f4.next_chain_id]; omega
        rw [hk] at o4
        exact FilterReadyChains_inv s4 ready r3.2.2 _ g4 o4

theorem Schedule_inv (env : VmEnv) (s s1 : Scheduler) (hg : GraphInv s [] [])
    (ho : OrderInv s s.next_chain_id) (h : Schedule env s = some s1) :
    GraphInv s1 [] [] ∧ OrderInv s1 s1.next_chain_id := by
  unfold Schedule at h
  dsimp only at h
  obtain ⟨g1, o1⟩ := Schedule_release_inv s.next_chain_id s.active_stream_list s [] hg ho
  have fr := Schedule_release_frame s.active_stream_list s []
  rw [← fr.next_chain_id] at o1
  split at h
  · split at h
    · exact absurd h (by simp)
    · rename_i r2 h2
      simp only [Option.some.injEq] at h
      subst h
      obtain ⟨g2, o2⟩ := Schedule_ingest_inv env _ _ r2 g1 o1 h2
      obtain ⟨g3, o3, n3⟩ := DispatchInstruction_inv env r2.2 r2.1 _ g2 o2
      rw [n3]
      exact ⟨g3, o3⟩
  · simp only [Option.some.injEq] at h
    subst h
    obtain ⟨g3, o3, n3⟩ := DispatchInstruction_inv env _ _ _ g1 o1
    rw [n3]
    exact ⟨g3, o3⟩

theorem Reachable_inv (env : VmEnv) (s : Scheduler) (h : Reachable env s) :
    GraphInv s [] [] ∧ OrderInv s s.next_chain_id := by
  induction h with
  | init vm_desc s h => exact Init_inv env vm_desc s h
  | receive s l _ ih =>
    exact ⟨GraphInv_congr ih.1 rfl rfl rfl rfl rfl rfl rfl rfl rfl (fun _ _ h => h),
      OrderInv_congr ih.2 rfl rfl rfl rfl⟩
  | schedule s s1 _ h ih => exact Schedule_inv env s s1 ih.1 ih.2 h
  | try_receive_and_run s t _ ih => exact TryReceiveAndRun_inv s t _ ih.1 ih.2

theorem Reached_inv (env : VmEnv) (s : Scheduler) (ready : List Nat)
    (h : Reached env s ready) : GraphInv s ready [] ∧ OrderInv s s.next_chain_id := by
  cases h with
  | idle _ h => exact Reachable_inv env s h
  | released s0 h =>
    obtain ⟨g, o⟩ := Reachable_inv env s0 h
    have fr := Schedule_release_frame s0.active_stream_list s0 []
    rw [fr.next_chain_id]
    exact Schedule_release_inv _ _ _ _ g o
  | ingested s0 r h h2 =>
    obtain ⟨g, o⟩ := Reachable_inv env s0 h
    have fr := Schedule_release_frame s0.active_stream_list s0 []
    obtain ⟨g1, o1⟩ := Schedule_release_inv s0.next_chain_id s0.active_stream_list s0 [] g o
    rw [← fr.next_chain_id] at o1
    exact Schedule_ingest_inv env _ _ r g1 o1 h2


/-! ## The invariants of the specification -/

theorem test_s2_scheduled_reachable (b : Bool) :
    Reachable (test.env b) (test.s2_scheduled b) :=
  Reachable.schedule _ _
    (Reachable.receive _ test.s2_msgs
      (Reachable.init test.vm_desc (test.scheduler b) (by cases b <;> rfl)))
    (test_s2_scheduled_eq b)

/-- C1: in every reachable state, so in every state reached after a completed tick, a
chain is on the waiting list if and only if its set of in-edges is not empty; this holds
for every chain, live or not. -/
theorem waiting_iff_in_edges (env : VmEnv) (s : Scheduler) (h : Reachable env s) (c : Nat) :
    c ∈ s.waiting_instr_chain_list ↔ s.in_edges c ≠ [] := by
  obtain ⟨hg, _⟩ := Reachable_inv env s h
  constructor
  · exact hg.waiting_in c
  · intro hne
    obtain ⟨x, hx⟩ := List.exists_mem_of_ne_nil _ hne
    rcases hg.dst_waiting x c hx with hw | hw
    · exact hw
    · exact absurd hw (List.not_mem_nil _)

/-- Witness of C1: after the tick on the second scenario chain 1 waits and has an in-edge,
chain 0 runs and has none. -/
theorem waiting_iff_in_edges_witness :
    (1 ∈ (test.s2_scheduled false).waiting_instr_chain_list
        ↔ (test.s2_scheduled false).in_edges 1 ≠ [])
      ∧ 1 ∈ (test.s2_scheduled false).waiting_instr_chain_list
      ∧ (0 ∈ (test.s2_scheduled false).waiting_instr_chain_list
        ↔ (test.s2_scheduled false).in_edges 0 ≠ [])
      ∧ 0 ∉ (test.s2_scheduled false).waiting_instr_chain_list
      ∧ 0 ∈ (test.s2_scheduled false).running_chain_list test.infer_nop_stream :=
  ⟨waiting_iff_in_edges (test.env false) (test.s2_scheduled false)
      (test_s2_scheduled_reachable false) 1, by decide,
    waiting_iff_in_edges (test.env false) (test.s2_scheduled false)
      (test_s2_scheduled_reachable false) 0, by decide, by decide⟩

/-- C2, counterexample: after the tick on one Nop instruction, of a stream type that does
not share the scheduler thread, chain 0 is on the running list of the Nop stream and on
the pending list of the thread of that stream. -/
theorem dispatched_chain_on_running_and_pending :
    (Schedule (test.env false) (test.s1_received false)).map
      (fun s => (s.running_chain_list test.nop_stream,
        s.pending_chain_list (s.thread_ctx test.nop_stream))) = some ([0], [0]) := by
  decide

/-- C2, as amended: at every point of a run, the waiting list and the transient ready
list share no chain and hold no chain twice, a running list holds no chain twice, a chain
on a running list is neither waiting nor ready and is on the running list of its own
stream only, and a chain on a pending list of a thread is also on the running list of its
stream, the thread being that of the stream. -/
theorem chain_lists_disjoint (env : VmEnv) (s : Scheduler) (ready : List Nat)
    (h : Reached env s ready) :
    (s.waiting_instr_chain_list ++ ready).Nodup
      ∧ (∀ st, (s.running_chain_list st).Nodup)
      ∧ (∀ st c, c ∈ s.running_chain_list st →
          c ∉ s.waiting_instr_chain_list ∧ c ∉ ready
            ∧ ∀ st1, c ∈ s.running_chain_list st1 → st1 = st)
      ∧ (∀ t c, c ∈ s.pending_chain_list t →
          c ∈ s.running_chain_list (s.chain_stream c)
            ∧ t = s.thread_ctx (s.chain_stream c)) := by
  obtain ⟨hg, _⟩ := Reached_inv env s ready h
  refine ⟨by simpa using hg.nodup, hg.running_nodup, ?_, ?_⟩
  · intro st c hc
    have hd := hg.running_disjoint st c hc
    simp only [List.append_nil, List.mem_append, not_or] at hd
    refine ⟨hd.1, hd.2, ?_⟩
    intro st1 hc1
    rw [← hg.running_stream st c hc, ← hg.running_stream st1 c hc1]
  · intro t c hc
    exact (hg.pending t c hc).2

/-- Witness of C2 as amended: the state after the tick on the second scenario. -/
theorem chain_lists_disjoint_witness :
    ((test.s2_scheduled false).waiting_instr_chain_list ++ []).Nodup
      ∧ (∀ st, ((test.s2_scheduled false).running_chain_list st).Nodup)
      ∧ (∀ st c, c ∈ (test.s2_scheduled false).running_chain_list st →
          c ∉ (test.s2_scheduled false).waiting_instr_chain_list ∧ c ∉ []
            ∧ ∀ st1, c ∈ (test.s2_scheduled false).running_chain_list st1 → st1 = st)
      ∧ (∀ t c, c ∈ (test.s2_scheduled false).pending_chain_list t →
          c ∈ (test.s2_scheduled false).running_chain_list
              ((test.s2_scheduled false).chain_stream c)
            ∧ t = (test.s2_scheduled false).thread_ctx
              ((test.s2_scheduled false).chain_stream c)) :=
  chain_lists_disjoint (test.env false) (test.s2_scheduled false) []
    (Reached.idle _ (test_s2_scheduled_reachable false))

/-- C3: in every reachable state every edge goes from a chain to a chain created later
(chains are numbered in the order of their creation), so no edge has equal ends and no
chain reaches itself along edges. -/
theorem edges_acyclic (env : VmEnv) (s : Scheduler) (h : Reachable env s) :
    (∀ c d, d ∈ s.out_edges c → c < d)
      ∧ (∀ c d, c ∈ s.in_edges d → c < d)
      ∧ (∀ c d, d ∈ s.out_edges c → c ≠ d)
      ∧ ∀ c, ¬ Relation.TransGen (fun a b => b ∈ s.out_edges a) c c := by
  obtain ⟨hg, ho⟩ := Reachable_inv env s h
  have hout : ∀ c d, d ∈ s.out_edges c → c < d :=
    fun c d hd => ho.edge_lt c d ((hg.sym c d).mp hd)
  refine ⟨hout, ho.edge_lt, fun c d hd => Nat.ne_of_lt (hout c d hd), ?_⟩
  have hlt : ∀ c d, Relation.TransGen (fun a b => b ∈ s.out_edges a) c d → c < d := by
    intro c d hcd
    induction hcd with
    | single hx => exact hout _ _ hx
    | tail _ hx ih => exact Nat.lt_trans ih (hout _ _ hx)
  intro c hc
  exact Nat.lt_irrefl c (hlt c c hc)

/-- Witness of C3: the state after the tick on the second scenario, with its edge from
chain 0 to chain 1. -/
theorem edges_acyclic_witness :
    1 ∈ (test.s2_scheduled false).out_edges 0
      ∧ (∀ c d, d ∈ (test.s2_scheduled false).out_edges c → c < d)
      ∧ ∀ c, ¬ Relation.TransGen (fun a b => b ∈ (test.s2_scheduled false).out_edges a) c c :=
  have h := edges_acyclic (test.env false) (test.s2_scheduled false)
    (test_s2_scheduled_reachable false)
  ⟨by decide, h.1, h.2.2.2⟩

/-- C4: in every reachable state, so after every tick, the access list of every mirrored
object is well formed: every access behind the first is const, hence the list holds at
most one mutable access, and that one in front. -/
theorem access_list_well_formed (env : VmEnv) (s : Scheduler) (h : Reachable env s)
    (obj : MirroredObjectId) :
    (∀ a ∈ (s.access_list obj).tail, a.is_const_operand = true)
      ∧ ((s.access_list obj).filter (fun a => !a.is_const_operand)).length ≤ 1
      ∧ ∀ a ∈ s.access_list obj, a.is_const_operand = false →
          (s.access_list obj).head? = some a := by
  obtain ⟨_, ho⟩ := Reachable_inv env s h
  have hwf := ho.wf obj
  refine ⟨hwf, ?_, ?_⟩
  · cases hl : s.access_list obj with
    | nil => simp
    | cons x rest =>
      rw [hl] at hwf
      have hrest : rest.filter (fun a => !a.is_const_operand) = [] := by
        rw [List.filter_eq_nil_iff]
        intro a ha
        simp [hwf a ha]
      rw [List.filter_cons, hrest]
      split <;> simp
  · intro a ha hconst
    cases hl : s.access_list obj with
    | nil => rw [hl] at ha; exact absurd ha (List.not_mem_nil _)
    | cons x rest =>
      rw [hl] at ha hwf
      rcases List.mem_cons.mp ha with rfl | ha
      · rfl
      · rw [hwf a ha] at hconst
        exact absurd hconst (by simp)

/-- Witness of C4: after the tick on the second scenario the access list of the mirrored
object (19055, 0) holds the mutable access of chain 2 followed by the const access of
chain 3. -/
theorem access_list_well_formed_witness :
    (test.s2_scheduled false).access_list { logical_object_id_value := 19055, parallel_id := 0 }
        = [{ instr_chain := 2,
             mirrored_object_id := { logical_object_id_value := 19055, parallel_id := 0 },
             is_const_operand := false },
           { instr_chain := 3,
             mirrored_object_id := { logical_object_id_value := 19055, parallel_id := 0 },
             is_const_operand := true }]
      ∧ (((test.s2_scheduled false).access_list
          { logical_object_id_value := 19055, parallel_id := 0 }).filter
            (fun a => !a.is_const_operand)).length ≤ 1 :=
  ⟨by decide, (access_list_well_formed (test.env false) (test.s2_scheduled false)
    (test_s2_scheduled_reachable false) _).2.1⟩

/-! ## The second scenario: a symbol and two Nop instructions that mutate it -/

/-- C11: the second scenario on the code.  `__Init__` refuses the `VmDesc` of the tests,
and on a scheduler with the control stream and the Nop stream alone the tick aborts, the
infer twins of the Nop instructions having no stream runtime descriptor.  On the scheduler
made of the control and Nop stream descriptors and their infer counterparts, whether the
Nop stream type shares the scheduler thread or not, `Receive` of the three messages and
one tick leave no pending message, but four chains: the chains 1, 2 and 3 wait (the list
has size 3, not 1), the only active stream is the infer counterpart of the Nop stream,
with chain 0 (the infer twin of the first Nop instruction) running, and the running list of
the Nop stream is empty; the chain that holds the first Nop instruction is the waiting
chain 1, with the two out-edges to the chains 2 and 3, and the second Nop instruction is
held by chain 3. -/
theorem Schedule_two_mutating_nops :
    __Init__ (test.env false) test.vm_desc_of_test = none
      ∧ __Init__ (test.env true) test.vm_desc_of_test = none
      ∧ Schedule (test.env false)
          (Receive (test.env false) test.scheduler_of_test test.s2_msgs).1 = none
      ∧ ∀ b, (Schedule (test.env b) (test.s2_received b)).map
          (fun s => (s.pending_msg_list, s.waiting_instr_chain_list, s.active_stream_list,
            s.running_chain_list test.nop_stream, s.running_chain_list test.infer_nop_stream,
            (s.instr_ctx_list 1).map InstrCtx.instr_msg, s.out_edges 1,
            (s.instr_ctx_list 3).map InstrCtx.instr_msg))
          = some ([], [1, 2, 3], [test.infer_nop_stream], [], [0],
              [test.nop_mut_instr_msg 9527], [2, 3], [test.nop_mut_instr_msg 9527]) := by
  refine ⟨rfl, rfl, rfl, ?_⟩
  intro b
  cases b <;> rfl

/-! ## A new write dominates the prior accesses -/

/-- C20: a new write dominates the prior accesses.  Let `n` be a new chain without
accesses, in a scheduler with symmetric edge sets whose access lists hold no access of
`n`.  Once the registration passes have returned, linking returns; and after it, for every
access `mine` that `n` holds, on mirrored object `M`: when `mine` is mutable, there is an
edge to `n` from the chain of every access that was on the access list of `M`, none of
these accesses is on the list any more, and the list consists of exactly `mine`; when
`mine` is const, the access list of `M` is the former list, from which nothing is erased,
followed by `mine` as its last element. -/
theorem ConsumeMirroredObjects_chain_write_dominates (env : VmEnv) (s : Scheduler) (n : Nat)
    (m : InstructionMsg) (hsym : EdgeSym s)
    (hctx : s.instr_ctx_list n = [{ instr_msg := m, mirrored_object_id2access := [] }])
    (hfresh : ∀ obj, ∀ a ∈ s.access_list obj, a.instr_chain ≠ n) :
    (∀ s1 s2,
        ConsumeMirroredObjects.mutPass env (s.chain_stream n).stream_type_id.interpret_type
          (s.chain_stream n).parallel_id n m.operand s = some s1 →
        ConsumeMirroredObjects.constPass env (s.chain_stream n).stream_type_id.interpret_type
          (s.chain_stream n).parallel_id n m.operand s1 = some s2 →
        ∃ s3, ConsumeMirroredObjects.chain env s n = some s3)
      ∧ ∀ s3, ConsumeMirroredObjects.chain env s n = some s3 →
        ∃ accs, s3.instr_ctx_list n = [{ instr_msg := m, mirrored_object_id2access := accs }]
          ∧ ∀ mine ∈ accs, mine.instr_chain = n
            ∧ (mine.is_const_operand = false →
                (∀ a ∈ s.access_list mine.mirrored_object_id,
                  a.instr_chain ∈ s3.in_edges n ∧ n ∈ s3.out_edges a.instr_chain
                    ∧ a ∉ s3.access_list mine.mirrored_object_id)
                ∧ s3.access_list mine.mirrored_object_id = [mine])
            ∧ (mine.is_const_operand = true →
                s3.access_list mine.mirrored_object_id
                  = s.access_list mine.mirrored_object_id ++ [mine]) := by
  obtain ⟨h1, h2⟩ := ConsumeMirroredObjects_chain_spec env s n m hsym hctx hfresh
  refine ⟨h1, ?_⟩
  intro s3 h3
  obtain ⟨accs, hc, _, hown, _, hal, _, he⟩ := h2 s3 h3
  refine ⟨accs, hc, ?_⟩
  intro mine hm
  refine ⟨hown mine hm, ?_, ?_⟩
  · intro hw
    have hlist : s3.access_list mine.mirrored_object_id = [mine] := by
      rw [hal mine hm, hw]; rfl
    refine ⟨?_, hlist⟩
    intro a ha
    have hmem : a.instr_chain ∈ accs.flatMap
        (fun mine => linkSources (s.access_list mine.mirrored_object_id) mine) := by
      rw [List.mem_flatMap]
      refine ⟨mine, hm, ?_⟩
      unfold linkSources
      rw [hw]
      exact List.mem_map_of_mem _ ha
    refine ⟨(he.in_edges n _).mpr (Or.inr ⟨rfl, hmem⟩),
      (he.out_edges _ n).mpr (Or.inr ⟨rfl, hmem⟩), ?_⟩
    rw [hlist, List.mem_singleton]
    intro heq
    exact hfresh _ a ha (heq ▸ hown mine hm)
  · intro hr
    rw [hal mine hm, hr]; rfl

theorem test_write_state_linked_eq :
    ConsumeMirroredObjects.chain (test.env false) test.write_state 2
      = some test.write_state_linked := by
  rfl

theorem test_write_state_sym : EdgeSym test.write_state :=
  fun c d => ⟨fun h => absurd (show d ∈ ([] : List Nat) from h) (List.not_mem_nil _),
    fun h => absurd (show c ∈ ([] : List Nat) from h) (List.not_mem_nil _)⟩

theorem test_write_state_fresh :
    ∀ obj, ∀ a ∈ test.write_state.access_list obj, a.instr_chain ≠ 2 := by
  intro obj a ha
  simp only [test.write_state] at ha
  split at ha
  · simp only [List.mem_cons, List.mem_singleton, List.not_mem_nil, or_false] at ha
    rcases ha with rfl | rfl <;> decide
  · split at ha
    · simp only [List.mem_cons, List.mem_singleton, List.not_mem_nil, or_false] at ha
      rcases ha with rfl | rfl <;> decide
    · exact absurd ha (List.not_mem_nil _)

/-- Witness of C20: chain 2 mutates the symbol whose Self object (19054, 0) is read by the
chains 0 and 1 and whose Type object (19055, 0) is read by them too.  Its mutable access
to (19054, 0) erases the two const accesses and is alone on the list, with edges from the
chains 0 and 1; its const access to (19055, 0) is appended behind the two const accesses. -/
theorem ConsumeMirroredObjects_chain_write_dominates_witness :
    test.write_state_linked.in_edges 2 = [0, 1]
      ∧ test.write_state_linked.access_list { logical_object_id_value := 19054, parallel_id := 0 }
          = [{ instr_chain := 2,
               mirrored_object_id := { logical_object_id_value := 19054, parallel_id := 0 },
               is_const_operand := false }]
      ∧ test.write_state_linked.access_list { logical_object_id_value := 19055, parallel_id := 0 }
          = [test.const_access 0 19055, test.const_access 1 19055, test.const_access 2 19055]
      ∧ ∃ accs, test.write_state_linked.instr_ctx_list 2
          = [{ instr_msg := test.nop_mut_instr_msg 9527, mirrored_object_id2access := accs }]
        ∧ ∀ mine ∈ accs, mine.instr_chain = 2
          ∧ (mine.is_const_operand = false →
              (∀ a ∈ test.write_state.access_list mine.mirrored_object_id,
                a.instr_chain ∈ test.write_state_linked.in_edges 2
                  ∧ 2 ∈ test.write_state_linked.out_edges a.instr_chain
                  ∧ a ∉ test.write_state_linked.access_list mine.mirrored_object_id)
              ∧ test.write_state_linked.access_list mine.mirrored_object_id = [mine])
          ∧ (mine.is_const_operand = true →
              test.write_state_linked.access_list mine.mirrored_object_id
                = test.write_state.access_list mine.mirrored_object_id ++ [mine]) :=
  ⟨by decide, by decide, by decide,
    (ConsumeMirroredObjects_chain_write_dominates (test.env false) test.write_state 2
      (test.nop_mut_instr_msg 9527) test_write_state_sym rfl test_write_state_fresh).2
      test.write_state_linked test_write_state_linked_eq⟩

/-! ## The access registration table -/

theorem ConsumeMirroredObject_registered_new (t : OperandAccessType) (s0 s : Scheduler)
    (n : Nat) (m : InstructionMsg) (accs : List MirroredObjectAccess) (obj : MirroredObjectId)
    (h : Registered s0 s n m accs)
    (hnew : obj ∉ accs.map MirroredObjectAccess.mirrored_object_id) :
    Registered s0 (ConsumeMirroredObject t n s obj) n m
      (accs ++ AccessTable.accesses n (decide (t = OperandAccessType.kConstOperandAccess))
        [obj]) := by
  have hnot : ∀ a ∈ accs, a.mirrored_object_id ≠ obj := by
    intro a ha heq
    exact hnew (heq ▸ List.mem_map_of_mem _ ha)
  have hany' : (accs.any (fun a => decide (a.mirrored_object_id = obj))) = false := by
    rw [List.any_eq_false]
    intro a ha
    simpa using hnot a ha
  unfold ConsumeMirroredObject
  rw [h.ctx]
  dsimp only
  simp only [hany', Bool.not_false, if_true, AccessTable.accesses, List.map_cons, List.map_nil]
  constructor
  · simp
  · rw [List.map_append, List.nodup_append]
    refine ⟨h.nodup, by simp, ?_⟩
    intro x hx1 hx2
    simp only [List.map_cons, List.map_nil, List.mem_singleton] at hx2
    subst hx2
    exact hnew hx1
  · intro a ha
    rcases List.mem_append.mp ha with ha | ha
    · exact h.own a ha
    · simp only [List.mem_singleton] at ha
      subst ha
      rfl
  · intro o
    by_cases ho : o = obj
    · subst ho
      simp [h.al o, List.filter_append]
    · have ho' : obj ≠ o := fun hx => ho hx.symm
      simp [Function.update_noteq ho, h.al o, List.filter_append, ho']
  · intro c hc
    simp only [Function.update_noteq hc]
    exact h.others c hc
  · exact FrameAccess_trans h.frame (by constructor <;> rfl)

theorem ConsumeMirroredObject_foldl_registered_new (t : OperandAccessType) (s0 : Scheduler)
    (n : Nat) (m : InstructionMsg) (objs : List MirroredObjectId) (s : Scheduler)
    (accs : List MirroredObjectAccess) (h : Registered s0 s n m accs)
    (hnd : (accs.map MirroredObjectAccess.mirrored_object_id ++ objs).Nodup) :
    Registered s0 (objs.foldl (ConsumeMirroredObject t n) s) n m
      (accs ++ AccessTable.accesses n (decide (t = OperandAccessType.kConstOperandAccess))
        objs) := by
  induction objs generalizing s accs with
  | nil => simpa [AccessTable.accesses] using h
  | cons o rest ih =>
    have hnew : o ∉ accs.map MirroredObjectAccess.mirrored_object_id := by
      intro hx
      rw [List.nodup_append] at hnd
      exact hnd.2.2 hx (List.mem_cons_self _ _)
    have h1 := ConsumeMirroredObject_registered_new t s0 s n m accs o h hnew
    have hnd1 : ((accs ++ AccessTable.accesses n
        (decide (t = OperandAccessType.kConstOperandAccess)) [o]).map
          MirroredObjectAccess.mirrored_object_id ++ rest).Nodup := by
      simpa [AccessTable.accesses, List.append_assoc] using hnd
    have h2 := ih _ _ h1 hnd1
    simpa [AccessTable.accesses, List.append_assoc] using h2
theorem AccessTable_accesses_append (n : Nat) (b : Bool) (l1 l2 : List MirroredObjectId) :
    AccessTable.accesses n b (l1 ++ l2)
      = AccessTable.accesses n b l1 ++ AccessTable.accesses n b l2 := by
  simp [AccessTable.accesses]

theorem AccessTable_accesses_objs (n : Nat) (b : Bool) (l : List MirroredObjectId) :
    (AccessTable.accesses n b l).map MirroredObjectAccess.mirrored_object_id = l := by
  simp [AccessTable.accesses, Function.comp_def]

theorem ConsumeMirroredObjects_mutPass_table (env : VmEnv) (it : InterpretType)
    (pid : Int) (s0 : Scheduler) (n : Nat) (m : InstructionMsg)
    (ops : List InstructionOperand) (s : Scheduler) (accs : List MirroredObjectAccess)
    (W : List MirroredObjectId)
    (h : Registered s0 s n m accs)
    (hW : AccessTable.collect (AccessTable.writes env it s0.id2logical_object pid) ops = some W)
    (hnd : (accs.map MirroredObjectAccess.mirrored_object_id ++ W).Nodup) :
    ∃ s1, ConsumeMirroredObjects.mutPass env it pid n ops s = some s1
      ∧ Registered s0 s1 n m (accs ++ AccessTable.accesses n false W) := by
  induction ops generalizing s accs W with
  | nil =>
    simp only [AccessTable.collect, Option.some.injEq] at hW
    subst hW
    exact ⟨s, rfl, by simpa [AccessTable.accesses] using h⟩
  | cons op rest ih =>
    simp only [AccessTable.collect] at hW
    split at hW
    · rename_i objs more hobjs hmore
      simp only [Option.some.injEq] at hW
      subst hW
      have hid : s.id2logical_object = s0.id2logical_object := h.frame.id2logical_object
      have step : ∀ s', Registered s0 s' n m (accs ++ AccessTable.accesses n false objs) →
          ∃ s1, ConsumeMirroredObjects.mutPass env it pid n rest s' = some s1
            ∧ Registered s0 s1 n m (accs ++ AccessTable.accesses n false (objs ++ more)) := by
        intro s' h'
        obtain ⟨s1, e1, r1⟩ := ih s' _ more h' hmore (by
          simpa [List.map_append, AccessTable_accesses_objs, List.append_assoc] using hnd)
        exact ⟨s1, e1, by
          simpa [AccessTable_accesses_append, List.append_assoc] using r1⟩
      have hreg : Registered s0
          (objs.foldl (ConsumeMirroredObject OperandAccessType.kMutableOperandAccess n) s) n m
          (accs ++ AccessTable.accesses n false objs) := by
        have := ConsumeMirroredObject_foldl_registered_new
          OperandAccessType.kMutableOperandAccess s0 n m objs s accs h (by
            rw [← List.append_assoc] at hnd
            exact (List.nodup_append.mp hnd).1)
        simpa using this
      cases op
      case mutable_operand o =>
        simp only [ConsumeMirroredObjects.mutPass]
        have : ForEachMutMirroredObject_mutable env it s.id2logical_object o pid
            = some objs := by
          rw [hid, ← hobjs]
          cases it <;> rfl
        rw [this]
        exact step _ hreg
      case mut2_operand o =>
        simp only [ConsumeMirroredObjects.mutPass]
        have : ForEachMutMirroredObject_mut2 env it s.id2logical_object o pid
            = some objs := by
          rw [hid, ← hobjs]
          cases it <;> rfl
        rw [this]
        exact step _ hreg
      all_goals
        simp only [AccessTable.writes, Option.some.injEq] at hobjs
        subst hobjs
        simp only [ConsumeMirroredObjects.mutPass]
        exact step s (by simpa [AccessTable.accesses] using h)
    · exact absurd hW (by simp)

theorem ConsumeMirroredObjects_constPass_table (env : VmEnv) (it : InterpretType)
    (pid : Int) (s0 : Scheduler) (n : Nat) (m : InstructionMsg)
    (ops : List InstructionOperand) (s : Scheduler) (accs : List MirroredObjectAccess)
    (R : List MirroredObjectId)
    (h : Registered s0 s n m accs)
    (hR : AccessTable.collect (AccessTable.reads env it s0.id2logical_object pid) ops = some R)
    (hnd : (accs.map MirroredObjectAccess.mirrored_object_id ++ R).Nodup) :
    ∃ s1, ConsumeMirroredObjects.constPass env it pid n ops s = some s1
      ∧ Registered s0 s1 n m (accs ++ AccessTable.accesses n true R) := by
  induction ops generalizing s accs R with
  | nil =>
    simp only [AccessTable.collect, Option.some.injEq] at hR
    subst hR
    exact ⟨s, rfl, by simpa [AccessTable.accesses] using h⟩
  | cons op rest ih =>
    simp only [AccessTable.collect] at hR
    split at hR
    · rename_i objs more hobjs hmore
      simp only [Option.some.injEq] at hR
      subst hR
      have hid : s.id2logical_object = s0.id2logical_object := h.frame.id2logical_object
      have step : ∀ s', Registered s0 s' n m (accs ++ AccessTable.accesses n true objs) →
          ∃ s1, ConsumeMirroredObjects.constPass env it pid n rest s' = some s1
            ∧ Registered s0 s1 n m (accs ++ AccessTable.accesses n true (objs ++ more)) := by
        intro s' h'
        obtain ⟨s1, e1, r1⟩ := ih s' _ more h' hmore (by
          simpa [List.map_append, AccessTable_accesses_objs, List.append_assoc] using hnd)
        exact ⟨s1, e1, by
          simpa [AccessTable_accesses_append, List.append_assoc] using r1⟩
      have hreg : Registered s0
          (objs.foldl (ConsumeMirroredObject OperandAccessType.kConstOperandAccess n) s) n m
          (accs ++ AccessTable.accesses n true objs) := by
        have := ConsumeMirroredObject_foldl_registered_new
          OperandAccessType.kConstOperandAccess s0 n m objs s accs h (by
            rw [← List.append_assoc] at hnd
            exact (List.nodup_append.mp hnd).1)
        simpa using this
      cases op
      case const_operand o =>
        simp only [ConsumeMirroredObjects.constPass]
        have : ForEachConstMirroredObject_const env it s.id2logical_object o pid
            = some objs := by
          rw [hid, ← hobjs]
          cases it <;> rfl
        rw [this]
        exact step _ hreg
      case mutable_operand o =>
        simp only [ConsumeMirroredObjects.constPass]
        have : ForEachConstMirroredObject_mutable env it s.id2logical_object o pid
            = some objs := by
          rw [hid, ← hobjs]
          cases it <;> rfl
        rw [this]
        exact step _ hreg
      all_goals
        simp only [AccessTable.reads, Option.some.injEq] at hobjs
        subst hobjs
        simp only [ConsumeMirroredObjects.constPass]
        exact step s (by simpa [AccessTable.accesses] using h)
    · exact absurd hR (by simp)
/-- C19: the access registration table.  Let `n` be a new chain without accesses whose
instruction has the operands `m.operand`, let `W` and `R` be the mirrored objects that the
table of the specification has the operands write and read, under the interpret type and
parallel id of the stream of `n`, and let these objects be pairwise distinct.  Then the
first pass of `ConsumeMirroredObjects` returns with exactly the mutable accesses to `W`
registered, in the order of the operands, each at the back of the access list of its
object; the second pass returns with the const accesses to `R` registered behind them, so
every write access is registered before any read access; and the body of the loop returns
with the chain holding exactly these accesses. -/
theorem ConsumeMirroredObjects_chain_access_table (env : VmEnv) (s : Scheduler) (n : Nat)
    (m : InstructionMsg) (W R : List MirroredObjectId) (hsym : EdgeSym s)
    (hctx : s.instr_ctx_list n = [{ instr_msg := m, mirrored_object_id2access := [] }])
    (hfresh : ∀ obj, ∀ a ∈ s.access_list obj, a.instr_chain ≠ n)
    (hW : AccessTable.collect
      (AccessTable.writes env (s.chain_stream n).stream_type_id.interpret_type
        s.id2logical_object (s.chain_stream n).parallel_id) m.operand = some W)
    (hR : AccessTable.collect
      (AccessTable.reads env (s.chain_stream n).stream_type_id.interpret_type
        s.id2logical_object (s.chain_stream n).parallel_id) m.operand = some R)
    (hnd : (W ++ R).Nodup) :
    ∃ s1 s2 s3,
      ConsumeMirroredObjects.mutPass env (s.chain_stream n).stream_type_id.interpret_type
          (s.chain_stream n).parallel_id n m.operand s = some s1
        ∧ ConsumeMirroredObjects.constPass env (s.chain_stream n).stream_type_id.interpret_type
          (s.chain_stream n).parallel_id n m.operand s1 = some s2
        ∧ ConsumeMirroredObjects.chain env s n = some s3
        ∧ s1.instr_ctx_list n
            = [{ instr_msg := m,
                 mirrored_object_id2access := AccessTable.accesses n false W }]
        ∧ (∀ obj, s1.access_list obj = s.access_list obj
            ++ (AccessTable.accesses n false W).filter
                (fun a => decide (a.mirrored_object_id = obj)))
        ∧ s2.instr_ctx_list n
            = [{ instr_msg := m,
                 mirrored_object_id2access :=
                   AccessTable.accesses n false W ++ AccessTable.accesses n true R }]
        ∧ (∀ obj, s2.access_list obj = s.access_list obj
            ++ (AccessTable.accesses n false W ++ AccessTable.accesses n true R).filter
                (fun a => decide (a.mirrored_object_id = obj)))
        ∧ s3.instr_ctx_list n
            = [{ instr_msg := m,
                 mirrored_object_id2access :=
                   AccessTable.accesses n false W ++ AccessTable.accesses n true R }] := by
  obtain ⟨s1, e1, r1⟩ := ConsumeMirroredObjects_mutPass_table env _ _ s n m m.operand s [] W
    (Registered_init s n m hctx) hW (by
      simpa using (List.nodup_append.mp hnd).1)
  simp only [List.nil_append] at r1
  obtain ⟨s2, e2, r2⟩ := ConsumeMirroredObjects_constPass_table env _ _ s n m m.operand s1 _ R
    r1 hR (by simpa [AccessTable_accesses_objs] using hnd)
  obtain ⟨t1, t2⟩ := ConsumeMirroredObjects_chain_spec env s n m hsym hctx hfresh
  obtain ⟨s3, e3⟩ := t1 s1 s2 e1 e2
  refine ⟨s1, s2, s3, e1, e2, e3, r1.ctx, r1.al, r2.ctx, r2.al, ?_⟩
  have e3' := e3
  unfold ConsumeMirroredObjects.chain at e3'
  simp only [hctx, e1, e2, r2.ctx] at e3'
  rw [(ConsumeMirroredObjects_linkAll_frame _ _ _ _ e3').instr_ctx_list, r2.ctx]

/-- Witness of C19: chain 2 of `write_state`, a compute instruction with one mutable
operand, has the write access to the Self object (19054, 0) of the symbol registered in
front of the read access to its Type object (19055, 0). -/
theorem ConsumeMirroredObjects_chain_access_table_witness :
    ∃ s1 s2 s3,
      ConsumeMirroredObjects.mutPass (test.env false) InterpretType.kCompute 0 2
          (test.nop_mut_instr_msg 9527).operand test.write_state = some s1
        ∧ ConsumeMirroredObjects.constPass (test.env false) InterpretType.kCompute 0 2
          (test.nop_mut_instr_msg 9527).operand s1 = some s2
        ∧ ConsumeMirroredObjects.chain (test.env false) test.write_state 2 = some s3
        ∧ s1.instr_ctx_list 2
            = [{ instr_msg := test.nop_mut_instr_msg 9527,
                 mirrored_object_id2access :=
                   [{ instr_chain := 2,
                      mirrored_object_id :=
                        { logical_object_id_value := 19054, parallel_id := 0 },
                      is_const_operand := false }] }]
        ∧ s3.instr_ctx_list 2
            = [{ instr_msg := test.nop_mut_instr_msg 9527,
                 mirrored_object_id2access :=
                   [{ instr_chain := 2,
                      mirrored_object_id :=
                        { logical_object_id_value := 19054, parallel_id := 0 },
                      is_const_operand := false },
                    test.const_access 2 19055] }] := by
  obtain ⟨s1, s2, s3, e1, e2, e3, c1, _, _, _, c3⟩ :=
    ConsumeMirroredObjects_chain_access_table (test.env false) test.write_state 2
      (test.nop_mut_instr_msg 9527)
      [{ logical_object_id_value := 19054, parallel_id := 0 }]
      [{ logical_object_id_value := 19055, parallel_id := 0 }]
      test_write_state_sym rfl test_write_state_fresh (by decide) (by decide) (by decide)
  exact ⟨s1, s2, s3, e1, e2, e3, c1, c3⟩

/-! ## Liveness: the release phase -/

theorem ReleaseInstruction_releaseAccess_iff (s : Scheduler) (a : MirroredObjectAccess)
    (hnd : ∀ obj, (s.access_list obj).Nodup) (obj : MirroredObjectId)
    (x : MirroredObjectAccess) :
    x ∈ (ReleaseInstruction.releaseAccess s a).access_list obj
      ↔ x ∈ s.access_list obj ∧ ¬ (x = a ∧ obj = a.mirrored_object_id) := by
  unfold ReleaseInstruction.releaseAccess
  split
  · by_cases ho : obj = a.mirrored_object_id
    · subst ho
      simp only [Function.update_same]
      rw [(hnd _).mem_erase_iff]
      constructor
      · rintro ⟨h1, h2⟩
        exact ⟨h2, fun h => h1 h.1⟩
      · rintro ⟨h1, h2⟩
        exact ⟨fun h => h2 ⟨h, trivial⟩, h1⟩
    · simp only [Function.update_noteq ho]
      constructor
      · intro h
        exact ⟨h, fun h2 => ho h2.2⟩
      · exact fun h => h.1
  · rename_i hmem
    constructor
    · intro h
      refine ⟨h, ?_⟩
      rintro ⟨h1, h2⟩
      subst h1
      subst h2
      exact hmem h
    · exact fun h => h.1

theorem ReleaseInstruction_releaseAccess_nodup (s : Scheduler) (a : MirroredObjectAccess)
    (hnd : ∀ obj, (s.access_list obj).Nodup) (obj : MirroredObjectId) :
    ((ReleaseInstruction.releaseAccess s a).access_list obj).Nodup :=
  (hnd obj).sublist (ReleaseInstruction_releaseAccess_mem s a obj)

theorem ReleaseInstruction_releaseAccess_foldl_iff (l : List MirroredObjectAccess)
    (s : Scheduler) (hnd : ∀ obj, (s.access_list obj).Nodup) :
    (∀ obj, ((l.foldl ReleaseInstruction.releaseAccess s).access_list obj).Nodup)
      ∧ ∀ obj x, x ∈ (l.foldl ReleaseInstruction.releaseAccess s).access_list obj
          ↔ x ∈ s.access_list obj ∧ ¬ (x ∈ l ∧ obj = x.mirrored_object_id) := by
  induction l generalizing s with
  | nil => exact ⟨hnd, fun obj x => by simp⟩
  | cons a rest ih =>
    obtain ⟨h1, h2⟩ := ih (ReleaseInstruction.releaseAccess s a)
      (ReleaseInstruction_releaseAccess_nodup s a hnd)
    refine ⟨h1, ?_⟩
    intro obj x
    simp only [List.foldl_cons]
    rw [h2 obj x, ReleaseInstruction_releaseAccess_iff s a hnd obj x]
    constructor
    · rintro ⟨⟨h3, h4⟩, h5⟩
      refine ⟨h3, ?_⟩
      rintro ⟨h6, h7⟩
      rcases List.mem_cons.mp h6 with h | h
      · exact h4 ⟨h, h ▸ h7⟩
      · exact h5 ⟨h, h7⟩
    · rintro ⟨h3, h4⟩
      refine ⟨⟨h3, ?_⟩, ?_⟩
      · rintro ⟨h5, h6⟩
        exact h4 ⟨h5 ▸ List.mem_cons_self _ _, h5 ▸ h6⟩
      · rintro ⟨h5, h6⟩
        exact h4 ⟨List.mem_cons_of_mem _ h5, h6⟩

theorem ReleaseInstruction_releaseAccess_ctxs_iff (l : List InstrCtx)
    (s : Scheduler) (hnd : ∀ obj, (s.access_list obj).Nodup) :
    (∀ obj, ((l.foldl (fun acc instr_ctx =>
        instr_ctx.mirrored_object_id2access.foldl ReleaseInstruction.releaseAccess acc)
        s).access_list obj).Nodup)
      ∧ ∀ obj x, x ∈ (l.foldl (fun acc instr_ctx =>
          instr_ctx.mirrored_object_id2access.foldl ReleaseInstruction.releaseAccess acc)
          s).access_list obj
          ↔ x ∈ s.access_list obj
            ∧ ¬ ((∃ ctx ∈ l, x ∈ ctx.mirrored_object_id2access)
              ∧ obj = x.mirrored_object_id) := by
  induction l generalizing s with
  | nil => exact ⟨hnd, fun obj x => by simp⟩
  | cons c rest ih =>
    obtain ⟨n1, m1⟩ := ReleaseInstruction_releaseAccess_foldl_iff c.mirrored_object_id2access
      s hnd
    obtain ⟨h1, h2⟩ := ih (c.mirrored_object_id2access.foldl ReleaseInstruction.releaseAccess s)
      n1
    refine ⟨h1, ?_⟩
    intro obj x
    simp only [List.foldl_cons]
    rw [h2 obj x, m1 obj x]
    constructor
    · rintro ⟨⟨h3, h4⟩, h5⟩
      refine ⟨h3, ?_⟩
      rintro ⟨⟨ctx, h6, h7⟩, h8⟩
      rcases List.mem_cons.mp h6 with h | h
      · exact h4 ⟨h ▸ h7, h8⟩
      · exact h5 ⟨⟨ctx, h, h7⟩, h8⟩
    · rintro ⟨h3, h4⟩
      refine ⟨⟨h3, ?_⟩, ?_⟩
      · rintro ⟨h5, h6⟩
        exact h4 ⟨⟨c, List.mem_cons_self _ _, h5⟩, h6⟩
      · rintro ⟨⟨ctx, h5, h6⟩, h7⟩
        exact h4 ⟨⟨ctx, List.mem_cons_of_mem _ h5, h6⟩, h7⟩

theorem ReleaseInstruction_releaseAccesses_iff (c : Nat) (s : Scheduler)
    (hnd : ∀ obj, (s.access_list obj).Nodup) (obj : MirroredObjectId)
    (x : MirroredObjectAccess) :
    x ∈ (ReleaseInstruction.releaseAccesses c s).access_list obj
      ↔ x ∈ s.access_list obj
        ∧ ¬ ((∃ ctx ∈ s.instr_ctx_list c, x ∈ ctx.mirrored_object_id2access)
          ∧ obj = x.mirrored_object_id) := by
  have h := (ReleaseInstruction_releaseAccess_ctxs_iff (s.instr_ctx_list c) s hnd).2 obj x
  unfold ReleaseInstruction.releaseAccesses
  exact h

theorem ReleaseInstruction_releaseAccesses_dead (c : Nat) (s : Scheduler)
    (ready new : List Nat) (hl : LiveInv s ready new) (obj : MirroredObjectId)
    (x : MirroredObjectAccess) :
    x ∈ (ReleaseInstruction.releaseAccesses c s).access_list obj
      ↔ x ∈ s.access_list obj ∧ x.instr_chain ≠ c := by
  rw [ReleaseInstruction_releaseAccesses_iff c s hl.al_nodup]
  constructor
  · rintro ⟨h1, h2⟩
    refine ⟨h1, ?_⟩
    intro hc
    obtain ⟨ctx, hctx, hx⟩ := hl.al_own obj x h1
    rw [hc] at hctx
    exact h2 ⟨⟨ctx, hctx, hx⟩, (hl.al_obj obj x h1).symm⟩
  · rintro ⟨h1, h2⟩
    refine ⟨h1, ?_⟩
    rintro ⟨⟨ctx, hctx, hx⟩, _⟩
    exact h2 (hl.ctx_own c ctx x hctx hx)

theorem Kept_refl (s : Scheduler) (ready : List Nat) : Kept s ready s ready :=
  ⟨fun _ h => h, fun _ h => h, fun _ h => h, fun _ h => Or.inl h, fun _ _ h => h,
    fun _ _ h => h, fun _ _ h => h⟩

theorem Kept_trans {s s1 s2 : Scheduler} {ready ready1 ready2 : List Nat}
    (h1 : Kept s ready s1 ready1) (h2 : Kept s1 ready1 s2 ready2) : Kept s ready s2 ready2 := by
  constructor
  · exact fun x h => h2.in_hand x (h1.in_hand x h)
  · exact fun x h => h1.waiting x (h2.waiting x h)
  · exact fun x h => h2.ready_mono x (h1.ready_mono x h)
  · intro x h
    rcases h2.ready_from x h with h | h
    · exact h1.ready_from x h
    · exact Or.inr (h1.waiting x h)
  · exact fun d x h => h1.in_edges d x (h2.in_edges d x h)
  · exact fun c x h => h1.out_edges c x (h2.out_edges c x h)
  · exact fun obj x h => h1.access_list obj x (h2.access_list obj x h)

theorem ReleaseInstruction_releaseEdge_kept (c d : Nat) (s : Scheduler) (ready : List Nat)
    (hg : GraphInv s ready []) (hd : d ∈ s.out_edges c) :
    Kept s ready (ReleaseInstruction.releaseEdge c (s, ready) d).1
        (ReleaseInstruction.releaseEdge c (s, ready) d).2
      ∧ (ReleaseInstruction.releaseEdge c (s, ready) d).1.access_list = s.access_list
      ∧ (ReleaseInstruction.releaseEdge c (s, ready) d).1.instr_ctx_list = s.instr_ctx_list
      ∧ (ReleaseInstruction.releaseEdge c (s, ready) d).1.active_stream_list
          = s.active_stream_list
      ∧ (ReleaseInstruction.releaseEdge c (s, ready) d).1.running_chain_list
          = s.running_chain_list
      ∧ (ReleaseInstruction.releaseEdge c (s, ready) d).1.done = s.done
      ∧ (ReleaseInstruction.releaseEdge c (s, ready) d).1.out_edges c
          = (s.out_edges c).erase d := by
  rw [ReleaseInstruction_releaseEdge_eq]
  refine ⟨?_, rfl, rfl, rfl, rfl, rfl, by simp⟩
  constructor
  · intro x hx
    dsimp only
    split
    · by_cases hxd : x = d
      · right
        rw [hxd]
        exact List.mem_append_right _ (List.mem_singleton_self d)
      · rcases hx with h | h
        · exact Or.inl ((List.mem_erase_of_ne hxd).mpr h)
        · exact Or.inr (List.mem_append_left _ h)
    · exact hx
  · intro x hx
    dsimp only at hx
    split at hx
    · exact List.mem_of_mem_erase hx
    · exact hx
  · intro x hx
    dsimp only
    split
    · exact List.mem_append_left _ hx
    · exact hx
  · intro x hx
    dsimp only at hx
    split at hx
    · rcases List.mem_append.mp hx with h | h
      · exact Or.inl h
      · right
        rw [List.mem_singleton.mp h]
        rcases hg.dst_waiting c d ((hg.sym c d).mp hd) with h1 | h1
        · exact h1
        · exact absurd h1 (List.not_mem_nil _)
    · exact Or.inl hx
  · intro y x hx
    dsimp only at hx
    by_cases hy : y = d
    · subst hy
      rw [Function.update_same] at hx
      exact List.mem_of_mem_erase hx
    · rwa [Function.update_noteq hy] at hx
  · intro y x hx
    dsimp only at hx
    by_cases hy : y = c
    · subst hy
      rw [Function.update_same] at hx
      exact List.mem_of_mem_erase hx
    · rwa [Function.update_noteq hy] at hx
  · exact fun _ _ h => h

theorem ReleaseInstruction_foldl_kept (c : Nat) (k : Nat) (l : List Nat) (s : Scheduler)
    (ready : List Nat) (hl : s.out_edges c = l) (hg : GraphInv s ready [])
    (ho : OrderInv s k) :
    Kept s ready (l.foldl (ReleaseInstruction.releaseEdge c) (s, ready)).1
        (l.foldl (ReleaseInstruction.releaseEdge c) (s, ready)).2
      ∧ (l.foldl (ReleaseInstruction.releaseEdge c) (s, ready)).1.access_list = s.access_list
      ∧ (l.foldl (ReleaseInstruction.releaseEdge c) (s, ready)).1.instr_ctx_list
          = s.instr_ctx_list
      ∧ (l.foldl (ReleaseInstruction.releaseEdge c) (s, ready)).1.active_stream_list
          = s.active_stream_list
      ∧ (l.foldl (ReleaseInstruction.releaseEdge c) (s, ready)).1.out_edges c = [] := by
  induction l generalizing s ready with
  | nil => exact ⟨Kept_refl s ready, rfl, rfl, rfl, hl⟩
  | cons d rest ih =>
    have hd : d ∈ s.out_edges c := by rw [hl]; exact List.mem_cons_self _ _
    obtain ⟨g1, o1, e1, _, _⟩ := ReleaseInstruction_releaseEdge_inv c d s ready k hg ho hd
    obtain ⟨k1, a1, c1, v1, _, _, _⟩ := ReleaseInstruction_releaseEdge_kept c d s ready hg hd
    have hl1 : (ReleaseInstruction.releaseEdge c (s, ready) d).1.out_edges c = rest := by
      rw [e1, hl, List.erase_cons_head]
    obtain ⟨k2, a2, c2, v2, e2⟩ := ih (ReleaseInstruction.releaseEdge c (s, ready) d).1
      (ReleaseInstruction.releaseEdge c (s, ready) d).2 hl1 g1 o1
    simp only [List.foldl_cons]
    exact ⟨Kept_trans k1 k2, a2.trans a1, c2.trans c1, v2.trans v1, e2⟩

/-- What `ReleaseInstruction` leaves of the released chain: no access, no out-edge and so
no in-edge from it; its `InstrCtx` hold no access; the other chains keep theirs. -/
theorem ReleaseInstruction_post (s : Scheduler) (c : Nat) (ready : List Nat) (k : Nat)
    (hg : GraphInv s ready []) (ho : OrderInv s k) (hl : LiveInv s ready []) :
    Kept s ready (ReleaseInstruction s c ready).1 (ReleaseInstruction s c ready).2
      ∧ (∀ obj x, x ∈ (ReleaseInstruction s c ready).1.access_list obj
          ↔ x ∈ s.access_list obj ∧ x.instr_chain ≠ c)
      ∧ (∀ obj, ((ReleaseInstruction s c ready).1.access_list obj).Sublist (s.access_list obj))
      ∧ (∀ d, (ReleaseInstruction s c ready).1.instr_ctx_list d
          = if d = c then (s.instr_ctx_list c).map
              (fun instr_ctx => { instr_ctx with mirrored_object_id2access := [] })
            else s.instr_ctx_list d)
      ∧ (ReleaseInstruction s c ready).1.active_stream_list = s.active_stream_list
      ∧ (ReleaseInstruction s c ready).1.out_edges c = []
      ∧ (∀ d, c ∉ (ReleaseInstruction s c ready).1.in_edges d) := by
  obtain ⟨g1, o1⟩ := ReleaseInstruction_releaseAccesses_inv c s ready [] k hg ho
  have fr := ReleaseInstruction_releaseAccesses_frame c s
  obtain ⟨k2, a2, c2, v2, e2⟩ := ReleaseInstruction_foldl_kept c k _
    (ReleaseInstruction.releaseAccesses c s) ready rfl g1 o1
  obtain ⟨g3, _, _, _⟩ := ReleaseInstruction_inv s c ready k hg ho
  have hk1 : Kept s ready (ReleaseInstruction.releaseAccesses c s) ready := by
    constructor
    · intro x hx; rw [fr.waiting_instr_chain_list]; exact hx
    · intro x hx; rw [fr.waiting_instr_chain_list] at hx; exact hx
    · exact fun _ h => h
    · exact fun _ h => Or.inl h
    · intro d x hx; rw [fr.in_edges] at hx; exact hx
    · intro d x hx; rw [fr.out_edges] at hx; exact hx
    · exact fun obj x hx => (ReleaseInstruction_releaseAccesses_mem c s obj).subset hx
  have hout : (ReleaseInstruction s c ready).1.out_edges c = [] := e2
  have hacc : (ReleaseInstruction s c ready).1.access_list
      = (ReleaseInstruction.releaseAccesses c s).access_list := a2
  have hctx : (ReleaseInstruction s c ready).1.instr_ctx_list
      = (ReleaseInstruction.releaseAccesses c s).instr_ctx_list := c2
  have hact : (ReleaseInstruction s c ready).1.active_stream_list
      = (ReleaseInstruction.releaseAccesses c s).active_stream_list := v2
  refine ⟨Kept_trans hk1 k2, ?_, ?_, ?_, ?_, hout, ?_⟩
  · intro obj x
    rw [hacc]
    exact ReleaseInstruction_releaseAccesses_dead c s ready [] hl obj x
  · intro obj
    rw [hacc]
    exact ReleaseInstruction_releaseAccesses_mem c s obj
  · intro d
    rw [hctx]
    exact ReleaseInstruction_releaseAccesses_ctx c s d
  · rw [hact]
    exact fr.active_stream_list
  · intro d hd
    have := (g3.sym c d).mpr hd
    rw [hout] at this
    exact absurd this (List.not_mem_nil _)

theorem InHand_of_kept {s s1 : Scheduler} {ready ready1 : List Nat} (x : Nat)
    (hk : Kept s ready s1 ready1)
    (hrun : ∀ st, x ∈ s.running_chain_list st → x ∈ s1.running_chain_list st)
    (h : InHand s ready [] x) : InHand s1 ready1 [] x := by
  rcases h with (h | ⟨st, h⟩) | h | h
  · rcases hk.in_hand x (Or.inl h) with h1 | h1
    · exact Or.inl (Or.inl h1)
    · exact Or.inr (Or.inl h1)
  · exact Or.inl (Or.inr ⟨st, hrun st h⟩)
  · exact Or.inr (Or.inl (hk.ready_mono x h))
  · exact absurd h (List.not_mem_nil _)

/-- The release of the head chain of a running list keeps the invariant of liveness. -/
theorem ReleaseInstruction_live (s : Scheduler) (c : Nat) (ready : List Nat) (k : Nat)
    (stream : StreamId) (rest : List Nat) (hg : GraphInv s ready []) (ho : OrderInv s k)
    (hl : LiveInv s ready []) (hrun : s.running_chain_list stream = c :: rest) :
    LiveInv { (ReleaseInstruction s c ready).1 with
        running_chain_list :=
          Function.update (ReleaseInstruction s c ready).1.running_chain_list stream rest }
      (ReleaseInstruction s c ready).2 [] := by
  obtain ⟨hk, hacc, hsub, hctx, _, hout, hin⟩ := ReleaseInstruction_post s c ready k hg ho hl
  obtain ⟨_, _, r1, _⟩ := ReleaseInstruction_inv s c ready k hg ho
  have hhand : ∀ x, x ≠ c → InHand s ready [] x →
      InHand { (ReleaseInstruction s c ready).1 with
        running_chain_list :=
          Function.update (ReleaseInstruction s c ready).1.running_chain_list stream rest }
        (ReleaseInstruction s c ready).2 [] x := by
    intro x hx h
    have hk1 : Kept s ready { (ReleaseInstruction s c ready).1 with
        running_chain_list :=
          Function.update (ReleaseInstruction s c ready).1.running_chain_list stream rest }
        (ReleaseInstruction s c ready).2 :=
      ⟨hk.in_hand, hk.waiting, hk.ready_mono, hk.ready_from, hk.in_edges, hk.out_edges,
        hk.access_list⟩
    refine InHand_of_kept x hk1 ?_ h
    intro st hst
    dsimp only
    by_cases hs : st = stream
    · subst hs
      rw [Function.update_same]
      rw [hrun] at hst
      rcases List.mem_cons.mp hst with h1 | h1
      · exact absurd h1 hx
      · exact h1
    · rw [Function.update_noteq hs, r1]
      exact hst
  constructor
  · intro obj a ha
    exact hl.al_obj obj a ((hacc obj a).mp ha).1
  · intro obj a ha
    obtain ⟨h1, h2⟩ := (hacc obj a).mp ha
    obtain ⟨ctx, hc1, hc2⟩ := hl.al_own obj a h1
    refine ⟨ctx, ?_, hc2⟩
    show ctx ∈ (ReleaseInstruction s c ready).1.instr_ctx_list a.instr_chain
    rw [hctx, if_neg h2]
    exact hc1
  · intro obj
    exact (hl.al_nodup obj).sublist (hsub obj)
  · intro d ctx a hc1 hc2
    have hc1' : ctx ∈ (ReleaseInstruction s c ready).1.instr_ctx_list d := hc1
    rw [hctx] at hc1'
    split at hc1'
    · obtain ⟨ctx0, _, h0⟩ := List.mem_map.mp hc1'
      rw [← h0] at hc2
      exact absurd hc2 (List.not_mem_nil _)
    · exact hl.ctx_own d ctx a hc1' hc2
  · intro obj a ha
    obtain ⟨h1, h2⟩ := (hacc obj a).mp ha
    exact hhand _ h2 (hl.al_live obj a h1)
  · intro x d hx
    have hx' : x ∈ (ReleaseInstruction s c ready).1.in_edges d := hx
    have hne : x ≠ c := fun h => hin d (h ▸ hx')
    exact hhand _ hne (hl.src_live x d (hk.in_edges d x hx'))
theorem LiveInv_congr {s s1 : Scheduler} {ready new : List Nat} (h : LiveInv s ready new)
    (hw : s1.waiting_instr_chain_list = s.waiting_instr_chain_list)
    (hr : s1.running_chain_list = s.running_chain_list)
    (hi : s1.in_edges = s.in_edges) (hc : s1.instr_ctx_list = s.instr_ctx_list)
    (ha : s1.access_list = s.access_list) : LiveInv s1 ready new := by
  have hhand : ∀ x, InHand s ready new x → InHand s1 ready new x := by
    intro x hx
    unfold InHand Live at hx ⊢
    rw [hw, hr]
    exact hx
  constructor
  · rw [ha]; exact h.al_obj
  · rw [ha, hc]; exact h.al_own
  · rw [ha]; exact h.al_nodup
  · rw [hc]; exact h.ctx_own
  · intro obj a h1
    rw [ha] at h1
    exact hhand _ (h.al_live obj a h1)
  · intro c d h1
    rw [hi] at h1
    exact hhand _ (h.src_live c d h1)

theorem TryReleaseFinishedInstrChains_step_inv (stream : StreamId) (k : Nat) (c : Nat)
    (rest : List Nat) (s : Scheduler) (ready : List Nat)
    (hl : s.running_chain_list stream = c :: rest) (hdone : s.done c = true)
    (hg : GraphInv s ready []) (ho : OrderInv s k) :
    GraphInv { (ReleaseInstruction s c ready).1 with
        running_chain_list :=
          Function.update (ReleaseInstruction s c ready).1.running_chain_list stream rest }
        (ReleaseInstruction s c ready).2 []
      ∧ OrderInv { (ReleaseInstruction s c ready).1 with
        running_chain_list :=
          Function.update (ReleaseInstruction s c ready).1.running_chain_list stream rest } k := by
  obtain ⟨g1, o1, r1, d1⟩ := ReleaseInstruction_inv s c ready k hg ho
  refine ⟨?_, OrderInv_congr o1 rfl rfl rfl rfl⟩
  have hrun : (ReleaseInstruction s c ready).1.running_chain_list stream = c :: rest := by
    rw [r1, hl]
  have hnd := g1.running_nodup stream
  rw [hrun, List.nodup_cons] at hnd
  have hsub : ∀ st x, x ∈ Function.update (ReleaseInstruction s c ready).1.running_chain_list
      stream rest st → x ∈ (ReleaseInstruction s c ready).1.running_chain_list st := by
    intro st x hx
    by_cases hst : st = stream
    · subst hst
      rw [Function.update_same] at hx
      rw [hrun]
      exact List.mem_cons_of_mem _ hx
    · rwa [Function.update_noteq hst] at hx
  constructor
  · exact g1.nodup
  · intro st
    dsimp only
    by_cases hst : st = stream
    · subst hst
      rw [Function.update_same]
      exact hnd.2
    · rw [Function.update_noteq hst]
      exact g1.running_nodup st
  · intro st x hx
    exact g1.running_stream st x (hsub st x hx)
  · intro st x hx
    exact g1.running_disjoint st x (hsub st x hx)
  · exact g1.lt_next
  · intro st x hx
    exact g1.running_lt_next st x (hsub st x hx)
  · exact g1.edge_lt_next
  · exact g1.access_lt_next
  · exact g1.sym
  · exact g1.in_nodup
  · exact g1.out_nodup
  · exact g1.dst_waiting
  · exact g1.waiting_in
  · exact g1.not_done
  · intro t x hx
    obtain ⟨hx1, hx2, hx3⟩ := g1.pending t x hx
    refine ⟨hx1, ?_, hx3⟩
    dsimp only
    by_cases hst : (ReleaseInstruction s c ready).1.chain_stream x = stream
    · rw [hst, Function.update_same]
      rw [hst, hrun] at hx2
      rcases List.mem_cons.mp hx2 with h | h
      · subst h
        rw [d1, hdone] at hx1
        exact absurd hx1 (by simp)
      · exact h
    · rw [Function.update_noteq hst]
      exact hx2

/-- The loop of `TryReleaseFinishedInstrChains` on the running list of a stream removes
the longest prefix of chains that are done, and keeps the invariant of liveness. -/
theorem TryReleaseFinishedInstrChains_loop_live (stream : StreamId) (k : Nat) (l : List Nat)
    (s : Scheduler) (ready : List Nat) (hl : s.running_chain_list stream = l)
    (hg : GraphInv s ready []) (ho : OrderInv s k) (hv : LiveInv s ready []) :
    LiveInv (TryReleaseFinishedInstrChains.loop stream l s ready).1
        (TryReleaseFinishedInstrChains.loop stream l s ready).2 []
      ∧ Kept s ready (TryReleaseFinishedInstrChains.loop stream l s ready).1
        (TryReleaseFinishedInstrChains.loop stream l s ready).2
      ∧ (TryReleaseFinishedInstrChains.loop stream l s ready).1.running_chain_list
          = Function.update s.running_chain_list stream (l.dropWhile s.done)
      ∧ (TryReleaseFinishedInstrChains.loop stream l s ready).1.active_stream_list
          = s.active_stream_list := by
  induction l generalizing s ready with
  | nil =>
    refine ⟨hv, Kept_refl s ready, ?_, rfl⟩
    simp only [TryReleaseFinishedInstrChains.loop, List.dropWhile_nil]
    rw [← hl, Function.update_eq_self]
  | cons c rest ih =>
    unfold TryReleaseFinishedInstrChains.loop
    by_cases hdone : s.done c = true
    · simp only [hdone, if_true]
      obtain ⟨g1, o1⟩ := TryReleaseFinishedInstrChains_step_inv stream k c rest s ready hl
        hdone hg ho
      have v1 := ReleaseInstruction_live s c ready k stream rest hg ho hv hl
      obtain ⟨hk, _, _, _, hact, _, _⟩ := ReleaseInstruction_post s c ready k hg ho hv
      obtain ⟨_, _, r1, d1⟩ := ReleaseInstruction_inv s c ready k hg ho
      obtain ⟨v2, k2, r2, a2⟩ := ih _ _ (by simp) g1 o1 v1
      refine ⟨v2, Kept_trans ?_ k2, ?_, a2.trans hact⟩
      · exact ⟨hk.in_hand, hk.waiting, hk.ready_mono, hk.ready_from, hk.in_edges,
          hk.out_edges, hk.access_list⟩
      · rw [r2]
        dsimp only
        rw [r1, d1, Function.update_idem, List.dropWhile_cons_of_pos hdone]
    · have hd : s.done c = false := by
        cases h : s.done c with
        | true => exact absurd h hdone
        | false => rfl
      simp only [hd, Bool.false_eq_true, if_false]
      refine ⟨hv, Kept_refl s ready, ?_, trivial⟩
      rw [List.dropWhile_cons_of_neg hdone, ← hl, Function.update_eq_self]

theorem Schedule_release_live (k : Nat) (l : List StreamId) (s : Scheduler)
    (ready : List Nat) (hg : GraphInv s ready []) (ho : OrderInv s k)
    (hv : LiveInv s ready []) (ha : ActiveInv s) :
    LiveInv (Schedule.release l s ready).1 (Schedule.release l s ready).2 []
      ∧ ActiveInv (Schedule.release l s ready).1
      ∧ Kept s ready (Schedule.release l s ready).1 (Schedule.release l s ready).2
      ∧ (∀ st, (Schedule.release l s ready).1.running_chain_list st
          = if st ∈ l then (s.running_chain_list st).dropWhile s.done
            else s.running_chain_list st)
      ∧ (∀ st, st ∈ (Schedule.release l s ready).1.active_stream_list →
          st ∈ s.active_stream_list) := by
  induction l generalizing s ready with
  | nil =>
    exact ⟨hv, ha, Kept_refl s ready, fun st => by simp [Schedule.release],
      fun st h => h⟩
  | cons stream rest ih =>
    unfold Schedule.release
    dsimp only
    obtain ⟨g1, o1⟩ := TryReleaseFinishedInstrChains_loop_inv stream k _ s ready rfl hg ho
    obtain ⟨v1, k1, r1, a1⟩ := TryReleaseFinishedInstrChains_loop_live stream k _ s ready rfl
      hg ho hv
    have fr := TryReleaseFinishedInstrChains_frame s stream ready
    -- the scheduler after the stream has been handled
    have key : ∀ s1 : Scheduler,
        s1 = (if ((TryReleaseFinishedInstrChains s stream ready).1.running_chain_list
              stream).isEmpty then
            { (TryReleaseFinishedInstrChains s stream ready).1 with
              active_stream_list :=
                (TryReleaseFinishedInstrChains s stream ready).1.active_stream_list.erase
                  stream }
          else (TryReleaseFinishedInstrChains s stream ready).1) →
        GraphInv s1 (TryReleaseFinishedInstrChains s stream ready).2 [] ∧ OrderInv s1 k
          ∧ LiveInv s1 (TryReleaseFinishedInstrChains s stream ready).2 []
          ∧ ActiveInv s1
          ∧ Kept s ready s1 (TryReleaseFinishedInstrChains s stream ready).2
          ∧ s1.running_chain_list = Function.update s.running_chain_list stream
              ((s.running_chain_list stream).dropWhile s.done)
          ∧ s1.done = s.done
          ∧ (∀ st, st ∈ s1.active_stream_list → st ∈ s.active_stream_list) := by
      intro s1 hs1
      have hact : ∀ st, st ∈ (TryReleaseFinishedInstrChains s stream ready).1.active_stream_list
          ↔ st ∈ s.active_stream_list := by
        intro st
        have : (TryReleaseFinishedInstrChains s stream ready).1.active_stream_list
            = s.active_stream_list := a1
        rw [this]
      have hnd : (TryReleaseFinishedInstrChains s stream ready).1.active_stream_list.Nodup := by
        have : (TryReleaseFinishedInstrChains s stream ready).1.active_stream_list
            = s.active_stream_list := a1
        rw [this]
        exact ha.nodup
      have hrun : (TryReleaseFinishedInstrChains s stream ready).1.running_chain_list
          = Function.update s.running_chain_list stream
              ((s.running_chain_list stream).dropWhile s.done) := r1
      split at hs1
      · rename_i hemp
        subst hs1
        refine ⟨GraphInv_congr g1 rfl rfl rfl rfl rfl rfl rfl rfl rfl (fun _ _ h => h),
          OrderInv_congr o1 rfl rfl rfl rfl, LiveInv_congr v1 rfl rfl rfl rfl rfl, ?_,
          ⟨k1.in_hand, k1.waiting, k1.ready_mono, k1.ready_from, k1.in_edges, k1.out_edges,
            k1.access_list⟩, hrun, fr.done, ?_⟩
        · constructor
          · exact hnd.erase stream
          · intro st
            dsimp only
            rw [hnd.mem_erase_iff, hact, hrun]
            by_cases hst : st = stream
            · subst hst
              rw [hrun, Function.update_same] at hemp
              rw [Function.update_same]
              constructor
              · exact fun h => absurd rfl h.1
              · intro h
                exact absurd (List.isEmpty_iff.mp hemp) h
            · rw [Function.update_noteq hst]
              constructor
              · exact fun h => (ha.active_iff st).mp h.2
              · exact fun h => ⟨hst, (ha.active_iff st).mpr h⟩
        · intro st hst
          exact (hact st).mp (List.mem_of_mem_erase hst)
      · rename_i hemp
        subst hs1
        refine ⟨g1, o1, v1, ?_, k1, hrun, fr.done, fun st hst => (hact st).mp hst⟩
        constructor
        · exact hnd
        · intro st
          rw [hact, hrun]
          by_cases hst : st = stream
          · subst hst
            rw [hrun, Function.update_same] at hemp
            rw [Function.update_same]
            constructor
            · intro _ h
              rw [h] at hemp
              exact hemp rfl
            · intro h
              apply (ha.active_iff st).mpr
              intro h0
              rw [h0] at h
              exact h rfl
          · rw [Function.update_noteq hst]
            exact ha.active_iff st
    obtain ⟨g2, o2, v2, a2, k2, r2, d2, m2⟩ := key _ rfl
    obtain ⟨v3, a3, k3, r3, m3⟩ := ih _ _ g2 o2 v2 a2
    refine ⟨v3, a3, Kept_trans k2 k3, ?_, fun st hst => m2 st (m3 st hst)⟩
    intro st
    rw [r3 st, r2, d2]
    by_cases hst : st = stream
    · subst hst
      simp only [Function.update_same, List.mem_cons, true_or, if_true]
      split
      · exact List.dropWhile_idempotent _ _
      · rfl
    · rw [Function.update_noteq hst]
      simp only [List.mem_cons, hst, false_or]

/-! ## Liveness: new chains and their accesses -/

theorem ActiveInv_congr {s s1 : Scheduler} (h : ActiveInv s)
    (ha : s1.active_stream_list = s.active_stream_list)
    (hr : s1.running_chain_list = s.running_chain_list) : ActiveInv s1 := by
  constructor
  · rw [ha]; exact h.nodup
  · rw [ha, hr]; exact h.active_iff

theorem MakeInstrChains_live (msgs : List InstructionMsg) (s : Scheduler) (ready : List Nat)
    (r : Scheduler × List InstructionMsg × List Nat)
    (h : MakeInstrChains msgs s [] = some r) (hg : GraphInv s ready [])
    (hv : LiveInv s ready []) : LiveInv r.1 ready r.2.2 := by
  obtain ⟨s1, h1, hn1, hold, hnew⟩ := MakeInstrChains_spec msgs s []
    (MakeInstrChains_isSome msgs s [] r h)
  have fr := MakeInstrChains_frame msgs s [] r h
  have hge := MakeInstrChains_ge msgs s [] r h
  rw [h] at h1
  simp only [Option.some.injEq] at h1
  subst h1
  dsimp only at fr hge ⊢
  have hctx : ∀ c ctx a, ctx ∈ s1.instr_ctx_list c → a ∈ ctx.mirrored_object_id2access →
      ctx ∈ s.instr_ctx_list c := by
    intro c ctx a hc ha
    by_cases hc1 : c < s.next_chain_id
    · rw [(hold c hc1).1] at hc
      exact hc
    · by_cases hc2 : c < s1.next_chain_id
      · obtain ⟨⟨m, _, hm, _⟩, _⟩ := hnew c (by omega) hc2
        rw [hm, List.mem_singleton] at hc
        subst hc
        exact absurd ha (List.not_mem_nil _)
      · rw [(hge c (by omega)).1] at hc
        exact hc
  have hin : ∀ c d, c ∈ s1.in_edges d → c ∈ s.in_edges d := by
    intro c d hc
    by_cases hd1 : d < s.next_chain_id
    · rw [(hold d hd1).2.2.1] at hc
      exact hc
    · by_cases hd2 : d < s1.next_chain_id
      · rw [(hnew d (by omega) hd2).2.1] at hc
        exact absurd hc (List.not_mem_nil _)
      · rw [(hge d (by omega)).2.2.1] at hc
        exact hc
  have hhand : ∀ x, InHand s ready [] x →
      InHand s1 ready ([] ++ List.range' s.next_chain_id ((msgs.map (numStreams s)).sum)) x := by
    intro x hx
    unfold InHand Live at hx ⊢
    rw [fr.waiting_instr_chain_list, fr.running_chain_list]
    rcases hx with hx | hx | hx
    · exact Or.inl hx
    · exact Or.inr (Or.inl hx)
    · exact absurd hx (List.not_mem_nil _)
  constructor
  · rw [fr.access_list]; exact hv.al_obj
  · intro obj a ha
    rw [fr.access_list] at ha
    obtain ⟨ctx, hc, hca⟩ := hv.al_own obj a ha
    refine ⟨ctx, ?_, hca⟩
    rw [(hold a.instr_chain (hg.access_lt_next obj a ha)).1]
    exact hc
  · rw [fr.access_list]; exact hv.al_nodup
  · intro c ctx a hc ha
    exact hv.ctx_own c ctx a (hctx c ctx a hc ha) ha
  · intro obj a ha
    rw [fr.access_list] at ha
    exact hhand _ (hv.al_live obj a ha)
  · intro c d hc
    exact hhand _ (hv.src_live c d (hin c d hc))

theorem MakeInstrChains_old (msgs : List InstructionMsg) (s : Scheduler)
    (r : Scheduler × List InstructionMsg × List Nat)
    (h : MakeInstrChains msgs s [] = some r) (c : Nat) (hc : c < s.next_chain_id) :
    r.1.instr_ctx_list c = s.instr_ctx_list c ∧ r.1.in_edges c = s.in_edges c
      ∧ r.1.out_edges c = s.out_edges c := by
  obtain ⟨s1, h1, _, hold, _⟩ := MakeInstrChains_spec msgs s []
    (MakeInstrChains_isSome msgs s [] r h)
  rw [h] at h1
  simp only [Option.some.injEq] at h1
  subst h1
  exact ⟨(hold c hc).1, (hold c hc).2.2.1, (hold c hc).2.2.2.1⟩

theorem ConsumeMirroredObjects_chain_live (env : VmEnv) (s s3 : Scheduler)
    (ready new : List Nat) (n : Nat) (hg : GraphInv s ready new) (ho : OrderInv s n)
    (hv : LiveInv s ready new) (hn : n ∈ new)
    (h : ConsumeMirroredObjects.chain env s n = some s3) :
    LiveInv s3 ready new
      ∧ ∀ d, d ≠ n → ∀ x, x ∈ s3.in_edges d ↔ x ∈ s.in_edges d := by
  have hnlt : n < s.next_chain_id := hg.lt_next n
    (List.mem_append_right _ (List.mem_append_right _ hn))
  obtain ⟨m, hctx⟩ := ho.fresh n (Nat.le_refl n) hnlt
  have hfresh : ∀ obj, ∀ a ∈ s.access_list obj, a.instr_chain ≠ n := by
    intro obj a ha
    have := ho.access_lt obj a ha
    omega
  obtain ⟨accs, hc3, hnd, hown, hothers, hmine, hrest, he⟩ :=
    (ConsumeMirroredObjects_chain_spec env s n m hg.sym hctx hfresh).2 s3 h
  have fr := ConsumeMirroredObjects_chain_frame env s s3 n h
  have hsrc : ∀ x, x ∈ accs.flatMap
      (fun mine => linkSources (s.access_list mine.mirrored_object_id) mine) →
      ∃ obj, ∃ a ∈ s.access_list obj, a.instr_chain = x := by
    intro x hx
    rw [List.mem_flatMap] at hx
    obtain ⟨mine, _, hx⟩ := hx
    obtain ⟨a, ha, hax⟩ := linkSources_subset _ _ _ hx
    exact ⟨_, a, ha, hax⟩
  have hal : ∀ obj a, a ∈ s3.access_list obj →
      a ∈ s.access_list obj ∨ (a ∈ accs ∧ a.instr_chain = n ∧ a.mirrored_object_id = obj) := by
    intro obj a ha
    by_cases hobj : obj ∈ accs.map MirroredObjectAccess.mirrored_object_id
    · obtain ⟨mine, hm, hmo⟩ := List.mem_map.mp hobj
      subst hmo
      rw [hmine mine hm] at ha
      split at ha
      · rcases List.mem_append.mp ha with ha | ha
        · exact Or.inl ha
        · rw [List.mem_singleton] at ha
          subst ha
          exact Or.inr ⟨hm, hown _ hm, rfl⟩
      · rw [List.mem_singleton] at ha
        subst ha
        exact Or.inr ⟨hm, hown _ hm, rfl⟩
    · rw [hrest obj hobj] at ha
      exact Or.inl ha
  have hhand : ∀ x, InHand s ready new x → InHand s3 ready new x := by
    intro x hx
    unfold InHand Live at hx ⊢
    rw [fr.waiting_instr_chain_list, fr.running_chain_list]
    exact hx
  refine ⟨?_, ?_⟩
  · constructor
    · intro obj a ha
      rcases hal obj a ha with ha | ⟨_, _, ha⟩
      · exact hv.al_obj obj a ha
      · exact ha
    · intro obj a ha
      rcases hal obj a ha with ha | ⟨ha, hch, _⟩
      · obtain ⟨ctx, hc, hca⟩ := hv.al_own obj a ha
        refine ⟨ctx, ?_, hca⟩
        rw [hothers _ (hfresh obj a ha)]
        exact hc
      · refine ⟨{ instr_msg := m, mirrored_object_id2access := accs }, ?_, ha⟩
        rw [hch, hc3]
        exact List.mem_singleton_self _
    · intro obj
      by_cases hobj : obj ∈ accs.map MirroredObjectAccess.mirrored_object_id
      · obtain ⟨mine, hm, hmo⟩ := List.mem_map.mp hobj
        subst hmo
        rw [hmine mine hm]
        split
        · rw [List.nodup_append]
          refine ⟨hv.al_nodup _, List.nodup_singleton _, ?_⟩
          intro x hx1 hx2
          rw [List.mem_singleton] at hx2
          subst hx2
          exact hfresh _ x hx1 (hown x hm)
        · exact List.nodup_singleton _
      · rw [hrest obj hobj]
        exact hv.al_nodup obj
    · intro c ctx a hc ha
      by_cases hcn : c = n
      · subst hcn
        rw [hc3, List.mem_singleton] at hc
        subst hc
        exact hown a ha
      · rw [hothers c hcn] at hc
        exact hv.ctx_own c ctx a hc ha
    · intro obj a ha
      rcases hal obj a ha with ha | ⟨_, hch, _⟩
      · exact hhand _ (hv.al_live obj a ha)
      · rw [hch]
        exact Or.inr (Or.inr hn)
    · intro x d hx
      rcases (he.in_edges d x).mp hx with hx | ⟨_, hx⟩
      · exact hhand _ (hv.src_live x d hx)
      · obtain ⟨obj, a, ha, hax⟩ := hsrc x hx
        rw [← hax]
        exact hhand _ (hv.al_live obj a ha)
  · intro d hd x
    rw [he.in_edges d x]
    constructor
    · rintro (h1 | ⟨h1, _⟩)
      · exact h1
      · exact absurd h1 hd
    · exact fun h1 => Or.inl h1

theorem ConsumeMirroredObjects_loop_live (env : VmEnv) (ready new : List Nat) (cnt : Nat)
    (k : Nat) (s s1 : Scheduler) (hnew : ∀ c ∈ List.range' k cnt, c ∈ new)
    (hg : GraphInv s ready new) (ho : OrderInv s k) (hv : LiveInv s ready new)
    (h : ConsumeMirroredObjects.loop env (List.range' k cnt) s = some s1) :
    LiveInv s1 ready new ∧ ∀ d, d < k → ∀ x, x ∈ s1.in_edges d ↔ x ∈ s.in_edges d := by
  induction cnt generalizing k s with
  | zero =>
    simp only [List.range'_zero, ConsumeMirroredObjects.loop, Option.some.injEq] at h
    subst h
    exact ⟨hv, fun _ _ _ => Iff.rfl⟩
  | succ cnt ih =>
    rw [List.range'_succ] at h hnew
    unfold ConsumeMirroredObjects.loop at h
    split at h
    · exact absurd h (by simp)
    · rename_i s2 h2
      obtain ⟨g2, o2⟩ := ConsumeMirroredObjects_chain_inv env s s2 ready new k hg ho
        (hnew k (List.mem_cons_self _ _)) h2
      obtain ⟨v2, e2⟩ := ConsumeMirroredObjects_chain_live env s s2 ready new k hg ho hv
        (hnew k (List.mem_cons_self _ _)) h2
      obtain ⟨v3, e3⟩ := ih (k + 1) s2 (fun c hc => hnew c (List.mem_cons_of_mem _ hc)) g2 o2
        v2 h
      refine ⟨v3, ?_⟩
      intro d hd x
      rw [e3 d (by omega) x, e2 d (by omega) x]

/-- The block of `Schedule` for a non-empty pending list keeps the invariants of liveness
and of the active list; it leaves the running lists, the active list and the in-edges of
the chains that exist alone, keeps the ready list and adds new chains only. -/
theorem Schedule_ingest_live (env : VmEnv) (s : Scheduler) (ready : List Nat)
    (r : Scheduler × List Nat) (hg : GraphInv s ready [])
    (ho : OrderInv s s.next_chain_id) (hv : LiveInv s ready []) (ha : ActiveInv s)
    (h : Schedule.ingest env s ready = some r) :
    LiveInv r.1 r.2 [] ∧ ActiveInv r.1
      ∧ r.1.running_chain_list = s.running_chain_list
      ∧ (∀ x, x ∈ ready → x ∈ r.2)
      ∧ (∀ x, x ∈ r.2 → x ∈ ready ∨ s.next_chain_id ≤ x)
      ∧ (∀ x, x ∈ r.1.waiting_instr_chain_list →
          x ∈ s.waiting_instr_chain_list ∨ s.next_chain_id ≤ x)
      ∧ (∀ d, d < s.next_chain_id → ∀ x, x ∈ r.1.in_edges d ↔ x ∈ s.in_edges d) := by
  unfold Schedule.ingest at h
  dsimp only at h
  split at h
  · exact absurd h (by simp)
  · rename_i r2 h2
    split at h
    · exact absurd h (by simp)
    · rename_i r3 h3
      split at h
      · exact absurd h (by simp)
      · rename_i s4 h4
        simp only [MergeChains, Option.some.injEq] at h
        subst h
        dsimp only
        have f2 := FilterAndRunSourceInstructions_frame _ _ _ _ h2
        have g2 : GraphInv r2.1 ready [] :=
          GraphInv_congr hg f2.waiting_instr_chain_list f2.running_chain_list f2.chain_stream
            f2.next_chain_id f2.in_edges f2.out_edges f2.done f2.pending_chain_list
            f2.thread_ctx (fun obj a ha => by rw [f2.access_list] at ha; exact ha)
        have o2 : OrderInv r2.1 r2.1.next_chain_id := by
          have := OrderInv_congr ho f2.access_list f2.in_edges f2.instr_ctx_list
            f2.next_chain_id
          rw [f2.next_chain_id]
          exact this
        have v2 : LiveInv r2.1 ready [] :=
          LiveInv_congr hv f2.waiting_instr_chain_list f2.running_chain_list f2.in_edges
            f2.instr_ctx_list f2.access_list
        obtain ⟨g3, o3, hnew, hle⟩ := MakeInstrChains_inv _ _ ready _ h3 g2 o2
        have v3 := MakeInstrChains_live _ _ ready _ h3 g2 v2
        have f3 := MakeInstrChains_frame _ _ _ _ h3
        have hold3 := MakeInstrChains_old _ _ _ h3
        have h4' := ConsumeMirroredObjects_eq_loop _ _ _ _ h4
        rw [hnew] at h4'
        obtain ⟨g4, o4⟩ := ConsumeMirroredObjects_loop_inv env ready r3.2.2 _ _ r3.1 s4
          (fun c hc => by rw [hnew]; exact hc) g3 o3 h4'
        obtain ⟨v4, e4⟩ := ConsumeMirroredObjects_loop_live env ready r3.2.2 _ _ r3.1 s4
          (fun c hc => by rw [hnew]; exact hc) g3 o3 v3 h4'
        have f4 := ConsumeMirroredObjects_frame _ _ _ _ h4
        have hmem := FilterReadyChains_mem s4 r3.2.2 ready
        have hnewge : ∀ x ∈ r3.2.2, s.next_chain_id ≤ x := by
          intro x hx
          rw [hnew, List.mem_range'_1] at hx
          rw [← f2.next_chain_id]
          exact hx.1
        refine ⟨?_, ?_, ?_, ?_, ?_, ?_, ?_⟩
        · have hhand : ∀ x, InHand s4 ready r3.2.2 x →
              InHand { s4 with waiting_instr_chain_list :=
                  s4.waiting_instr_chain_list ++ (FilterReadyChains s4 r3.2.2 ready).1 }
                (FilterReadyChains s4 r3.2.2 ready).2 [] x := by
            intro x hx
            rcases hx with (hx | ⟨st, hx⟩) | hx | hx
            · exact Or.inl (Or.inl (List.mem_append_left _ hx))
            · exact Or.inl (Or.inr ⟨st, hx⟩)
            · exact Or.inr (Or.inl ((hmem x).2.mpr (Or.inl hx)))
            · by_cases hin : s4.in_edges x = []
              · exact Or.inr (Or.inl ((hmem x).2.mpr (Or.inr ⟨hx, hin⟩)))
              · exact Or.inl (Or.inl (List.mem_append_right _ ((hmem x).1.mpr ⟨hx, hin⟩)))
          constructor
          · exact v4.al_obj
          · exact v4.al_own
          · exact v4.al_nodup
          · exact v4.ctx_own
          · exact fun obj a ha => hhand _ (v4.al_live obj a ha)
          · exact fun c d hc => hhand _ (v4.src_live c d hc)
        · constructor
          · show s4.active_stream_list.Nodup
            rw [f4.active_stream_list, f3.active_stream_list, f2.active_stream_list]
            exact ha.nodup
          · intro st
            show st ∈ s4.active_stream_list ↔ s4.running_chain_list st ≠ []
            rw [f4.active_stream_list, f3.active_stream_list, f2.active_stream_list,
              f4.running_chain_list, f3.running_chain_list, f2.running_chain_list]
            exact ha.active_iff st
        · show s4.running_chain_list = _
          rw [f4.running_chain_list, f3.running_chain_list, f2.running_chain_list]
        · intro x hx
          exact (hmem x).2.mpr (Or.inl hx)
        · intro x hx
          rcases (hmem x).2.mp hx with hx | ⟨hx, _⟩
          · exact Or.inl hx
          · exact Or.inr (hnewge x hx)
        · intro x hx
          rcases List.mem_append.mp hx with hx | hx
          · left
            rw [f4.waiting_instr_chain_list, f3.waiting_instr_chain_list,
              f2.waiting_instr_chain_list] at hx
            exact hx
          · exact Or.inr (hnewge x ((hmem x).1.mp hx).1)
        · intro d hd x
          show x ∈ s4.in_edges d ↔ _
          rw [e4 d (by rw [f2.next_chain_id]; exact hd) x,
            (hold3 d (by rw [f2.next_chain_id]; exact hd)).2.1, f2.in_edges]
/-! ## Liveness: dispatch -/

theorem DispatchInstruction_step_lists (env : VmEnv) (s : Scheduler) (c : Nat) :
    (DispatchInstruction.step env s c).running_chain_list
        = Function.update s.running_chain_list (s.chain_stream c)
            (s.running_chain_list (s.chain_stream c) ++ [c])
      ∧ (DispatchInstruction.step env s c).active_stream_list
        = (if s.chain_stream c ∈ s.active_stream_list then s.active_stream_list
            else s.active_stream_list ++ [s.chain_stream c]) := by
  unfold DispatchInstruction.step RunInstrChain
  dsimp only
  split <;> split <;> exact ⟨rfl, rfl⟩

theorem DispatchInstruction_step_live (env : VmEnv) (s : Scheduler) (c : Nat)
    (rest : List Nat) (hv : LiveInv s (c :: rest) []) (ha : ActiveInv s) :
    LiveInv (DispatchInstruction.step env s c) rest []
      ∧ ActiveInv (DispatchInstruction.step env s c) := by
  obtain ⟨hr, hact⟩ := DispatchInstruction_step_lists env s c
  have fr := DispatchInstruction_step_frame env s c
  have hhand : ∀ x, InHand s (c :: rest) [] x →
      InHand (DispatchInstruction.step env s c) rest [] x := by
    intro x hx
    unfold InHand Live at hx ⊢
    rw [fr.waiting_instr_chain_list, hr]
    rcases hx with (hx | ⟨st, hx⟩) | hx | hx
    · exact Or.inl (Or.inl hx)
    · refine Or.inl (Or.inr ⟨st, ?_⟩)
      by_cases hst : st = s.chain_stream c
      · subst hst
        rw [Function.update_same]
        exact List.mem_append_left _ hx
      · rw [Function.update_noteq hst]
        exact hx
    · rcases List.mem_cons.mp hx with hx | hx
      · subst hx
        refine Or.inl (Or.inr ⟨s.chain_stream x, ?_⟩)
        rw [Function.update_same]
        exact List.mem_append_right _ (List.mem_singleton_self x)
      · exact Or.inr (Or.inl hx)
    · exact absurd hx (List.not_mem_nil _)
  constructor
  · constructor
    · rw [fr.access_list]; exact hv.al_obj
    · rw [fr.access_list, fr.instr_ctx_list]; exact hv.al_own
    · rw [fr.access_list]; exact hv.al_nodup
    · rw [fr.instr_ctx_list]; exact hv.ctx_own
    · intro obj a h
      rw [fr.access_list] at h
      exact hhand _ (hv.al_live obj a h)
    · intro x d h
      rw [fr.in_edges] at h
      exact hhand _ (hv.src_live x d h)
  · constructor
    · rw [hact]
      split
      · exact ha.nodup
      · rename_i hmem
        rw [List.nodup_append]
        refine ⟨ha.nodup, List.nodup_singleton _, ?_⟩
        intro x hx1 hx2
        rw [List.mem_singleton] at hx2
        exact hmem (hx2 ▸ hx1)
    · intro st
      rw [hact, hr]
      by_cases hst : st = s.chain_stream c
      · subst hst
        rw [Function.update_same]
        constructor
        · intro _ h
          have : c ∈ s.running_chain_list (s.chain_stream c) ++ [c] :=
            List.mem_append_right _ (List.mem_singleton_self c)
          rw [h] at this
          exact absurd this (List.not_mem_nil _)
        · intro _
          split
          · assumption
          · exact List.mem_append_right _ (List.mem_singleton_self _)
      · rw [Function.update_noteq hst]
        constructor
        · intro h
          apply (ha.active_iff st).mp
          split at h
          · exact h
          · rcases List.mem_append.mp h with h | h
            · exact h
            · exact absurd (List.mem_singleton.mp h) hst
        · intro h
          have := (ha.active_iff st).mpr h
          split
          · exact this
          · exact List.mem_append_left _ this

/-- The dispatch phase keeps the invariants of liveness and of the active list, and puts
every ready chain at the back of the running list of its stream. -/
theorem DispatchInstruction_live (env : VmEnv) (ready : List Nat) (s : Scheduler)
    (hv : LiveInv s ready []) (ha : ActiveInv s) :
    LiveInv (DispatchInstruction env ready s).1 [] []
      ∧ ActiveInv (DispatchInstruction env ready s).1
      ∧ ∀ st, (DispatchInstruction env ready s).1.running_chain_list st
          = s.running_chain_list st
            ++ ready.filter (fun c => decide (s.chain_stream c = st)) := by
  unfold DispatchInstruction
  dsimp only
  induction ready generalizing s with
  | nil => exact ⟨hv, ha, fun st => by simp⟩
  | cons c rest ih =>
    obtain ⟨v1, a1⟩ := DispatchInstruction_step_live env s c rest hv ha
    obtain ⟨hr, _⟩ := DispatchInstruction_step_lists env s c
    have fr := DispatchInstruction_step_frame env s c
    obtain ⟨v2, a2, r2⟩ := ih (DispatchInstruction.step env s c) v1 a1
    simp only [List.foldl_cons]
    refine ⟨v2, a2, ?_⟩
    intro st
    rw [r2 st, hr, fr.chain_stream]
    by_cases hst : s.chain_stream c = st
    · subst hst
      rw [Function.update_same]
      simp [List.filter_cons]
    · rw [Function.update_noteq (Ne.symm hst)]
      simp [List.filter_cons, hst]

/-! ## The release phase, exactly -/

theorem takeWhile_dropWhile_nil {α : Type} (p : α → Bool) (l : List α) :
    (l.dropWhile p).takeWhile p = [] := by
  induction l with
  | nil => rfl
  | cons a rest ih =>
    by_cases h : p a = true
    · rw [List.dropWhile_cons_of_pos h]
      exact ih
    · rw [List.dropWhile_cons_of_neg h, List.takeWhile_cons_of_neg h]

theorem ReleaseInstruction_foldl_in_edges (c : Nat) (k : Nat) (l : List Nat) (s : Scheduler)
    (ready : List Nat) (hl : s.out_edges c = l) (hg : GraphInv s ready [])
    (ho : OrderInv s k) (d : Nat) :
    (l.foldl (ReleaseInstruction.releaseEdge c) (s, ready)).1.in_edges d
      = if d ∈ l then (s.in_edges d).erase c else s.in_edges d := by
  induction l generalizing s ready with
  | nil => simp
  | cons d0 rest ih =>
    have hd : d0 ∈ s.out_edges c := by rw [hl]; exact List.mem_cons_self _ _
    obtain ⟨g1, o1, e1, _, _⟩ := ReleaseInstruction_releaseEdge_inv c d0 s ready k hg ho hd
    have hl1 : (ReleaseInstruction.releaseEdge c (s, ready) d0).1.out_edges c = rest := by
      rw [e1, hl, List.erase_cons_head]
    have hnd : (d0 :: rest).Nodup := hl ▸ hg.out_nodup c
    have hin : (ReleaseInstruction.releaseEdge c (s, ready) d0).1.in_edges
        = Function.update s.in_edges d0 ((s.in_edges d0).erase c) := by
      rw [ReleaseInstruction_releaseEdge_eq]
    simp only [List.foldl_cons]
    rw [ih (ReleaseInstruction.releaseEdge c (s, ready) d0).1
      (ReleaseInstruction.releaseEdge c (s, ready) d0).2 hl1 g1 o1, hin]
    by_cases hdd : d = d0
    · subst hdd
      rw [Function.update_same, if_neg (List.nodup_cons.mp hnd).1,
        if_pos (List.mem_cons_self _ _)]
    · rw [Function.update_noteq hdd]
      simp only [List.mem_cons, hdd, false_or]

theorem ReleaseInstruction_in_edges (s : Scheduler) (c : Nat) (ready : List Nat) (k : Nat)
    (hg : GraphInv s ready []) (ho : OrderInv s k) (d x : Nat) :
    x ∈ (ReleaseInstruction s c ready).1.in_edges d ↔ x ∈ s.in_edges d ∧ x ≠ c := by
  obtain ⟨g1, o1⟩ := ReleaseInstruction_releaseAccesses_inv c s ready [] k hg ho
  have fr := ReleaseInstruction_releaseAccesses_frame c s
  have h := ReleaseInstruction_foldl_in_edges c k _ (ReleaseInstruction.releaseAccesses c s)
    ready rfl g1 o1 d
  have h' : (ReleaseInstruction s c ready).1.in_edges d
      = if d ∈ (ReleaseInstruction.releaseAccesses c s).out_edges c then
          ((ReleaseInstruction.releaseAccesses c s).in_edges d).erase c
        else (ReleaseInstruction.releaseAccesses c s).in_edges d := h
  rw [h', fr.in_edges, fr.out_edges]
  split
  · rw [(hg.in_nodup d).mem_erase_iff]
    exact ⟨fun h1 => ⟨h1.2, h1.1⟩, fun h1 => ⟨h1.2, h1.1⟩⟩
  · rename_i hd
    constructor
    · intro h1
      refine ⟨h1, ?_⟩
      intro hx
      subst hx
      exact hd ((hg.sym x d).mpr h1)
    · exact fun h1 => h1.1

theorem TryReleaseFinishedInstrChains_loop_exact (stream : StreamId) (k : Nat) (l : List Nat)
    (s : Scheduler) (ready : List Nat) (hl : s.running_chain_list stream = l)
    (hg : GraphInv s ready []) (ho : OrderInv s k) (hv : LiveInv s ready []) :
    (∀ d x, x ∈ (TryReleaseFinishedInstrChains.loop stream l s ready).1.in_edges d
        ↔ x ∈ s.in_edges d ∧ x ∉ l.takeWhile s.done)
      ∧ (∀ obj a, a ∈ (TryReleaseFinishedInstrChains.loop stream l s ready).1.access_list obj
        ↔ a ∈ s.access_list obj ∧ a.instr_chain ∉ l.takeWhile s.done) := by
  induction l generalizing s ready with
  | nil => simp [TryReleaseFinishedInstrChains.loop]
  | cons c rest ih =>
    unfold TryReleaseFinishedInstrChains.loop
    by_cases hdone : s.done c = true
    · simp only [hdone, if_true]
      obtain ⟨g1, o1⟩ := TryReleaseFinishedInstrChains_step_inv stream k c rest s ready hl
        hdone hg ho
      have v1 := ReleaseInstruction_live s c ready k stream rest hg ho hv hl
      obtain ⟨_, hacc, _, _, _, _, _⟩ := ReleaseInstruction_post s c ready k hg ho hv
      obtain ⟨_, _, _, d1⟩ := ReleaseInstruction_inv s c ready k hg ho
      obtain ⟨e2, a2⟩ := ih _ _ (by simp) g1 o1 v1
      rw [List.takeWhile_cons_of_pos hdone]
      constructor
      · intro d x
        rw [e2 d x]
        dsimp only
        rw [ReleaseInstruction_in_edges s c ready k hg ho d x, d1]
        simp only [List.mem_cons, not_or]
        tauto
      · intro obj a
        rw [a2 obj a]
        dsimp only
        rw [hacc obj a, d1]
        simp only [List.mem_cons, not_or]
        tauto
    · have hd : s.done c = false := by
        cases h : s.done c with
        | true => exact absurd h hdone
        | false => rfl
      simp only [hd, Bool.false_eq_true, if_false]
      rw [List.takeWhile_cons_of_neg hdone]
      simp

/-- The chains that the release phase over the streams `l` releases. -/
theorem Schedule_release_exact (k : Nat) (l : List StreamId) (s : Scheduler)
    (ready : List Nat) (hg : GraphInv s ready []) (ho : OrderInv s k)
    (hv : LiveInv s ready []) :
    (∀ d x, x ∈ (Schedule.release l s ready).1.in_edges d
        ↔ x ∈ s.in_edges d ∧ ¬ ∃ st ∈ l, x ∈ releasedChains s st)
      ∧ (∀ obj a, a ∈ (Schedule.release l s ready).1.access_list obj
        ↔ a ∈ s.access_list obj ∧ ¬ ∃ st ∈ l, a.instr_chain ∈ releasedChains s st) := by
  induction l generalizing s ready with
  | nil => simp [Schedule.release]
  | cons stream rest ih =>
    unfold Schedule.release
    dsimp only
    obtain ⟨g1, o1⟩ := TryReleaseFinishedInstrChains_loop_inv stream k _ s ready rfl hg ho
    obtain ⟨v1, _, r1, _⟩ := TryReleaseFinishedInstrChains_loop_live stream k _ s ready rfl
      hg ho hv
    obtain ⟨e1, a1⟩ := TryReleaseFinishedInstrChains_loop_exact stream k _ s ready rfl
      hg ho hv
    have fr := TryReleaseFinishedInstrChains_frame s stream ready
    have hrun : (TryReleaseFinishedInstrChains s stream ready).1.running_chain_list
        = Function.update s.running_chain_list stream
            ((s.running_chain_list stream).dropWhile s.done) := r1
    have key : ∀ s1 : Scheduler,
        s1 = (if ((TryReleaseFinishedInstrChains s stream ready).1.running_chain_list
              stream).isEmpty then
            { (TryReleaseFinishedInstrChains s stream ready).1 with
              active_stream_list :=
                (TryReleaseFinishedInstrChains s stream ready).1.active_stream_list.erase
                  stream }
          else (TryReleaseFinishedInstrChains s stream ready).1) →
        GraphInv s1 (TryReleaseFinishedInstrChains s stream ready).2 [] ∧ OrderInv s1 k
          ∧ LiveInv s1 (TryReleaseFinishedInstrChains s stream ready).2 []
          ∧ s1.in_edges = (TryReleaseFinishedInstrChains s stream ready).1.in_edges
          ∧ s1.access_list = (TryReleaseFinishedInstrChains s stream ready).1.access_list
          ∧ s1.running_chain_list
              = (TryReleaseFinishedInstrChains s stream ready).1.running_chain_list
          ∧ s1.done = s.done := by
      intro s1 hs1
      split at hs1
      · subst hs1
        exact ⟨GraphInv_congr g1 rfl rfl rfl rfl rfl rfl rfl rfl rfl (fun _ _ h => h),
          OrderInv_congr o1 rfl rfl rfl rfl, LiveInv_congr v1 rfl rfl rfl rfl rfl, rfl, rfl,
          rfl, fr.done⟩
      · subst hs1
        exact ⟨g1, o1, v1, rfl, rfl, rfl, fr.done⟩
    obtain ⟨g2, o2, v2, i2, c2, r2, d2⟩ := key _ rfl
    obtain ⟨e3, a3⟩ := ih _ _ g2 o2 v2
    have hrel : ∀ x, (∃ st ∈ rest, x ∈ releasedChains
          (if ((TryReleaseFinishedInstrChains s stream ready).1.running_chain_list
              stream).isEmpty then
            { (TryReleaseFinishedInstrChains s stream ready).1 with
              active_stream_list :=
                (TryReleaseFinishedInstrChains s stream ready).1.active_stream_list.erase
                  stream }
          else (TryReleaseFinishedInstrChains s stream ready).1) st)
        → ∃ st ∈ stream :: rest, x ∈ releasedChains s st := by
      rintro x ⟨st, hst, hx⟩
      unfold releasedChains at hx
      rw [r2, d2, hrun] at hx
      by_cases hs : st = stream
      · subst hs
        rw [Function.update_same] at hx
        rw [takeWhile_dropWhile_nil] at hx
        exact absurd hx (List.not_mem_nil _)
      · rw [Function.update_noteq hs] at hx
        exact ⟨st, List.mem_cons_of_mem _ hst, hx⟩
    have hrel2 : ∀ x, (∃ st ∈ stream :: rest, x ∈ releasedChains s st) →
        x ∈ (s.running_chain_list stream).takeWhile s.done
        ∨ ∃ st ∈ rest, x ∈ releasedChains
          (if ((TryReleaseFinishedInstrChains s stream ready).1.running_chain_list
              stream).isEmpty then
            { (TryReleaseFinishedInstrChains s stream ready).1 with
              active_stream_list :=
                (TryReleaseFinishedInstrChains s stream ready).1.active_stream_list.erase
                  stream }
          else (TryReleaseFinishedInstrChains s stream ready).1) st := by
      rintro x ⟨st, hst, hx⟩
      by_cases hs : st = stream
      · subst hs
        exact Or.inl hx
      · right
        rcases List.mem_cons.mp hst with h | h
        · exact absurd h hs
        · refine ⟨st, h, ?_⟩
          unfold releasedChains
          rw [r2, d2, hrun, Function.update_noteq hs]
          exact hx
    constructor
    · intro d x
      rw [e3 d x, i2]
      have := e1 d x
      unfold TryReleaseFinishedInstrChains
      rw [this]
      constructor
      · rintro ⟨⟨h1, h2⟩, h3⟩
        refine ⟨h1, ?_⟩
        intro h4
        rcases hrel2 x h4 with h5 | h5
        · exact h2 h5
        · exact h3 h5
      · rintro ⟨h1, h2⟩
        refine ⟨⟨h1, ?_⟩, ?_⟩
        · exact fun h3 => h2 ⟨stream, List.mem_cons_self _ _, h3⟩
        · exact fun h3 => h2 (hrel x h3)
    · intro obj a
      rw [a3 obj a, c2]
      have := a1 obj a
      unfold TryReleaseFinishedInstrChains
      rw [this]
      constructor
      · rintro ⟨⟨h1, h2⟩, h3⟩
        refine ⟨h1, ?_⟩
        intro h4
        rcases hrel2 _ h4 with h5 | h5
        · exact h2 h5
        · exact h3 h5
      · rintro ⟨h1, h2⟩
        refine ⟨⟨h1, ?_⟩, ?_⟩
        · exact fun h3 => h2 ⟨stream, List.mem_cons_self _ _, h3⟩
        · exact fun h3 => h2 (hrel _ h3)

/-! ## Liveness: the tick and the reachable states -/

theorem Init_live (env : VmEnv) (vm_desc : List StreamDesc) (s : Scheduler)
    (h : __Init__ env vm_desc = some s) : LiveInv s [] [] ∧ ActiveInv s := by
  have fr := Init_frame env vm_desc s h
  constructor
  · constructor
    · intro obj a ha
      rw [fr.access_list] at ha
      exact absurd ha (List.not_mem_nil _)
    · intro obj a ha
      rw [fr.access_list] at ha
      exact absurd ha (List.not_mem_nil _)
    · intro obj
      rw [fr.access_list]
      exact List.nodup_nil
    · intro c ctx a hc
      rw [fr.instr_ctx_list] at hc
      exact absurd hc (List.not_mem_nil _)
    · intro obj a ha
      rw [fr.access_list] at ha
      exact absurd ha (List.not_mem_nil _)
    · intro c d hc
      rw [fr.in_edges] at hc
      exact absurd hc (List.not_mem_nil _)
  · constructor
    · rw [fr.active_stream_list]
      exact List.nodup_nil
    · intro st
      rw [fr.active_stream_list, fr.running_chain_list]
      exact ⟨fun h => absurd h (List.not_mem_nil _), fun h => absurd rfl h⟩

/-- What a tick does, with the invariants of liveness and of the active list kept: the
chains `dispatched` are the ready list of the release phase and new chains; they are put
at the back of the running lists of their streams, behind what the release phase leaves;
waiting chains were waiting or are new, and the in-edges of the chains that existed are
those that the release phase leaves. -/
theorem Schedule_live (env : VmEnv) (s s1 : Scheduler) (hg : GraphInv s [] [])
    (ho : OrderInv s s.next_chain_id) (hv : LiveInv s [] []) (ha : ActiveInv s)
    (h : Schedule env s = some s1) :
    LiveInv s1 [] [] ∧ ActiveInv s1
      ∧ ∃ dispatched : List Nat,
          (∀ x, x ∈ (Schedule.release s.active_stream_list s []).2 → x ∈ dispatched)
          ∧ (∀ x, x ∈ dispatched →
              x ∈ (Schedule.release s.active_stream_list s []).2 ∨ s.next_chain_id ≤ x)
          ∧ (s.pending_msg_list = [] →
              dispatched = (Schedule.release s.active_stream_list s []).2
                ∧ s1.waiting_instr_chain_list
                  = (Schedule.release s.active_stream_list s []).1.waiting_instr_chain_list)
          ∧ (∀ st, s1.running_chain_list st
              = (Schedule.release s.active_stream_list s []).1.running_chain_list st
                ++ dispatched.filter (fun c => decide (s1.chain_stream c = st)))
          ∧ (∀ x, x ∈ s1.waiting_instr_chain_list →
              x ∈ (Schedule.release s.active_stream_list s []).1.waiting_instr_chain_list
                ∨ s.next_chain_id ≤ x)
          ∧ (∀ d, d < s.next_chain_id → ∀ x, x ∈ s1.in_edges d
              ↔ x ∈ (Schedule.release s.active_stream_list s []).1.in_edges d) := by
  unfold Schedule at h
  dsimp only at h
  obtain ⟨g1, o1⟩ := Schedule_release_inv s.next_chain_id s.active_stream_list s [] hg ho
  obtain ⟨v1, a1, _, _, _⟩ := Schedule_release_live s.next_chain_id s.active_stream_list s []
    hg ho hv ha
  have fr := Schedule_release_frame s.active_stream_list s []
  rw [← fr.next_chain_id] at o1
  split at h
  · rename_i hpend
    split at h
    · exact absurd h (by simp)
    · rename_i r2 h2
      simp only [Option.some.injEq] at h
      subst h
      obtain ⟨g2, o2⟩ := Schedule_ingest_inv env _ _ r2 g1 o1 h2
      obtain ⟨v2, a2, hr2, hm2, hf2, hw2, he2⟩ := Schedule_ingest_live env _ _ r2 g1 o1 v1 a1 h2
      obtain ⟨v3, a3, r3⟩ := DispatchInstruction_live env r2.2 r2.1 v2 a2
      have fd := DispatchInstruction_frame env r2.2 r2.1
      rw [fr.next_chain_id] at hf2 hw2 he2
      refine ⟨v3, a3, r2.2, hm2, hf2, ?_, ?_, ?_, ?_⟩
      · intro hp
        rw [fr.pending_msg_list, hp] at hpend
        exact absurd hpend (by simp)
      · intro st
        rw [r3 st, hr2, fd.chain_stream]
      · intro x hx
        rw [fd.waiting_instr_chain_list] at hx
        exact hw2 x hx
      · intro d hd x
        rw [fd.in_edges]
        exact he2 d hd x
  · simp only [Option.some.injEq] at h
    subst h
    obtain ⟨v3, a3, r3⟩ := DispatchInstruction_live env _ _ v1 a1
    have fd := DispatchInstruction_frame env (Schedule.release s.active_stream_list s []).2
      (Schedule.release s.active_stream_list s []).1
    refine ⟨v3, a3, _, fun x hx => hx, fun x hx => Or.inl hx, ?_, ?_, ?_, ?_⟩
    · intro _
      exact ⟨rfl, fd.waiting_instr_chain_list⟩
    · intro st
      rw [r3 st, fd.chain_stream]
    · intro x hx
      rw [fd.waiting_instr_chain_list] at hx
      exact Or.inl hx
    · intro d _ x
      rw [fd.in_edges]

theorem Reachable_live (env : VmEnv) (s : Scheduler) (h : Reachable env s) :
    LiveInv s [] [] ∧ ActiveInv s := by
  induction h with
  | init vm_desc s h => exact Init_live env vm_desc s h
  | receive s l _ ih =>
    exact ⟨LiveInv_congr ih.1 rfl rfl rfl rfl rfl, ActiveInv_congr ih.2 rfl rfl⟩
  | schedule s s1 hs h ih =>
    obtain ⟨hg, ho⟩ := Reachable_inv env s hs
    obtain ⟨v, a, _⟩ := Schedule_live env s s1 hg ho ih.1 ih.2 h
    exact ⟨v, a⟩
  | try_receive_and_run s t _ ih =>
    exact ⟨LiveInv_congr ih.1 rfl rfl rfl rfl rfl, ActiveInv_congr ih.2 rfl rfl⟩

/-! ## The release phase promotes successors -/

theorem not_mem_dropWhile_of_mem_takeWhile {α : Type} (p : α → Bool) (l : List α)
    (hnd : l.Nodup) (x : α) (hx : x ∈ l.takeWhile p) : x ∉ l.dropWhile p := by
  rw [← List.takeWhile_append_dropWhile p l, List.nodup_append] at hnd
  exact fun h => hnd.2.2 hx h

theorem Reachable_run_workers (env : VmEnv) (s : Scheduler) (h : Reachable env s) :
    Reachable env (test.run_workers s) := by
  unfold test.run_workers
  generalize s.thread_ctx_list = l
  induction l generalizing s with
  | nil => exact h
  | cons t rest ih => exact ih _ (Reachable.try_receive_and_run s t.id h)

/-- C12: the release phase promotes successors.  Let `s` be a reachable state and `s1` the
state after a tick.  (1) The release phase leaves of the in-edges and of the access lists
exactly the edges from, and the accesses of, the chains that it does not release.  (2) For
every active stream the running list is the released chains followed by what the release
phase leaves; the released chains are done and the head of what is left is not done, so
the released chains are the longest prefix of chains that are done; at the end of the tick
the running list is what the release phase leaves, followed by the chains dispatched to the
stream in this tick, which were waiting or are new.  (3) At the end of the tick a released
chain is on no running list, no access list holds an access of it, it has no out-edge and
no chain has an in-edge from it; and every successor of it whose in-edges are empty after
the release phase was waiting, is not waiting any more, is on the running list of its
stream and has no in-edge. -/
theorem Schedule_release_promotes_successors (env : VmEnv) (s s1 : Scheduler)
    (hs : Reachable env s) (h : Schedule env s = some s1) :
    (∀ d x, x ∈ (Schedule.release s.active_stream_list s []).1.in_edges d
        ↔ x ∈ s.in_edges d ∧ ¬ ∃ st ∈ s.active_stream_list, x ∈ releasedChains s st)
      ∧ (∀ obj a, a ∈ (Schedule.release s.active_stream_list s []).1.access_list obj
        ↔ a ∈ s.access_list obj
          ∧ ¬ ∃ st ∈ s.active_stream_list, a.instr_chain ∈ releasedChains s st)
      ∧ (∀ st ∈ s.active_stream_list,
          (s.running_chain_list st = releasedChains s st
              ++ (Schedule.release s.active_stream_list s []).1.running_chain_list st)
          ∧ (∀ c ∈ releasedChains s st, s.done c = true)
          ∧ (∀ c rest, (Schedule.release s.active_stream_list s []).1.running_chain_list st
                = c :: rest → s.done c = false)
          ∧ ∃ dispatched,
              s1.running_chain_list st
                = (Schedule.release s.active_stream_list s []).1.running_chain_list st
                  ++ dispatched
              ∧ ∀ c ∈ dispatched, c ∈ s.waiting_instr_chain_list ∨ s.next_chain_id ≤ c)
      ∧ (∀ st ∈ s.active_stream_list, ∀ c ∈ releasedChains s st,
          (∀ st1, c ∉ s1.running_chain_list st1)
          ∧ (∀ obj, ∀ a ∈ s1.access_list obj, a.instr_chain ≠ c)
          ∧ s1.out_edges c = [] ∧ (∀ d, c ∉ s1.in_edges d)
          ∧ ∀ d ∈ s.out_edges c,
              (Schedule.release s.active_stream_list s []).1.in_edges d = [] →
              d ∈ s.waiting_instr_chain_list ∧ d ∉ s1.waiting_instr_chain_list
                ∧ d ∈ s1.running_chain_list (s1.chain_stream d) ∧ s1.in_edges d = []) := by
  obtain ⟨hg, ho⟩ := Reachable_inv env s hs
  obtain ⟨hv, ha⟩ := Reachable_live env s hs
  obtain ⟨g1, _⟩ := Schedule_inv env s s1 hg ho h
  obtain ⟨gr, _⟩ := Schedule_release_inv s.next_chain_id s.active_stream_list s [] hg ho
  obtain ⟨e1, a1⟩ := Schedule_release_exact s.next_chain_id s.active_stream_list s [] hg ho hv
  obtain ⟨_, _, hk, hrun, _⟩ := Schedule_release_live s.next_chain_id s.active_stream_list s []
    hg ho hv ha
  obtain ⟨v1, _, dispatched, hd1, hd2, _, hr1, hw1, hi1⟩ := Schedule_live env s s1 hg ho hv ha h
  have hdisp : ∀ x, x ∈ dispatched → x ∈ s.waiting_instr_chain_list ∨ s.next_chain_id ≤ x := by
    intro x hx
    rcases hd2 x hx with h1 | h1
    · rcases hk.ready_from x h1 with h2 | h2
      · exact absurd h2 (List.not_mem_nil _)
      · exact Or.inl h2
    · exact Or.inr h1
  have hnotrun : ∀ st x, x ∈ s.running_chain_list st →
      ¬ (x ∈ s.waiting_instr_chain_list ∨ s.next_chain_id ≤ x) := by
    intro st x hx h1
    rcases h1 with h1 | h1
    · exact hg.running_disjoint st x hx (List.mem_append_left _ h1)
    · have := hg.running_lt_next st x hx
      omega
  refine ⟨e1, a1, ?_, ?_⟩
  · intro st hst
    have hr := hrun st
    rw [if_pos hst] at hr
    refine ⟨?_, ?_, ?_, ?_⟩
    · rw [hr]
      exact (List.takeWhile_append_dropWhile s.done (s.running_chain_list st)).symm
    · intro c hc
      exact List.mem_takeWhile_imp hc
    · intro c rest hc
      rw [hr] at hc
      have := List.head_dropWhile_not s.done (s.running_chain_list st)
        (by rw [hc]; exact List.cons_ne_nil _ _)
      simp only [hc, List.head_cons] at this
      simpa using this
    · refine ⟨_, hr1 st, ?_⟩
      intro c hc
      exact hdisp c (List.mem_filter.mp hc).1
  · intro st hst c hc
    have hcrun : c ∈ s.running_chain_list st := (List.takeWhile_sublist _).subset hc
    have hnr : ∀ st1, c ∉ s1.running_chain_list st1 := by
      intro st1 hc1
      rw [hr1 st1] at hc1
      rcases List.mem_append.mp hc1 with h1 | h1
      · rw [hrun st1] at h1
        split at h1
        · have h2 : c ∈ s.running_chain_list st1 := (List.dropWhile_sublist _).subset h1
          have h3 : st1 = st := by
            rw [← hg.running_stream st1 c h2, hg.running_stream st c hcrun]
          subst h3
          exact not_mem_dropWhile_of_mem_takeWhile s.done _ (hg.running_nodup st1) c hc h1
        · rename_i hna
          have h3 : st1 = st := by
            rw [← hg.running_stream st1 c h1, hg.running_stream st c hcrun]
          exact hna (h3 ▸ hst)
      · exact hnotrun st c hcrun (hdisp c (List.mem_filter.mp h1).1)
    have hnw : c ∉ s1.waiting_instr_chain_list := by
      intro hc1
      rcases hw1 c hc1 with h1 | h1
      · exact hnotrun st c hcrun (Or.inl (hk.waiting c h1))
      · exact hnotrun st c hcrun (Or.inr h1)
    have hdead : ¬ InHand s1 [] [] c := by
      rintro ((h1 | ⟨st1, h1⟩) | h1 | h1)
      · exact hnw h1
      · exact hnr st1 h1
      · exact absurd h1 (List.not_mem_nil _)
      · exact absurd h1 (List.not_mem_nil _)
    have hin : ∀ d, c ∉ s1.in_edges d := fun d hd => hdead (v1.src_live c d hd)
    refine ⟨hnr, ?_, ?_, hin, ?_⟩
    · intro obj a ha1 hac
      exact hdead (hac ▸ v1.al_live obj a ha1)
    · rw [List.eq_nil_iff_forall_not_mem]
      intro d hd
      exact hin d ((g1.sym c d).mp hd)
    · intro d hd hemp
      have hcd : c ∈ s.in_edges d := (hg.sym c d).mp hd
      have hdw : d ∈ s.waiting_instr_chain_list := by
        rcases hg.dst_waiting c d hcd with h1 | h1
        · exact h1
        · exact absurd h1 (List.not_mem_nil _)
      have hdlt : d < s.next_chain_id := hg.lt_next d (List.mem_append_left _ hdw)
      have hin1 : s1.in_edges d = [] := by
        rw [List.eq_nil_iff_forall_not_mem]
        intro x hx
        have := (hi1 d hdlt x).mp hx
        rw [hemp] at this
        exact absurd this (List.not_mem_nil _)
      refine ⟨hdw, ?_, ?_, hin1⟩
      · exact fun h1 => g1.waiting_in d h1 hin1
      · rw [hr1]
        apply List.mem_append_right
        rw [List.mem_filter]
        refine ⟨hd1 d ?_, by simp⟩
        rcases hk.in_hand d (Or.inl hdw) with h1 | h1
        · exact absurd hemp (gr.waiting_in d h1)
        · exact h1
theorem test_s3_tick (b : Bool) :
    Schedule (test.env b) (test.run_workers (test.s2_scheduled b))
      = some (test.s2_drained b 1) := by
  cases b <;> rfl

/-- Witness of C12, the third scenario on the code: after the first tick and
`TryReceiveAndRun` on every thread context, the second tick releases chain 0, the infer
twin of the first Nop instruction, which is done, from the running list of the infer
counterpart of the Nop stream.  Its successor chain 1, which holds the first Nop
instruction, loses its only in-edge and is promoted: it is the head of the running list of
the Nop stream, with the two out-edges to the chains 2 and 3; chain 2, the other successor
of chain 0, keeps the in-edge from chain 1 and waits, and so does chain 3, which holds the
second Nop instruction: the waiting list has size 2, not 0. -/
theorem Schedule_release_promotes_successors_witness :
    (test.run_workers (test.s2_scheduled false)).active_stream_list = [test.infer_nop_stream]
      ∧ releasedChains (test.run_workers (test.s2_scheduled false)) test.infer_nop_stream = [0]
      ∧ (test.run_workers (test.s2_scheduled false)).out_edges 0 = [1, 2]
      ∧ (Schedule.release (test.run_workers (test.s2_scheduled false)).active_stream_list
          (test.run_workers (test.s2_scheduled false)) []).1.in_edges 1 = []
      ∧ (Schedule.release (test.run_workers (test.s2_scheduled false)).active_stream_list
          (test.run_workers (test.s2_scheduled false)) []).1.in_edges 2 = [1]
      ∧ (1 ∈ (test.run_workers (test.s2_scheduled false)).waiting_instr_chain_list
          ∧ 1 ∉ (test.s2_drained false 1).waiting_instr_chain_list
          ∧ 1 ∈ (test.s2_drained false 1).running_chain_list
              ((test.s2_drained false 1).chain_stream 1)
          ∧ (test.s2_drained false 1).in_edges 1 = [])
      ∧ (test.s2_drained false 1).waiting_instr_chain_list = [2, 3]
      ∧ (test.s2_drained false 1).active_stream_list = [test.nop_stream]
      ∧ (test.s2_drained false 1).running_chain_list test.nop_stream = [1]
      ∧ (test.s2_drained false 1).running_chain_list test.infer_nop_stream = []
      ∧ (test.s2_drained false 1).out_edges 1 = [2, 3]
      ∧ ((test.s2_drained false 1).instr_ctx_list 1).map InstrCtx.instr_msg
          = [test.nop_mut_instr_msg 9527]
      ∧ ((test.s2_drained false 1).instr_ctx_list 3).map InstrCtx.instr_msg
          = [test.nop_mut_instr_msg 9527] :=
  ⟨rfl, rfl, rfl, rfl, rfl,
    ((Schedule_release_promotes_successors (test.env false)
      (test.run_workers (test.s2_scheduled false)) (test.s2_drained false 1)
      (Reachable_run_workers _ _ (test_s2_scheduled_reachable false))
      (test_s3_tick false)).2.2.2 test.infer_nop_stream (by decide) 0 (by decide)).2.2.2.2
      1 (by decide) rfl,
    rfl, rfl, rfl, rfl, rfl, rfl, rfl⟩

/-! ## The scheduler drains -/

theorem WorkersRun_frame (s s1 : Scheduler) (h : WorkersRun s s1) :
    s1.pending_msg_list = s.pending_msg_list
      ∧ s1.waiting_instr_chain_list = s.waiting_instr_chain_list
      ∧ s1.running_chain_list = s.running_chain_list
      ∧ s1.in_edges = s.in_edges := by
  induction h with
  | refl => exact ⟨rfl, rfl, rfl, rfl⟩
  | step s1 t _ ih => exact ih

theorem WorkersRun_reachable (env : VmEnv) (s s1 : Scheduler) (h : WorkersRun s s1)
    (hs : Reachable env s) : Reachable env s1 := by
  induction h with
  | refl => exact hs
  | step s1 t _ ih => exact Reachable.try_receive_and_run s1 t ih

theorem WorkersRun_run_workers (s : Scheduler) : WorkersRun s (test.run_workers s) := by
  unfold test.run_workers
  generalize s.thread_ctx_list = l
  suffices h : ∀ s2, WorkersRun s s2 →
      WorkersRun s (l.foldl (fun acc t => TryReceiveAndRun acc t.id) s2) from
    h s WorkersRun.refl
  induction l with
  | nil => exact fun s2 h => h
  | cons t rest ih => exact fun s2 h => ih _ (WorkersRun.step s2 t.id h)

theorem Schedule_of_no_pending (env : VmEnv) (s : Scheduler) (h : s.pending_msg_list = []) :
    ∃ s1, Schedule env s = some s1 ∧ s1.pending_msg_list = [] := by
  have fr := Schedule_release_frame s.active_stream_list s []
  have fd := DispatchInstruction_frame env (Schedule.release s.active_stream_list s []).2
    (Schedule.release s.active_stream_list s []).1
  refine ⟨(DispatchInstruction env (Schedule.release s.active_stream_list s []).2
    (Schedule.release s.active_stream_list s []).1).1, ?_, ?_⟩
  · unfold Schedule
    dsimp only
    rw [fr.pending_msg_list, h]
    simp
  · rw [fd.pending_msg_list, fr.pending_msg_list, h]

theorem Drained_reachable (env : VmEnv) (k : Nat) (s s1 : Scheduler)
    (h : Drained env s k s1) (hs : Reachable env s) (hp : s.pending_msg_list = []) :
    Reachable env s1 ∧ s1.pending_msg_list = [] := by
  induction h with
  | zero => exact ⟨hs, hp⟩
  | tick n s1 s2 s3 _ hw _ htick ih =>
    refine ⟨Reachable.schedule s2 s3 (WorkersRun_reachable env s1 s2 hw ih.1) htick, ?_⟩
    obtain ⟨s4, h4, h5⟩ := Schedule_of_no_pending env s2
      ((WorkersRun_frame s1 s2 hw).1.trans ih.2)
    rw [htick] at h4
    simp only [Option.some.injEq] at h4
    rw [h4]
    exact h5

theorem length_le_of_pairwise_lt (l : List Nat) (n : Nat) (h : l.Pairwise (fun a b => a < b))
    (hn : ∀ x ∈ l, x < n) : l.length ≤ n := by
  have hnd : l.Nodup := h.imp (fun hab => Nat.ne_of_lt hab)
  have hsub : l ⊆ List.range n := fun x hx => List.mem_range.mpr (hn x hx)
  have := (hnd.subperm hsub).length_le
  rwa [List.length_range] at this

/-- A dependency path holds no more chains than have been created. -/
theorem DependencyPath_length_le (env : VmEnv) (s : Scheduler) (hs : Reachable env s)
    (path : List Nat) (h : DependencyPath s path) : path.length ≤ s.next_chain_id := by
  obtain ⟨hg, ho⟩ := Reachable_inv env s hs
  apply length_le_of_pairwise_lt
  · have : path.Chain' (fun a b => a < b) := h.1.imp (fun _ _ hab => ho.edge_lt _ _ hab)
    exact List.chain'_iff_pairwise.mp this
  · intro x hx
    rcases h.2 x hx with h1 | ⟨st, h1⟩
    · exact hg.lt_next x (List.mem_append_left _ h1)
    · exact hg.running_lt_next st x h1

/-- A tick without pending messages on a state whose running chains are all done: the live
chains afterwards were waiting, and the edges between them were there. -/
theorem Schedule_drain_tick (env : VmEnv) (s s1 : Scheduler) (hs : Reachable env s)
    (hp : s.pending_msg_list = [])
    (hdone : ∀ st ∈ s.active_stream_list, ∀ c ∈ s.running_chain_list st, s.done c = true)
    (h : Schedule env s = some s1) :
    (∀ c, Live s1 c → c ∈ s.waiting_instr_chain_list)
      ∧ (∀ d, d ∈ s.waiting_instr_chain_list → ∀ x, x ∈ s1.in_edges d → x ∈ s.in_edges d) := by
  obtain ⟨hg, ho⟩ := Reachable_inv env s hs
  obtain ⟨hv, ha⟩ := Reachable_live env s hs
  obtain ⟨_, _, hk, hrun, _⟩ := Schedule_release_live s.next_chain_id s.active_stream_list s []
    hg ho hv ha
  obtain ⟨_, _, dispatched, _, _, hnp, hr1, _, hi1⟩ := Schedule_live env s s1 hg ho hv ha h
  obtain ⟨hd, hw⟩ := hnp hp
  have hempty : ∀ st, (Schedule.release s.active_stream_list s []).1.running_chain_list st
      = [] := by
    intro st
    rw [hrun st]
    split
    · rename_i hst
      rw [List.dropWhile_eq_nil_iff]
      exact hdone st hst
    · rename_i hst
      by_contra hne
      exact hst ((ha.active_iff st).mpr hne)
  constructor
  · rintro c (hc | ⟨st, hc⟩)
    · rw [hw] at hc
      exact hk.waiting c hc
    · rw [hr1 st, hempty st, List.nil_append, hd] at hc
      rcases hk.ready_from c (List.mem_filter.mp hc).1 with h1 | h1
      · exact absurd h1 (List.not_mem_nil _)
      · exact h1
  · intro d hdw x hx
    exact hk.in_edges d x ((hi1 d (hg.lt_next d (List.mem_append_left _ hdw)) x).mp hx)

theorem Schedule_drain_path (env : VmEnv) (s s1 : Scheduler) (hs : Reachable env s)
    (hp : s.pending_msg_list = [])
    (hdone : ∀ st ∈ s.active_stream_list, ∀ c ∈ s.running_chain_list st, s.done c = true)
    (h : Schedule env s = some s1) (c : Nat) (rest : List Nat)
    (hpath : DependencyPath s1 (c :: rest)) :
    ∃ b, DependencyPath s (b :: c :: rest) := by
  obtain ⟨hg, _⟩ := Reachable_inv env s hs
  obtain ⟨hv, _⟩ := Reachable_live env s hs
  obtain ⟨hlive, hedge⟩ := Schedule_drain_tick env s s1 hs hp hdone h
  have hcw : c ∈ s.waiting_instr_chain_list := hlive c (hpath.2 c (List.mem_cons_self _ _))
  obtain ⟨b, hb⟩ := List.exists_mem_of_ne_nil _ (hg.waiting_in c hcw)
  have hblive : Live s b := by
    rcases hv.src_live b c hb with h1 | h1 | h1
    · exact h1
    · exact absurd h1 (List.not_mem_nil _)
    · exact absurd h1 (List.not_mem_nil _)
  refine ⟨b, ?_, ?_⟩
  · rw [List.chain'_cons]
    refine ⟨hb, ?_⟩
    have hall : ∀ x ∈ c :: rest, x ∈ s.waiting_instr_chain_list :=
      fun x hx => hlive x (hpath.2 x hx)
    have h1 := hpath.1
    clear hcw hb hpath
    induction rest generalizing c with
    | nil => exact List.chain'_singleton c
    | cons d rest ih =>
      rw [List.chain'_cons] at h1 ⊢
      refine ⟨hedge d (hall d (by simp)) c h1.1, ?_⟩
      exact ih d (fun x hx => hall x (List.mem_cons_of_mem _ hx)) h1.2
  · intro x hx
    rcases List.mem_cons.mp hx with h1 | h1
    · rw [h1]; exact hblive
    · exact Or.inl (hlive x (hpath.2 x h1))

theorem Drained_path (env : VmEnv) (n k : Nat) (s s1 : Scheduler)
    (hs : Reachable env s) (hp : s.pending_msg_list = [])
    (hpath : ∀ path, DependencyPath s path → path.length ≤ n)
    (h : Drained env s k s1) :
    ∀ path, path ≠ [] → DependencyPath s1 path → path.length + k ≤ n := by
  induction h with
  | zero => exact fun path _ hd => hpath path hd
  | tick m s1 s2 s3 hd hw hdone htick ih =>
    intro path hne hdp
    obtain ⟨hr1, hp1⟩ := Drained_reachable env m s s1 hd hs hp
    obtain ⟨f1, f2, f3, f4⟩ := WorkersRun_frame s1 s2 hw
    cases path with
    | nil => exact absurd rfl hne
    | cons c rest =>
      obtain ⟨b, hb⟩ := Schedule_drain_path env s2 s3 (WorkersRun_reachable env s1 s2 hw hr1)
        (f1.trans hp1) hdone htick c rest hdp
      have hb1 : DependencyPath s1 (b :: c :: rest) := by
        unfold DependencyPath Live at hb ⊢
        rw [f2, f3, f4] at hb
        exact hb
      have := ih (b :: c :: rest) (List.cons_ne_nil _ _) hb1
      simp only [List.length_cons] at this ⊢
      omega
/-- C13: the scheduler drains.  Let `s` be a reachable state without pending messages in
which no dependency path holds more than `n` chains (no path holds more chains than have
been created), and let `s1` be reached from `s` by `k` ticks without `Receive`, the worker
threads running in between and every chain on the running list of an active stream being
done when a tick starts.  Then `s1` has no pending message and the next tick returns; no
dependency path of `s1` holds more than `n - k` chains; and from `k = n` on the waiting
list and the active list are empty and so is the running list of every stream.  In the
release phase of a tick a stream stays on the active list if and only if its running list
is not empty afterwards. -/
theorem Schedule_drains (env : VmEnv) (s s1 : Scheduler) (n k : Nat)
    (hs : Reachable env s) (hpending : s.pending_msg_list = [])
    (hpath : ∀ path, DependencyPath s path → path.length ≤ n)
    (hrun : Drained env s k s1) :
    (∀ path, DependencyPath s path → path.length ≤ s.next_chain_id)
      ∧ s1.pending_msg_list = []
      ∧ (∃ s2, Schedule env s1 = some s2)
      ∧ (∀ path, DependencyPath s1 path → path.length ≤ n - k)
      ∧ (n ≤ k → s1.waiting_instr_chain_list = [] ∧ s1.active_stream_list = []
          ∧ (∀ st, s1.running_chain_list st = []) ∧ Empty s1 = true)
      ∧ (∀ st, st ∈ (Schedule.release s1.active_stream_list s1 []).1.active_stream_list
          ↔ st ∈ s1.active_stream_list
            ∧ (Schedule.release s1.active_stream_list s1 []).1.running_chain_list st ≠ []) := by
  obtain ⟨hr1, hp1⟩ := Drained_reachable env k s s1 hrun hs hpending
  obtain ⟨hg1, ho1⟩ := Reachable_inv env s1 hr1
  obtain ⟨hv1, ha1⟩ := Reachable_live env s1 hr1
  have hlen := Drained_path env n k s s1 hs hpending hpath hrun
  have hnolive : n ≤ k → ∀ c, ¬ Live s1 c := by
    intro hnk c hc
    have := hlen [c] (List.cons_ne_nil _ _) ⟨List.chain'_singleton c, fun x hx => by
      rw [List.mem_singleton.mp hx]; exact hc⟩
    simp only [List.length_singleton] at this
    omega
  refine ⟨DependencyPath_length_le env s hs, hp1, ?_, ?_, ?_, ?_⟩
  · obtain ⟨s2, h2, _⟩ := Schedule_of_no_pending env s1 hp1
    exact ⟨s2, h2⟩
  · intro path hd
    cases path with
    | nil => exact Nat.zero_le _
    | cons c rest =>
      have := hlen (c :: rest) (List.cons_ne_nil _ _) hd
      omega
  · intro hnk
    have hw : s1.waiting_instr_chain_list = [] := by
      rw [List.eq_nil_iff_forall_not_mem]
      exact fun c hc => hnolive hnk c (Or.inl hc)
    have hrn : ∀ st, s1.running_chain_list st = [] := by
      intro st
      rw [List.eq_nil_iff_forall_not_mem]
      exact fun c hc => hnolive hnk c (Or.inr ⟨st, hc⟩)
    have hact : s1.active_stream_list = [] := by
      rw [List.eq_nil_iff_forall_not_mem]
      exact fun st hst => (ha1.active_iff st).mp hst (hrn st)
    refine ⟨hw, hact, hrn, ?_⟩
    unfold Empty
    rw [hp1, hw, hact]
    rfl
  · obtain ⟨_, a2, _, _, m2⟩ := Schedule_release_live s1.next_chain_id s1.active_stream_list
      s1 [] hg1 ho1 hv1 ha1
    intro st
    constructor
    · exact fun h => ⟨m2 st h, (a2.active_iff st).mp h⟩
    · exact fun h => (a2.active_iff st).mpr h.2
theorem test_s2_drain_tick (b : Bool) (k : Nat) (hk : k < 4) :
    Schedule (test.env b) (test.run_workers (test.s2_drained b k))
      = some (test.s2_drained b (k + 1)) := by
  have h4 : k = 0 ∨ k = 1 ∨ k = 2 ∨ k = 3 := by omega
  rcases h4 with h | h | h | h <;> subst h <;> cases b <;> rfl

theorem test_s2_drain_done (b : Bool) (k : Nat) (hk : k < 4) :
    ∀ st ∈ (test.run_workers (test.s2_drained b k)).active_stream_list,
      ∀ c ∈ (test.run_workers (test.s2_drained b k)).running_chain_list st,
        (test.run_workers (test.s2_drained b k)).done c = true := by
  have h4 : k = 0 ∨ k = 1 ∨ k = 2 ∨ k = 3 := by omega
  rcases h4 with h | h | h | h <;> subst h <;> cases b <;> decide

theorem test_s2_drained_run (b : Bool) (k : Nat) (hk : k ≤ 4) :
    Drained (test.env b) (test.s2_scheduled b) k (test.s2_drained b k) := by
  induction k with
  | zero => exact Drained.zero
  | succ k ih =>
    exact Drained.tick k _ _ _ (ih (by omega)) (WorkersRun_run_workers _)
      (test_s2_drain_done b k (by omega)) (test_s2_drain_tick b k (by omega))

theorem test_s2_scheduled_path : DependencyPath (test.s2_scheduled false) [0, 1, 2, 3] := by
  refine ⟨?_, ?_⟩
  · simp only [List.chain'_cons, List.chain'_singleton, and_true]
    exact ⟨by decide, by decide, by decide⟩
  intro c hc
  simp only [List.mem_cons, List.mem_singleton, List.mem_nil_iff, or_false] at hc
  rcases hc with h | h | h | h <;> subst h
  · exact Or.inr ⟨test.infer_nop_stream, by decide⟩
  · exact Or.inl (by decide)
  · exact Or.inl (by decide)
  · exact Or.inl (by decide)

/-- Witness of C13, the fourth scenario on the code: after `Receive` of the messages of the
second scenario and the first tick there are four chains, on one dependency path.  After
two rounds of `TryReceiveAndRun` and a tick the scheduler is not drained: chain 3, which
holds the second Nop instruction, waits and chain 2, its infer twin, runs on the one
active stream.  It is drained after four rounds, one for each chain of the path. -/
theorem Schedule_drains_witness :
    (test.s2_scheduled false).pending_msg_list = []
      ∧ (test.s2_scheduled false).next_chain_id = 4
      ∧ DependencyPath (test.s2_scheduled false) [0, 1, 2, 3]
      ∧ Drained (test.env false) (test.s2_scheduled false) 4 (test.s2_drained false 4)
      ∧ (test.s2_drained false 2).waiting_instr_chain_list = [3]
      ∧ (test.s2_drained false 2).active_stream_list = [test.infer_nop_stream]
      ∧ (test.s2_drained false 2).running_chain_list test.infer_nop_stream = [2]
      ∧ (test.s2_drained false 2).running_chain_list test.nop_stream = []
      ∧ (test.s2_drained false 3).waiting_instr_chain_list = []
      ∧ (test.s2_drained false 3).running_chain_list test.nop_stream = [3]
      ∧ ((test.s2_drained false 4).waiting_instr_chain_list = []
          ∧ (test.s2_drained false 4).active_stream_list = []
          ∧ (∀ st, (test.s2_drained false 4).running_chain_list st = [])
          ∧ Empty (test.s2_drained false 4) = true) :=
  ⟨rfl, rfl, test_s2_scheduled_path, test_s2_drained_run false 4 (le_refl 4), rfl, rfl, rfl,
    rfl, rfl, rfl,
    (Schedule_drains (test.env false) (test.s2_scheduled false) (test.s2_drained false 4) 4 4
      (test_s2_scheduled_reachable false) rfl
      (fun path hp => DependencyPath_length_le (test.env false) (test.s2_scheduled false)
        (test_s2_scheduled_reachable false) path hp)
      (test_s2_drained_run false 4 (le_refl 4))).2.2.2.2.1 (le_refl 4)⟩

/-! ## Dispatch -/

theorem DispatchInstruction_step_fields (env : VmEnv) (s : Scheduler) (c : Nat) :
    (DispatchInstruction.step env s c).run_trace
        = s.run_trace ++ (if env.SharingSchedulerThread (s.chain_stream c).stream_type_id.stream_type
            then [RunEvent.run_instr_chain c] else [])
      ∧ (DispatchInstruction.step env s c).done
        = (if env.SharingSchedulerThread (s.chain_stream c).stream_type_id.stream_type
            then Function.update s.done c true else s.done)
      ∧ (DispatchInstruction.step env s c).pending_chain_list
        = (if env.SharingSchedulerThread (s.chain_stream c).stream_type_id.stream_type
            then s.pending_chain_list
            else Function.update s.pending_chain_list (s.thread_ctx (s.chain_stream c))
              (s.pending_chain_list (s.thread_ctx (s.chain_stream c)) ++ [c])) := by
  unfold DispatchInstruction.step RunInstrChain
  dsimp only
  split <;> split <;> simp

/-- C21: dispatch and the order of the chains of a stream.  `DispatchInstruction` on a
ready list leaves the ready list empty.  The running list of every stream is what it was,
followed by the chains of the ready list that belong to the stream, in the order of the
ready list.  The active list is what it was, followed by streams that were not active,
each once: the streams of the chains of the ready list that were not active; so an active
list without repetition stays so.  The chains of the ready list whose stream type shares
the scheduler thread are run, in the order of the ready list, and are done; the others
are put at the back of the pending list of the thread of their stream, in the order of the
ready list, and their done flags are left alone. -/
theorem DispatchInstruction_per_stream_order (env : VmEnv) (ready : List Nat)
    (s : Scheduler) :
    (DispatchInstruction env ready s).2 = []
      ∧ (∀ st, (DispatchInstruction env ready s).1.running_chain_list st
          = s.running_chain_list st
            ++ ready.filter (fun c => decide (s.chain_stream c = st)))
      ∧ (∃ added : List StreamId,
          (DispatchInstruction env ready s).1.active_stream_list
              = s.active_stream_list ++ added
            ∧ added.Nodup
            ∧ ∀ st, st ∈ added
                ↔ st ∉ s.active_stream_list ∧ ∃ c ∈ ready, s.chain_stream c = st)
      ∧ (s.active_stream_list.Nodup →
          (DispatchInstruction env ready s).1.active_stream_list.Nodup)
      ∧ (DispatchInstruction env ready s).1.run_trace
          = s.run_trace ++ (ready.filter (fun c =>
              env.SharingSchedulerThread (s.chain_stream c).stream_type_id.stream_type)).map
                RunEvent.run_instr_chain
      ∧ (∀ c, (DispatchInstruction env ready s).1.done c
          = if c ∈ ready
              ∧ env.SharingSchedulerThread (s.chain_stream c).stream_type_id.stream_type = true
            then true else s.done c)
      ∧ (∀ t, (DispatchInstruction env ready s).1.pending_chain_list t
          = s.pending_chain_list t ++ ready.filter (fun c =>
              !env.SharingSchedulerThread (s.chain_stream c).stream_type_id.stream_type
                && decide (s.thread_ctx (s.chain_stream c) = t))) := by
  unfold DispatchInstruction
  dsimp only
  refine ⟨rfl, ?_⟩
  induction ready generalizing s with
  | nil =>
    refine ⟨fun st => by simp, ⟨[], by simp, List.nodup_nil, fun st => by simp⟩,
      fun h => h, by simp, fun c => by simp, fun t => by simp⟩
  | cons c rest ih =>
    obtain ⟨hr, hact⟩ := DispatchInstruction_step_lists env s c
    obtain ⟨htr, hdone, hpend⟩ := DispatchInstruction_step_fields env s c
    have fr := DispatchInstruction_step_frame env s c
    obtain ⟨r2, ⟨added, a2, nd2, m2⟩, n2, t2, d2, p2⟩ := ih (DispatchInstruction.step env s c)
    simp only [List.foldl_cons]
    rw [fr.chain_stream, fr.thread_ctx] at *
    refine ⟨?_, ?_, ?_, ?_, ?_, ?_⟩
    · intro st
      rw [r2 st, hr]
      by_cases hst : s.chain_stream c = st
      · subst hst
        rw [Function.update_same]
        simp [List.filter_cons]
      · rw [Function.update_noteq (Ne.symm hst)]
        simp [List.filter_cons, hst]
    · rw [hact] at a2 m2
      by_cases hmem : s.chain_stream c ∈ s.active_stream_list
      · rw [if_pos hmem] at a2 m2
        refine ⟨added, a2, nd2, ?_⟩
        intro st
        rw [m2 st]
        constructor
        · rintro ⟨h1, x, hx, h2⟩
          exact ⟨h1, x, List.mem_cons_of_mem _ hx, h2⟩
        · rintro ⟨h1, x, hx, h2⟩
          refine ⟨h1, ?_⟩
          rcases List.mem_cons.mp hx with h3 | h3
          · subst h3
            rw [h2] at hmem
            exact absurd hmem h1
          · exact ⟨x, h3, h2⟩
      · rw [if_neg hmem] at a2 m2
        refine ⟨s.chain_stream c :: added, by rw [a2]; simp, ?_, ?_⟩
        · rw [List.nodup_cons]
          refine ⟨?_, nd2⟩
          intro h1
          exact ((m2 _).mp h1).1 (List.mem_append_right _ (List.mem_singleton_self _))
        · intro st
          rw [List.mem_cons, m2 st]
          constructor
          · rintro (h1 | ⟨h1, x, hx, h2⟩)
            · subst h1
              exact ⟨hmem, c, List.mem_cons_self _ _, rfl⟩
            · refine ⟨fun h3 => h1 (List.mem_append_left _ h3), x, List.mem_cons_of_mem _ hx, h2⟩
          · rintro ⟨h1, x, hx, h2⟩
            by_cases h3 : st = s.chain_stream c
            · exact Or.inl h3
            · right
              refine ⟨?_, ?_⟩
              · intro h4
                rcases List.mem_append.mp h4 with h5 | h5
                · exact h1 h5
                · exact h3 (List.mem_singleton.mp h5)
              · rcases List.mem_cons.mp hx with h4 | h4
                · subst h4
                  exact absurd h2.symm h3
                · exact ⟨x, h4, h2⟩
    · intro hnd
      apply n2
      rw [hact]
      split
      · exact hnd
      · rename_i hmem
        rw [List.nodup_append]
        refine ⟨hnd, List.nodup_singleton _, ?_⟩
        intro x hx1 hx2
        rw [List.mem_singleton] at hx2
        exact hmem (hx2 ▸ hx1)
    · rw [t2, htr]
      by_cases hsh : env.SharingSchedulerThread (s.chain_stream c).stream_type_id.stream_type
          = true
      · simp [List.filter_cons, hsh]
      · simp [List.filter_cons, hsh]
    · intro x
      rw [d2 x, hdone]
      by_cases hsh : env.SharingSchedulerThread (s.chain_stream c).stream_type_id.stream_type
          = true
      · rw [if_pos hsh]
        by_cases hx : x = c
        · subst hx
          simp [hsh]
        · rw [Function.update_noteq hx]
          simp [hx]
      · rw [if_neg hsh]
        by_cases hx : x = c
        · subst hx
          simp [hsh]
        · simp [hx]
    · intro t
      rw [p2 t, hpend]
      by_cases hsh : env.SharingSchedulerThread (s.chain_stream c).stream_type_id.stream_type
          = true
      · rw [if_pos hsh]
        simp [List.filter_cons, hsh]
      · rw [if_neg hsh]
        by_cases ht : s.thread_ctx (s.chain_stream c) = t
        · subst ht
          rw [Function.update_same]
          simp [List.filter_cons, hsh]
        · rw [Function.update_noteq (Ne.symm ht)]
          simp [List.filter_cons, hsh, ht]

/-- Witness of C21: in the second tick of the second scenario the release phase leaves the
ready list [1]; the dispatch puts chain 1 on the running list of the Nop stream, makes the
Nop stream the only active stream and, the Nop stream type not sharing the scheduler
thread, puts the chain on the pending list of the thread of the stream and runs nothing. -/
theorem DispatchInstruction_per_stream_order_witness :
    (Schedule.release (test.run_workers (test.s2_scheduled false)).active_stream_list
        (test.run_workers (test.s2_scheduled false)) []).2 = [1]
      ∧ (DispatchInstruction (test.env false) [1]
          (Schedule.release (test.run_workers (test.s2_scheduled false)).active_stream_list
            (test.run_workers (test.s2_scheduled false)) []).1).1.running_chain_list
            test.nop_stream = [] ++ [1]
      ∧ (DispatchInstruction (test.env false) [1]
          (Schedule.release (test.run_workers (test.s2_scheduled false)).active_stream_list
            (test.run_workers (test.s2_scheduled false)) []).1).1.active_stream_list
            = [test.nop_stream]
      ∧ (DispatchInstruction (test.env false) [1]
          (Schedule.release (test.run_workers (test.s2_scheduled false)).active_stream_list
            (test.run_workers (test.s2_scheduled false)) []).1).1.pending_chain_list
            { stream_type_id := test.kNopStreamTypeId, thread_id := 0 } = [] ++ [1]
      ∧ (DispatchInstruction (test.env false) [1]
          (Schedule.release (test.run_workers (test.s2_scheduled false)).active_stream_list
            (test.run_workers (test.s2_scheduled false)) []).1).1.done 1 = false :=
  ⟨rfl,
    (DispatchInstruction_per_stream_order (test.env false) [1]
      (Schedule.release (test.run_workers (test.s2_scheduled false)).active_stream_list
        (test.run_workers (test.s2_scheduled false)) []).1).2.1 test.nop_stream,
    rfl,
    (DispatchInstruction_per_stream_order (test.env false) [1]
      (Schedule.release (test.run_workers (test.s2_scheduled false)).active_stream_list
        (test.run_workers (test.s2_scheduled false)) []).1).2.2.2.2.2.2
        { stream_type_id := test.kNopStreamTypeId, thread_id := 0 },
    rfl⟩

/-! ## No half-inserted edges -/

theorem ConnectInstruction_both_or_neither (src dst : Nat) (s : Scheduler)
    (hsym : EdgeSym s) :
    ∃ s1, ConnectInstruction src dst s = some s1 ∧ EdgeSym s1
      ∧ ((dst ∈ s.out_edges src ∧ src ∈ s.in_edges dst ∧ s1 = s)
        ∨ (dst ∉ s.out_edges src ∧ src ∉ s.in_edges dst
            ∧ s1.out_edges = Function.update s.out_edges src (s.out_edges src ++ [dst])
            ∧ s1.in_edges = Function.update s.in_edges dst (s.in_edges dst ++ [src]))) := by
  obtain ⟨s1, h1, _, he⟩ := ConnectInstruction_spec src dst s (hsym src dst)
  refine ⟨s1, h1, EdgesAdded_sym he hsym, ?_⟩
  unfold ConnectInstruction at h1
  dsimp only at h1
  by_cases ho : dst ∈ s.out_edges src
  · have hi : src ∈ s.in_edges dst := (hsym src dst).mp ho
    left
    simp only [ho, hi, not_true_eq_false, decide_False, Bool.false_eq_true, if_false,
      if_true, Option.some.injEq] at h1
    exact ⟨ho, hi, h1.symm⟩
  · have hi : src ∉ s.in_edges dst := fun h => ho ((hsym src dst).mpr h)
    right
    simp only [ho, hi, not_false_eq_true, decide_True, if_true, Option.some.injEq] at h1
    subst h1
    exact ⟨ho, hi, rfl, rfl⟩

/-- C22: no half-inserted edges.  At every point of the run of a scheduler, in between the
operations and inside a tick, an edge is in the out-edges of its source if and only if it
is in the in-edges of its destination.  On every state with this property
`ConnectInstruction` returns, its check holding: either the edge is in both sets and
nothing changes, or it is in neither and is put at the back of both; the property is kept,
and so the linking of a new chain returns once its accesses are registered.
`ReleaseInstruction` keeps the property, leaves the released chain without out-edge and
takes the in-edge from it, and no other, out of the in-edges of every chain. -/
theorem no_half_inserted_edges (env : VmEnv) (s : Scheduler) (ready : List Nat)
    (h : Reached env s ready) :
    (∀ src dst, dst ∈ s.out_edges src ↔ src ∈ s.in_edges dst)
      ∧ (∀ (s0 : Scheduler) (src dst : Nat),
          (∀ c d, d ∈ s0.out_edges c ↔ c ∈ s0.in_edges d) →
          ∃ s1, ConnectInstruction src dst s0 = some s1
            ∧ (∀ c d, d ∈ s1.out_edges c ↔ c ∈ s1.in_edges d)
            ∧ ((dst ∈ s0.out_edges src ∧ src ∈ s0.in_edges dst ∧ s1 = s0)
              ∨ (dst ∉ s0.out_edges src ∧ src ∉ s0.in_edges dst
                  ∧ s1.out_edges
                    = Function.update s0.out_edges src (s0.out_edges src ++ [dst])
                  ∧ s1.in_edges
                    = Function.update s0.in_edges dst (s0.in_edges dst ++ [src]))))
      ∧ (∀ (s0 : Scheduler) (n : Nat) (m : InstructionMsg),
          (∀ c d, d ∈ s0.out_edges c ↔ c ∈ s0.in_edges d) →
          s0.instr_ctx_list n = [{ instr_msg := m, mirrored_object_id2access := [] }] →
          (∀ obj, ∀ a ∈ s0.access_list obj, a.instr_chain ≠ n) →
          ∀ s1 s2,
            ConsumeMirroredObjects.mutPass env
              (s0.chain_stream n).stream_type_id.interpret_type
              (s0.chain_stream n).parallel_id n m.operand s0 = some s1 →
            ConsumeMirroredObjects.constPass env
              (s0.chain_stream n).stream_type_id.interpret_type
              (s0.chain_stream n).parallel_id n m.operand s1 = some s2 →
            ∃ s3, ConsumeMirroredObjects.chain env s0 n = some s3
              ∧ ∀ c d, d ∈ s3.out_edges c ↔ c ∈ s3.in_edges d)
      ∧ (∀ c,
          (∀ src dst, dst ∈ (ReleaseInstruction s c ready).1.out_edges src
            ↔ src ∈ (ReleaseInstruction s c ready).1.in_edges dst)
          ∧ (ReleaseInstruction s c ready).1.out_edges c = []
          ∧ (∀ d, c ∉ (ReleaseInstruction s c ready).1.in_edges d)
          ∧ (∀ d x, x ∈ (ReleaseInstruction s c ready).1.in_edges d
              ↔ x ∈ s.in_edges d ∧ x ≠ c)) := by
  obtain ⟨hg, ho⟩ := Reached_inv env s ready h
  refine ⟨hg.sym, ?_, ?_, ?_⟩
  · intro s0 src dst hsym
    exact ConnectInstruction_both_or_neither src dst s0 hsym
  · intro s0 n m hsym hctx hfresh s1 s2 h1 h2
    obtain ⟨hex, hall⟩ := ConsumeMirroredObjects_chain_spec env s0 n m hsym hctx hfresh
    obtain ⟨s3, h3⟩ := hex s1 s2 h1 h2
    obtain ⟨_, _, _, _, _, _, _, he⟩ := hall s3 h3
    exact ⟨s3, h3, EdgesAdded_sym he hsym⟩
  · intro c
    obtain ⟨g1, _, _, _⟩ := ReleaseInstruction_inv s c ready s.next_chain_id hg ho
    obtain ⟨_, _, _, _, e2⟩ := ReleaseInstruction_foldl_kept c s.next_chain_id _
      (ReleaseInstruction.releaseAccesses c s) ready rfl
      (ReleaseInstruction_releaseAccesses_inv c s ready [] s.next_chain_id hg ho).1
      (ReleaseInstruction_releaseAccesses_inv c s ready [] s.next_chain_id hg ho).2
    have hout : (ReleaseInstruction s c ready).1.out_edges c = [] := e2
    refine ⟨g1.sym, hout, ?_, ReleaseInstruction_in_edges s c ready s.next_chain_id hg ho⟩
    intro d hd
    have := (g1.sym c d).mpr hd
    rw [hout] at this
    exact absurd this (List.not_mem_nil _)

/-- Witness of C22: the state of the second scenario after the first tick and the workers;
chain 0 has the out-edges to the chains 1 and 2, and its release leaves it without
out-edge and the chains 1 and 2 without the in-edge from it. -/
theorem no_half_inserted_edges_witness :
    (test.run_workers (test.s2_scheduled false)).out_edges 0 = [1, 2]
      ∧ (test.run_workers (test.s2_scheduled false)).in_edges 2 = [0, 1]
      ∧ (ReleaseInstruction (test.run_workers (test.s2_scheduled false)) 0 []).1.in_edges 2
          = [1]
      ∧ (ReleaseInstruction (test.run_workers (test.s2_scheduled false)) 0 []).1.out_edges 0
          = []
      ∧ ∀ d, 0 ∉ (ReleaseInstruction (test.run_workers (test.s2_scheduled false)) 0
          []).1.in_edges d :=
  ⟨rfl, rfl, rfl,
    ((no_half_inserted_edges (test.env false) (test.run_workers (test.s2_scheduled false)) []
      (Reached.idle _ (Reachable_run_workers _ _ (test_s2_scheduled_reachable false)))).2.2.2
      0).2.1,
    ((no_half_inserted_edges (test.env false) (test.run_workers (test.s2_scheduled false)) []
      (Reached.idle _ (Reachable_run_workers _ _ (test_s2_scheduled_reachable false)))).2.2.2
      0).2.2.1⟩

/-! ## Duplicate accesses -/

theorem ConsumeMirroredObject_registered_dup (t : OperandAccessType) (s0 s : Scheduler)
    (n : Nat) (m : InstructionMsg) (accs : List MirroredObjectAccess) (obj : MirroredObjectId)
    (h : Registered s0 s n m accs)
    (hdup : obj ∈ accs.map MirroredObjectAccess.mirrored_object_id) :
    ConsumeMirroredObject t n s obj = s := by
  have hany : (accs.any (fun a => decide (a.mirrored_object_id = obj))) = true := by
    rw [List.any_eq_true]
    obtain ⟨a, ha, hao⟩ := List.mem_map.mp hdup
    exact ⟨a, ha, by simpa using hao⟩
  unfold ConsumeMirroredObject
  rw [h.ctx]
  simp [hany]

theorem AccessTable_register_append (accs l1 l2 : List MirroredObjectAccess) :
    AccessTable.register accs (l1 ++ l2)
      = AccessTable.register (AccessTable.register accs l1) l2 := by
  unfold AccessTable.register
  rw [List.foldl_append]

theorem ConsumeMirroredObject_foldl_register (t : OperandAccessType) (s0 : Scheduler)
    (n : Nat) (m : InstructionMsg) (objs : List MirroredObjectId) (s : Scheduler)
    (accs : List MirroredObjectAccess) (h : Registered s0 s n m accs) :
    Registered s0 (objs.foldl (ConsumeMirroredObject t n) s) n m
      (AccessTable.register accs
        (AccessTable.accesses n (decide (t = OperandAccessType.kConstOperandAccess)) objs)) := by
  induction objs generalizing s accs with
  | nil => simpa [AccessTable.accesses, AccessTable.register] using h
  | cons o rest ih =>
    have hstep : AccessTable.register accs
          (AccessTable.accesses n (decide (t = OperandAccessType.kConstOperandAccess))
            (o :: rest))
        = AccessTable.register
            (if o ∈ accs.map MirroredObjectAccess.mirrored_object_id then accs
              else accs ++ AccessTable.accesses n
                (decide (t = OperandAccessType.kConstOperandAccess)) [o])
            (AccessTable.accesses n (decide (t = OperandAccessType.kConstOperandAccess))
              rest) := rfl
    rw [hstep]
    by_cases hdup : o ∈ accs.map MirroredObjectAccess.mirrored_object_id
    · have h1 := ConsumeMirroredObject_registered_dup t s0 s n m accs o h hdup
      rw [if_pos hdup, List.foldl_cons, h1]
      exact ih s accs h
    · have h1 := ConsumeMirroredObject_registered_new t s0 s n m accs o h hdup
      rw [if_neg hdup, List.foldl_cons]
      exact ih _ _ h1

theorem ConsumeMirroredObjects_mutPass_register (env : VmEnv) (it : InterpretType)
    (pid : Int) (s0 : Scheduler) (n : Nat) (m : InstructionMsg)
    (ops : List InstructionOperand) (s : Scheduler) (accs : List MirroredObjectAccess)
    (W : List MirroredObjectId)
    (h : Registered s0 s n m accs)
    (hW : AccessTable.collect (AccessTable.writes env it s0.id2logical_object pid) ops
      = some W) :
    ∃ s1, ConsumeMirroredObjects.mutPass env it pid n ops s = some s1
      ∧ Registered s0 s1 n m (AccessTable.register accs (AccessTable.accesses n false W)) := by
  induction ops generalizing s accs W with
  | nil =>
    simp only [AccessTable.collect, Option.some.injEq] at hW
    subst hW
    exact ⟨s, rfl, by simpa [AccessTable.accesses, AccessTable.register] using h⟩
  | cons op rest ih =>
    simp only [AccessTable.collect] at hW
    split at hW
    · rename_i objs more hobjs hmore
      simp only [Option.some.injEq] at hW
      subst hW
      have hid : s.id2logical_object = s0.id2logical_object := h.frame.id2logical_object
      have step : ∀ s', Registered s0 s' n m
            (AccessTable.register accs (AccessTable.accesses n false objs)) →
          ∃ s1, ConsumeMirroredObjects.mutPass env it pid n rest s' = some s1
            ∧ Registered s0 s1 n m
              (AccessTable.register accs (AccessTable.accesses n false (objs ++ more))) := by
        intro s' h'
        obtain ⟨s1, e1, r1⟩ := ih s' _ more h' hmore
        exact ⟨s1, e1, by
          rw [AccessTable_accesses_append, AccessTable_register_append]
          exact r1⟩
      have hreg : Registered s0
          (objs.foldl (ConsumeMirroredObject OperandAccessType.kMutableOperandAccess n) s) n m
          (AccessTable.register accs (AccessTable.accesses n false objs)) := by
        have := ConsumeMirroredObject_foldl_register
          OperandAccessType.kMutableOperandAccess s0 n m objs s accs h
        simpa using this
      cases op
      case mutable_operand o =>
        simp only [ConsumeMirroredObjects.mutPass]
        have : ForEachMutMirroredObject_mutable env it s.id2logical_object o pid
            = some objs := by
          rw [hid, ← hobjs]
          cases it <;> rfl
        rw [this]
        exact step _ hreg
      case mut2_operand o =>
        simp only [ConsumeMirroredObjects.mutPass]
        have : ForEachMutMirroredObject_mut2 env it s.id2logical_object o pid
            = some objs := by
          rw [hid, ← hobjs]
          cases it <;> rfl
        rw [this]
        exact step _ hreg
      all_goals
        simp only [AccessTable.writes, Option.some.injEq] at hobjs
        subst hobjs
        simp only [ConsumeMirroredObjects.mutPass]
        exact step s (by simpa [AccessTable.accesses, AccessTable.register] using h)
    · exact absurd hW (by simp)

theorem ConsumeMirroredObjects_constPass_register (env : VmEnv) (it : InterpretType)
    (pid : Int) (s0 : Scheduler) (n : Nat) (m : InstructionMsg)
    (ops : List InstructionOperand) (s : Scheduler) (accs : List MirroredObjectAccess)
    (R : List MirroredObjectId)
    (h : Registered s0 s n m accs)
    (hR : AccessTable.collect (AccessTable.reads env it s0.id2logical_object pid) ops
      = some R) :
    ∃ s1, ConsumeMirroredObjects.constPass env it pid n ops s = some s1
      ∧ Registered s0 s1 n m (AccessTable.register accs (AccessTable.accesses n true R)) := by
  induction ops generalizing s accs R with
  | nil =>
    simp only [AccessTable.collect, Option.some.injEq] at hR
    subst hR
    exact ⟨s, rfl, by simpa [AccessTable.accesses, AccessTable.register] using h⟩
  | cons op rest ih =>
    simp only [AccessTable.collect] at hR
    split at hR
    · rename_i objs more hobjs hmore
      simp only [Option.some.injEq] at hR
      subst hR
      have hid : s.id2logical_object = s0.id2logical_object := h.frame.id2logical_object
      have step : ∀ s', Registered s0 s' n m
            (AccessTable.register accs (AccessTable.accesses n true objs)) →
          ∃ s1, ConsumeMirroredObjects.constPass env it pid n rest s' = some s1
            ∧ Registered s0 s1 n m
              (AccessTable.register accs (AccessTable.accesses n true (objs ++ more))) := by
        intro s' h'
        obtain ⟨s1, e1, r1⟩ := ih s' _ more h' hmore
        exact ⟨s1, e1, by
          rw [AccessTable_accesses_append, AccessTable_register_append]
          exact r1⟩
      have hreg : Registered s0
          (objs.foldl (ConsumeMirroredObject OperandAccessType.kConstOperandAccess n) s) n m
          (AccessTable.register accs (AccessTable.accesses n true objs)) := by
        have := ConsumeMirroredObject_foldl_register
          OperandAccessType.kConstOperandAccess s0 n m objs s accs h
        simpa using this
      cases op
      case const_operand o =>
        simp only [ConsumeMirroredObjects.constPass]
        have : ForEachConstMirroredObject_const env it s.id2logical_object o pid
            = some objs := by
          rw [hid, ← hobjs]
          cases it <;> rfl
        rw [this]
        exact step _ hreg
      case mutable_operand o =>
        simp only [ConsumeMirroredObjects.constPass]
        have : ForEachConstMirroredObject_mutable env it s.id2logical_object o pid
            = some objs := by
          rw [hid, ← hobjs]
          cases it <;> rfl
        rw [this]
        exact step _ hreg
      all_goals
        simp only [AccessTable.reads, Option.some.injEq] at hobjs
        subst hobjs
        simp only [ConsumeMirroredObjects.constPass]
        exact step s (by simpa [AccessTable.accesses, AccessTable.register] using h)
    · exact absurd hR (by simp)

/-- C23, counterexample: a Nop instruction that names symbol 9527 in a mutable and in a
const operand resolves, under compute, to the Self object once for a write and once for a
read and to the Type object twice for a read.  The tick that receives it with the symbol
returns; the chain of the instruction, chain 1, holds two accesses, the write to the Self
object (19054, 0) and one read of the Type object (19055, 0), and waits for its infer twin,
chain 0. -/
theorem Schedule_duplicate_access_continues :
    AccessTable.collect (AccessTable.writes (test.env false) InterpretType.kCompute
        test.dup_state.id2logical_object 0) (test.nop_dup_instr_msg 9527).operand
        = some [{ logical_object_id_value := 19054, parallel_id := 0 }]
      ∧ AccessTable.collect (AccessTable.reads (test.env false) InterpretType.kCompute
        test.dup_state.id2logical_object 0) (test.nop_dup_instr_msg 9527).operand
        = some [{ logical_object_id_value := 19055, parallel_id := 0 },
            { logical_object_id_value := 19055, parallel_id := 0 },
            { logical_object_id_value := 19054, parallel_id := 0 }]
      ∧ Schedule (test.env false) test.dup_received = some test.dup_scheduled
      ∧ test.dup_scheduled.instr_ctx_list 1
          = [{ instr_msg := test.nop_dup_instr_msg 9527,
               mirrored_object_id2access :=
                 [{ instr_chain := 1,
                    mirrored_object_id :=
                      { logical_object_id_value := 19054, parallel_id := 0 },
                    is_const_operand := false },
                  test.const_access 1 19055] }]
      ∧ test.dup_scheduled.waiting_instr_chain_list = [1]
      ∧ test.dup_scheduled.in_edges 1 = [0] :=
  ⟨by decide, by decide, rfl, rfl, rfl, rfl⟩

/-- C23, as amended: a duplicate access is dropped.  Let `n` be a new chain without
accesses whose instruction has the operands `m.operand`, and let `W` and `R` be the
mirrored objects that the operands write and read under the interpret type and parallel id
of the stream of `n`, with whatever repetition.  Then the two passes of
`ConsumeMirroredObjects` and the linking return: the scheduler does not abort.  The chain
holds, in the order of their registration, the mutable accesses to `W` and the const
accesses to `R` except every access to a mirrored object to which an access was registered
before; so it holds one access for each mirrored object, the first one. -/
theorem ConsumeMirroredObjects_chain_duplicate_dropped (env : VmEnv) (s : Scheduler)
    (n : Nat) (m : InstructionMsg) (W R : List MirroredObjectId) (hsym : EdgeSym s)
    (hctx : s.instr_ctx_list n = [{ instr_msg := m, mirrored_object_id2access := [] }])
    (hfresh : ∀ obj, ∀ a ∈ s.access_list obj, a.instr_chain ≠ n)
    (hW : AccessTable.collect
      (AccessTable.writes env (s.chain_stream n).stream_type_id.interpret_type
        s.id2logical_object (s.chain_stream n).parallel_id) m.operand = some W)
    (hR : AccessTable.collect
      (AccessTable.reads env (s.chain_stream n).stream_type_id.interpret_type
        s.id2logical_object (s.chain_stream n).parallel_id) m.operand = some R) :
    ∃ s3, ConsumeMirroredObjects.chain env s n = some s3
      ∧ s3.instr_ctx_list n
          = [{ instr_msg := m,
               mirrored_object_id2access :=
                 AccessTable.register []
                   (AccessTable.accesses n false W ++ AccessTable.accesses n true R) }]
      ∧ ((AccessTable.register []
            (AccessTable.accesses n false W ++ AccessTable.accesses n true R)).map
          MirroredObjectAccess.mirrored_object_id).Nodup
      ∧ ∀ obj, obj ∈ (AccessTable.register []
            (AccessTable.accesses n false W ++ AccessTable.accesses n true R)).map
          MirroredObjectAccess.mirrored_object_id ↔ obj ∈ W ++ R := by
  obtain ⟨s1, e1, r1⟩ := ConsumeMirroredObjects_mutPass_register env _ _ s n m m.operand s
    [] W (Registered_init s n m hctx) hW
  obtain ⟨s2, e2, r2⟩ := ConsumeMirroredObjects_constPass_register env _ _ s n m m.operand s1
    _ R r1 hR
  rw [← AccessTable_register_append] at r2
  obtain ⟨t1, _⟩ := ConsumeMirroredObjects_chain_spec env s n m hsym hctx hfresh
  obtain ⟨s3, e3⟩ := t1 s1 s2 e1 e2
  refine ⟨s3, e3, ?_, r2.nodup, ?_⟩
  · have e3' := e3
    unfold ConsumeMirroredObjects.chain at e3'
    simp only [hctx, e1, e2, r2.ctx] at e3'
    rw [(ConsumeMirroredObjects_linkAll_frame _ _ _ _ e3').instr_ctx_list, r2.ctx]
  · intro obj
    have key : ∀ (new accs : List MirroredObjectAccess),
        obj ∈ (AccessTable.register accs new).map MirroredObjectAccess.mirrored_object_id
          ↔ obj ∈ accs.map MirroredObjectAccess.mirrored_object_id
            ∨ obj ∈ new.map MirroredObjectAccess.mirrored_object_id := by
      intro new
      induction new with
      | nil => intro accs; simp [AccessTable.register]
      | cons a rest ih =>
        intro accs
        have hstep : AccessTable.register accs (a :: rest)
            = AccessTable.register
                (if a.mirrored_object_id ∈ accs.map MirroredObjectAccess.mirrored_object_id
                  then accs else accs ++ [a]) rest := rfl
        rw [hstep, ih]
        by_cases hmem : a.mirrored_object_id
            ∈ accs.map MirroredObjectAccess.mirrored_object_id
        · rw [if_pos hmem]
          simp only [List.map_cons, List.mem_cons]
          constructor
          · rintro (h1 | h1)
            · exact Or.inl h1
            · exact Or.inr (Or.inr h1)
          · rintro (h1 | h1 | h1)
            · exact Or.inl h1
            · exact Or.inl (h1 ▸ hmem)
            · exact Or.inr h1
        · rw [if_neg hmem]
          simp only [List.map_append, List.map_cons, List.map_nil, List.mem_append,
            List.mem_singleton, List.mem_cons]
          tauto
    rw [key]
    simp [AccessTable.accesses, Function.comp_def]

/-- Witness of C23 as amended: chain 2 of `dup_state`, whose instruction names symbol 9527
in a mutable and in a const operand, holds the write to the Self object and the first read
of the Type object after registration and linking. -/
theorem ConsumeMirroredObjects_chain_duplicate_dropped_witness :
    ∃ s3, ConsumeMirroredObjects.chain (test.env false) test.dup_state 2 = some s3
      ∧ s3.instr_ctx_list 2
          = [{ instr_msg := test.nop_dup_instr_msg 9527,
               mirrored_object_id2access :=
                 [{ instr_chain := 2,
                    mirrored_object_id :=
                      { logical_object_id_value := 19054, parallel_id := 0 },
                    is_const_operand := false },
                  test.const_access 2 19055] }] := by
  obtain ⟨s3, e3, c3, _⟩ :=
    ConsumeMirroredObjects_chain_duplicate_dropped (test.env false) test.dup_state 2
      (test.nop_dup_instr_msg 9527)
      [{ logical_object_id_value := 19054, parallel_id := 0 }]
      [{ logical_object_id_value := 19055, parallel_id := 0 },
       { logical_object_id_value := 19055, parallel_id := 0 },
       { logical_object_id_value := 19054, parallel_id := 0 }]
      test_write_state_sym rfl
      (fun obj a ha => test_write_state_fresh obj a ha) (by decide) (by decide)
  exact ⟨s3, e3, c3⟩

/-! ## The control streams are mandatory -/

theorem Init_loop_flags (env : VmEnv) (l : List StreamDesc) (s : Scheduler) (b1 b2 : Bool)
    (r : Scheduler × Bool × Bool) (h : __Init__.loop env l s b1 b2 = some r) :
    r.2.1 = (b1 || l.any (fun d =>
        decide (d.stream_type_id.stream_type = env.kControlStreamType)))
      ∧ r.2.2 = (b2 || l.any (fun d =>
        !decide (d.stream_type_id.stream_type = env.kControlStreamType)
          && decide (d.stream_type_id.stream_type = env.kInferControlStreamType)))
      ∧ ∀ d ∈ l, (d.stream_type_id.stream_type = env.kControlStreamType
          ∨ d.stream_type_id.stream_type = env.kInferControlStreamType) →
        CheckControlStreamDesc d = true := by
  induction l generalizing s b1 b2 with
  | nil =>
    simp only [__Init__.loop, Option.some.injEq] at h
    subst h
    simp
  | cons d rest ih =>
    simp only [__Init__.loop] at h
    split at h
    · exact absurd h (by simp)
    · rename_i hchk
      split at h
      · exact absurd h (by simp)
      · obtain ⟨h1, h2, h3⟩ := ih _ _ _ h
        refine ⟨?_, ?_, ?_⟩
        · rw [h1, List.any_cons, Bool.or_assoc]
        · rw [h2, List.any_cons, Bool.or_assoc]
        · intro d' hd' hc
          rcases List.mem_cons.mp hd' with rfl | hmem
          · by_contra hn
            apply hchk
            have hn' : CheckControlStreamDesc d' = false := by simpa using hn
            rw [hn']
            rcases hc with hc | hc
            · simp [hc]
            · by_cases hcc : d'.stream_type_id.stream_type = env.kControlStreamType
              · simp [hcc]
              · simp [hcc, hc]
          · exact h3 d' hmem hc

/-- C24: the control streams are mandatory.  If `__Init__` returns a scheduler, the
`VmDesc` holds a descriptor of the control stream type and a descriptor of its infer
counterpart, and every descriptor of one of these two stream types has num_machines 1,
num_streams_per_machine 1, num_streams_per_thread 1 and start_parallel_id 0.  So
`__Init__` aborts when the `VmDesc` has no descriptor of the control stream type, when it
has none of the infer counterpart, and when a descriptor of one of the two has another
configuration. -/
theorem Init_control_streams_mandatory (env : VmEnv) (vm_desc : List StreamDesc) :
    (∀ s, __Init__ env vm_desc = some s →
        (∃ d ∈ vm_desc, d.stream_type_id.stream_type = env.kControlStreamType)
          ∧ (∃ d ∈ vm_desc, d.stream_type_id.stream_type = env.kInferControlStreamType)
          ∧ ∀ d ∈ vm_desc, (d.stream_type_id.stream_type = env.kControlStreamType
              ∨ d.stream_type_id.stream_type = env.kInferControlStreamType) →
            d.num_machines = 1 ∧ d.num_streams_per_machine = 1
              ∧ d.num_streams_per_thread = 1 ∧ d.start_parallel_id = 0)
      ∧ ((∀ d ∈ vm_desc, d.stream_type_id.stream_type ≠ env.kControlStreamType) →
          __Init__ env vm_desc = none)
      ∧ ((∀ d ∈ vm_desc, d.stream_type_id.stream_type ≠ env.kInferControlStreamType) →
          __Init__ env vm_desc = none)
      ∧ ∀ d ∈ vm_desc, (d.stream_type_id.stream_type = env.kControlStreamType
            ∨ d.stream_type_id.stream_type = env.kInferControlStreamType) →
          ¬ (d.num_machines = 1 ∧ d.num_streams_per_machine = 1
              ∧ d.num_streams_per_thread = 1 ∧ d.start_parallel_id = 0) →
          __Init__ env vm_desc = none := by
  have main : ∀ s, __Init__ env vm_desc = some s →
      (∃ d ∈ vm_desc, d.stream_type_id.stream_type = env.kControlStreamType)
        ∧ (∃ d ∈ vm_desc, d.stream_type_id.stream_type = env.kInferControlStreamType)
        ∧ ∀ d ∈ vm_desc, (d.stream_type_id.stream_type = env.kControlStreamType
            ∨ d.stream_type_id.stream_type = env.kInferControlStreamType) →
          d.num_machines = 1 ∧ d.num_streams_per_machine = 1
            ∧ d.num_streams_per_thread = 1 ∧ d.start_parallel_id = 0 := by
    intro s h
    unfold __Init__ at h
    split at h
    · exact absurd h (by simp)
    · rename_i r hr
      obtain ⟨h1, h2, h3⟩ := Init_loop_flags env vm_desc _ _ _ r hr
      split at h
      · rename_i hflags
        simp only [Bool.and_eq_true, decide_eq_true_eq] at hflags
        obtain ⟨hc, heq⟩ := hflags
        have hi : r.2.2 = true := by rw [← heq]; exact hc
        rw [h1] at hc
        rw [h2] at hi
        simp only [Bool.false_or, List.any_eq_true, decide_eq_true_eq, Bool.and_eq_true,
          Bool.not_eq_true', decide_eq_false_iff_not] at hc hi
        refine ⟨hc, ?_, ?_⟩
        · obtain ⟨d, hd, _, hdi⟩ := hi
          exact ⟨d, hd, hdi⟩
        · intro d hd hcase
          have := h3 d hd hcase
          simpa [CheckControlStreamDesc, and_assoc] using this
      · exact absurd h (by simp)
  have none_of : (¬ ∃ s, __Init__ env vm_desc = some s) → __Init__ env vm_desc = none := by
    intro hn
    cases hi : __Init__ env vm_desc with
    | none => rfl
    | some s => exact absurd ⟨s, hi⟩ hn
  refine ⟨main, ?_, ?_, ?_⟩
  · intro hno
    apply none_of
    rintro ⟨s, hs⟩
    obtain ⟨⟨d, hd, hdc⟩, _⟩ := main s hs
    exact hno d hd hdc
  · intro hno
    apply none_of
    rintro ⟨s, hs⟩
    obtain ⟨_, ⟨d, hd, hdc⟩, _⟩ := main s hs
    exact hno d hd hdc
  · intro d hd hcase hbad
    apply none_of
    rintro ⟨s, hs⟩
    exact hbad ((main s hs).2.2 d hd hcase)

/-- Witness of C24: `__Init__` returns a scheduler on the `VmDesc` with the control and the
Nop stream descriptors and their infer counterparts, whose control descriptors have the
configuration 1, 1, 1, 0; it aborts on the `VmDesc` of the tests, which lacks the infer
counterpart of the control stream type, and on a `VmDesc` whose control descriptor has two
machines. -/
theorem Init_control_streams_mandatory_witness :
    __Init__ (test.env false) test.vm_desc = some (test.scheduler false)
      ∧ ((∃ d ∈ test.vm_desc, d.stream_type_id.stream_type = 0)
          ∧ (∃ d ∈ test.vm_desc, d.stream_type_id.stream_type = 1)
          ∧ ∀ d ∈ test.vm_desc, (d.stream_type_id.stream_type = 0
              ∨ d.stream_type_id.stream_type = 1) →
            d.num_machines = 1 ∧ d.num_streams_per_machine = 1
              ∧ d.num_streams_per_thread = 1 ∧ d.start_parallel_id = 0)
      ∧ __Init__ (test.env false) test.vm_desc_of_test = none
      ∧ __Init__ (test.env false)
          [{ test.NewStreamDesc test.kControlStreamTypeId with num_machines := 2 },
           test.NewStreamDesc test.kInferControlStreamTypeId] = none :=
  ⟨rfl,
   (Init_control_streams_mandatory (test.env false) test.vm_desc).1 (test.scheduler false) rfl,
   (Init_control_streams_mandatory (test.env false) test.vm_desc_of_test).2.2.1
     (by decide),
   (Init_control_streams_mandatory (test.env false)
      [{ test.NewStreamDesc test.kControlStreamTypeId with num_machines := 2 },
       test.NewStreamDesc test.kInferControlStreamTypeId]).2.2.2
     { test.NewStreamDesc test.kControlStreamTypeId with num_machines := 2 }
     (List.mem_cons_self _ _) (Or.inl rfl) (by decide)⟩

end vm

namespace boxing
namespace collective

/-! # Theorems on the collective boxing executor -/

/-! ## `NcclCollectiveBoxingExecutorBackend::GroupRequests` -/

theorem groupBytes_append (env : Env) (l1 l2 : List RequestDesc) :
    groupBytes env (l1 ++ l2) = groupBytes env l1 + groupBytes env l2 := by
  simp [groupBytes]

theorem groupBytes_singleton (env : Env) (r : RequestDesc) :
    groupBytes env [r] = RequestDesc.bytes env r := by
  simp [groupBytes]

theorem JoinsGroup_singleton (env : Env) (thr : Int) (r : RequestDesc) :
    JoinsGroup env thr [r] := by
  constructor
  · intro front hf x hx
    simp only [List.head?_cons, Option.some.injEq] at hf
    simp only [List.mem_singleton] at hx
    rw [hx, hf]
  · intro k h2 hk
    simp only [List.length_singleton] at hk
    omega

theorem JoinsGroup_concat (env : Env) (thr : Int) (front : RequestDesc)
    (t : List RequestDesc) (r : RequestDesc) (h : JoinsGroup env thr (front :: t))
    (hds : r.device_set = front.device_set)
    (hsz : groupBytes env (front :: t) + RequestDesc.bytes env r ≤ thr) :
    JoinsGroup env thr ((front :: t) ++ [r]) := by
  constructor
  · intro f hf x hx
    simp only [List.cons_append, List.head?_cons, Option.some.injEq] at hf
    subst hf
    rw [List.mem_append, List.mem_singleton] at hx
    rcases hx with hx | rfl
    · exact h.1 _ rfl x hx
    · exact hds
  · intro k h2 hk
    by_cases hle : k ≤ (front :: t).length
    · rw [List.take_append_of_le_length hle]
      exact h.2 k h2 hle
    · have hk' : k = ((front :: t) ++ [r]).length := by
        simp only [List.length_append, List.length_singleton] at hk ⊢
        omega
      rw [hk', List.take_length, groupBytes_append, groupBytes_singleton]
      exact hsz

/-- What the loop of `GroupRequests` and the final flush append to the output vector, given
the current group and its size: groups without an empty one whose concatenation is the
current group followed by the requests, each joined by its requests behind the head and
started by its head in view of the group in front of it; the first one begins with the
current group, when that is not empty. -/
theorem GroupRequests_loop_spec (env : Env) (thr : Int) (requests : List RequestDesc)
    (groups : List (List RequestDesc)) (group : List RequestDesc) (group_size : Int)
    (hsize : group_size = groupBytes env group)
    (hjoin : JoinsGroup env thr group) :
    ∃ new : List (List RequestDesc),
      (let r := NcclCollectiveBoxingExecutorBackend.GroupRequests.loop env thr requests groups
          group group_size
        if !r.2.1.isEmpty then r.1 ++ [r.2.1] else r.1) = groups ++ new
      ∧ new.flatten = group ++ requests
      ∧ (∀ g ∈ new, g ≠ [])
      ∧ (∀ g ∈ new, JoinsGroup env thr g)
      ∧ List.Chain' (StartsNewGroup env thr) new
      ∧ (group ≠ [] → ∃ ext more, new = (group ++ ext) :: more) := by
  induction requests generalizing groups group group_size with
  | nil =>
    cases group with
    | nil =>
      exact ⟨[], by simp [NcclCollectiveBoxingExecutorBackend.GroupRequests.loop], by simp,
        by simp, by simp, List.chain'_nil, fun h => absurd rfl h⟩
    | cons front t =>
      refine ⟨[front :: t], by simp [NcclCollectiveBoxingExecutorBackend.GroupRequests.loop],
        by simp, by simp, ?_, List.chain'_singleton _, fun _ => ⟨[], [], by simp⟩⟩
      intro g hg
      simp only [List.mem_singleton] at hg
      subst hg
      exact hjoin
  | cons r rest ih =>
    cases group with
    | nil =>
      have hsz : group_size + Shape.elem_cnt r.op_desc.shape
          * (env.GetSizeOfDataType r.op_desc.data_type : Int) = groupBytes env [r] := by
        rw [hsize, groupBytes_singleton]
        simp [groupBytes, RequestDesc.bytes]
      obtain ⟨new, h1, h2, h3, h4, h5, _⟩ := ih groups [r] _ hsz (JoinsGroup_singleton env thr r)
      refine ⟨new, ?_, by simpa using h2, h3, h4, h5, fun h => absurd rfl h⟩
      simpa [NcclCollectiveBoxingExecutorBackend.GroupRequests.loop] using h1
    | cons front t =>
      by_cases hc : r.device_set ≠ front.device_set
          ∨ group_size + RequestDesc.bytes env r > thr
      · have hsz : (0 : Int) + Shape.elem_cnt r.op_desc.shape
            * (env.GetSizeOfDataType r.op_desc.data_type : Int) = groupBytes env [r] := by
          rw [groupBytes_singleton]
          simp [RequestDesc.bytes]
        obtain ⟨new, h1, h2, h3, h4, h5, h6⟩ := ih (groups ++ [front :: t]) [r] _ hsz
          (JoinsGroup_singleton env thr r)
        obtain ⟨ext, more, hnew⟩ := h6 (by simp)
        refine ⟨(front :: t) :: new, ?_, ?_, ?_, ?_, ?_, fun _ => ⟨[], new, by simp⟩⟩
        · have hclose : (decide (r.device_set ≠ front.device_set)
              || decide (group_size + Shape.elem_cnt r.op_desc.shape
                * (env.GetSizeOfDataType r.op_desc.data_type : Int) > thr)) = true := by
            simpa [RequestDesc.bytes] using hc
          simp only [NcclCollectiveBoxingExecutorBackend.GroupRequests.loop, hclose,
            List.isEmpty_cons, Bool.not_false, Bool.and_self, if_true]
          simpa [List.append_assoc] using h1
        · simp [h2]
        · intro g hg
          rcases List.mem_cons.mp hg with rfl | hg
          · simp
          · exact h3 g hg
        · intro g hg
          rcases List.mem_cons.mp hg with rfl | hg
          · exact hjoin
          · exact h4 g hg
        · rw [hnew] at h5 ⊢
          refine List.Chain'.cons ?_ h5
          refine ⟨front, r, rfl, by simp, ?_⟩
          rw [← hsize]
          exact hc
      · have hds : r.device_set = front.device_set := by
          by_contra hne
          exact hc (Or.inl hne)
        have hle : groupBytes env (front :: t) + RequestDesc.bytes env r ≤ thr := by
          rw [← hsize]
          by_contra hgt
          exact hc (Or.inr (by omega))
        have hsz : group_size + Shape.elem_cnt r.op_desc.shape
            * (env.GetSizeOfDataType r.op_desc.data_type : Int)
            = groupBytes env ((front :: t) ++ [r]) := by
          rw [groupBytes_append, groupBytes_singleton, hsize]
          rfl
        obtain ⟨new, h1, h2, h3, h4, h5, h6⟩ := ih groups ((front :: t) ++ [r]) _ hsz
          (JoinsGroup_concat env thr front t r hjoin hds hle)
        obtain ⟨ext, more, hnew⟩ := h6 (by simp)
        refine ⟨new, ?_, by simpa using h2, h3, h4, h5,
          fun _ => ⟨[r] ++ ext, more, by simpa [List.append_assoc] using hnew⟩⟩
        have hclose : (decide (r.device_set ≠ front.device_set)
            || decide (group_size + Shape.elem_cnt r.op_desc.shape
              * (env.GetSizeOfDataType r.op_desc.data_type : Int) > thr)) = false := by
          simpa [RequestDesc.bytes] using hc
        simp only [NcclCollectiveBoxingExecutorBackend.GroupRequests.loop, hclose,
          Bool.false_and, Bool.false_eq_true, if_false]
        simpa using h1

theorem JoinsGroup_nil (env : Env) (thr : Int) : JoinsGroup env thr [] := by
  constructor
  · intro front hf
    simp at hf
  · intro k h2 hk
    simp only [List.length_nil] at hk
    omega

/-- The groups that `GroupRequests` appends. -/
theorem GroupRequests_spec (env : Env) (self : NcclCollectiveBoxingExecutorBackend)
    (requests : List RequestDesc) (groups : List (List RequestDesc)) :
    ∃ new : List (List RequestDesc),
      NcclCollectiveBoxingExecutorBackend.GroupRequests env self requests groups
          = groups ++ new
      ∧ new.flatten = requests
      ∧ (∀ g ∈ new, g ≠ [])
      ∧ (∀ g ∈ new, JoinsGroup env self.fusion_threshold_ g)
      ∧ List.Chain' (StartsNewGroup env self.fusion_threshold_) new := by
  obtain ⟨new, h1, h2, h3, h4, h5, _⟩ := GroupRequests_loop_spec env self.fusion_threshold_
    requests groups [] 0 (by simp [groupBytes]) (JoinsGroup_nil env _)
  exact ⟨new, h1, by simpa using h2, h3, h4, h5⟩
/-- C17: the fusion boundary rule.  For the backend as constructed the threshold is the
configured number of megabytes times 1024 × 1024.  The groups that `GroupRequests`
appends are not empty and their concatenation is the list of the requests, so every
request other than the first either is the head of a group behind the first one or stands
behind the head of its group.  The head of a group behind the first one has a device set
other than that of the head of the group in front of it, which was the current group when
the request arrived, or its bytes added to those of that group exceed the threshold; a
request behind the head of its group has the device set of the head, and its bytes added
to those accumulated in front of it do not exceed the threshold.  Two requests with
different device sets are split whatever their sizes and the threshold. -/
theorem GroupRequests_fusion_boundary (env : Env)
    (self : NcclCollectiveBoxingExecutorBackend) (requests : List RequestDesc)
    (groups : List (List RequestDesc))
    (hself : NcclCollectiveBoxingExecutorBackend.new env = some self) :
    self.fusion_threshold_
        = env.collective_boxing_conf.nccl_fusion_threshold_mb * 1024 * 1024
      ∧ (∃ new : List (List RequestDesc),
          NcclCollectiveBoxingExecutorBackend.GroupRequests env self requests groups
              = groups ++ new
          ∧ new.flatten = requests
          ∧ (∀ g ∈ new, g ≠ [])
          ∧ List.Chain' (StartsNewGroup env
              (env.collective_boxing_conf.nccl_fusion_threshold_mb * 1024 * 1024)) new
          ∧ ∀ g ∈ new, JoinsGroup env
              (env.collective_boxing_conf.nccl_fusion_threshold_mb * 1024 * 1024) g)
      ∧ ∀ a b : RequestDesc, a.device_set ≠ b.device_set →
          NcclCollectiveBoxingExecutorBackend.GroupRequests env self [a, b] groups
            = groups ++ [[a], [b]] := by
  have hthr : self.fusion_threshold_
      = env.collective_boxing_conf.nccl_fusion_threshold_mb * 1024 * 1024 := by
    unfold NcclCollectiveBoxingExecutorBackend.new at hself
    dsimp only at hself
    split at hself
    · exact absurd hself (by simp)
    · split at hself
      · exact absurd hself (by simp)
      · simp only [Option.some.injEq] at hself
        rw [← hself]
  refine ⟨hthr, ?_, ?_⟩
  · obtain ⟨new, h1, h2, h3, h4, h5⟩ := GroupRequests_spec env self requests groups
    rw [hthr] at h4 h5
    exact ⟨new, h1, h2, h3, h5, h4⟩
  · intro a b hab
    have hba : b.device_set ≠ a.device_set := fun h => hab h.symm
    simp [NcclCollectiveBoxingExecutorBackend.GroupRequests,
      NcclCollectiveBoxingExecutorBackend.GroupRequests.loop, hba]

/-- Witness of C17, the fifth scenario: requests of 48 MiB and 80 MiB on one device set
give the two groups (48) and (80) at a threshold of 96 MiB and the one group (48, 80) at a
threshold of 200 MiB; with different device sets they are split at 200 MiB as well. -/
theorem GroupRequests_fusion_boundary_witness :
    (test.backend 96).fusion_threshold_ = 96 * 1024 * 1024
      ∧ RequestDesc.bytes (test.env 96) test.request_48 = 48 * 1024 * 1024
      ∧ RequestDesc.bytes (test.env 96) test.request_80 = 80 * 1024 * 1024
      ∧ NcclCollectiveBoxingExecutorBackend.GroupRequests (test.env 96) (test.backend 96)
          [test.request_48, test.request_80] [] = [[test.request_48], [test.request_80]]
      ∧ NcclCollectiveBoxingExecutorBackend.GroupRequests (test.env 200) (test.backend 200)
          [test.request_48, test.request_80] [] = [[test.request_48, test.request_80]]
      ∧ NcclCollectiveBoxingExecutorBackend.GroupRequests (test.env 200) (test.backend 200)
          [test.request_48, test.all_reduce "b" 20971520 test.device_set_b 1] []
          = [] ++ [[test.request_48], [test.all_reduce "b" 20971520 test.device_set_b 1]] :=
  ⟨(GroupRequests_fusion_boundary (test.env 96) (test.backend 96)
      [test.request_48, test.request_80] [] rfl).1,
    by decide, by decide, by decide, by decide,
    (GroupRequests_fusion_boundary (test.env 200) (test.backend 200) [] [] rfl).2.2
      test.request_48 (test.all_reduce "b" 20971520 test.device_set_b 1) (by decide)⟩

/-- C18, counterexample: at a threshold of 64 MiB a request of 80 MiB is a group of its
own, of 83886080 bytes, more than the threshold of 67108864 bytes; and at the threshold 0
the request of 48 MiB is a group of more than 0 bytes. -/
theorem GroupRequests_single_request_over_threshold :
    (0 : Int) ≤ (test.env 64).collective_boxing_conf.nccl_fusion_threshold_mb
      ∧ NcclCollectiveBoxingExecutorBackend.new (test.env 64) = some (test.backend 64)
      ∧ (test.backend 64).fusion_threshold_ = 67108864
      ∧ NcclCollectiveBoxingExecutorBackend.GroupRequests (test.env 64) (test.backend 64)
          [test.request_48, test.request_80] [] = [[test.request_48], [test.request_80]]
      ∧ groupBytes (test.env 64) [test.request_80] = 83886080
      ∧ ¬ (∀ g ∈ NcclCollectiveBoxingExecutorBackend.GroupRequests (test.env 64)
            (test.backend 64) [test.request_48, test.request_80] [],
          groupBytes (test.env 64) g ≤ (test.backend 64).fusion_threshold_)
      ∧ ¬ (∀ g ∈ NcclCollectiveBoxingExecutorBackend.GroupRequests (test.env 0)
            (test.backend 0) [test.request_48] [],
          groupBytes (test.env 0) g ≤ (test.backend 0).fusion_threshold_) := by
  refine ⟨by decide, rfl, by decide, by decide, by decide, ?_, ?_⟩
  · intro h
    have := h [test.request_80] (by decide)
    revert this
    decide
  · intro h
    have := h [test.request_48] (by decide)
    revert this
    decide

/-- C18, as amended: every group that `GroupRequests` appends either holds one request,
which may be larger than the threshold, or has a cumulative size in bytes of at most the
fusion threshold. -/
theorem GroupRequests_fused_size (env : Env) (self : NcclCollectiveBoxingExecutorBackend)
    (requests : List RequestDesc) (groups : List (List RequestDesc)) :
    ∃ new : List (List RequestDesc),
      NcclCollectiveBoxingExecutorBackend.GroupRequests env self requests groups
          = groups ++ new
      ∧ ∀ g ∈ new, g.length = 1 ∨ (2 ≤ g.length ∧ groupBytes env g ≤ self.fusion_threshold_) := by
  obtain ⟨new, h1, _, h3, h4, _⟩ := GroupRequests_spec env self requests groups
  refine ⟨new, h1, ?_⟩
  intro g hg
  have hne := h3 g hg
  have hlen : 1 ≤ g.length := by
    cases g with
    | nil => exact absurd rfl hne
    | cons _ _ => simp
  by_cases h1 : g.length = 1
  · exact Or.inl h1
  · right
    have h2 : 2 ≤ g.length := by omega
    refine ⟨h2, ?_⟩
    have := (h4 g hg).2 g.length h2 (le_refl _)
    rwa [List.take_length] at this

/-! ## Rank maps, sets and traces -/

theorem RankMap_mem_insert (k : Int) (info : RuntimeRequestInfo) (m : RankMap)
    (x : Int × RuntimeRequestInfo) :
    x ∈ RankMap.insert k info m ↔ x = (k, info) ∨ x ∈ m := by
  induction m with
  | nil => simp [RankMap.insert]
  | cons e rest ih =>
    unfold RankMap.insert
    split
    · simp
    · simp only [List.mem_cons, ih]
      tauto

theorem RankMap_insert_perm (k : Int) (info : RuntimeRequestInfo) (m : RankMap) :
    (RankMap.insert k info m).Perm ((k, info) :: m) := by
  induction m with
  | nil => simp [RankMap.insert]
  | cons e rest ih =>
    unfold RankMap.insert
    split
    · exact List.Perm.refl _
    · exact (List.Perm.cons e ih).trans (List.Perm.swap _ _ _)

theorem RankMap_insert_length (k : Int) (info : RuntimeRequestInfo) (m : RankMap) :
    (RankMap.insert k info m).length = m.length + 1 := by
  simpa using (RankMap_insert_perm k info m).length_eq

theorem RankMap_insert_keys (k : Int) (info : RuntimeRequestInfo) (m : RankMap) :
    ((RankMap.insert k info m).map Prod.fst).Perm (k :: m.map Prod.fst) := by
  simpa using (RankMap_insert_perm k info m).map Prod.fst

theorem setInsert_mem {α : Type} [LinearOrder α] (x y : α) (l : List α) :
    y ∈ setInsert x l ↔ y = x ∨ y ∈ l := by
  induction l with
  | nil => simp [setInsert]
  | cons z rest ih =>
    unfold setInsert
    split
    · simp
    · split
      · rename_i h
        subst h
        simp
      · simp only [List.mem_cons, ih]
        tauto

theorem setInsert_nodup {α : Type} [LinearOrder α] (x : α) (l : List α) (hx : x ∉ l)
    (h : l.Nodup) : (setInsert x l).Nodup := by
  induction l with
  | nil => simp [setInsert]
  | cons z rest ih =>
    rw [List.mem_cons, not_or] at hx
    rw [List.nodup_cons] at h
    unfold setInsert
    split
    · rw [List.nodup_cons, List.nodup_cons]
      exact ⟨by simp [List.mem_cons, hx.1, hx.2], h⟩
    · rw [if_neg hx.1, List.nodup_cons]
      refine ⟨?_, ih hx.2 h.2⟩
      rw [setInsert_mem]
      rintro (heq | hmem)
      · exact hx.1 heq.symm
      · exact h.1 hmem

theorem pendingRanks_append_ready (r g : Nat) (t : List EnqueueEvent) (r1 : Nat) (k : Int)
    (info : RuntimeRequestInfo) :
    pendingRanks r g (t ++ [EnqueueEvent.ready_rank r1 k info])
      = if r1 = r then RankMap.insert k info (pendingRanks r g t) else pendingRanks r g t := by
  simp [pendingRanks, List.foldl_append]

theorem pendingRanks_append_execute (r g : Nat) (t : List EnqueueEvent) (g1 : Nat)
    (ranks : List RankMap) :
    pendingRanks r g (t ++ [EnqueueEvent.execute_group g1 ranks])
      = if g1 = g then [] else pendingRanks r g t := by
  simp [pendingRanks, List.foldl_append]

theorem sinceExecuted_append_ready (g : Nat) (t : List EnqueueEvent) (r1 : Nat) (k : Int)
    (info : RuntimeRequestInfo) :
    sinceExecuted g (t ++ [EnqueueEvent.ready_rank r1 k info])
      = sinceExecuted g t ++ [EnqueueEvent.ready_rank r1 k info] := by
  simp [sinceExecuted, List.foldl_append]

theorem sinceExecuted_append_execute (g : Nat) (t : List EnqueueEvent) (g1 : Nat)
    (ranks : List RankMap) :
    sinceExecuted g (t ++ [EnqueueEvent.execute_group g1 ranks])
      = if g1 = g then [] else sinceExecuted g t ++ [EnqueueEvent.execute_group g1 ranks] := by
  simp [sinceExecuted, List.foldl_append]

theorem mem_pendingRanks (r g : Nat) (t : List EnqueueEvent) (k : Int)
    (info : RuntimeRequestInfo) :
    (k, info) ∈ pendingRanks r g t ↔ EnqueueEvent.ready_rank r k info ∈ sinceExecuted g t := by
  induction t using List.reverseRecOn with
  | nil => simp [pendingRanks, sinceExecuted]
  | append_singleton t ev ih =>
    cases ev with
    | ready_rank r1 k1 info1 =>
      rw [pendingRanks_append_ready, sinceExecuted_append_ready, List.mem_append,
        List.mem_singleton]
      by_cases h : r1 = r
      · subst h
        rw [if_pos rfl, RankMap_mem_insert, ih]
        constructor
        · rintro (h | h)
          · simp only [Prod.mk.injEq] at h
            right; rw [h.1, h.2]
          · exact Or.inl h
        · rintro (h | h)
          · exact Or.inr h
          · simp only [EnqueueEvent.ready_rank.injEq, true_and] at h
            left; rw [h.1, h.2]
      · rw [if_neg h, ih]
        constructor
        · exact Or.inl
        · rintro (h1 | h1)
          · exact h1
          · simp only [EnqueueEvent.ready_rank.injEq] at h1
            exact absurd h1.1.symm h
    | execute_group g1 ranks =>
      rw [pendingRanks_append_execute, sinceExecuted_append_execute]
      by_cases h : g1 = g
      · simp [h]
      · rw [if_neg h, if_neg h, ih, List.mem_append, List.mem_singleton]
        simp

theorem executedGroups_append (t1 t2 : List EnqueueEvent) :
    executedGroups (t1 ++ t2) = executedGroups t1 ++ executedGroups t2 := by
  simp [executedGroups, List.filterMap_append]

/-! ## The tables stay as they are -/

theorem SameTables_refl (e : CollectiveBoxingExecutor) : SameTables e e :=
  ⟨rfl, rfl, rfl, rfl⟩

theorem SameTables_trans {e e1 e2 : CollectiveBoxingExecutor} (h1 : SameTables e e1)
    (h2 : SameTables e1 e2) : SameTables e e2 :=
  ⟨h2.name2request_id.trans h1.name2request_id, h2.job_id2group_ids.trans h1.job_id2group_ids,
    h2.request.trans h1.request, h2.group.trans h1.group⟩

theorem SameTables_symm {e e1 : CollectiveBoxingExecutor} (h : SameTables e e1) :
    SameTables e1 e :=
  ⟨h.name2request_id.symm, h.job_id2group_ids.symm, h.request.symm, h.group.symm⟩

theorem SameTables_request {e e1 : CollectiveBoxingExecutor} (h : SameTables e e1) (r : Nat)
    (st1 : RequestState) (h1 : e1.request_id2request_state_[r]? = some st1) :
    ∃ st : RequestState, e.request_id2request_state_[r]? = some st
      ∧ st.request_desc = st1.request_desc ∧ st.job_id = st1.job_id
      ∧ st.group_id = st1.group_id ∧ st.local_ranks = st1.local_ranks := by
  have := congrArg (fun l => l[r]?) h.request
  simp only [List.getElem?_map, h1, Option.map_some'] at this
  cases hst : e.request_id2request_state_[r]? with
  | none => rw [hst] at this; simp at this
  | some st =>
    rw [hst] at this
    simp only [Option.map_some', Option.some.injEq, RequestState.mk.injEq, and_true] at this
    exact ⟨st, rfl, this.1.symm, this.2.1.symm, this.2.2.1.symm, this.2.2.2.symm⟩

theorem SameTables_group {e e1 : CollectiveBoxingExecutor} (h : SameTables e e1) (g : Nat)
    (gs1 : GroupState) (h1 : e1.group_id2group_state_[g]? = some gs1) :
    ∃ gs : GroupState, e.group_id2group_state_[g]? = some gs
      ∧ gs.backend = gs1.backend ∧ gs.request_ids = gs1.request_ids
      ∧ gs.requests = gs1.requests := by
  have := congrArg (fun l => l[g]?) h.group
  simp only [List.getElem?_map, h1, Option.map_some'] at this
  cases hgs : e.group_id2group_state_[g]? with
  | none => rw [hgs] at this; simp at this
  | some gs =>
    rw [hgs] at this
    simp only [Option.map_some', Option.some.injEq, GroupState.mk.injEq, and_true] at this
    exact ⟨gs, rfl, this.1.symm, this.2.1.symm, this.2.2.symm⟩

theorem WellFormed_of_SameTables {e e1 : CollectiveBoxingExecutor} (h : SameTables e e1)
    (hw : WellFormed e) : WellFormed e1 := by
  have hs := SameTables_symm h
  constructor
  · intro g gs1 hg r hr
    obtain ⟨gs, hgs, _, hids, _⟩ := SameTables_group h g gs1 hg
    obtain ⟨st, hst, hgid⟩ := hw.member g gs hgs r (hids ▸ hr)
    obtain ⟨st1, hst1, _, _, hg1, _⟩ := SameTables_request hs r st hst
    exact ⟨st1, hst1, by rw [hg1, hgid]⟩
  · intro r st1 hr
    obtain ⟨st, hst, _, _, hgid, _⟩ := SameTables_request h r st1 hr
    obtain ⟨gs, hgs, hmem⟩ := hw.group r st hst
    obtain ⟨gs1, hgs1, _, hids, _⟩ := SameTables_group hs _ gs hgs
    exact ⟨gs1, by rw [← hgid]; exact hgs1, by rw [hids]; exact hmem⟩
  · intro g gs1 hg
    obtain ⟨gs, hgs, _, hids, _⟩ := SameTables_group h g gs1 hg
    rw [← hids]
    exact hw.ids_nodup g gs hgs
  · intro r st1 hr
    obtain ⟨st, hst, _, _, _, hl⟩ := SameTables_request h r st1 hr
    rw [← hl]
    exact hw.ranks_nodup r st hst
  · intro r st1 hr
    obtain ⟨st, hst, _, hj, _, _⟩ := SameTables_request h r st1 hr
    rw [← hj]
    exact hw.job r st hst

theorem ExecutedWithAllRanks_of_SameTables {e e1 : CollectiveBoxingExecutor}
    (h : SameTables e e1) (pre : List EnqueueEvent) (g : Nat) (ranks : List RankMap)
    (hx : ExecutedWithAllRanks e pre g ranks) : ExecutedWithAllRanks e1 pre g ranks := by
  have hs := SameTables_symm h
  obtain ⟨gs, hgs, hlen, hall⟩ := hx
  obtain ⟨gs1, hgs1, _, hids, _⟩ := SameTables_group hs g gs hgs
  refine ⟨gs1, hgs1, by rw [hids]; exact hlen, ?_⟩
  intro i r hi
  rw [hids] at hi
  obtain ⟨st, hst, a, b, c, d⟩ := hall i r hi
  obtain ⟨st1, hst1, _, _, _, hl⟩ := SameTables_request hs r st hst
  exact ⟨st1, hst1, a, b, by rw [hl]; exact c, d⟩

theorem map_set_same {α β : Type} (f : α → β) (l : List α) (i : Nat) (x y : α)
    (h : l[i]? = some y) (hf : f x = f y) : (l.set i x).map f = l.map f := by
  apply List.ext_getElem?
  intro j
  simp only [List.getElem?_map, List.getElem?_set]
  by_cases hij : i = j
  · subst hij
    have hlt : i < l.length := by
      rcases Nat.lt_or_ge i l.length with hlt | hge
      · exact hlt
      · rw [List.getElem?_eq_none hge] at h
        exact absurd h (by simp)
    simp [hlt, h, hf]
  · simp [hij]

/-! ## The rank maps of a group -/

theorem Enqueue_moveRanks_spec (l : List Nat) (states : List RequestState)
    (ranks : List RankMap)
    (hex : ∀ r ∈ l, ∃ st : RequestState, states[r]? = some st) (hnd : l.Nodup) :
    ∃ states1, CollectiveBoxingExecutor.Enqueue.moveRanks l states ranks
        = some (states1, ranks ++ l.map (fun r =>
            ((states[r]?).map RequestState.ready_ranks).getD []))
      ∧ ∀ r, states1[r]? = (states[r]?).map (fun st =>
          if r ∈ l then { st with ready_ranks := [] } else st) := by
  induction l generalizing states ranks with
  | nil =>
    refine ⟨states, by simp [CollectiveBoxingExecutor.Enqueue.moveRanks], ?_⟩
    intro r
    cases states[r]? <;> simp
  | cons r0 rest ih =>
    obtain ⟨st0, hst0⟩ := hex r0 (List.mem_cons_self _ _)
    rw [List.nodup_cons] at hnd
    have hget : ∀ r, r ≠ r0 →
        (states.set r0 { st0 with ready_ranks := [] })[r]? = states[r]? := by
      intro r hr
      rw [List.getElem?_set, if_neg (fun h : r0 = r => hr h.symm)]
    have hex1 : ∀ r ∈ rest, ∃ st : RequestState,
        (states.set r0 { st0 with ready_ranks := [] })[r]? = some st := by
      intro r hr
      have hne : r ≠ r0 := fun h => hnd.1 (h ▸ hr)
      rw [hget r hne]
      exact hex r (List.mem_cons_of_mem _ hr)
    obtain ⟨states1, h1, h2⟩ := ih (states.set r0 { st0 with ready_ranks := [] })
      (ranks ++ [st0.ready_ranks]) hex1 hnd.2
    refine ⟨states1, ?_, ?_⟩
    · simp only [CollectiveBoxingExecutor.Enqueue.moveRanks, hst0, h1, List.map_cons,
        Option.map_some', Option.getD_some, List.append_assoc, List.singleton_append,
        Option.some.injEq, Prod.mk.injEq, true_and, List.append_cancel_left_eq,
        List.cons.injEq]
      apply List.map_congr_left
      intro r hr
      have hne : r ≠ r0 := fun h => hnd.1 (h ▸ hr)
      rw [hget r hne]
    · intro r
      rw [h2 r]
      by_cases hr : r = r0
      · subst hr
        have hlt : r < states.length := by
          rcases Nat.lt_or_ge r states.length with hlt | hge
          · exact hlt
          · rw [List.getElem?_eq_none hge] at hst0
            exact absurd hst0 (by simp)
        simp [List.getElem?_set, hlt, hst0, hnd.1]
      · rw [hget r hr]
        cases states[r]? with
        | none => simp
        | some st => simp [hr]

/-! ## The first block of `Enqueue` -/

theorem lt_length_of_getElem_some {α : Type} {l : List α} {i : Nat} {x : α} (h : l[i]? = some x) :
    i < l.length := by
  rcases Nat.lt_or_ge i l.length with hlt | hge
  · exact hlt
  · rw [List.getElem?_eq_none hge] at h
    exact absurd h (by simp)

theorem EnqueueCore_arrive (e : CollectiveBoxingExecutor) (hc : EnqueueCore e) (r : Nat)
    (st : RequestState) (k : Int) (info : RuntimeRequestInfo) (job idx : Int)
    (groups : List GroupState)
    (hst : e.request_id2request_state_[r]? = some st)
    (hk : k ∈ st.local_ranks) (hlt : st.ready_ranks.length < st.local_ranks.length)
    (hnew : k ∉ st.ready_ranks.map Prod.fst)
    (hgroups : (groups = e.group_id2group_state_
        ∧ RequestState.IsReady
            { st with ready_ranks := RankMap.insert k info st.ready_ranks } = false)
      ∨ (RequestState.IsReady
            { st with ready_ranks := RankMap.insert k info st.ready_ranks } = true
          ∧ ∃ gs : GroupState, e.group_id2group_state_[st.group_id]? = some gs
            ∧ r ∈ gs.request_ids ∧ r ∉ gs.ready_request_ids
            ∧ groups = e.group_id2group_state_.set st.group_id
                { gs with ready_request_ids := setInsert r gs.ready_request_ids })) :
    SameTables e
        { e with
          current_job_id_ := job, current_group_idx_in_job_ := idx,
          request_id2request_state_ := (e.request_id2request_state_.set r
            { st with ready_ranks := RankMap.insert k info st.ready_ranks }),
          group_id2group_state_ := groups,
          enqueue_trace := (e.enqueue_trace ++ [EnqueueEvent.ready_rank r k info]) }
      ∧ EnqueueCore
        { e with
          current_job_id_ := job, current_group_idx_in_job_ := idx,
          request_id2request_state_ := (e.request_id2request_state_.set r
            { st with ready_ranks := RankMap.insert k info st.ready_ranks }),
          group_id2group_state_ := groups,
          enqueue_trace := (e.enqueue_trace ++ [EnqueueEvent.ready_rank r k info]) } := by
  have hrlt : r < e.request_id2request_state_.length := lt_length_of_getElem_some hst
  -- the request states after the call
  have hreq : ∀ (r1 : Nat) (st1 : RequestState),
      (e.request_id2request_state_.set r
        { st with ready_ranks := RankMap.insert k info st.ready_ranks })[r1]? = some st1 →
      (r1 = r ∧ st1 = { st with ready_ranks := RankMap.insert k info st.ready_ranks })
        ∨ (r1 ≠ r ∧ e.request_id2request_state_[r1]? = some st1) := by
    intro r1 st1 h1
    rw [List.getElem?_set] at h1
    by_cases hr : r = r1
    · subst hr
      simp only [if_true, hrlt, Option.some.injEq] at h1
      exact Or.inl ⟨rfl, h1.symm⟩
    · rw [if_neg hr] at h1
      exact Or.inr ⟨fun h => hr h.symm, h1⟩
  -- the old state of the request is not ready
  have hold : RequestState.IsReady st = false := by
    simp only [RequestState.IsReady, decide_eq_false_iff_not]
    omega
  have hnotready : ∀ (g : Nat) (gs : GroupState), e.group_id2group_state_[g]? = some gs →
      r ∉ gs.ready_request_ids := by
    intro g gs hg hr
    obtain ⟨_, st', hst', hready⟩ := (hc.ready g gs hg).2 r hr
    rw [hst] at hst'
    simp only [Option.some.injEq] at hst'
    subst hst'
    rw [hold] at hready
    exact absurd hready (by simp)
  have hsame : SameTables e
      { e with
        current_job_id_ := job, current_group_idx_in_job_ := idx,
        request_id2request_state_ := (e.request_id2request_state_.set r
          { st with ready_ranks := RankMap.insert k info st.ready_ranks }),
        group_id2group_state_ := groups,
        enqueue_trace := (e.enqueue_trace ++ [EnqueueEvent.ready_rank r k info]) } := by
    refine ⟨rfl, rfl, ?_, ?_⟩
    · exact map_set_same _ _ _ _ _ hst rfl
    · rcases hgroups with ⟨hg, _⟩ | ⟨_, gs, hgs, _, _, hg⟩
      · show groups.map _ = _
        rw [hg]
      · show groups.map _ = _
        rw [hg]
        exact map_set_same _ _ _ _ _ hgs rfl
  refine ⟨hsame, ?_⟩
  constructor
  · exact WellFormed_of_SameTables hsame hc.wf
  · intro r1 st1 h1
    show st1.ready_ranks = pendingRanks r1 st1.group_id
      (e.enqueue_trace ++ [EnqueueEvent.ready_rank r k info])
    rw [pendingRanks_append_ready]
    rcases hreq r1 st1 h1 with ⟨rfl, rfl⟩ | ⟨hne, hold1⟩
    · rw [if_pos rfl]
      show RankMap.insert k info st.ready_ranks = RankMap.insert k info _
      rw [hc.pending r1 st hst]
    · rw [if_neg (fun h => hne h.symm)]
      exact hc.pending r1 st1 hold1
  · intro r1 st1 h1
    rcases hreq r1 st1 h1 with ⟨rfl, rfl⟩ | ⟨hne, hold1⟩
    · have hp := RankMap_insert_keys k info st.ready_ranks
      refine ⟨hp.nodup_iff.mpr (List.nodup_cons.mpr ⟨hnew, (hc.keys r1 st hst).1⟩), ?_⟩
      intro x hx
      rcases List.mem_cons.mp (hp.subset hx) with rfl | hx
      · exact hk
      · exact (hc.keys r1 st hst).2 x hx
    · exact hc.keys r1 st1 hold1
  · intro g gs1 hg
    have hg' : groups[g]? = some gs1 := hg
    have keep : ∀ gs : GroupState, e.group_id2group_state_[g]? = some gs →
        ∀ r1 ∈ gs.ready_request_ids, r1 ∈ gs.request_ids
          ∧ ∃ st1 : RequestState,
              (e.request_id2request_state_.set r
                { st with ready_ranks := RankMap.insert k info st.ready_ranks })[r1]?
                = some st1 ∧ st1.IsReady = true := by
      intro gs hgs r1 hr1
      obtain ⟨hm, st1, hst1, hready⟩ := (hc.ready g gs hgs).2 r1 hr1
      have hne : r1 ≠ r := fun h => hnotready g gs hgs (h ▸ hr1)
      refine ⟨hm, st1, ?_, hready⟩
      rw [List.getElem?_set, if_neg (fun h => hne h.symm)]
      exact hst1
    rcases hgroups with ⟨hgr, _⟩ | ⟨hready, gs, hgs, hmem, hnr, hgr⟩
    · rw [hgr] at hg'
      exact ⟨(hc.ready g gs1 hg').1, keep gs1 hg'⟩
    · rw [hgr, List.getElem?_set] at hg'
      by_cases hgg : st.group_id = g
      · subst hgg
        simp only [if_true, lt_length_of_getElem_some hgs, Option.some.injEq] at hg'
        subst hg'
        refine ⟨setInsert_nodup r _ hnr (hc.ready _ gs hgs).1, ?_⟩
        intro r1 hr1
        rcases (setInsert_mem r r1 _).mp hr1 with rfl | hr1
        · refine ⟨hmem, _, ?_, hready⟩
          rw [List.getElem?_set]
          simp [hrlt]
        · exact keep gs hgs r1 hr1
      · rw [if_neg hgg] at hg'
        exact ⟨(hc.ready g gs1 hg').1, keep gs1 hg'⟩
  · intro i g ranks hi
    have hi' : (e.enqueue_trace ++ [EnqueueEvent.ready_rank r k info])[i]?
        = some (EnqueueEvent.execute_group g ranks) := hi
    have hlt : i < e.enqueue_trace.length := by
      have := lt_length_of_getElem_some hi'
      simp only [List.length_append, List.length_singleton] at this
      rcases Nat.lt_or_ge i e.enqueue_trace.length with h | h
      · exact h
      · have hie : i = e.enqueue_trace.length := by omega
        rw [hie, List.getElem?_append_right (le_refl _)] at hi'
        simp at hi'
    rw [List.getElem?_append_left hlt] at hi'
    have := hc.executed i g ranks hi'
    show ExecutedWithAllRanks _
      ((e.enqueue_trace ++ [EnqueueEvent.ready_rank r k info]).take i) g ranks
    rw [List.take_append_of_le_length (Nat.le_of_lt hlt)]
    exact ExecutedWithAllRanks_of_SameTables hsame _ _ _ this
theorem AddReadyRank_spec (st st1 : RequestState) (rd : RankDesc) (info : RuntimeRequestInfo)
    (h : st.AddReadyRank rd info = some st1) :
    rd.rank ∈ st.local_ranks ∧ rd.op_desc = st.request_desc.op_desc
      ∧ st.ready_ranks.length < st.local_ranks.length
      ∧ rd.rank ∉ st.ready_ranks.map Prod.fst
      ∧ st1 = { st with ready_ranks := RankMap.insert rd.rank info st.ready_ranks } := by
  unfold RequestState.AddReadyRank at h
  split at h
  · exact absurd h (by simp)
  · rename_i h1
    split at h
    · exact absurd h (by simp)
    · rename_i h2
      split at h
      · exact absurd h (by simp)
      · rename_i h3
        split at h
        · exact absurd h (by simp)
        · rename_i h4
          simp only [Option.some.injEq] at h
          exact ⟨by simpa using h1, by simpa using h2, by simpa using h3, h4, h.symm⟩

theorem AddReadyRequest_spec (gs gs1 : GroupState) (r : Nat)
    (h : gs.AddReadyRequest r = some gs1) :
    r ∈ gs.request_ids ∧ r ∉ gs.ready_request_ids
      ∧ gs1 = { gs with ready_request_ids := setInsert r gs.ready_request_ids } := by
  unfold GroupState.AddReadyRequest at h
  split at h
  · exact absurd h (by simp)
  · rename_i h1
    split at h
    · exact absurd h (by simp)
    · rename_i h2
      simp only [Option.some.injEq] at h
      exact ⟨by simpa using h1, h2, h.symm⟩

/-- What the first block of `Enqueue` does when it returns. -/
theorem Enqueue_arrive_spec (e e1 : CollectiveBoxingExecutor) (rd : RankDesc)
    (info : RuntimeRequestInfo) (hc : EnqueueCore e)
    (h : CollectiveBoxingExecutor.Enqueue.arrive e rd info = some e1) :
    ∃ (r : Nat) (st : RequestState),
      e.name2request_id_.lookup rd.op_desc.name = some r
        ∧ e.request_id2request_state_[r]? = some st
        ∧ rd.rank ∈ st.local_ranks ∧ rd.op_desc = st.request_desc.op_desc
        ∧ rd.rank ∉ st.ready_ranks.map Prod.fst
        ∧ e1.enqueue_trace = e.enqueue_trace ++ [EnqueueEvent.ready_rank r rd.rank info]
        ∧ e1.backends_ = e.backends_
        ∧ (e.current_job_id_ = -1 →
            e1.current_job_id_ = st.job_id ∧ e1.current_group_idx_in_job_ = 0)
        ∧ (e.current_job_id_ ≠ -1 →
            e.current_job_id_ = st.job_id ∧ e1.current_job_id_ = e.current_job_id_
              ∧ e1.current_group_idx_in_job_ = e.current_group_idx_in_job_)
        ∧ SameTables e e1 ∧ EnqueueCore e1 := by
  unfold CollectiveBoxingExecutor.Enqueue.arrive at h
  split at h
  · exact absurd h (by simp)
  · rename_i r hr
    split at h
    · exact absurd h (by simp)
    · rename_i st hst
      dsimp only at h
      split at h
      · exact absurd h (by simp)
      · rename_i e0 hlatch
        split at h
        · exact absurd h (by simp)
        · rename_i st1 hadd
          obtain ⟨a1, a2, a3, a4, a5⟩ := AddReadyRank_spec st st1 rd info hadd
          subst a5
          -- the job in flight after the latch
          have hjob : ∃ job idx : Int,
              e0 = { e with current_job_id_ := job, current_group_idx_in_job_ := idx }
              ∧ (e.current_job_id_ = -1 → job = st.job_id ∧ idx = 0)
              ∧ (e.current_job_id_ ≠ -1 → e.current_job_id_ = st.job_id
                  ∧ job = e.current_job_id_ ∧ idx = e.current_group_idx_in_job_) := by
            by_cases hj : e.current_job_id_ = -1
            · rw [if_pos hj] at hlatch
              simp only [Option.some.injEq] at hlatch
              exact ⟨st.job_id, 0, hlatch.symm, fun _ => ⟨rfl, rfl⟩, fun hx => absurd hj hx⟩
            · rw [if_neg hj] at hlatch
              split at hlatch
              · rename_i hsame
                simp only [Option.some.injEq] at hlatch
                exact ⟨e.current_job_id_, e.current_group_idx_in_job_, hlatch.symm,
                  fun hx => absurd hx hj, fun _ => ⟨hsame, rfl, rfl⟩⟩
              · exact absurd hlatch (by simp)
          obtain ⟨job, idx, he0, hj1, hj2⟩ := hjob
          subst he0
          split at h
          · rename_i hready
            split at h
            · exact absurd h (by simp)
            · rename_i gs hgs
              split at h
              · exact absurd h (by simp)
              · rename_i gs1 hgs1
                obtain ⟨b1, b2, b3⟩ := AddReadyRequest_spec gs gs1 r hgs1
                subst b3
                simp only [Option.some.injEq] at h
                obtain ⟨hs, hcore⟩ := EnqueueCore_arrive e hc r st rd.rank info job idx
                  (e.group_id2group_state_.set st.group_id
                    { gs with ready_request_ids := setInsert r gs.ready_request_ids })
                  hst a1 a3 a4 (Or.inr ⟨hready, gs, hgs, b1, b2, rfl⟩)
                subst h
                exact ⟨r, st, hr, hst, a1, a2, a4, rfl, rfl, hj1, hj2, hs, hcore⟩
          · rename_i hready
            simp only [Option.some.injEq] at h
            obtain ⟨hs, hcore⟩ := EnqueueCore_arrive e hc r st rd.rank info job idx
              e.group_id2group_state_ hst a1 a3 a4
              (Or.inl ⟨rfl, by simpa using hready⟩)
            subst h
            exact ⟨r, st, hr, hst, a1, a2, a4, rfl, rfl, hj1, hj2, hs, hcore⟩
/-! ## The execution of a ready group -/

theorem perm_of_nodup_subset_length {α : Type} {l1 l2 : List α} (h1 : l1.Nodup)
    (hs : ∀ x ∈ l1, x ∈ l2) (hlen : l1.length = l2.length) :
    ∀ x, x ∈ l2 → x ∈ l1 := by
  have hsub : l1.Subperm l2 := List.subperm_of_subset h1 hs
  have hp : l1.Perm l2 := hsub.perm_of_length_le (le_of_eq hlen.symm)
  intro x hx
  exact hp.symm.subset hx

theorem EnqueueCore_execute (e : CollectiveBoxingExecutor) (hc : EnqueueCore e) (g : Nat)
    (gs : GroupState) (backend : NcclCollectiveBoxingExecutorBackend) (idx : Int)
    (states1 : List RequestState)
    (hgs : e.group_id2group_state_[g]? = some gs) (hready : gs.IsReady = true)
    (hstates : ∀ r, states1[r]? = (e.request_id2request_state_[r]?).map (fun st =>
      if r ∈ gs.request_ids then { st with ready_ranks := [] } else st)) :
    SameTables e
        { e with
          backends_ := backend, request_id2request_state_ := states1,
          group_id2group_state_ := (e.group_id2group_state_.set g
            { gs with ready_request_ids := [] }),
          current_group_idx_in_job_ := idx,
          enqueue_trace := (e.enqueue_trace ++ [EnqueueEvent.execute_group g
            (gs.request_ids.map (fun r =>
              ((e.request_id2request_state_[r]?).map RequestState.ready_ranks).getD []))]) }
      ∧ EnqueueCore
        { e with
          backends_ := backend, request_id2request_state_ := states1,
          group_id2group_state_ := (e.group_id2group_state_.set g
            { gs with ready_request_ids := [] }),
          current_group_idx_in_job_ := idx,
          enqueue_trace := (e.enqueue_trace ++ [EnqueueEvent.execute_group g
            (gs.request_ids.map (fun r =>
              ((e.request_id2request_state_[r]?).map RequestState.ready_ranks).getD []))]) } := by
  have hglt : g < e.group_id2group_state_.length := lt_length_of_getElem_some hgs
  have hsame : SameTables e
      { e with
        backends_ := backend, request_id2request_state_ := states1,
        group_id2group_state_ := (e.group_id2group_state_.set g
          { gs with ready_request_ids := [] }),
        current_group_idx_in_job_ := idx,
        enqueue_trace := (e.enqueue_trace ++ [EnqueueEvent.execute_group g
          (gs.request_ids.map (fun r =>
            ((e.request_id2request_state_[r]?).map RequestState.ready_ranks).getD []))]) } := by
    refine ⟨rfl, rfl, ?_, ?_⟩
    · show states1.map _ = _
      apply List.ext_getElem?
      intro r
      simp only [List.getElem?_map, hstates r]
      cases e.request_id2request_state_[r]? with
      | none => rfl
      | some st =>
        simp only [Option.map_some']
        split <;> rfl
    · exact map_set_same _ _ _ _ _ hgs rfl
  -- the members of the group and the others
  have hmember : ∀ (r : Nat) (st : RequestState), e.request_id2request_state_[r]? = some st →
      (r ∈ gs.request_ids ↔ st.group_id = g) := by
    intro r st hst
    constructor
    · intro hr
      obtain ⟨st', hst', hg'⟩ := hc.wf.member g gs hgs r hr
      rw [hst] at hst'
      simp only [Option.some.injEq] at hst'
      rw [hst']
      exact hg'
    · intro hg
      obtain ⟨gs', hgs', hr⟩ := hc.wf.group r st hst
      rw [hg, hgs] at hgs'
      simp only [Option.some.injEq] at hgs'
      rw [hgs']
      exact hr
  have hreq : ∀ (r : Nat) (st1 : RequestState), states1[r]? = some st1 →
      ∃ st : RequestState, e.request_id2request_state_[r]? = some st
        ∧ ((r ∈ gs.request_ids ∧ st.group_id = g ∧ st1 = { st with ready_ranks := [] })
          ∨ (r ∉ gs.request_ids ∧ st.group_id ≠ g ∧ st1 = st)) := by
    intro r st1 h1
    rw [hstates r] at h1
    cases hst : e.request_id2request_state_[r]? with
    | none => rw [hst] at h1; simp at h1
    | some st =>
      rw [hst] at h1
      simp only [Option.map_some', Option.some.injEq] at h1
      refine ⟨st, rfl, ?_⟩
      by_cases hr : r ∈ gs.request_ids
      · rw [if_pos hr] at h1
        exact Or.inl ⟨hr, (hmember r st hst).mp hr, h1.symm⟩
      · rw [if_neg hr] at h1
        exact Or.inr ⟨hr, fun hg => hr ((hmember r st hst).mpr hg), h1.symm⟩
  refine ⟨hsame, ?_⟩
  constructor
  · exact WellFormed_of_SameTables hsame hc.wf
  · intro r st1 h1
    show st1.ready_ranks = pendingRanks r st1.group_id (e.enqueue_trace ++ [_])
    rw [pendingRanks_append_execute]
    obtain ⟨st, hst, ⟨_, hg, rfl⟩ | ⟨_, hg, rfl⟩⟩ := hreq r st1 h1
    · rw [if_pos hg.symm]
    · rw [if_neg (fun h => hg h.symm)]
      exact hc.pending r _ hst
  · intro r st1 h1
    obtain ⟨st, hst, ⟨_, _, rfl⟩ | ⟨_, _, rfl⟩⟩ := hreq r st1 h1
    · exact ⟨List.nodup_nil, fun k hk => absurd hk (List.not_mem_nil _)⟩
    · exact hc.keys r _ hst
  · intro g1 gs1 hg1
    have hg1' : (e.group_id2group_state_.set g { gs with ready_request_ids := [] })[g1]?
        = some gs1 := hg1
    rw [List.getElem?_set] at hg1'
    by_cases hgg : g = g1
    · subst hgg
      simp only [if_true, hglt, Option.some.injEq] at hg1'
      subst hg1'
      exact ⟨List.nodup_nil, fun r hr => absurd hr (List.not_mem_nil _)⟩
    · rw [if_neg hgg] at hg1'
      refine ⟨(hc.ready g1 gs1 hg1').1, ?_⟩
      intro r hr
      obtain ⟨hm, st, hst, hrd⟩ := (hc.ready g1 gs1 hg1').2 r hr
      refine ⟨hm, st, ?_, hrd⟩
      show states1[r]? = some st
      rw [hstates r, hst]
      have hnot : r ∉ gs.request_ids := by
        intro hx
        obtain ⟨st', hst', hg'⟩ := hc.wf.member g1 gs1 hg1' r hm
        rw [hst] at hst'
        simp only [Option.some.injEq] at hst'
        subst hst'
        exact hgg (((hmember r st hst).mp hx).symm.trans hg')
      simp [hnot]
  · intro i g1 ranks hi
    have hi' : (e.enqueue_trace ++ [EnqueueEvent.execute_group g
        (gs.request_ids.map (fun r =>
          ((e.request_id2request_state_[r]?).map RequestState.ready_ranks).getD []))])[i]?
        = some (EnqueueEvent.execute_group g1 ranks) := hi
    show ExecutedWithAllRanks _ ((e.enqueue_trace ++ [_]).take i) g1 ranks
    rcases Nat.lt_or_ge i e.enqueue_trace.length with hlt | hge
    · rw [List.getElem?_append_left hlt] at hi'
      rw [List.take_append_of_le_length (Nat.le_of_lt hlt)]
      exact ExecutedWithAllRanks_of_SameTables hsame _ _ _ (hc.executed i g1 ranks hi')
    · have hie : i = e.enqueue_trace.length := by
        have := lt_length_of_getElem_some hi'
        simp only [List.length_append, List.length_singleton] at this
        omega
      subst hie
      rw [List.getElem?_append_right (le_refl _)] at hi'
      simp only [Nat.sub_self, List.getElem?_cons_zero, Option.some.injEq,
        EnqueueEvent.execute_group.injEq] at hi'
      obtain ⟨hg, hranks⟩ := hi'
      subst hg
      subst hranks
      rw [List.take_append_of_le_length (le_refl _), List.take_length]
      apply ExecutedWithAllRanks_of_SameTables hsame
      refine ⟨gs, hgs, by simp, ?_⟩
      intro j r hj
      have hr : r ∈ gs.request_ids := List.getElem?_mem hj
      obtain ⟨st, hst, hg'⟩ := hc.wf.member g gs hgs r hr
      have hpend : st.ready_ranks = pendingRanks r g e.enqueue_trace := by
        rw [← hg']
        exact hc.pending r st hst
      -- every request of the group is ready
      have hall : r ∈ gs.ready_request_ids := by
        apply perm_of_nodup_subset_length (hc.ready g gs hgs).1
          (fun x hx => ((hc.ready g gs hgs).2 x hx).1)
        · simpa [GroupState.IsReady] using hready
        · exact hr
      obtain ⟨_, st', hst', hrd⟩ := (hc.ready g gs hgs).2 r hall
      rw [hst] at hst'
      simp only [Option.some.injEq] at hst'
      subst hst'
      have hlen : (st.ready_ranks.map Prod.fst).length = st.local_ranks.length := by
        simpa [RequestState.IsReady] using hrd
      refine ⟨st, hst, ?_, ?_, ?_, ?_⟩
      · rw [List.getElem?_map, hj]
        simp [hst, hpend]
      · rw [← hpend]
        exact (hc.keys r st hst).1
      · intro k
        rw [← hpend]
        exact ⟨(hc.keys r st hst).2 k,
          perm_of_nodup_subset_length (hc.keys r st hst).1 (hc.keys r st hst).2 hlen k⟩
      · intro k info
        exact mem_pendingRanks r g e.enqueue_trace k info
/-! ## The loop of `Enqueue` over the groups -/

/-- What the loop of `Enqueue` does when it returns: it executes the first `k` of the
groups handed to it, in order, stopping in front of the first one that is not ready. -/
theorem Enqueue_loop_spec (env : Env) (l : List Nat) (e e2 : CollectiveBoxingExecutor)
    (hc : EnqueueCore e)
    (h : CollectiveBoxingExecutor.Enqueue.loop env l e = some e2) :
    ∃ k, k ≤ l.length
      ∧ e2.current_group_idx_in_job_ = e.current_group_idx_in_job_ + (k : Int)
      ∧ executedGroups e2.enqueue_trace = executedGroups e.enqueue_trace ++ l.take k
      ∧ (∃ t, e2.enqueue_trace = e.enqueue_trace ++ t
          ∧ ∀ ev ∈ t, ∃ g ranks, ev = EnqueueEvent.execute_group g ranks)
      ∧ e2.current_job_id_ = e.current_job_id_
      ∧ SameTables e e2 ∧ EnqueueCore e2
      ∧ ∀ g, l[k]? = some g →
          ∃ gs : GroupState, e2.group_id2group_state_[g]? = some gs ∧ gs.IsReady = false := by
  induction l generalizing e with
  | nil =>
    simp only [CollectiveBoxingExecutor.Enqueue.loop, Option.some.injEq] at h
    subst h
    exact ⟨0, le_refl _, by simp, by simp, ⟨[], by simp, by simp⟩, rfl, SameTables_refl _, hc,
      by simp⟩
  | cons g rest ih =>
    unfold CollectiveBoxingExecutor.Enqueue.loop at h
    split at h
    · exact absurd h (by simp)
    · rename_i gs hgs
      split at h
      · rename_i hready
        split at h
        · exact absurd h (by simp)
        · rename_i r hmove
          dsimp only at h
          split at h
          · exact absurd h (by simp)
          · rename_i backend hexec
            have hex : ∀ x ∈ gs.request_ids,
                ∃ st : RequestState, e.request_id2request_state_[x]? = some st := by
              intro x hx
              obtain ⟨st, hst, _⟩ := hc.wf.member g gs hgs x hx
              exact ⟨st, hst⟩
            obtain ⟨states1, hm1, hm2⟩ := Enqueue_moveRanks_spec gs.request_ids
              e.request_id2request_state_ [] hex (hc.wf.ids_nodup g gs hgs)
            rw [hmove] at hm1
            simp only [List.nil_append, Option.some.injEq] at hm1
            subst hm1
            obtain ⟨hs, hcore⟩ := EnqueueCore_execute e hc g gs backend
              (e.current_group_idx_in_job_ + 1) states1 hgs hready hm2
            obtain ⟨k, hk, a1, a2, ⟨t, a3, a3'⟩, a4, a5, a6, a7⟩ := ih _ hcore h
            refine ⟨k + 1, by simpa using hk, ?_, ?_, ?_, a4, SameTables_trans hs a5, a6, ?_⟩
            · rw [a1]
              show e.current_group_idx_in_job_ + 1 + (k : Int)
                = e.current_group_idx_in_job_ + ((k + 1 : Nat) : Int)
              push_cast
              ring
            · rw [a2]
              show executedGroups (e.enqueue_trace ++ [_]) ++ _ = _
              rw [executedGroups_append]
              simp [executedGroups]
            · refine ⟨EnqueueEvent.execute_group g (gs.request_ids.map (fun r =>
                ((e.request_id2request_state_[r]?).map RequestState.ready_ranks).getD []))
                :: t, ?_, ?_⟩
              · rw [a3]
                show (e.enqueue_trace ++ [_]) ++ t = _
                simp
              · intro ev hev
                rcases List.mem_cons.mp hev with rfl | hev
                · exact ⟨_, _, rfl⟩
                · exact a3' ev hev
            · intro g1 hg1
              simp only [List.getElem?_cons_succ] at hg1
              exact a7 g1 hg1
      · rename_i hready
        simp only [Option.some.injEq] at h
        subst h
        refine ⟨0, Nat.zero_le _, by simp, by simp, ⟨[], by simp, by simp⟩, rfl,
          SameTables_refl _, hc, ?_⟩
        intro g1 hg1
        simp only [List.getElem?_cons_zero, Option.some.injEq] at hg1
        subst hg1
        exact ⟨gs, hgs, by simpa using hready⟩
/-! ## One call of `Enqueue` -/

theorem EnqueueCore_congr {e e1 : CollectiveBoxingExecutor} (hc : EnqueueCore e)
    (h1 : e1.request_id2request_state_ = e.request_id2request_state_)
    (h2 : e1.group_id2group_state_ = e.group_id2group_state_)
    (h3 : e1.enqueue_trace = e.enqueue_trace) : EnqueueCore e1 := by
  obtain ⟨⟨w1, w2, w3, w4, w5⟩, c2, c3, c4, c5⟩ := hc
  unfold ExecutedWithAllRanks at c5
  refine ⟨⟨?_, ?_, ?_, ?_, ?_⟩, ?_, ?_, ?_, ?_⟩
  · rw [h1, h2]; exact w1
  · rw [h1, h2]; exact w2
  · rw [h2]; exact w3
  · rw [h1]; exact w4
  · rw [h1]; exact w5
  · rw [h1, h3]; exact c2
  · rw [h1]; exact c3
  · rw [h1, h2]; exact c4
  · unfold ExecutedWithAllRanks
    rw [h1, h2, h3]; exact c5

/-- What a call of `Enqueue` does when it returns, on an executor that satisfies the
invariant: the rank is registered for the request named by the operation; the job of the
request is the job in flight, latched at index 0 when none was in flight; the next `k`
groups of the job from the index on are executed in order, for some `k`; and the job is no
longer in flight exactly when the last group of the job has been executed. -/
theorem Enqueue_spec (env : Env) (e e2 : CollectiveBoxingExecutor) (rd : RankDesc)
    (info : RuntimeRequestInfo) (hi : EnqueueInv e)
    (h : CollectiveBoxingExecutor.Enqueue env e rd info = some e2) :
    ∃ (r : Nat) (st : RequestState) (group_ids : List Nat) (idx k : Nat),
      e.name2request_id_.lookup rd.op_desc.name = some r
        ∧ e.request_id2request_state_[r]? = some st
        ∧ e.job_id2group_ids_.lookup st.job_id = some group_ids
        ∧ ((e.current_job_id_ = -1 ∧ idx = 0)
            ∨ (e.current_job_id_ = st.job_id ∧ e.current_group_idx_in_job_ = (idx : Int)))
        ∧ idx + k ≤ group_ids.length
        ∧ (∃ t, e2.enqueue_trace
              = e.enqueue_trace ++ EnqueueEvent.ready_rank r rd.rank info :: t
            ∧ ∀ ev ∈ t, ∃ g ranks, ev = EnqueueEvent.execute_group g ranks)
        ∧ executedGroups e2.enqueue_trace
            = executedGroups e.enqueue_trace ++ (group_ids.drop idx).take k
        ∧ ((idx + k = group_ids.length ∧ e2.current_job_id_ = -1
              ∧ e2.current_group_idx_in_job_ = -1)
            ∨ (idx + k < group_ids.length ∧ e2.current_job_id_ = st.job_id
              ∧ e2.current_group_idx_in_job_ = ((idx + k : Nat) : Int)
              ∧ ∃ (g : Nat) (gs : GroupState), group_ids[idx + k]? = some g
                  ∧ e2.group_id2group_state_[g]? = some gs ∧ gs.IsReady = false))
        ∧ SameTables e e2 ∧ EnqueueInv e2 := by
  unfold CollectiveBoxingExecutor.Enqueue at h
  split at h
  · exact absurd h (by simp)
  · rename_i e1 harr
    obtain ⟨r, st, hr, hst, _, _, _, htr, _, hj1, hj2, hs1, hc1⟩ :=
      Enqueue_arrive_spec e e1 rd info hi.core harr
    have hjobne : st.job_id ≠ -1 := hi.core.wf.job r st hst
    split at h
    · exact absurd h (by simp)
    · rename_i group_ids hgids
      rw [hs1.job_id2group_ids] at hgids
      -- the job in flight and the index after the first block
      obtain ⟨rounds, hrounds, hcur⟩ := hi.rounds
      have hidx : ∃ idx : Nat, e1.current_job_id_ = st.job_id
          ∧ e1.current_group_idx_in_job_ = (idx : Int)
          ∧ ((e.current_job_id_ = -1 ∧ idx = 0)
            ∨ (e.current_job_id_ = st.job_id ∧ e.current_group_idx_in_job_ = (idx : Int)))
          ∧ executedGroups e.enqueue_trace
              = (rounds.map Prod.snd).flatten ++ group_ids.take idx
          ∧ idx ≤ group_ids.length := by
        by_cases hj : e.current_job_id_ = -1
        · obtain ⟨a, b⟩ := hj1 hj
          rcases hcur with ⟨_, _, hx⟩ | ⟨hne, _⟩
          · exact ⟨0, a, by simpa using b, Or.inl ⟨hj, rfl⟩, by simpa using hx,
              Nat.zero_le _⟩
          · exact absurd hj hne
        · obtain ⟨a, b, c⟩ := hj2 hj
          rcases hcur with ⟨hx, _⟩ | ⟨_, gids, hg, h0, hlt, hx⟩
          · exact absurd hx hj
          · rw [b] at hgids
            rw [hgids] at hg
            simp only [Option.some.injEq] at hg
            subst hg
            refine ⟨e.current_group_idx_in_job_.toNat, b.trans a, ?_, Or.inr ⟨a, ?_⟩, hx, ?_⟩
            · rw [c]; exact (Int.toNat_of_nonneg h0).symm
            · exact (Int.toNat_of_nonneg h0).symm
            · omega
      obtain ⟨idx, hjob1, hidx1, hcase, hexe, hidxle⟩ := hidx
      rw [hjob1] at hgids
      have hrem : (if e1.current_group_idx_in_job_ < 0 then []
          else group_ids.drop e1.current_group_idx_in_job_.toNat) = group_ids.drop idx := by
        rw [hidx1]
        simp
      rw [hrem] at h
      dsimp only at h
      split at h
      · exact absurd h (by simp)
      · rename_i e3 hloop
        obtain ⟨k, hk, b1, b2, ⟨t, b3, b3'⟩, b4, hs2, hc3, b7⟩ :=
          Enqueue_loop_spec env (group_ids.drop idx) e1 e3 hc1 hloop
        have hk' : idx + k ≤ group_ids.length := by
          simp only [List.length_drop] at hk
          omega
        have hexe1 : executedGroups e1.enqueue_trace = executedGroups e.enqueue_trace := by
          rw [htr, executedGroups_append]
          simp [executedGroups]
        have hexe3 : executedGroups e3.enqueue_trace
            = (rounds.map Prod.snd).flatten ++ group_ids.take (idx + k) := by
          rw [b2, hexe1, hexe, List.append_assoc, List.take_add]
        have hidx3 : e3.current_group_idx_in_job_ = ((idx + k : Nat) : Int) := by
          rw [b1, hidx1]
          push_cast
          rfl
        have hs : SameTables e e3 := SameTables_trans hs1 hs2
        have htrace : e3.enqueue_trace
            = e.enqueue_trace ++ EnqueueEvent.ready_rank r rd.rank info :: t := by
          rw [b3, htr]
          simp
        by_cases hend : e3.current_group_idx_in_job_ = (group_ids.length : Int)
        · rw [if_pos hend] at h
          simp only [Option.some.injEq] at h
          subst h
          have hlen : idx + k = group_ids.length := by
            rw [hidx3] at hend
            exact_mod_cast hend
          refine ⟨r, st, group_ids, idx, k, hr, hst, hgids,
            hcase, le_of_eq hlen, ⟨t, htrace, b3'⟩, ?_, Or.inl ⟨hlen, rfl, rfl⟩,
            ⟨hs.name2request_id, hs.job_id2group_ids, hs.request, hs.group⟩, ?_, ?_⟩
          · show executedGroups e3.enqueue_trace = _
            rw [b2, hexe1]
          · exact EnqueueCore_congr hc3 rfl rfl rfl
          · refine ⟨rounds ++ [(st.job_id, group_ids)], ?_, Or.inl ⟨rfl, rfl, ?_⟩⟩
            · intro round hround
              show e3.job_id2group_ids_.lookup round.1 = some round.2
              rw [hs.job_id2group_ids]
              rcases List.mem_append.mp hround with hround | hround
              · exact hrounds round hround
              · simp only [List.mem_singleton] at hround
                subst hround
                exact hgids
            · show executedGroups e3.enqueue_trace = _
              rw [hexe3, hlen, List.take_length]
              simp
        · rw [if_neg hend] at h
          simp only [Option.some.injEq] at h
          subst h
          have hlen : idx + k < group_ids.length := by
            rw [hidx3] at hend
            have hne : idx + k ≠ group_ids.length := fun hx => hend (by exact_mod_cast hx)
            omega
          have hnext : ∃ (g : Nat) (gs : GroupState), group_ids[idx + k]? = some g
              ∧ e3.group_id2group_state_[g]? = some gs ∧ gs.IsReady = false := by
            have hg : (group_ids.drop idx)[k]? = some (group_ids[idx + k]) := by
              rw [List.getElem?_drop, List.getElem?_eq_getElem hlen]
            obtain ⟨gs, hgs, hnr⟩ := b7 _ hg
            exact ⟨_, gs, List.getElem?_eq_getElem hlen, hgs, hnr⟩
          refine ⟨r, st, group_ids, idx, k, hr, hst, hgids, hcase, hk', ⟨t, htrace, b3'⟩, ?_,
            Or.inr ⟨hlen, b4.trans hjob1, hidx3, hnext⟩, hs, hc3, ?_⟩
          · rw [b2, hexe1]
          · refine ⟨rounds, ?_, Or.inr ⟨?_, group_ids, ?_, ?_, ?_, ?_⟩⟩
            · intro round hround
              rw [hs.job_id2group_ids]
              exact hrounds round hround
            · rw [b4, hjob1]
              exact hjobne
            · rw [b4, hjob1, hs.job_id2group_ids]
              exact hgids
            · rw [hidx3]
              exact Int.ofNat_nonneg _
            · rw [hidx3]
              exact_mod_cast hlen
            · rw [hexe3, hidx3, Int.toNat_ofNat]

/-! ## The tables made by `Init` -/

theorem TablesWf_add_group (requests : List RequestState) (groups : List GroupState)
    (backend : Backend) (group : List RequestDesc)
    (h : TablesWf requests groups) :
    TablesWf requests (groups ++
      [(GroupState.mk backend ([]) group [])]) := by
  have hget : ∀ (g : Nat) (gs : GroupState),
      (groups ++ [(GroupState.mk backend ([]) group [])])[g]? = some gs →
      groups[g]? = some gs ∨ gs = (GroupState.mk backend ([]) group []) := by
    intro g gs hg
    rcases Nat.lt_or_ge g groups.length with hlt | hge
    · rw [List.getElem?_append_left hlt] at hg
      exact Or.inl hg
    · rw [List.getElem?_append_right hge] at hg
      right
      have := List.getElem?_mem hg
      simpa using this
  constructor
  · intro g gs hg r hr
    rcases hget g gs hg with h1 | h1
    · exact h.member g gs h1 r hr
    · subst h1
      exact absurd hr (List.not_mem_nil _)
  · intro r st hst
    obtain ⟨gs, hgs, hr⟩ := h.group r st hst
    refine ⟨gs, ?_, hr⟩
    rw [List.getElem?_append_left (lt_length_of_getElem_some hgs)]
    exact hgs
  · intro g gs hg
    rcases hget g gs hg with h1 | h1
    · exact h.ids_nodup g gs h1
    · subst h1
      exact List.nodup_nil
  · exact h.ranks_nodup
  · exact h.job
  · exact h.ready_ranks
  · intro gs hgs
    rcases List.mem_append.mp hgs with h1 | h1
    · exact h.ready_request_ids gs h1
    · simp only [List.mem_singleton] at h1
      subst h1
      rfl

theorem Init_localRanks_nodup (env : Env) (request : RequestDesc) :
    (CollectiveBoxingExecutor.Init.localRanks env request).Nodup := by
  unfold CollectiveBoxingExecutor.Init.localRanks
  refine List.Nodup.map ?_ (List.Nodup.filter _ (List.nodup_range _))
  intro a b hab
  have hab' : (a : Int) = (b : Int) := hab
  exact_mod_cast hab'

/-- The loop of `Init` over the requests of a group keeps the tables consistent, the group
under construction being the one behind the groups made so far. -/
theorem Init_addRequests_inv (env : Env) (job_id : Int) (hjob : job_id ≠ -1)
    (backend : Backend) (group0 : List RequestDesc) (l : List RequestDesc)
    (e : CollectiveBoxingExecutor) (ids : List Nat) (r : CollectiveBoxingExecutor × List Nat)
    (hnames : e.name2request_id_.length = e.request_id2request_state_.length)
    (ht : TablesWf e.request_id2request_state_ (e.group_id2group_state_ ++
      [(GroupState.mk backend (ids) group0 [])]))
    (h : CollectiveBoxingExecutor.Init.addRequests env job_id e.group_id2group_state_.length
      l e ids = some r) :
    r.1.name2request_id_.length = r.1.request_id2request_state_.length
      ∧ TablesWf r.1.request_id2request_state_ (r.1.group_id2group_state_ ++
          [(GroupState.mk backend (r.2) group0 [])])
      ∧ r.1.group_id2group_state_ = e.group_id2group_state_
      ∧ r.1.job_id2group_ids_ = e.job_id2group_ids_
      ∧ r.1.current_job_id_ = e.current_job_id_
      ∧ r.1.current_group_idx_in_job_ = e.current_group_idx_in_job_
      ∧ r.1.enqueue_trace = e.enqueue_trace
      ∧ r.1.backends_ = e.backends_ := by
  induction l generalizing e ids with
  | nil =>
    simp only [CollectiveBoxingExecutor.Init.addRequests, Option.some.injEq] at h
    subst h
    exact ⟨hnames, ht, rfl, rfl, rfl, rfl, rfl, rfl⟩
  | cons request rest ih =>
    unfold CollectiveBoxingExecutor.Init.addRequests at h
    dsimp only at h
    split at h
    · exact absurd h (by simp)
    · have key := ih
        { e with
          name2request_id_ := (e.name2request_id_ ++
            [(request.op_desc.name, e.name2request_id_.length)]),
          request_id2request_state_ := (e.request_id2request_state_ ++
            [(RequestState.mk request job_id e.group_id2group_state_.length
                (CollectiveBoxingExecutor.Init.localRanks env request) [])]) }
        (setInsert e.name2request_id_.length ids)
        (by simp [hnames]) ?_ h
      · exact key
      · -- the tables with the new request
        have hg0 : (e.group_id2group_state_ ++
            [(GroupState.mk backend (ids) group0 [])])[e.group_id2group_state_.length]?
            = some (GroupState.mk backend (ids) group0 []) := by
          rw [List.getElem?_append_right (le_refl _)]
          simp
        have hnew : e.name2request_id_.length ∉ ids := by
          intro hx
          obtain ⟨st, hst, _⟩ := ht.member _ _ hg0 _ hx
          have := lt_length_of_getElem_some hst
          omega
        have hgroups : ∀ (g : Nat) (gs : GroupState),
            (e.group_id2group_state_ ++
              [(GroupState.mk backend (setInsert e.name2request_id_.length ids) group0 [])])[g]? = some gs →
            (g < e.group_id2group_state_.length ∧ e.group_id2group_state_[g]? = some gs)
              ∨ (g = e.group_id2group_state_.length
                ∧ gs = (GroupState.mk backend (setInsert e.name2request_id_.length ids) group0 [])) := by
          intro g gs hg
          rcases Nat.lt_or_ge g e.group_id2group_state_.length with hlt | hge
          · rw [List.getElem?_append_left hlt] at hg
            exact Or.inl ⟨hlt, hg⟩
          · rw [List.getElem?_append_right hge] at hg
            have hlt := lt_length_of_getElem_some hg
            simp only [List.length_singleton] at hlt
            have hg' : g = e.group_id2group_state_.length := by omega
            subst hg'
            simp only [Nat.sub_self, List.getElem?_cons_zero, Option.some.injEq] at hg
            exact Or.inr ⟨rfl, hg.symm⟩
        have hreqs : ∀ (r1 : Nat) (st : RequestState),
            (e.request_id2request_state_ ++
              [(RequestState.mk request job_id e.group_id2group_state_.length
                (CollectiveBoxingExecutor.Init.localRanks env request) [])])[r1]? = some st →
            e.request_id2request_state_[r1]? = some st
              ∨ (r1 = e.request_id2request_state_.length
                ∧ st = (RequestState.mk request job_id e.group_id2group_state_.length
                (CollectiveBoxingExecutor.Init.localRanks env request) [])) := by
          intro r1 st hst
          rcases Nat.lt_or_ge r1 e.request_id2request_state_.length with hlt | hge
          · rw [List.getElem?_append_left hlt] at hst
            exact Or.inl hst
          · rw [List.getElem?_append_right hge] at hst
            have hlt := lt_length_of_getElem_some hst
            simp only [List.length_singleton] at hlt
            have hr' : r1 = e.request_id2request_state_.length := by omega
            subst hr'
            simp only [Nat.sub_self, List.getElem?_cons_zero, Option.some.injEq] at hst
            exact Or.inr ⟨rfl, hst.symm⟩
        have hkeep : ∀ (r1 : Nat) (st : RequestState),
            e.request_id2request_state_[r1]? = some st →
            (e.request_id2request_state_ ++
              [(RequestState.mk request job_id e.group_id2group_state_.length
                (CollectiveBoxingExecutor.Init.localRanks env request) [])])[r1]? = some st := by
          intro r1 st hst
          rw [List.getElem?_append_left (lt_length_of_getElem_some hst)]
          exact hst
        constructor
        · intro g gs hg r1 hr1
          rcases hgroups g gs hg with ⟨hlt, hold⟩ | ⟨rfl, rfl⟩
          · have hold' : (e.group_id2group_state_ ++
                [(GroupState.mk backend (ids) group0 [])])[g]? = some gs := by
              rw [List.getElem?_append_left hlt]
              exact hold
            obtain ⟨st, hst, hgid⟩ := ht.member g gs hold' r1 hr1
            exact ⟨st, hkeep r1 st hst, hgid⟩
          · rcases (setInsert_mem _ _ _).mp hr1 with rfl | hr1
            · refine ⟨RequestState.mk request job_id e.group_id2group_state_.length
                (CollectiveBoxingExecutor.Init.localRanks env request) [], ?_, rfl⟩
              rw [hnames, List.getElem?_append_right (le_refl _)]
              simp
            · obtain ⟨st, hst, hgid⟩ := ht.member _ _ hg0 r1 hr1
              exact ⟨st, hkeep r1 st hst, hgid⟩
        · intro r1 st hst
          rcases hreqs r1 st hst with hold | ⟨rfl, rfl⟩
          · obtain ⟨gs, hgs, hr1⟩ := ht.group r1 st hold
            rcases Nat.lt_or_ge st.group_id e.group_id2group_state_.length with hlt | hge
            · rw [List.getElem?_append_left hlt] at hgs
              refine ⟨gs, ?_, hr1⟩
              rw [List.getElem?_append_left hlt]
              exact hgs
            · have hlt := lt_length_of_getElem_some hgs
              simp only [List.length_append, List.length_singleton] at hlt
              have hgid : st.group_id = e.group_id2group_state_.length := by omega
              rw [hgid, hg0] at hgs
              simp only [Option.some.injEq] at hgs
              subst hgs
              refine ⟨GroupState.mk backend (setInsert e.name2request_id_.length ids) group0 [],
                ?_, (setInsert_mem _ _ _).mpr (Or.inr hr1)⟩
              rw [hgid, List.getElem?_append_right (le_refl _)]
              simp
          · refine ⟨GroupState.mk backend (setInsert e.name2request_id_.length ids) group0 [],
              ?_, (setInsert_mem _ _ _).mpr (Or.inl hnames.symm)⟩
            show (e.group_id2group_state_ ++ [_])[e.group_id2group_state_.length]? = _
            rw [List.getElem?_append_right (le_refl _)]
            simp
        · intro g gs hg
          rcases hgroups g gs hg with ⟨hlt, hold⟩ | ⟨rfl, rfl⟩
          · apply ht.ids_nodup g gs
            rw [List.getElem?_append_left hlt]
            exact hold
          · exact setInsert_nodup _ _ hnew (ht.ids_nodup _ _ hg0)
        · intro r1 st hst
          rcases hreqs r1 st hst with hold | ⟨rfl, rfl⟩
          · exact ht.ranks_nodup r1 st hold
          · exact Init_localRanks_nodup env request
        · intro r1 st hst
          rcases hreqs r1 st hst with hold | ⟨rfl, rfl⟩
          · exact ht.job r1 st hold
          · exact hjob
        · intro st hst
          rcases List.mem_append.mp hst with h1 | h1
          · exact ht.ready_ranks st h1
          · simp only [List.mem_singleton] at h1
            subst h1
            rfl
        · intro gs hgs
          rcases List.mem_append.mp hgs with h1 | h1
          · exact ht.ready_request_ids gs (List.mem_append_left _ h1)
          · simp only [List.mem_singleton] at h1
            subst h1
            rfl
theorem pushGroupId_mem (j : Int) (g : Nat) (l : List (Int × List Nat))
    (entry : Int × List Nat) (h : entry ∈ pushGroupId j g l) :
    entry ∈ l ∨ ∃ old, (old = [] ∨ (j, old) ∈ l) ∧ entry = (j, old ++ [g]) := by
  induction l with
  | nil =>
    simp only [pushGroupId, List.mem_singleton] at h
    exact Or.inr ⟨[], Or.inl rfl, by simpa using h⟩
  | cons x rest ih =>
    unfold pushGroupId at h
    split at h
    · rename_i hj
      rcases List.mem_cons.mp h with h1 | h1
      · right
        refine ⟨x.2, Or.inr ?_, by rw [h1, hj]⟩
        rw [hj]
        exact List.mem_cons_self _ _
      · exact Or.inl (List.mem_cons_of_mem _ h1)
    · split at h
      · rcases List.mem_cons.mp h with h1 | h1
        · exact Or.inr ⟨[], Or.inl rfl, by simpa using h1⟩
        · exact Or.inl h1
      · rcases List.mem_cons.mp h with h1 | h1
        · exact Or.inl (h1 ▸ List.mem_cons_self _ _)
        · rcases ih h1 with h2 | ⟨old, hold, he⟩
          · exact Or.inl (List.mem_cons_of_mem _ h2)
          · refine Or.inr ⟨old, ?_, he⟩
            rcases hold with hold | hold
            · exact Or.inl hold
            · exact Or.inr (List.mem_cons_of_mem _ hold)

/-- The loop of `Init` over the groups of a rough group keeps the invariant of `Init`. -/
theorem Init_addGroups_inv (env : Env) (job_id : Int) (hjob : job_id ≠ -1)
    (backend : Backend) (groups : List (List RequestDesc))
    (e e1 : CollectiveBoxingExecutor) (hi : InitInv e)
    (h : CollectiveBoxingExecutor.Init.addGroups env job_id backend groups e = some e1) :
    InitInv e1 ∧ e1.backends_ = e.backends_ := by
  induction groups generalizing e with
  | nil =>
    simp only [CollectiveBoxingExecutor.Init.addGroups, Option.some.injEq] at h
    subst h
    exact ⟨hi, rfl⟩
  | cons group rest ih =>
    unfold CollectiveBoxingExecutor.Init.addGroups at h
    dsimp only at h
    split at h
    · exact absurd h (by simp)
    · rename_i r hadd
      obtain ⟨a1, a2, a3, a4, a5, a6, a7, a8⟩ := Init_addRequests_inv env job_id hjob backend
        group group e [] r hi.names (TablesWf_add_group _ _ backend group hi.tables) hadd
      have hi1 : InitInv
          { r.1 with
            group_id2group_state_ := (r.1.group_id2group_state_ ++
              [GroupState.mk backend r.2 group []]),
            job_id2group_ids_ := (pushGroupId job_id e.group_id2group_state_.length
              r.1.job_id2group_ids_) } := by
        refine ⟨a2, a1, ?_, a5.trans hi.current_job_id,
          a6.trans hi.current_group_idx_in_job, a7.trans hi.enqueue_trace⟩
        intro entry hentry
        have hentry' : entry ∈ pushGroupId job_id e.group_id2group_state_.length
            r.1.job_id2group_ids_ := hentry
        show entry.2.Pairwise _ ∧ ∀ g ∈ entry.2,
          g < (r.1.group_id2group_state_ ++ [GroupState.mk backend r.2 group []]).length
        rw [a3, List.length_append, List.length_singleton]
        rw [a4] at hentry'
        have hold : ∀ x ∈ e.job_id2group_ids_, x.2.Pairwise (fun a b => a < b)
            ∧ ∀ g ∈ x.2, g < e.group_id2group_state_.length := hi.ascend
        rcases pushGroupId_mem _ _ _ _ hentry' with h1 | ⟨old, hold1, he⟩
        · exact ⟨(hold entry h1).1, fun g hg => Nat.lt_succ_of_lt ((hold entry h1).2 g hg)⟩
        · subst he
          have holdp : old.Pairwise (fun a b => a < b)
              ∧ ∀ g ∈ old, g < e.group_id2group_state_.length := by
            rcases hold1 with rfl | hmem
            · exact ⟨List.Pairwise.nil, fun g hg => absurd hg (List.not_mem_nil _)⟩
            · exact hold _ hmem
          constructor
          · rw [List.pairwise_append]
            refine ⟨holdp.1, List.pairwise_singleton _ _, ?_⟩
            intro a ha b hb
            simp only [List.mem_singleton] at hb
            subst hb
            exact holdp.2 a ha
          · intro g hg
            rcases List.mem_append.mp hg with hg | hg
            · exact Nat.lt_succ_of_lt (holdp.2 g hg)
            · simp only [List.mem_singleton] at hg
              subst hg
              exact Nat.lt_succ_self _
      obtain ⟨b1, b2⟩ := ih _ hi1 h
      exact ⟨b1, b2.trans a8⟩

/-- The loop of `Init` over the rough groups of a job keeps the invariant of `Init`. -/
theorem Init_addRoughGroups_inv (env : Env) (job_id : Int) (hjob : job_id ≠ -1)
    (rough_groups : List (List RequestDesc))
    (e e1 : CollectiveBoxingExecutor) (hi : InitInv e)
    (h : CollectiveBoxingExecutor.Init.addRoughGroups env job_id rough_groups e = some e1) :
    InitInv e1 ∧ e1.backends_ = e.backends_ := by
  induction rough_groups generalizing e with
  | nil =>
    simp only [CollectiveBoxingExecutor.Init.addRoughGroups, Option.some.injEq] at h
    subst h
    exact ⟨hi, rfl⟩
  | cons rough_group rest ih =>
    unfold CollectiveBoxingExecutor.Init.addRoughGroups at h
    split at h
    · exact absurd h (by simp)
    · split at h
      · exact absurd h (by simp)
      · dsimp only at h
        split at h
        · exact absurd h (by simp)
        · rename_i e2 hgroups
          obtain ⟨a1, a2⟩ := Init_addGroups_inv env job_id hjob _ _ e e2 hi hgroups
          obtain ⟨b1, b2⟩ := ih e2 a1 h
          exact ⟨b1, b2.trans a2⟩

/-- `Init` keeps its invariant over the jobs of the plan, none of which has the id -1. -/
theorem Init_jobs_inv (env : Env) (jobs : List (Int × List RequestDesc))
    (hjobs : ∀ job ∈ jobs, job.1 ≠ -1)
    (e e1 : CollectiveBoxingExecutor) (hi : InitInv e)
    (h : CollectiveBoxingExecutor.Init.jobs env jobs e = some e1) :
    InitInv e1 ∧ e1.backends_ = e.backends_ := by
  induction jobs generalizing e with
  | nil =>
    simp only [CollectiveBoxingExecutor.Init.jobs, Option.some.injEq] at h
    subst h
    exact ⟨hi, rfl⟩
  | cons job rest ih =>
    unfold CollectiveBoxingExecutor.Init.jobs at h
    split at h
    · exact absurd h (by simp)
    · rename_i e2 hjob
      unfold CollectiveBoxingExecutor.Init.job at hjob
      dsimp only at hjob
      split at hjob
      · exact absurd hjob (by simp)
      · obtain ⟨a1, a2⟩ := Init_addRoughGroups_inv env job.1
          (hjobs job (List.mem_cons_self _ _)) _ e e2 hi hjob
        obtain ⟨b1, b2⟩ := ih (fun j hj => hjobs j (List.mem_cons_of_mem _ hj)) e2 a1 h
        exact ⟨b1, b2.trans a2⟩

theorem InitInv_blank (plan : CollectiveBoxingPlan)
    (backend : NcclCollectiveBoxingExecutorBackend) :
    InitInv (CollectiveBoxingExecutor.blank plan backend) := by
  refine ⟨⟨?_, ?_, ?_, ?_, ?_, ?_, ?_⟩, rfl, ?_, rfl, rfl, rfl⟩
  all_goals simp [CollectiveBoxingExecutor.blank, GroupIdsAscend]

/-- The executor that `Init` makes of a plan without a job of id -1 has consistent tables
and ascending group ids for every job, and it is idle. -/
theorem Init_wellFormed (env : Env) (plan : CollectiveBoxingPlan)
    (backend : NcclCollectiveBoxingExecutorBackend) (e : CollectiveBoxingExecutor)
    (hjobs : ∀ job ∈ plan.job_id2request_set, job.1 ≠ -1)
    (h : CollectiveBoxingExecutor.Init env (CollectiveBoxingExecutor.blank plan backend)
      = some e) :
    WellFormed e ∧ Idle e ∧ GroupIdsAscend e := by
  obtain ⟨hi, _⟩ := Init_jobs_inv env plan.job_id2request_set hjobs _ e
    (InitInv_blank plan backend) h
  exact ⟨⟨hi.tables.member, hi.tables.group, hi.tables.ids_nodup, hi.tables.ranks_nodup,
      hi.tables.job⟩,
    ⟨hi.current_job_id, hi.current_group_idx_in_job, hi.tables.ready_ranks,
      hi.tables.ready_request_ids, hi.enqueue_trace⟩, hi.ascend⟩

/-! ## Runs of `Enqueue` -/

theorem EnqueueInv_of_idle (e : CollectiveBoxingExecutor) (hw : WellFormed e)
    (hidle : Idle e) : EnqueueInv e := by
  refine ⟨⟨hw, ?_, ?_, ?_, ?_⟩, ⟨[], by simp, Or.inl ⟨hidle.current_job_id,
    hidle.current_group_idx_in_job, by simp [hidle.enqueue_trace, executedGroups]⟩⟩⟩
  · intro r st hst
    rw [hidle.ready_ranks st (List.getElem?_mem hst), hidle.enqueue_trace]
    rfl
  · intro r st hst
    rw [hidle.ready_ranks st (List.getElem?_mem hst)]
    exact ⟨List.nodup_nil, fun k hk => absurd hk (List.not_mem_nil _)⟩
  · intro g gs hgs
    rw [hidle.ready_request_ids gs (List.getElem?_mem hgs)]
    exact ⟨List.nodup_nil, fun r hr => absurd hr (List.not_mem_nil _)⟩
  · intro i g ranks hi
    rw [hidle.enqueue_trace] at hi
    simp at hi

theorem Enqueued_inv (env : Env) (e0 e : CollectiveBoxingExecutor) (hi : EnqueueInv e0)
    (h : Enqueued env e0 e) : EnqueueInv e ∧ SameTables e0 e := by
  induction h with
  | refl => exact ⟨hi, SameTables_refl _⟩
  | step e1 e2 rd info _ hstep ih =>
    obtain ⟨_, _, _, _, _, _, _, _, _, _, _, _, _, hs, hinv⟩ :=
      Enqueue_spec env e1 e2 rd info ih.1 hstep
    exact ⟨hinv, SameTables_trans ih.2 hs⟩

theorem Enqueued_of_enqueue_all (env : Env) (calls : List (RankDesc × RuntimeRequestInfo))
    (e0 e1 e : CollectiveBoxingExecutor) (h0 : Enqueued env e0 e1)
    (h : test.enqueue_all env calls e1 = some e) : Enqueued env e0 e := by
  induction calls generalizing e1 with
  | nil =>
    simp only [test.enqueue_all, Option.some.injEq] at h
    subst h
    exact h0
  | cons call rest ih =>
    unfold test.enqueue_all at h
    split at h
    · exact absurd h (by simp)
    · rename_i e2 hcall
      exact ih e2 (Enqueued.step e1 e2 call.1 call.2 h0 hcall) h

/-- C14: the order of the groups.  Let the executor be made by `Init` of a plan without a
job of id -1, followed by any sequence of successful calls of `Enqueue`.  The list of the
groups of every job ascends in the group ids.  The groups for which `ExecuteGroup` has
been invoked, in the order of the invocations, are complete rounds, each the list of the
groups of a job in its order, followed, when a job is in flight, by the groups of that job
in front of `current_group_idx_in_job_`: within a round the invocation number `i` is for
the group at index `i` of the job, and every group in front of it has been executed in
that round. -/
theorem Enqueue_group_order (env : Env) (plan : CollectiveBoxingPlan)
    (backend : NcclCollectiveBoxingExecutorBackend) (e0 e : CollectiveBoxingExecutor)
    (hjobs : ∀ job ∈ plan.job_id2request_set, job.1 ≠ -1)
    (hinit : CollectiveBoxingExecutor.Init env (CollectiveBoxingExecutor.blank plan backend)
      = some e0)
    (hrun : Enqueued env e0 e) :
    e.job_id2group_ids_ = e0.job_id2group_ids_
      ∧ (∀ entry ∈ e.job_id2group_ids_, entry.2.Pairwise (fun a b => a < b))
      ∧ ∃ rounds : List (Int × List Nat),
          (∀ round ∈ rounds, e.job_id2group_ids_.lookup round.1 = some round.2)
          ∧ ((e.current_job_id_ = -1 ∧ e.current_group_idx_in_job_ = -1
                ∧ executedGroups e.enqueue_trace = (rounds.map Prod.snd).flatten)
            ∨ (e.current_job_id_ ≠ -1
                ∧ ∃ group_ids,
                    e.job_id2group_ids_.lookup e.current_job_id_ = some group_ids
                    ∧ 0 ≤ e.current_group_idx_in_job_
                    ∧ e.current_group_idx_in_job_ < (group_ids.length : Int)
                    ∧ executedGroups e.enqueue_trace = (rounds.map Prod.snd).flatten
                        ++ group_ids.take e.current_group_idx_in_job_.toNat)) := by
  obtain ⟨hw, hidle, hasc⟩ := Init_wellFormed env plan backend e0 hjobs hinit
  obtain ⟨hinv, hs⟩ := Enqueued_inv env e0 e (EnqueueInv_of_idle e0 hw hidle) hrun
  refine ⟨hs.job_id2group_ids, ?_, hinv.rounds⟩
  intro entry hentry
  rw [hs.job_id2group_ids] at hentry
  exact (hasc entry hentry).1

/-- C15: rank completeness.  Let the executor be made by `Init` of a plan without a job of
id -1, followed by any sequence of successful calls of `Enqueue`.  For every invocation of
`ExecuteGroup` on record, for group `g` with the rank maps `ranks`, there is one rank map
for each request of the group, in the order of the request ids; the keys of the rank map of
a request are the local ranks of the request, each once; every local rank of the request
has been registered since the previous execution of the group, and the rank map holds a
rank with runtime information exactly when the rank was registered for the request with
that information since the previous execution of the group. -/
theorem Enqueue_rank_completeness (env : Env) (plan : CollectiveBoxingPlan)
    (backend : NcclCollectiveBoxingExecutorBackend) (e0 e : CollectiveBoxingExecutor)
    (hjobs : ∀ job ∈ plan.job_id2request_set, job.1 ≠ -1)
    (hinit : CollectiveBoxingExecutor.Init env (CollectiveBoxingExecutor.blank plan backend)
      = some e0)
    (hrun : Enqueued env e0 e) (i g : Nat) (ranks : List RankMap)
    (hexec : e.enqueue_trace[i]? = some (EnqueueEvent.execute_group g ranks)) :
    ∃ gs : GroupState, e0.group_id2group_state_[g]? = some gs
      ∧ ranks.length = gs.request_ids.length
      ∧ ∀ (j r : Nat), gs.request_ids[j]? = some r →
          ∃ (st : RequestState) (m : RankMap),
            e0.request_id2request_state_[r]? = some st ∧ ranks[j]? = some m
              ∧ (m.map Prod.fst).Nodup
              ∧ (∀ k, k ∈ m.map Prod.fst ↔ k ∈ st.local_ranks)
              ∧ (∀ k ∈ st.local_ranks, ∃ request_info,
                  EnqueueEvent.ready_rank r k request_info
                    ∈ sinceExecuted g (e.enqueue_trace.take i))
              ∧ ∀ k request_info, (k, request_info) ∈ m
                  ↔ EnqueueEvent.ready_rank r k request_info
                    ∈ sinceExecuted g (e.enqueue_trace.take i) := by
  obtain ⟨hw, hidle, _⟩ := Init_wellFormed env plan backend e0 hjobs hinit
  obtain ⟨hinv, hs⟩ := Enqueued_inv env e0 e (EnqueueInv_of_idle e0 hw hidle) hrun
  obtain ⟨gs, hgs, hlen, hall⟩ := ExecutedWithAllRanks_of_SameTables (SameTables_symm hs) _ _ _
    (hinv.core.executed i g ranks hexec)
  refine ⟨gs, hgs, hlen, ?_⟩
  intro j r hj
  obtain ⟨st, hst, a, b, c, d⟩ := hall j r hj
  refine ⟨st, _, hst, a, b, c, ?_, d⟩
  intro k hk
  obtain ⟨x, hx, hxk⟩ := List.mem_map.mp ((c k).mpr hk)
  exact ⟨x.2, (d k x.2).mp (by rw [← hxk]; exact hx)⟩
theorem test_executor_init :
    CollectiveBoxingExecutor.Init (test.env 96)
      (CollectiveBoxingExecutor.blank test.plan (test.backend_ready 96)) = some test.executor :=
  rfl

theorem test_enqueued_run (n : Nat) (h : test.enqueue_all (test.env 96) (test.calls.take n)
    test.executor = some (test.enqueued n)) :
    Enqueued (test.env 96) test.executor (test.enqueued n) :=
  Enqueued_of_enqueue_all _ _ _ _ _ (Enqueued.refl) h

/-- Witness of C14: after the calls `test.calls` the groups 0 and 1 of job 7 have been
executed in this order, as one round, although the ranks of request 1 of group 1 were
complete before those of request 0 of group 0, and job 8 is in flight at index 0. -/
theorem Enqueue_group_order_witness :
    executedGroups (test.enqueued 5).enqueue_trace = [0, 1]
      ∧ (test.enqueued 5).current_job_id_ = 8
      ∧ (test.enqueued 5).job_id2group_ids_ = test.executor.job_id2group_ids_
      ∧ (∀ entry ∈ (test.enqueued 5).job_id2group_ids_, entry.2.Pairwise (fun a b => a < b))
      ∧ ∃ rounds : List (Int × List Nat),
          (∀ round ∈ rounds, (test.enqueued 5).job_id2group_ids_.lookup round.1 = some round.2)
          ∧ (((test.enqueued 5).current_job_id_ = -1
                ∧ (test.enqueued 5).current_group_idx_in_job_ = -1
                ∧ executedGroups (test.enqueued 5).enqueue_trace
                    = (rounds.map Prod.snd).flatten)
            ∨ ((test.enqueued 5).current_job_id_ ≠ -1
                ∧ ∃ group_ids,
                    (test.enqueued 5).job_id2group_ids_.lookup (test.enqueued 5).current_job_id_
                      = some group_ids
                    ∧ 0 ≤ (test.enqueued 5).current_group_idx_in_job_
                    ∧ (test.enqueued 5).current_group_idx_in_job_ < (group_ids.length : Int)
                    ∧ executedGroups (test.enqueued 5).enqueue_trace
                        = (rounds.map Prod.snd).flatten
                          ++ group_ids.take (test.enqueued 5).current_group_idx_in_job_.toNat)) :=
  ⟨by decide, by decide,
    Enqueue_group_order (test.env 96) test.plan (test.backend_ready 96) test.executor
      (test.enqueued 5) (by decide) test_executor_init (test_enqueued_run 5 rfl)⟩

/-- Witness of C15: the event at index 4 of the run `test.calls` is the execution of group
0, whose request 0 has the local ranks 0 and 1; the rank map passed for it holds the
runtime information registered for the two ranks. -/
theorem Enqueue_rank_completeness_witness :
    (test.enqueued 5).enqueue_trace[4]?
        = some (EnqueueEvent.execute_group 0 [[(0, test.info 10), (1, test.info 11)]])
      ∧ ∃ gs : GroupState, test.executor.group_id2group_state_[0]? = some gs
        ∧ [[((0 : Int), test.info 10), ((1 : Int), test.info 11)]].length = gs.request_ids.length
        ∧ ∀ (j r : Nat), gs.request_ids[j]? = some r →
            ∃ (st : RequestState) (m : RankMap),
              test.executor.request_id2request_state_[r]? = some st
                ∧ [[((0 : Int), test.info 10), ((1 : Int), test.info 11)]][j]? = some m
                ∧ (m.map Prod.fst).Nodup
                ∧ (∀ k, k ∈ m.map Prod.fst ↔ k ∈ st.local_ranks)
                ∧ (∀ k ∈ st.local_ranks, ∃ request_info,
                    EnqueueEvent.ready_rank r k request_info
                      ∈ sinceExecuted 0 ((test.enqueued 5).enqueue_trace.take 4))
                ∧ ∀ k request_info, (k, request_info) ∈ m
                    ↔ EnqueueEvent.ready_rank r k request_info
                      ∈ sinceExecuted 0 ((test.enqueued 5).enqueue_trace.take 4) :=
  ⟨by decide,
    Enqueue_rank_completeness (test.env 96) test.plan (test.backend_ready 96) test.executor
      (test.enqueued 5) (by decide) test_executor_init (test_enqueued_run 5 rfl) 4 0
      [[(0, test.info 10), (1, test.info 11)]] (by decide)⟩

/-- C16: the job gate of `Enqueue`.  Let the executor be made by `Init` of a plan without a
job of id -1, followed by any sequence of successful calls of `Enqueue`; consider one more
call.  (1) Either no job is in flight and both `current_job_id_` and
`current_group_idx_in_job_` are -1, or a job is in flight and the index is one of a group
of it.  (2) The first block of `Enqueue` finds the request by the name of the operation;
when no job is in flight it latches `current_job_id_` to the job of the request and
`current_group_idx_in_job_` to 0, and otherwise the request belongs to the job in flight
and the two are unchanged.  (3) While a job is in flight, `Enqueue` of a request of a
different job fails.  (4) When `Enqueue` succeeds it executes `k` groups of the job of the
request from the index on, in their order in the job; `current_job_id_` and
`current_group_idx_in_job_` are reset to -1 when these were the last groups of the job, and
otherwise the job stays in flight, which is not the job -1, with the index advanced by
`k`. -/
theorem Enqueue_job_gate (env : Env) (plan : CollectiveBoxingPlan)
    (backend : NcclCollectiveBoxingExecutorBackend) (e0 e : CollectiveBoxingExecutor)
    (hjobs : ∀ job ∈ plan.job_id2request_set, job.1 ≠ -1)
    (hinit : CollectiveBoxingExecutor.Init env (CollectiveBoxingExecutor.blank plan backend)
      = some e0)
    (hrun : Enqueued env e0 e) (rank_desc : RankDesc) (request_info : RuntimeRequestInfo) :
    ((e.current_job_id_ = -1 ∧ e.current_group_idx_in_job_ = -1)
        ∨ (e.current_job_id_ ≠ -1 ∧ ∃ group_ids,
            e.job_id2group_ids_.lookup e.current_job_id_ = some group_ids
              ∧ 0 ≤ e.current_group_idx_in_job_
              ∧ e.current_group_idx_in_job_ < (group_ids.length : Int)))
      ∧ (∀ e1, CollectiveBoxingExecutor.Enqueue.arrive e rank_desc request_info = some e1 →
          ∃ (r : Nat) (st : RequestState),
            e.name2request_id_.lookup rank_desc.op_desc.name = some r
              ∧ e.request_id2request_state_[r]? = some st
              ∧ (e.current_job_id_ = -1 →
                  e1.current_job_id_ = st.job_id ∧ e1.current_group_idx_in_job_ = 0)
              ∧ (e.current_job_id_ ≠ -1 →
                  e.current_job_id_ = st.job_id ∧ e1.current_job_id_ = e.current_job_id_
                    ∧ e1.current_group_idx_in_job_ = e.current_group_idx_in_job_))
      ∧ (∀ (r : Nat) (st : RequestState),
          e.name2request_id_.lookup rank_desc.op_desc.name = some r →
          e.request_id2request_state_[r]? = some st →
          e.current_job_id_ ≠ -1 → e.current_job_id_ ≠ st.job_id →
          CollectiveBoxingExecutor.Enqueue env e rank_desc request_info = none)
      ∧ (∀ e2, CollectiveBoxingExecutor.Enqueue env e rank_desc request_info = some e2 →
          ∃ (r : Nat) (st : RequestState) (group_ids : List Nat) (idx k : Nat),
            e.name2request_id_.lookup rank_desc.op_desc.name = some r
              ∧ e.request_id2request_state_[r]? = some st
              ∧ st.job_id ≠ -1
              ∧ e.job_id2group_ids_.lookup st.job_id = some group_ids
              ∧ ((e.current_job_id_ = -1 ∧ idx = 0)
                  ∨ (e.current_job_id_ = st.job_id
                      ∧ e.current_group_idx_in_job_ = (idx : Int)))
              ∧ idx + k ≤ group_ids.length
              ∧ executedGroups e2.enqueue_trace
                  = executedGroups e.enqueue_trace ++ (group_ids.drop idx).take k
              ∧ ((idx + k = group_ids.length ∧ e2.current_job_id_ = -1
                    ∧ e2.current_group_idx_in_job_ = -1)
                  ∨ (idx + k < group_ids.length ∧ e2.current_job_id_ = st.job_id
                    ∧ e2.current_group_idx_in_job_ = ((idx + k : Nat) : Int)))) := by
  obtain ⟨hw, hidle, _⟩ := Init_wellFormed env plan backend e0 hjobs hinit
  obtain ⟨hinv, hs⟩ := Enqueued_inv env e0 e (EnqueueInv_of_idle e0 hw hidle) hrun
  refine ⟨?_, ?_, ?_, ?_⟩
  · obtain ⟨rounds, _, hcur⟩ := hinv.rounds
    rcases hcur with ⟨h1, h2, _⟩ | ⟨h1, group_ids, h2, h3, h4, _⟩
    · exact Or.inl ⟨h1, h2⟩
    · exact Or.inr ⟨h1, group_ids, h2, h3, h4⟩
  · intro e1 harr
    obtain ⟨r, st, hr, hst, _, _, _, _, _, hj1, hj2, _, _⟩ :=
      Enqueue_arrive_spec e e1 rank_desc request_info hinv.core harr
    exact ⟨r, st, hr, hst, hj1, hj2⟩
  · intro r st hr hst h1 h2
    unfold CollectiveBoxingExecutor.Enqueue CollectiveBoxingExecutor.Enqueue.arrive
    simp only [hr, hst, if_neg h1, if_neg h2]
  · intro e2 h2
    obtain ⟨r, st, group_ids, idx, k, hr, hst, hg, hcur, hle, _, hex, hend, _, _⟩ :=
      Enqueue_spec env e e2 rank_desc request_info hinv h2
    refine ⟨r, st, group_ids, idx, k, hr, hst, hinv.core.wf.job r st hst, hg, hcur, hle, hex, ?_⟩
    rcases hend with h | ⟨a, b, c, _⟩
    · exact Or.inl h
    · exact Or.inr ⟨a, b, c⟩

/-- Witness of C16: after three of the calls `test.calls` job 7 is in flight at index 0;
rank 0 of the request of job 8 is refused then, and the fourth call, the last rank of job
7, executes the two groups of the job and resets `current_job_id_`. -/
theorem Enqueue_job_gate_witness :
    (test.enqueued 3).current_job_id_ = 7 ∧ (test.enqueued 3).current_group_idx_in_job_ = 0
      ∧ CollectiveBoxingExecutor.Enqueue (test.env 96) (test.enqueued 3)
          (test.rank_of (test.all_reduce "c" 1024 test.device_set_b 0) 0) (test.info 30) = none
      ∧ CollectiveBoxingExecutor.Enqueue (test.env 96) (test.enqueued 3)
          (test.rank_of test.request_48 1) (test.info 11) = some (test.enqueued 4)
      ∧ executedGroups (test.enqueued 4).enqueue_trace = [0, 1]
      ∧ (test.enqueued 4).current_job_id_ = -1
      ∧ (test.enqueued 4).current_group_idx_in_job_ = -1 :=
  ⟨by decide, by decide,
    (Enqueue_job_gate (test.env 96) test.plan (test.backend_ready 96) test.executor
      (test.enqueued 3) (by decide) test_executor_init (test_enqueued_run 3 rfl)
      (test.rank_of (test.all_reduce "c" 1024 test.device_set_b 0) 0) (test.info 30)).2.2.1
      2 (RequestState.mk (test.all_reduce "c" 1024 test.device_set_b 0) 8 2 [0, 1] [])
      (by decide) (by decide) (by decide) (by decide),
    rfl, by decide, by decide, by decide⟩

/-! ## The sweep of the poll thread -/

theorem range_filterMap_two {α : Type} (f : Nat → Option α) (n : Nat) :
    (List.range (n + 2)).filterMap f
      = (f 0).toList ++ (f 1).toList ++ (List.range n).filterMap (fun i => f (i + 2)) := by
  rw [List.range_succ_eq_map, List.filterMap_cons, List.range_succ_eq_map,
    List.map_cons, List.filterMap_cons, List.map_map, List.filterMap_map]
  have hf : (f ∘ Nat.succ ∘ Nat.succ) = fun i => f (i + 2) := rfl
  rw [hf]
  cases h0 : f 0 <;> cases h1 : f (Nat.succ 0) <;>
    simp only [Nat.succ_eq_add_one, Nat.zero_add] at h1 <;> simp [h1]

theorem poll_sweep_spec (q : Nat → cudaError_t) :
    ∀ (l passed queried : List Event) (invoked : List (Nat × Maybe)),
      (∀ k ev, l[2 * k]? = some ev → q ev.cuda_event ≠ cudaError_t.cudaErrorUnknown) →
      ∃ Q : List Event,
        NcclCollectiveBoxingExecutorBackend.poll.sweep q l passed queried invoked
          = { event_list_ := passed ++ (List.range l.length).filterMap (fun i =>
                (l[i]?).bind (fun ev =>
                  if i % 2 = 1 ∨ q ev.cuda_event = cudaError_t.cudaErrorNotReady
                  then some ev else none)),
              queried := queried ++ Q,
              invoked := invoked ++ (Q.filter (fun ev =>
                decide (q ev.cuda_event = cudaError_t.cudaSuccess))).flatMap
                  (fun ev => ev.call Maybe.Ok),
              ending := if l.length % 2 = 1 then PollEnd.past_the_end
                else PollEnd.completed }
          ∧ ∀ k, Q[k]? = l[2 * k]?
  | [], passed, queried, invoked, _ => by
    refine ⟨[], ?_, ?_⟩
    · simp [NcclCollectiveBoxingExecutorBackend.poll.sweep]
    · intro k; simp
  | [a], passed, queried, invoked, h => by
    have ha := h 0 a rfl
    refine ⟨[a], ?_, ?_⟩
    · cases hq : q a.cuda_event
      · simp [NcclCollectiveBoxingExecutorBackend.poll.sweep, hq, List.range_succ]
      · simp [NcclCollectiveBoxingExecutorBackend.poll.sweep, hq, List.range_succ]
      · exact absurd hq ha
    · intro k
      cases k with
      | zero => simp
      | succ k =>
        have : 2 * (k + 1) = (2 * k + 1) + 1 := by omega
        rw [this]
        simp
  | a :: b :: t, passed, queried, invoked, h => by
    have ha := h 0 a rfl
    have ht : ∀ k ev, t[2 * k]? = some ev →
        q ev.cuda_event ≠ cudaError_t.cudaErrorUnknown := by
      intro k ev hk
      apply h (k + 1) ev
      have : 2 * (k + 1) = (2 * k) + 1 + 1 := by omega
      rw [this]
      simpa using hk
    have hlen : (a :: b :: t).length = t.length + 2 := rfl
    have hpar : (t.length + 2) % 2 = t.length % 2 := by omega
    have hidx : ∀ k, 2 * (k + 1) = (2 * k) + 1 + 1 := by intro k; omega
    have hrest : (fun i => ((a :: b :: t)[i + 2]?).bind (fun ev =>
          if (i + 2) % 2 = 1 ∨ q ev.cuda_event = cudaError_t.cudaErrorNotReady
          then some ev else none))
        = fun i => (t[i]?).bind (fun ev =>
          if i % 2 = 1 ∨ q ev.cuda_event = cudaError_t.cudaErrorNotReady
          then some ev else none) := by
      funext i
      have : (i + 2) % 2 = i % 2 := by omega
      simp [this]
    cases hq : q a.cuda_event
    · -- cudaSuccess
      obtain ⟨Q, e, hQ⟩ := poll_sweep_spec q t (passed ++ [b]) (queried ++ [a])
        (invoked ++ a.call Maybe.Ok) ht
      refine ⟨a :: Q, ?_, ?_⟩
      · simp only [NcclCollectiveBoxingExecutorBackend.poll.sweep, hq, e, hlen, hpar]
        rw [range_filterMap_two, hrest]
        simp [hq, List.flatMap_cons, List.filter_cons]
      · intro k
        cases k with
        | zero => simp
        | succ k =>
          rw [hidx]
          simpa using hQ k
    · -- cudaErrorNotReady
      obtain ⟨Q, e, hQ⟩ := poll_sweep_spec q t (passed ++ [a, b]) (queried ++ [a])
        invoked ht
      refine ⟨a :: Q, ?_, ?_⟩
      · simp only [NcclCollectiveBoxingExecutorBackend.poll.sweep, hq, e, hlen, hpar]
        rw [range_filterMap_two, hrest]
        simp [hq, List.filter_cons]
      · intro k
        cases k with
        | zero => simp
        | succ k =>
          rw [hidx]
          simpa using hQ k
    · exact absurd hq ha

/-- C29: a sweep of the poll thread visits every other entry of the event list.  (1) When
no query of an entry at an even position (the first entry is at position 0) returns another
result than `cudaSuccess` and `cudaErrorNotReady`: the `k`-th query of the sweep is made
for the entry at position `2 * k`, so the entries at odd positions are not queried; the
callbacks invoked are those of the queried entries whose query returns `cudaSuccess`, each
with `Ok`; the event list after the sweep holds, in order, the entries at odd positions and
the queried entries whose query returns `cudaErrorNotReady`; and when the number of entries
is odd the sweep increments the iterator although it is `event_list_.end()`, while it ends
at `event_list_.end()` when the number is even.  (2) When the query of the first entry
returns another result, `CudaCheck` ends the program with the event list as it was and no
callback invoked. -/
theorem poll_sweep_every_other_entry (cudaEventQuery : Nat → cudaError_t)
    (self : NcclCollectiveBoxingExecutorBackend) :
    ((∀ k ev, self.event_list_[2 * k]? = some ev →
          cudaEventQuery ev.cuda_event ≠ cudaError_t.cudaErrorUnknown) →
        (∀ k, (NcclCollectiveBoxingExecutorBackend.poll cudaEventQuery self).queried[k]?
            = self.event_list_[2 * k]?)
          ∧ (NcclCollectiveBoxingExecutorBackend.poll cudaEventQuery self).invoked
            = ((NcclCollectiveBoxingExecutorBackend.poll cudaEventQuery self).queried.filter
                (fun ev => decide (cudaEventQuery ev.cuda_event = cudaError_t.cudaSuccess))
              ).flatMap (fun ev => ev.call Maybe.Ok)
          ∧ (NcclCollectiveBoxingExecutorBackend.poll cudaEventQuery self).event_list_
            = (List.range self.event_list_.length).filterMap (fun i =>
                (self.event_list_[i]?).bind (fun ev =>
                  if i % 2 = 1 ∨ cudaEventQuery ev.cuda_event = cudaError_t.cudaErrorNotReady
                  then some ev else none))
          ∧ (self.event_list_.length % 2 = 1 →
              (NcclCollectiveBoxingExecutorBackend.poll cudaEventQuery self).ending
                = PollEnd.past_the_end)
          ∧ (self.event_list_.length % 2 = 0 →
              (NcclCollectiveBoxingExecutorBackend.poll cudaEventQuery self).ending
                = PollEnd.completed))
      ∧ ∀ ev rest, self.event_list_ = ev :: rest →
          cudaEventQuery ev.cuda_event = cudaError_t.cudaErrorUnknown →
          (NcclCollectiveBoxingExecutorBackend.poll cudaEventQuery self).ending
              = PollEnd.fatal
            ∧ (NcclCollectiveBoxingExecutorBackend.poll cudaEventQuery self).event_list_
              = self.event_list_
            ∧ (NcclCollectiveBoxingExecutorBackend.poll cudaEventQuery self).invoked = [] := by
  constructor
  · intro h
    obtain ⟨Q, e, hQ⟩ := poll_sweep_spec cudaEventQuery self.event_list_ [] [] [] h
    unfold NcclCollectiveBoxingExecutorBackend.poll
    rw [e]
    refine ⟨?_, ?_, ?_, ?_, ?_⟩
    · intro k
      exact hQ k
    · rfl
    · rfl
    · intro hodd
      simp only [if_pos hodd]
    · intro heven
      have : ¬ self.event_list_.length % 2 = 1 := by omega
      simp only [if_neg this]
  · intro ev rest hl hq
    unfold NcclCollectiveBoxingExecutorBackend.poll
    rw [hl]
    cases rest <;> simp [NcclCollectiveBoxingExecutorBackend.poll.sweep, hq]

/-- Witness of C29: after `ExecuteGroup` for a group on the devices 0 and 1 the event list
holds one entry for each device.  In a sweep in which every query would return
`cudaSuccess` only the entry of device 0 is queried: its callbacks 10 and 20 are invoked
and the entry of device 1 stays in the list with its callbacks 11 and 21.  When the list
holds the entry of device 0 only and its event is not ready, the sweep increments the
iterator although it is `event_list_.end()`. -/
theorem poll_sweep_every_other_entry_witness :
    test.backend_executed.event_list_
        = [{ device_id := 0, cuda_event := 0, callback := [10, 20] },
           { device_id := 1, cuda_event := 1, callback := [11, 21] }]
      ∧ (NcclCollectiveBoxingExecutorBackend.poll test.all_success
            test.backend_executed).queried[0]?
          = some { device_id := 0, cuda_event := 0, callback := [10, 20] }
      ∧ (NcclCollectiveBoxingExecutorBackend.poll test.all_success
            test.backend_executed).queried[1]? = none
      ∧ NcclCollectiveBoxingExecutorBackend.poll test.all_success test.backend_executed
          = { event_list_ := [{ device_id := 1, cuda_event := 1, callback := [11, 21] }],
              queried := [{ device_id := 0, cuda_event := 0, callback := [10, 20] }],
              invoked := [(10, Maybe.Ok), (20, Maybe.Ok)],
              ending := PollEnd.completed }
      ∧ (NcclCollectiveBoxingExecutorBackend.poll test.none_ready
            { test.backend_executed with
              event_list_ := [{ device_id := 0, cuda_event := 0, callback := [10, 20] }] }
          ).ending = PollEnd.past_the_end :=
  ⟨rfl,
   ((poll_sweep_every_other_entry test.all_success test.backend_executed).1
      (fun _ _ _ => by simp [test.all_success])).1 0,
   ((poll_sweep_every_other_entry test.all_success test.backend_executed).1
      (fun _ _ _ => by simp [test.all_success])).1 1,
   rfl,
   ((poll_sweep_every_other_entry test.none_ready
      { test.backend_executed with
        event_list_ := [{ device_id := 0, cuda_event := 0, callback := [10, 20] }] }).1
      (fun _ _ _ => by simp [test.none_ready])).2.2.2.1 rfl⟩

/-! ## The intake of `Init` -/

theorem test_env_sorts (nccl_fusion_threshold_mb : Int) :
    SortsByOrder (test.env nccl_fusion_threshold_mb) := by
  intro requests
  have hrel : (fun (a b : RequestDesc) => (fun a b => decide (a.order < b.order)) b a = false)
      = fun a b => a.order ≤ b.order := by
    funext a b
    simp
  constructor
  · exact List.perm_insertionSort _ _
  · show (requests.insertionSort
      (fun a b => (fun a b => decide (a.order < b.order)) b a = false)).Pairwise _
    simp only [hrel]
    have htotal : IsTotal RequestDesc (fun a b => a.order ≤ b.order) :=
      ⟨fun a b => le_total a.order b.order⟩
    have htrans : IsTrans RequestDesc (fun a b => a.order ≤ b.order) :=
      ⟨fun a b c hab hbc => le_trans hab hbc⟩
    exact List.sorted_insertionSort (fun (a b : RequestDesc) => a.order ≤ b.order) requests

theorem Init_depthsAscend_iff (l : List RequestDesc) :
    CollectiveBoxingExecutor.Init.depthsAscend l = true
      ↔ l.Chain' (fun a b => a.depth ≤ b.depth) := by
  induction l with
  | nil => simp [CollectiveBoxingExecutor.Init.depthsAscend]
  | cons a rest ih =>
    cases rest with
    | nil => simp [CollectiveBoxingExecutor.Init.depthsAscend]
    | cons b rest =>
      simp only [CollectiveBoxingExecutor.Init.depthsAscend, Bool.and_eq_true,
        Bool.not_eq_true', decide_eq_false_iff_not, gt_iff_lt, not_lt, ih,
        List.chain'_cons]

theorem Init_depthsAscend_false_iff (l : List RequestDesc) :
    CollectiveBoxingExecutor.Init.depthsAscend l = false
      ↔ ∃ (i : Nat) (a b : RequestDesc), l[i]? = some a ∧ l[i + 1]? = some b
          ∧ a.depth > b.depth := by
  induction l with
  | nil => simp [CollectiveBoxingExecutor.Init.depthsAscend]
  | cons a rest ih =>
    cases rest with
    | nil =>
      simp only [CollectiveBoxingExecutor.Init.depthsAscend, Bool.true_eq_false, false_iff]
      rintro ⟨i, x, y, _, h2, _⟩
      simp at h2
    | cons b rest =>
      simp only [CollectiveBoxingExecutor.Init.depthsAscend, Bool.and_eq_false_iff,
        Bool.not_eq_false', decide_eq_true_eq, ih]
      constructor
      · rintro (h | ⟨i, x, y, h1, h2, h3⟩)
        · exact ⟨0, a, b, rfl, by simp, h⟩
        · exact ⟨i + 1, x, y, by simpa using h1, by simpa using h2, h3⟩
      · rintro ⟨i, x, y, h1, h2, h3⟩
        cases i with
        | zero =>
          simp only [List.getElem?_cons_zero, Option.some.injEq, zero_add,
            List.getElem?_cons_succ] at h1 h2
          subst h1 h2
          exact Or.inl h3
        | succ i =>
          exact Or.inr ⟨i, x, y, by simpa using h1, by simpa using h2, h3⟩

theorem Init_jobs_none_of_job (env : Env) (jobs : List (Int × List RequestDesc))
    (job : Int × List RequestDesc) (hjob : job ∈ jobs)
    (hnone : ∀ self, CollectiveBoxingExecutor.Init.job env self job = none)
    (self : CollectiveBoxingExecutor) :
    CollectiveBoxingExecutor.Init.jobs env jobs self = none := by
  induction jobs generalizing self with
  | nil => exact absurd hjob (List.not_mem_nil _)
  | cons j rest ih =>
    simp only [CollectiveBoxingExecutor.Init.jobs]
    rcases List.mem_cons.mp hjob with rfl | hmem
    · rw [hnone]
    · cases hj : CollectiveBoxingExecutor.Init.job env self j with
      | none => rfl
      | some self1 => exact ih hmem self1

/-- C25, as amended: the intake of `Init`.  Let `std::sort` sort.  For a job of the plan,
the list `requests` that `Init` processes is a permutation of the requests of the job that
have a device on this machine: it holds exactly these requests, and no request of it has a
smaller order than one in front of it.  If two adjacent requests of the list have
decreasing depth the body of `Init` for the job fails, and so does `Init` when the job is
one of the plan.  Otherwise the depth does not decrease along the list and `Init` goes on
to the rough groups of the list, where it may still fail. -/
theorem Init_intake (env : Env) (hsort : SortsByOrder env) (self : CollectiveBoxingExecutor)
    (job_id7topo_desc : Int × List RequestDesc) :
    (SortRequestsByOrder env (job_id7topo_desc.2.filter
        (fun request => HasDeviceOnThisMachine env request.device_set))).Perm
        (job_id7topo_desc.2.filter
          (fun request => HasDeviceOnThisMachine env request.device_set))
      ∧ (∀ request, request ∈ SortRequestsByOrder env (job_id7topo_desc.2.filter
            (fun request => HasDeviceOnThisMachine env request.device_set))
          ↔ request ∈ job_id7topo_desc.2
            ∧ ∃ device_desc ∈ request.device_set.device,
                device_desc.machine_id = env.this_machine_id)
      ∧ (SortRequestsByOrder env (job_id7topo_desc.2.filter
          (fun request => HasDeviceOnThisMachine env request.device_set))).Pairwise
          (fun a b => a.order ≤ b.order)
      ∧ ((∃ (i : Nat) (a b : RequestDesc),
            (SortRequestsByOrder env (job_id7topo_desc.2.filter
              (fun request => HasDeviceOnThisMachine env request.device_set)))[i]? = some a
            ∧ (SortRequestsByOrder env (job_id7topo_desc.2.filter
              (fun request => HasDeviceOnThisMachine env request.device_set)))[i + 1]?
                = some b
            ∧ a.depth > b.depth) →
          CollectiveBoxingExecutor.Init.job env self job_id7topo_desc = none
            ∧ (job_id7topo_desc ∈ self.collective_boxing_plan_.job_id2request_set →
                CollectiveBoxingExecutor.Init env self = none))
      ∧ ((¬ ∃ (i : Nat) (a b : RequestDesc),
            (SortRequestsByOrder env (job_id7topo_desc.2.filter
              (fun request => HasDeviceOnThisMachine env request.device_set)))[i]? = some a
            ∧ (SortRequestsByOrder env (job_id7topo_desc.2.filter
              (fun request => HasDeviceOnThisMachine env request.device_set)))[i + 1]?
                = some b
            ∧ a.depth > b.depth) →
          (SortRequestsByOrder env (job_id7topo_desc.2.filter
              (fun request => HasDeviceOnThisMachine env request.device_set))).Chain'
              (fun a b => a.depth ≤ b.depth)
            ∧ CollectiveBoxingExecutor.Init.job env self job_id7topo_desc
              = CollectiveBoxingExecutor.Init.addRoughGroups env job_id7topo_desc.1
                  (CollectiveBoxingExecutor.Init.roughGroups env
                    (SortRequestsByOrder env (job_id7topo_desc.2.filter
                      (fun request => HasDeviceOnThisMachine env request.device_set))) [])
                  self) := by
  obtain ⟨hperm, hsorted⟩ := hsort (job_id7topo_desc.2.filter
    (fun request => HasDeviceOnThisMachine env request.device_set))
  refine ⟨hperm, ?_, hsorted, ?_, ?_⟩
  · intro request
    rw [hperm.mem_iff, List.mem_filter]
    simp [HasDeviceOnThisMachine, IsDeviceOnThisMachine]
  · intro hdesc
    have hfalse := (Init_depthsAscend_false_iff _).mpr hdesc
    have hjob : ∀ self0, CollectiveBoxingExecutor.Init.job env self0 job_id7topo_desc
        = none := by
      intro self0
      unfold CollectiveBoxingExecutor.Init.job
      simp only [hfalse, Bool.not_false, if_true]
    refine ⟨hjob self, ?_⟩
    intro hmem
    exact Init_jobs_none_of_job env _ job_id7topo_desc hmem hjob self
  · intro hasc
    have htrue : CollectiveBoxingExecutor.Init.depthsAscend
        (SortRequestsByOrder env (job_id7topo_desc.2.filter
          (fun request => HasDeviceOnThisMachine env request.device_set))) = true := by
      cases h : CollectiveBoxingExecutor.Init.depthsAscend
          (SortRequestsByOrder env (job_id7topo_desc.2.filter
            (fun request => HasDeviceOnThisMachine env request.device_set))) with
      | true => rfl
      | false => exact absurd ((Init_depthsAscend_false_iff _).mp h) hasc
    refine ⟨(Init_depthsAscend_iff _).mp htrue, ?_⟩
    unfold CollectiveBoxingExecutor.Init.job
    simp only [htrue, Bool.not_true, Bool.false_eq_true, if_false]

/-- Witness of C25 as amended: the requests of job 7 of `test.plan`, given with the orders
1 and 0, are processed in the order 0 and 1. -/
theorem Init_intake_witness :
    SortRequestsByOrder (test.env 96) ([test.request_80, test.request_48].filter
        (fun request => HasDeviceOnThisMachine (test.env 96) request.device_set))
        = [test.request_48, test.request_80]
      ∧ (SortRequestsByOrder (test.env 96) ([test.request_80, test.request_48].filter
          (fun request => HasDeviceOnThisMachine (test.env 96) request.device_set))).Pairwise
          (fun a b => a.order ≤ b.order) :=
  ⟨by decide,
   (Init_intake (test.env 96) (test_env_sorts 96) test.executor
      (7, [test.request_80, test.request_48])).2.2.1⟩

/-- C25, counterexample: `Init` fails although the depth never decreases.  The two requests
of job 7 of `test.plan_twice` are on this machine, have the orders 0 and 1 and the same
depth, so that no two adjacent requests of the sorted list have decreasing depth; they
have the same name, and `Init` fails on the second one, whose name is registered
already. -/
theorem Init_fails_without_decreasing_depth :
    SortRequestsByOrder (test.env 96)
        ([test.all_reduce "a" 1024 test.device_set_a 0,
          test.all_reduce "a" 2048 test.device_set_a 1].filter
          (fun request => HasDeviceOnThisMachine (test.env 96) request.device_set))
        = [test.all_reduce "a" 1024 test.device_set_a 0,
           test.all_reduce "a" 2048 test.device_set_a 1]
      ∧ (test.all_reduce "a" 1024 test.device_set_a 0).depth
          ≤ (test.all_reduce "a" 2048 test.device_set_a 1).depth
      ∧ CollectiveBoxingExecutor.Init.depthsAscend
          [test.all_reduce "a" 1024 test.device_set_a 0,
           test.all_reduce "a" 2048 test.device_set_a 1] = true
      ∧ CollectiveBoxingExecutor.Init (test.env 96)
          (CollectiveBoxingExecutor.blank test.plan_twice (test.backend_ready 96)) = none :=
  ⟨by decide, by decide, by decide, by decide⟩

/-! ## Rough grouping -/

theorem StartsRoughGroup_iff (env : Env) (front request : RequestDesc) :
    ((!env.collective_boxing_conf.enable_fusion)
        || decide (request.depth ≠ front.depth)
        || decide (request.op_desc.backend ≠ front.op_desc.backend)
        || decide (request.device_set ≠ front.device_set)) = true
      ↔ StartsRoughGroup env front request := by
  unfold StartsRoughGroup
  simp only [Bool.or_eq_true, Bool.not_eq_true', decide_eq_true_eq, or_assoc]

theorem Init_roughGroups_inv (env : Env) (requests : List RequestDesc) :
    ∀ (acc : List (List RequestDesc)),
      (∀ g ∈ acc, g ≠ []) →
      (∀ g ∈ acc, ∀ front, g.head? = some front →
        ∀ r ∈ g.tail, ¬ StartsRoughGroup env front r) →
      acc.Chain' (fun g1 g2 => ∀ f1 f2, g1.head? = some f1 → g2.head? = some f2 →
        StartsRoughGroup env f1 f2) →
      (CollectiveBoxingExecutor.Init.roughGroups env requests acc).flatten
          = acc.flatten ++ requests
        ∧ (∀ g ∈ CollectiveBoxingExecutor.Init.roughGroups env requests acc, g ≠ [])
        ∧ (∀ g ∈ CollectiveBoxingExecutor.Init.roughGroups env requests acc,
            ∀ front, g.head? = some front → ∀ r ∈ g.tail, ¬ StartsRoughGroup env front r)
        ∧ (CollectiveBoxingExecutor.Init.roughGroups env requests acc).Chain'
            (fun g1 g2 => ∀ f1 f2, g1.head? = some f1 → g2.head? = some f2 →
              StartsRoughGroup env f1 f2) := by
  induction requests with
  | nil =>
    intro acc h1 h2 h3
    simp only [CollectiveBoxingExecutor.Init.roughGroups, List.append_nil]
    exact ⟨trivial, h1, h2, h3⟩
  | cons request rest ih =>
    intro acc h1 h2 h3
    -- a new rough group for the request
    have hnew : (∀ front, (acc.getLast?.bind List.head?) = some front →
          StartsRoughGroup env front request) →
        (CollectiveBoxingExecutor.Init.roughGroups env rest (acc ++ [[request]])).flatten
            = acc.flatten ++ request :: rest
          ∧ (∀ g ∈ CollectiveBoxingExecutor.Init.roughGroups env rest (acc ++ [[request]]),
              g ≠ [])
          ∧ (∀ g ∈ CollectiveBoxingExecutor.Init.roughGroups env rest (acc ++ [[request]]),
              ∀ front, g.head? = some front →
                ∀ r ∈ g.tail, ¬ StartsRoughGroup env front r)
          ∧ (CollectiveBoxingExecutor.Init.roughGroups env rest (acc ++ [[request]])).Chain'
              (fun g1 g2 => ∀ f1 f2, g1.head? = some f1 → g2.head? = some f2 →
                StartsRoughGroup env f1 f2) := by
      intro hstart
      have := ih (acc ++ [[request]])
        (by
          intro g hg
          rcases List.mem_append.mp hg with hg | hg
          · exact h1 g hg
          · rw [List.mem_singleton.mp hg]; simp)
        (by
          intro g hg front hfront r hr
          rcases List.mem_append.mp hg with hg | hg
          · exact h2 g hg front hfront r hr
          · rw [List.mem_singleton.mp hg] at hr
            simp at hr)
        (by
          rw [List.chain'_append]
          refine ⟨h3, List.chain'_singleton _, ?_⟩
          intro g1 hg1 g2 hg2 f1 f2 hf1 hf2
          simp only [List.head?_cons, Option.mem_def, Option.some.injEq] at hg2
          subst hg2
          simp only [List.head?_cons, Option.some.injEq] at hf2
          subst hf2
          apply hstart f1
          rw [Option.mem_def] at hg1
          rw [hg1]
          exact hf1)
      simpa using this
    simp only [CollectiveBoxingExecutor.Init.roughGroups]
    cases hlast : acc.getLast? with
    | none =>
      exact hnew (by intro front hf; rw [hlast] at hf; simp at hf)
    | some back =>
      have hacc : acc.dropLast ++ [back] = acc :=
        List.dropLast_append_getLast? back (by rw [hlast]; rfl)
      have hback : back ∈ acc := by
        rw [← hacc]; simp
      cases hhead : back.head? with
      | none =>
        exfalso
        apply h1 back hback
        cases back with
        | nil => rfl
        | cons x xs => simp at hhead
      | some front =>
        by_cases hcond : StartsRoughGroup env front request
        · have hc := (StartsRoughGroup_iff env front request).mpr hcond
          simp only [hhead, hc, if_true]
          exact hnew (by
            intro f hf
            rw [hlast] at hf
            simp only [Option.some_bind] at hf
            rw [hhead] at hf
            simp only [Option.some.injEq] at hf
            subst hf
            exact hcond)
        · have hc : ((!env.collective_boxing_conf.enable_fusion)
              || decide (request.depth ≠ front.depth)
              || decide (request.op_desc.backend ≠ front.op_desc.backend)
              || decide (request.device_set ≠ front.device_set)) = false := by
            cases h : ((!env.collective_boxing_conf.enable_fusion)
              || decide (request.depth ≠ front.depth)
              || decide (request.op_desc.backend ≠ front.op_desc.backend)
              || decide (request.device_set ≠ front.device_set)) with
            | false => rfl
            | true => exact absurd ((StartsRoughGroup_iff env front request).mp h) hcond
          simp only [hhead, hc, Bool.false_eq_true, if_false]
          have hbne : back ≠ [] := h1 back hback
          have hhead2 : (back ++ [request]).head? = some front := by
            cases back with
            | nil => exact absurd rfl hbne
            | cons x xs => simpa using hhead
          have htail2 : (back ++ [request]).tail = back.tail ++ [request] := by
            cases back with
            | nil => exact absurd rfl hbne
            | cons x xs => rfl
          have h3' := h3
          rw [← hacc, List.chain'_append] at h3'
          obtain ⟨c1, _, c3⟩ := h3'
          have := ih (acc.dropLast ++ [back ++ [request]])
            (by
              intro g hg
              rcases List.mem_append.mp hg with hg | hg
              · exact h1 g (List.mem_of_mem_dropLast hg)
              · rw [List.mem_singleton.mp hg]; simp)
            (by
              intro g hg f hf r hr
              rcases List.mem_append.mp hg with hg | hg
              · exact h2 g (List.mem_of_mem_dropLast hg) f hf r hr
              · rw [List.mem_singleton.mp hg] at hr hf
                rw [hhead2] at hf
                simp only [Option.some.injEq] at hf
                subst hf
                rw [htail2] at hr
                rcases List.mem_append.mp hr with hr | hr
                · exact h2 back hback _ hhead r hr
                · rw [List.mem_singleton.mp hr]
                  exact hcond)
            (by
              rw [List.chain'_append]
              refine ⟨c1, List.chain'_singleton _, ?_⟩
              intro g1 hg1 g2 hg2 f1 f2 hf1 hf2
              simp only [List.head?_cons, Option.mem_def, Option.some.injEq] at hg2
              subst hg2
              rw [hhead2] at hf2
              simp only [Option.some.injEq] at hf2
              subst hf2
              exact c3 g1 hg1 back (by simp) f1 _ hf1 hhead)
          obtain ⟨r1, r2, r3, r4⟩ := this
          refine ⟨?_, r2, r3, r4⟩
          rw [r1]
          conv_rhs => rw [← hacc]
          simp

/-- C26: the rough groups of `Init`.  The rough groups made of a list of requests are
non-empty and their concatenation is the list, so they are contiguous runs of it and the
first request is the head of the first rough group.  The head of every later rough group
starts it: fusion is disabled, or its depth, backend or device set is not that of the head
of the rough group in front of it, which is the last rough group when the request is met.
Every other request joined the last rough group, its own: fusion is enabled and its depth,
backend and device set are those of the head of the rough group.  So the requests of a
rough group share depth, backend and device set, and when fusion is disabled every rough
group holds one request. -/
theorem Init_roughGroups_spec (env : Env) (requests : List RequestDesc) :
    (CollectiveBoxingExecutor.Init.roughGroups env requests []).flatten = requests
      ∧ (∀ g ∈ CollectiveBoxingExecutor.Init.roughGroups env requests [], g ≠ [])
      ∧ (∀ first, requests.head? = some first →
          ∃ g, (CollectiveBoxingExecutor.Init.roughGroups env requests []).head? = some g
            ∧ g.head? = some first)
      ∧ (CollectiveBoxingExecutor.Init.roughGroups env requests []).Chain'
          (fun g1 g2 => ∀ f1 f2, g1.head? = some f1 → g2.head? = some f2 →
            StartsRoughGroup env f1 f2)
      ∧ (∀ g ∈ CollectiveBoxingExecutor.Init.roughGroups env requests [],
          ∀ front, g.head? = some front → ∀ r ∈ g.tail,
            ¬ StartsRoughGroup env front r
              ∧ env.collective_boxing_conf.enable_fusion = true)
      ∧ (∀ g ∈ CollectiveBoxingExecutor.Init.roughGroups env requests [],
          ∀ front, g.head? = some front → ∀ r ∈ g,
            r.depth = front.depth ∧ r.op_desc.backend = front.op_desc.backend
              ∧ r.device_set = front.device_set)
      ∧ (env.collective_boxing_conf.enable_fusion = false →
          ∀ g ∈ CollectiveBoxingExecutor.Init.roughGroups env requests [], g.length = 1) := by
  obtain ⟨r1, r2, r3, r4⟩ := Init_roughGroups_inv env requests []
    (by intro g hg; exact absurd hg (List.not_mem_nil _))
    (by intro g hg; exact absurd hg (List.not_mem_nil _))
    List.chain'_nil
  simp only [List.flatten_nil, List.nil_append] at r1
  have hjoin : ∀ (front r : RequestDesc), ¬ StartsRoughGroup env front r →
      env.collective_boxing_conf.enable_fusion = true ∧ r.depth = front.depth
        ∧ r.op_desc.backend = front.op_desc.backend ∧ r.device_set = front.device_set := by
    intro front r h
    unfold StartsRoughGroup at h
    simp only [not_or, Bool.not_eq_false, ne_eq, not_not] at h
    exact h
  refine ⟨r1, r2, ?_, r4, ?_, ?_, ?_⟩
  · intro first hfirst
    cases hG : CollectiveBoxingExecutor.Init.roughGroups env requests [] with
    | nil =>
      rw [hG] at r1
      rw [← r1] at hfirst
      simp at hfirst
    | cons g rest =>
      refine ⟨g, rfl, ?_⟩
      have hg : g ≠ [] := r2 g (by rw [hG]; exact List.mem_cons_self _ _)
      cases g with
      | nil => exact absurd rfl hg
      | cons x xs =>
        rw [hG] at r1
        rw [← r1] at hfirst
        simpa using hfirst
  · intro g hg front hfront r hr
    exact ⟨r3 g hg front hfront r hr, (hjoin front r (r3 g hg front hfront r hr)).1⟩
  · intro g hg front hfront r hr
    cases g with
    | nil => simp at hfront
    | cons x xs =>
      simp only [List.head?_cons, Option.some.injEq] at hfront
      subst hfront
      rcases List.mem_cons.mp hr with rfl | hr
      · exact ⟨rfl, rfl, rfl⟩
      · exact (hjoin x r (r3 (x :: xs) hg x rfl r hr)).2
  · intro hoff g hg
    cases g with
    | nil => exact absurd rfl (r2 [] hg)
    | cons x xs =>
      cases xs with
      | nil => rfl
      | cons y ys =>
        exfalso
        exact r3 (x :: y :: ys) hg x rfl y (List.mem_cons_self _ _) (Or.inl hoff)

/-- Witness of C26: with fusion enabled, the two requests of job 7 of `test.plan`, of the
same depth, backend and device set, make one rough group, and a request on another device
set behind them starts a second one. -/
theorem Init_roughGroups_spec_witness :
    CollectiveBoxingExecutor.Init.roughGroups (test.env 96)
        [test.request_48, test.request_80, test.all_reduce "c" 1024 test.device_set_b 2] []
        = [[test.request_48, test.request_80],
           [test.all_reduce "c" 1024 test.device_set_b 2]]
      ∧ (CollectiveBoxingExecutor.Init.roughGroups (test.env 96)
          [test.request_48, test.request_80,
           test.all_reduce "c" 1024 test.device_set_b 2] []).flatten
        = [test.request_48, test.request_80, test.all_reduce "c" 1024 test.device_set_b 2] :=
  ⟨by decide,
   (Init_roughGroups_spec (test.env 96)
      [test.request_48, test.request_80,
       test.all_reduce "c" 1024 test.device_set_b 2]).1⟩

/-! ## The primitives and the callbacks of `ExecuteGroup` -/

theorem ExecuteGroup_rank_spec (env : Env) (self : NcclCollectiveBoxingExecutorBackend)
    (stream_id : Int) (comms : List (Int × List Nat)) (request_desc : RequestDesc)
    (acc acc1 : List NcclCall × List (Int × List Nat)) (rank : Int)
    (request_info : RuntimeRequestInfo)
    (h : NcclCollectiveBoxingExecutorBackend.ExecuteGroup.rank env self stream_id comms
      request_desc acc (rank, request_info) = some acc1) :
    ∃ (device_id : Int) (call : NcclCall),
      pairDeviceId (request_desc, rank, request_info) = some device_id
        ∧ (self.device_id2stream_id2stream_.lookup device_id).bind
            (fun v => vectorAt v stream_id) = some call.stream
        ∧ (comms.lookup device_id).bind (fun v => vectorAt v stream_id) = some call.comm
        ∧ acc1.2 = pushCallback device_id request_info.callback acc.2
        ∧ acc1.1 = acc.1 ++ [call]
        ∧ IssuedFor env (request_desc, rank, request_info) call
        ∧ ¬ RefusedOp request_desc.op_desc
        ∧ ((request_desc.op_desc.op_type = OpType.kOpTypeAllGather
              ∨ request_desc.op_desc.op_type = OpType.kOpTypeReduceScatter) →
            request_desc.op_desc.num_ranks ≠ 0
              ∧ call.count = Int.tdiv (Shape.elem_cnt request_desc.op_desc.shape)
                  request_desc.op_desc.num_ranks) := by
  unfold NcclCollectiveBoxingExecutorBackend.ExecuteGroup.rank at h
  simp only at h
  split at h
  · exact absurd h (by simp)
  · rename_i device_desc hdev
    split at h
    · exact absurd h (by simp)
    · rename_i comm hcomm
      split at h
      · exact absurd h (by simp)
      · rename_i stream hstream
        have hpair : pairDeviceId (request_desc, rank, request_info)
            = some device_desc.device_id := by
          simp [pairDeviceId, hdev]
        split at h
        · -- all-reduce
          rename_i hop
          split at h
          · exact absurd h (by simp)
          · rename_i red hred
            simp only [Option.some.injEq] at h
            subst h
            have hsum : request_desc.op_desc.reduce_method
                = ReduceMethod.kReduceMethodSum := by
              unfold GetNcclReduceOp at hred
              by_contra hn
              simp [hn] at hred
            exact ⟨device_desc.device_id, _, hpair, hstream, hcomm, rfl, rfl,
              ⟨rfl, by simp [countArgument, hop], rfl, rfl, rfl, rfl⟩,
              by simp [RefusedOp, hop, hsum], by simp [hop]⟩
        · -- all-gather
          rename_i hop
          split at h
          · exact absurd h (by simp)
          · rename_i hdiv
            simp only [not_or, not_not] at hdiv
            simp only [Option.some.injEq] at h
            subst h
            have hd : request_desc.op_desc.num_ranks
                ∣ Shape.elem_cnt request_desc.op_desc.shape :=
              Int.dvd_of_tmod_eq_zero hdiv.2
            exact ⟨device_desc.device_id, _, hpair, hstream, hcomm, rfl, rfl,
              ⟨rfl, by simp [countArgument, hop, Int.tdiv_eq_ediv_of_dvd hd],
                rfl, rfl, rfl, rfl⟩,
              by simp [RefusedOp, hop, hd], fun _ => ⟨hdiv.1, rfl⟩⟩
        · -- reduce-scatter
          rename_i hop
          split at h
          · exact absurd h (by simp)
          · rename_i hdiv
            simp only [not_or, not_not] at hdiv
            split at h
            · exact absurd h (by simp)
            · rename_i red hred
              simp only [Option.some.injEq] at h
              subst h
              have hd : request_desc.op_desc.num_ranks
                  ∣ Shape.elem_cnt request_desc.op_desc.shape :=
                Int.dvd_of_tmod_eq_zero hdiv.2
              have hsum : request_desc.op_desc.reduce_method
                  = ReduceMethod.kReduceMethodSum := by
                unfold GetNcclReduceOp at hred
                by_contra hn
                simp [hn] at hred
              exact ⟨device_desc.device_id, _, hpair, hstream, hcomm, rfl, rfl,
                ⟨rfl, by simp [countArgument, hop, Int.tdiv_eq_ediv_of_dvd hd],
                  rfl, rfl, rfl, rfl⟩,
                by simp [RefusedOp, hop, hd, hsum], fun _ => ⟨hdiv.1, rfl⟩⟩
        · -- reduce
          rename_i hop
          split at h
          · exact absurd h (by simp)
          · rename_i red hred
            simp only [Option.some.injEq] at h
            subst h
            have hsum : request_desc.op_desc.reduce_method
                = ReduceMethod.kReduceMethodSum := by
              unfold GetNcclReduceOp at hred
              by_contra hn
              simp [hn] at hred
            exact ⟨device_desc.device_id, _, hpair, hstream, hcomm, rfl, rfl,
              ⟨rfl, by simp [countArgument, hop], rfl, rfl, rfl, rfl⟩,
              by simp [RefusedOp, hop, hsum], by simp [hop]⟩
        · -- broadcast
          rename_i hop
          simp only [Option.some.injEq] at h
          subst h
          exact ⟨device_desc.device_id, _, hpair, hstream, hcomm, rfl, rfl,
            ⟨rfl, by simp [countArgument, hop], rfl, rfl, rfl, rfl⟩,
            by simp [RefusedOp, hop], by simp [hop]⟩
        · exact absurd h (by simp)

theorem ExecuteGroup_rank_refused (env : Env) (self : NcclCollectiveBoxingExecutorBackend)
    (stream_id : Int) (comms : List (Int × List Nat)) (request_desc : RequestDesc)
    (acc : List NcclCall × List (Int × List Nat)) (rank : Int)
    (request_info : RuntimeRequestInfo) (hbad : RefusedOp request_desc.op_desc) :
    NcclCollectiveBoxingExecutorBackend.ExecuteGroup.rank env self stream_id comms
      request_desc acc (rank, request_info) = none := by
  cases h : NcclCollectiveBoxingExecutorBackend.ExecuteGroup.rank env self stream_id comms
      request_desc acc (rank, request_info) with
  | none => rfl
  | some acc1 =>
    obtain ⟨_, _, _, _, _, _, _, _, hok, _⟩ :=
      ExecuteGroup_rank_spec env self stream_id comms request_desc acc acc1 rank
        request_info h
    exact absurd hbad hok

theorem pushCallback_keys (d : Int) (c : Nat) (m : List (Int × List Nat)) (d1 : Int) :
    d1 ∈ (pushCallback d c m).map Prod.fst ↔ d1 = d ∨ d1 ∈ m.map Prod.fst := by
  induction m with
  | nil => simp [pushCallback]
  | cons entry rest ih =>
    simp only [pushCallback]
    split
    · rename_i heq
      simp only [List.map_cons, List.mem_cons]
      constructor
      · rintro (h | h)
        · exact Or.inr (Or.inl h)
        · exact Or.inr (Or.inr h)
      · rintro (h | h | h)
        · exact Or.inl (h.trans heq)
        · exact Or.inl h
        · exact Or.inr h
    · split
      · simp only [List.map_cons, List.mem_cons]
      · simp only [List.map_cons, List.mem_cons, ih]
        tauto

theorem pushCallback_sorted (d : Int) (c : Nat) (m : List (Int × List Nat))
    (hm : (m.map Prod.fst).Pairwise (fun a b => a < b)) :
    ((pushCallback d c m).map Prod.fst).Pairwise (fun a b => a < b) := by
  induction m with
  | nil => simp [pushCallback]
  | cons entry rest ih =>
    simp only [List.map_cons, List.pairwise_cons] at hm
    simp only [pushCallback]
    split
    · simp only [List.map_cons, List.pairwise_cons]
      exact hm
    · rename_i hne
      split
      · rename_i hlt
        simp only [List.map_cons, List.pairwise_cons, List.mem_cons]
        refine ⟨?_, hm⟩
        rintro a (rfl | ha)
        · exact hlt
        · exact lt_trans hlt (hm.1 a ha)
      · rename_i hnlt
        simp only [List.map_cons, List.pairwise_cons]
        refine ⟨?_, ih hm.2⟩
        intro a ha
        rcases (pushCallback_keys d c rest a).mp ha with rfl | ha
        · omega
        · exact hm.1 a ha

theorem pushCallback_lookup (d : Int) (c : Nat) (m : List (Int × List Nat))
    (hm : (m.map Prod.fst).Pairwise (fun a b => a < b)) (d1 : Int) :
    (pushCallback d c m).lookup d1
      = if d1 = d then some ((m.lookup d).getD [] ++ [c]) else m.lookup d1 := by
  induction m with
  | nil =>
    by_cases h : d1 = d
    · simp [pushCallback, List.lookup, h]
    · have : (d1 == d) = false := by simpa using h
      simp [pushCallback, List.lookup, h, this]
  | cons entry rest ih =>
    obtain ⟨k, v⟩ := entry
    simp only [List.map_cons, List.pairwise_cons] at hm
    simp only [pushCallback]
    split
    · rename_i heq
      subst heq
      by_cases h : d1 = d
      · subst h
        simp [List.lookup]
      · have : (d1 == d) = false := by simpa using h
        simp [List.lookup, this, h]
    · rename_i hne
      split
      · rename_i hlt
        by_cases h : d1 = d
        · subst h
          have h1 : (d1 == k) = false := by simpa using hne
          have h2 : rest.lookup d1 = none := by
            rw [List.lookup_eq_none_iff]
            intro p hp
            have := hm.1 p.1 (List.mem_map_of_mem _ hp)
            have : d1 ≠ p.1 := by omega
            simpa using this
          simp [List.lookup, h1, h2]
        · have : (d1 == d) = false := by simpa using h
          simp [List.lookup, this, h]
      · rename_i hnlt
        have hkd : (d == k) = false := by simpa using hne
        by_cases h : d1 = d
        · subst h
          simp only [List.lookup, hkd, if_true]
          rw [ih hm.2]
          simp
        · by_cases h1 : d1 = k
          · subst h1
            simp [List.lookup, h]
          · have h1' : (d1 == k) = false := by simpa using h1
            simp only [List.lookup, h1', if_neg h]
            rw [ih hm.2, if_neg h]

theorem pushCallback_perm (d : Int) (c : Nat) (m : List (Int × List Nat)) :
    ((pushCallback d c m).flatMap Prod.snd).Perm (m.flatMap Prod.snd ++ [c]) := by
  induction m with
  | nil => simp [pushCallback]
  | cons entry rest ih =>
    simp only [pushCallback]
    split
    · simp only [List.flatMap_cons, List.append_assoc]
      exact List.Perm.append_left _ List.perm_append_comm
    · split
      · simp only [List.flatMap_cons, List.flatMap_nil, List.append_nil]
        rw [show [c] ++ (entry.2 ++ rest.flatMap Prod.snd)
            = [c] ++ (entry.2 ++ rest.flatMap Prod.snd) from rfl]
        exact List.perm_append_comm
      · simp only [List.flatMap_cons, List.append_assoc]
        exact List.Perm.append_left _ ih

theorem lookup_of_mem_sorted (m : List (Int × List Nat))
    (hm : (m.map Prod.fst).Pairwise (fun a b => a < b)) (d : Int) (v : List Nat)
    (h : (d, v) ∈ m) : m.lookup d = some v := by
  induction m with
  | nil => exact absurd h (List.not_mem_nil _)
  | cons entry rest ih =>
    obtain ⟨k, w⟩ := entry
    simp only [List.map_cons, List.pairwise_cons] at hm
    rcases List.mem_cons.mp h with heq | hmem
    · simp only [Prod.mk.injEq] at heq
      obtain ⟨rfl, rfl⟩ := heq
      simp [List.lookup]
    · have hlt := hm.1 d (List.mem_map_of_mem Prod.fst hmem)
      have : (d == k) = false := by
        have : d ≠ k := by
          have := hlt
          simp only at this
          omega
        simpa using this
      simp only [List.lookup, this]
      exact ih hm.2 hmem

/-- The map of the callbacks after the pairs `devs`, each a device id and a callback, have
been noted in order: the device ids ascend, they are those of the pairs, the callbacks of a
device id are those of its pairs in order, and all callbacks together are those of the
pairs. -/
theorem pushCallback_foldl_spec (devs : List (Int × Nat)) :
    (((devs.foldl (fun m dc => pushCallback dc.1 dc.2 m) []).map Prod.fst).Pairwise
        (fun a b => a < b))
      ∧ (∀ d, d ∈ (devs.foldl (fun m dc => pushCallback dc.1 dc.2 m) []).map Prod.fst
          ↔ d ∈ devs.map Prod.fst)
      ∧ (∀ d, ((devs.foldl (fun m dc => pushCallback dc.1 dc.2 m) []).lookup d).getD []
          = (devs.filter (fun dc => decide (dc.1 = d))).map Prod.snd)
      ∧ ((devs.foldl (fun m dc => pushCallback dc.1 dc.2 m) []).flatMap Prod.snd).Perm
          (devs.map Prod.snd) := by
  induction devs using List.reverseRecOn with
  | nil => simp
  | append_singleton init x ih =>
    obtain ⟨i1, i2, i3, i4⟩ := ih
    simp only [List.foldl_append, List.foldl_cons, List.foldl_nil]
    refine ⟨pushCallback_sorted _ _ _ i1, ?_, ?_, ?_⟩
    · intro d
      rw [pushCallback_keys, i2]
      simp only [List.map_append, List.map_cons, List.map_nil, List.mem_append,
        List.mem_singleton]
      tauto
    · intro d
      rw [pushCallback_lookup _ _ _ i1]
      by_cases h : d = x.1
      · subst h
        rw [if_pos rfl]
        simp only [Option.getD_some, i3, List.filter_append, List.map_append]
        simp
      · rw [if_neg h, i3]
        have : decide (x.1 = d) = false := by
          simpa using (fun h1 => h h1.symm)
        simp [List.filter_append, List.filter_cons, this]
    · refine (pushCallback_perm _ _ _).trans ?_
      simp only [List.map_append, List.map_cons, List.map_nil]
      exact List.Perm.append_right _ i4

theorem ExecuteGroup_ranks_spec (env : Env) (self : NcclCollectiveBoxingExecutorBackend)
    (stream_id : Int) (comms : List (Int × List Nat)) (request_desc : RequestDesc) :
    ∀ (m : RankMap) (acc acc1 : List NcclCall × List (Int × List Nat)),
      NcclCollectiveBoxingExecutorBackend.ExecuteGroup.ranks env self stream_id comms
        request_desc m acc = some acc1 →
      ∃ (calls : List NcclCall) (devs : List (Int × Nat)),
        acc1.1 = acc.1 ++ calls
          ∧ acc1.2 = devs.foldl (fun m dc => pushCallback dc.1 dc.2 m) acc.2
          ∧ List.Forall₂ (IssuedOn env self stream_id comms)
              (m.map (fun e => (request_desc, e))) calls
          ∧ List.Forall₂ NotedFor (m.map (fun e => (request_desc, e))) devs := by
  intro m
  induction m with
  | nil =>
    intro acc acc1 h
    simp only [NcclCollectiveBoxingExecutorBackend.ExecuteGroup.ranks,
      Option.some.injEq] at h
    subst h
    exact ⟨[], [], by simp, rfl, List.Forall₂.nil, List.Forall₂.nil⟩
  | cons e rest ih =>
    intro acc acc1 h
    simp only [NcclCollectiveBoxingExecutorBackend.ExecuteGroup.ranks] at h
    split at h
    · exact absurd h (by simp)
    · rename_i acc0 h0
      obtain ⟨k, info⟩ := e
      obtain ⟨d, call, a1, a2, a3, a4, a5, a6, a7, a8⟩ :=
        ExecuteGroup_rank_spec env self stream_id comms request_desc acc acc0 k info h0
      obtain ⟨calls, devs, b1, b2, b3, b4⟩ := ih acc0 acc1 h
      refine ⟨call :: calls, (d, info.callback) :: devs, ?_, ?_, ?_, ?_⟩
      · rw [b1, a5]; simp
      · rw [b2, a4]; rfl
      · exact List.Forall₂.cons ⟨a6, a7, a8, d, a1, a2, a3⟩ b3
      · exact List.Forall₂.cons ⟨a1, rfl⟩ b4

theorem ExecuteGroup_ranks_refused (env : Env) (self : NcclCollectiveBoxingExecutorBackend)
    (stream_id : Int) (comms : List (Int × List Nat)) (request_desc : RequestDesc)
    (m : RankMap) (acc : List NcclCall × List (Int × List Nat)) (hm : m ≠ [])
    (hbad : RefusedOp request_desc.op_desc) :
    NcclCollectiveBoxingExecutorBackend.ExecuteGroup.ranks env self stream_id comms
      request_desc m acc = none := by
  cases m with
  | nil => exact absurd rfl hm
  | cons e rest =>
    obtain ⟨k, info⟩ := e
    simp only [NcclCollectiveBoxingExecutorBackend.ExecuteGroup.ranks,
      ExecuteGroup_rank_refused env self stream_id comms request_desc acc k info hbad]

theorem ExecuteGroup_requests_spec (env : Env) (self : NcclCollectiveBoxingExecutorBackend)
    (stream_id : Int) (comms : List (Int × List Nat)) :
    ∀ (l : List (RequestDesc × RankMap)) (acc acc1 : List NcclCall × List (Int × List Nat)),
      NcclCollectiveBoxingExecutorBackend.ExecuteGroup.requests env self stream_id comms
        l acc = some acc1 →
      ∃ (calls : List NcclCall) (devs : List (Int × Nat)),
        acc1.1 = acc.1 ++ calls
          ∧ acc1.2 = devs.foldl (fun m dc => pushCallback dc.1 dc.2 m) acc.2
          ∧ List.Forall₂ (IssuedOn env self stream_id comms)
              (l.flatMap (fun request7ranks =>
                request7ranks.2.map (fun e => (request7ranks.1, e)))) calls
          ∧ List.Forall₂ NotedFor
              (l.flatMap (fun request7ranks =>
                request7ranks.2.map (fun e => (request7ranks.1, e)))) devs := by
  intro l
  induction l with
  | nil =>
    intro acc acc1 h
    simp only [NcclCollectiveBoxingExecutorBackend.ExecuteGroup.requests,
      Option.some.injEq] at h
    subst h
    exact ⟨[], [], by simp, rfl, List.Forall₂.nil, List.Forall₂.nil⟩
  | cons rr rest ih =>
    intro acc acc1 h
    simp only [NcclCollectiveBoxingExecutorBackend.ExecuteGroup.requests] at h
    split at h
    · exact absurd h (by simp)
    · rename_i acc0 h0
      obtain ⟨calls0, devs0, a1, a2, a3, a4⟩ :=
        ExecuteGroup_ranks_spec env self stream_id comms rr.1 rr.2 acc acc0 h0
      obtain ⟨calls, devs, b1, b2, b3, b4⟩ := ih acc0 acc1 h
      refine ⟨calls0 ++ calls, devs0 ++ devs, ?_, ?_, ?_, ?_⟩
      · rw [b1, a1]; simp
      · rw [b2, a2, List.foldl_append]
      · rw [List.flatMap_cons]
        exact List.rel_append a3 b3
      · rw [List.flatMap_cons]
        exact List.rel_append a4 b4

theorem ExecuteGroup_requests_refused (env : Env)
    (self : NcclCollectiveBoxingExecutorBackend) (stream_id : Int)
    (comms : List (Int × List Nat)) :
    ∀ (l : List (RequestDesc × RankMap)) (acc : List NcclCall × List (Int × List Nat)),
      (∃ request7ranks ∈ l, request7ranks.2 ≠ [] ∧ RefusedOp request7ranks.1.op_desc) →
      NcclCollectiveBoxingExecutorBackend.ExecuteGroup.requests env self stream_id comms
        l acc = none := by
  intro l
  induction l with
  | nil =>
    rintro acc ⟨rr, hrr, _⟩
    exact absurd hrr (List.not_mem_nil _)
  | cons rr rest ih =>
    rintro acc ⟨bad, hmem, hne, hbad⟩
    simp only [NcclCollectiveBoxingExecutorBackend.ExecuteGroup.requests]
    cases h0 : NcclCollectiveBoxingExecutorBackend.ExecuteGroup.ranks env self stream_id
        comms rr.1 rr.2 acc with
    | none => rfl
    | some acc0 =>
      rcases List.mem_cons.mp hmem with rfl | hmem
      · rw [ExecuteGroup_ranks_refused env self stream_id comms bad.1 bad.2 acc hne hbad]
          at h0
        exact absurd h0 (by simp)
      · exact ih acc0 ⟨bad, hmem, hne, hbad⟩

theorem ExecuteGroup_events_spec (stream_id : Int) :
    ∀ (m : List (Int × List Nat)) (self self1 : NcclCollectiveBoxingExecutorBackend),
      NcclCollectiveBoxingExecutorBackend.ExecuteGroup.events stream_id m self
        = some self1 →
      ∃ new : List Event, self1.event_list_ = self.event_list_ ++ new
        ∧ new.map (fun ev => (ev.device_id, ev.callback)) = m
        ∧ self1.nccl_calls = self.nccl_calls := by
  intro m
  induction m with
  | nil =>
    intro self self1 h
    simp only [NcclCollectiveBoxingExecutorBackend.ExecuteGroup.events,
      Option.some.injEq] at h
    subst h
    exact ⟨[], by simp, rfl, rfl⟩
  | cons entry rest ih =>
    intro self self1 h
    simp only [NcclCollectiveBoxingExecutorBackend.ExecuteGroup.events] at h
    split at h
    · exact absurd h (by simp)
    · obtain ⟨new, h1, h2, h3⟩ := ih _ self1 h
      refine ⟨{ device_id := entry.1, cuda_event := self.next_cuda_event,
                callback := entry.2 } :: new, ?_, ?_, h3⟩
      · rw [h1]
        simp only [List.append_assoc, List.singleton_append]
      · simp only [List.map_cons, h2]

theorem ExecuteGroup_spec (env : Env) (self self1 : NcclCollectiveBoxingExecutorBackend)
    (group : List RequestDesc) (ranks : List RankMap)
    (h : NcclCollectiveBoxingExecutorBackend.ExecuteGroup env self group ranks = some self1) :
    ∃ (calls : List NcclCall) (devs : List (Int × Nat)) (new : List Event)
      (comms : List (Int × List Nat)),
      self1.nccl_calls = self.nccl_calls ++ calls
        ∧ self1.event_list_ = self.event_list_ ++ new
        ∧ new.map (fun ev => (ev.device_id, ev.callback))
            = devs.foldl (fun m dc => pushCallback dc.1 dc.2 m) []
        ∧ List.Forall₂ (IssuedOn env self self.current_stream_id_ comms)
            (groupPairs group ranks) calls
        ∧ List.Forall₂ NotedFor (groupPairs group ranks) devs := by
  unfold NcclCollectiveBoxingExecutorBackend.ExecuteGroup at h
  split at h
  · exact absurd h (by simp)
  · split at h
    · simp only [Option.some.injEq] at h
      subst h
      exact ⟨[], [], [], [], by simp, by simp, rfl, by simp [groupPairs],
        by simp [groupPairs]⟩
    · rename_i front rest
      simp only at h
      split at h
      · exact absurd h (by simp)
      · rename_i table htable
        split at h
        · exact absurd h (by simp)
        · rename_i r hr
          obtain ⟨calls, devs, a1, a2, a3, a4⟩ :=
            ExecuteGroup_requests_spec env _ _ _ _ _ _ hr
          obtain ⟨new, b1, b2, b3⟩ := ExecuteGroup_events_spec _ _ _ _ h
          refine ⟨calls, devs, new, table.device_id2stream_id2comm, ?_, b1, ?_, a3, a4⟩
          · rw [b3]
            simp only [a1, List.nil_append]
          · rw [b2, a2]

theorem Forall2_mem_left {α β : Type} {R : α → β → Prop} {l1 : List α} {l2 : List β}
    (h : List.Forall₂ R l1 l2) : ∀ a ∈ l1, ∃ b ∈ l2, R a b := by
  induction h with
  | nil => intro a ha; exact absurd ha (List.not_mem_nil _)
  | cons hab _ ih =>
    intro a ha
    rcases List.mem_cons.mp ha with rfl | ha
    · exact ⟨_, List.mem_cons_self _ _, hab⟩
    · obtain ⟨b, hb, hr⟩ := ih a ha
      exact ⟨b, List.mem_cons_of_mem _ hb, hr⟩

theorem NotedFor_spec {pairs : List (RequestDesc × Int × RuntimeRequestInfo)}
    {devs : List (Int × Nat)} (h : List.Forall₂ NotedFor pairs devs) :
    devs.map Prod.snd = pairs.map (fun pair => pair.2.2.callback)
      ∧ (∀ d, d ∈ devs.map Prod.fst ↔ ∃ pair ∈ pairs, pairDeviceId pair = some d)
      ∧ (∀ pair ∈ pairs, ∃ d, pairDeviceId pair = some d)
      ∧ ∀ d, (devs.filter (fun dc => decide (dc.1 = d))).map Prod.snd
          = (pairs.filter (fun pair => decide (pairDeviceId pair = some d))).map
              (fun pair => pair.2.2.callback) := by
  induction h with
  | nil => simp
  | @cons pair dc pairs devs hab _ ih =>
    obtain ⟨i1, i2, i3, i4⟩ := ih
    obtain ⟨n1, n2⟩ := hab
    refine ⟨?_, ?_, ?_, ?_⟩
    · simp only [List.map_cons, i1, n2]
    · intro d
      simp only [List.map_cons, List.mem_cons, i2, exists_eq_or_imp, n1, Option.some.injEq]
      constructor
      · rintro (h | h)
        · exact Or.inl h.symm
        · exact Or.inr h
      · rintro (h | h)
        · exact Or.inl h.symm
        · exact Or.inr h
    · intro p hp
      rcases List.mem_cons.mp hp with rfl | hp
      · exact ⟨dc.1, n1⟩
      · exact i3 p hp
    · intro d
      by_cases hd : dc.1 = d
      · have : decide (pairDeviceId pair = some d) = true := by
          simp [n1, hd]
        simp only [List.filter_cons, hd, decide_True, if_true, this, List.map_cons, n2]
        rw [← i4 d]
      · have : decide (pairDeviceId pair = some d) = false := by
          simp [n1, hd]
        have hd' : decide (dc.1 = d) = false := by simpa using hd
        simp only [List.filter_cons, hd', this, Bool.false_eq_true, if_false]
        exact i4 d

theorem mem_groupPairs (group : List RequestDesc) (ranks : List RankMap)
    (pair : RequestDesc × Int × RuntimeRequestInfo) (h : pair ∈ groupPairs group ranks) :
    ∃ request7ranks ∈ group.zip ranks, request7ranks.2 ≠ [] ∧ request7ranks.1 = pair.1 := by
  unfold groupPairs at h
  rw [List.mem_flatMap] at h
  obtain ⟨rr, hrr, hp⟩ := h
  rw [List.mem_map] at hp
  obtain ⟨e, he, rfl⟩ := hp
  exact ⟨rr, hrr, List.ne_nil_of_mem he, rfl⟩

/-- C27: the count argument of the collective primitives.  When `ExecuteGroup` returns, it
has issued one primitive for each (request, rank) pair of the group, in the order of the
pairs; the primitive of a pair has the kind, the buffers, the data type and the root of the
pair, and its count is the number of elements for an all-reduce, a reduce and a broadcast
and the number of elements divided by the number of ranks for an all-gather and a
reduce-scatter; no operation of a pair is one that is refused.  When the group has a pair
whose kind is an all-gather or a reduce-scatter with a number of ranks that does not divide
the number of elements, or is none of the five kinds, or is a reducing one with a reduce
method other than the sum, `ExecuteGroup` fails. -/
theorem ExecuteGroup_count_argument (env : Env) (self : NcclCollectiveBoxingExecutorBackend)
    (group : List RequestDesc) (ranks : List RankMap) :
    (∀ self1,
        NcclCollectiveBoxingExecutorBackend.ExecuteGroup env self group ranks = some self1 →
        ∃ calls : List NcclCall, self1.nccl_calls = self.nccl_calls ++ calls
          ∧ List.Forall₂ (IssuedFor env) (groupPairs group ranks) calls
          ∧ ∀ pair ∈ groupPairs group ranks, ¬ RefusedOp pair.1.op_desc)
      ∧ ((∃ pair ∈ groupPairs group ranks, RefusedOp pair.1.op_desc) →
          NcclCollectiveBoxingExecutorBackend.ExecuteGroup env self group ranks = none) := by
  have main : ∀ self1,
      NcclCollectiveBoxingExecutorBackend.ExecuteGroup env self group ranks = some self1 →
      ∃ calls : List NcclCall, self1.nccl_calls = self.nccl_calls ++ calls
        ∧ List.Forall₂ (IssuedFor env) (groupPairs group ranks) calls
        ∧ ∀ pair ∈ groupPairs group ranks, ¬ RefusedOp pair.1.op_desc := by
    intro self1 h
    obtain ⟨calls, devs, new, comms, h1, _, _, h4, _⟩ :=
      ExecuteGroup_spec env self self1 group ranks h
    refine ⟨calls, h1, h4.imp (fun _ _ hr => hr.1), ?_⟩
    intro pair hpair
    obtain ⟨call, _, hr⟩ := Forall2_mem_left h4 pair hpair
    exact hr.2.1
  refine ⟨main, ?_⟩
  rintro ⟨pair, hpair, hbad⟩
  cases h : NcclCollectiveBoxingExecutorBackend.ExecuteGroup env self group ranks with
  | none => rfl
  | some self1 =>
    obtain ⟨_, _, _, hok⟩ := main self1 h
    exact absurd hbad (hok pair hpair)

/-- Witness of C27: `ExecuteGroup` for the two all-reduce requests of job 7 of `test.plan`
with two ranks each issues four primitives, with the numbers of elements of the requests as
counts; for an all-gather of 4 elements over two ranks the counts are 2; it fails for an
all-gather of 3 elements over two ranks. -/
theorem ExecuteGroup_count_argument_witness :
    test.backend_executed.nccl_calls.map (fun call => (call.op_type, call.count))
        = [(OpType.kOpTypeAllReduce, 12582912), (OpType.kOpTypeAllReduce, 12582912),
           (OpType.kOpTypeAllReduce, 20971520), (OpType.kOpTypeAllReduce, 20971520)]
      ∧ (∃ calls : List NcclCall,
          test.backend_executed.nccl_calls = (test.backend_ready 96).nccl_calls ++ calls
            ∧ List.Forall₂ (IssuedFor (test.env 96))
                (groupPairs [test.request_48, test.request_80]
                  [[(0, test.info 10), (1, test.info 11)],
                   [(0, test.info 20), (1, test.info 21)]]) calls
            ∧ ∀ pair ∈ groupPairs [test.request_48, test.request_80]
                  [[(0, test.info 10), (1, test.info 11)],
                   [(0, test.info 20), (1, test.info 21)]],
                ¬ RefusedOp pair.1.op_desc)
      ∧ (NcclCollectiveBoxingExecutorBackend.ExecuteGroup (test.env 96)
            (test.backend_ready 96) [test.all_gather "g" 4]
            [[(0, test.info 1), (1, test.info 2)]]).map
          (fun backend => backend.nccl_calls.map (fun call => (call.op_type, call.count)))
          = some [(OpType.kOpTypeAllGather, 2), (OpType.kOpTypeAllGather, 2)]
      ∧ NcclCollectiveBoxingExecutorBackend.ExecuteGroup (test.env 96)
          (test.backend_ready 96) [test.all_gather "g" 3]
          [[(0, test.info 1), (1, test.info 2)]] = none :=
  ⟨by decide,
   (ExecuteGroup_count_argument (test.env 96) (test.backend_ready 96)
      [test.request_48, test.request_80]
      [[(0, test.info 10), (1, test.info 11)], [(0, test.info 20), (1, test.info 21)]]).1
      test.backend_executed rfl,
   by decide,
   (ExecuteGroup_count_argument (test.env 96) (test.backend_ready 96)
      [test.all_gather "g" 3] [[(0, test.info 1), (1, test.info 2)]]).2
      ⟨(test.all_gather "g" 3, 0, test.info 1), by simp [groupPairs],
        Or.inr (Or.inl ⟨Or.inl rfl, by decide⟩)⟩⟩

/-- C28: the callbacks are aggregated per device.  When `ExecuteGroup` returns, every
(request, rank) pair of the group is located on a device, and the call has put entries at
the back of the event list: one entry for each device id on which a pair is located, by
ascending device id, so that no two entries are for the same device.  Given a status, the
callback of the entry for a device invokes the callbacks of the pairs located on that
device, each once, in the order of the pairs, with that status.  The callbacks of the new
entries together are the callbacks of the pairs, each as often as it is enqueued. -/
theorem ExecuteGroup_callbacks_per_device (env : Env)
    (self self1 : NcclCollectiveBoxingExecutorBackend) (group : List RequestDesc)
    (ranks : List RankMap)
    (h : NcclCollectiveBoxingExecutorBackend.ExecuteGroup env self group ranks = some self1) :
    ∃ new : List Event, self1.event_list_ = self.event_list_ ++ new
      ∧ (new.map Event.device_id).Pairwise (fun a b => a < b)
      ∧ (new.map Event.device_id).Nodup
      ∧ (∀ device_id, device_id ∈ new.map Event.device_id
          ↔ ∃ pair ∈ groupPairs group ranks, pairDeviceId pair = some device_id)
      ∧ (∀ pair ∈ groupPairs group ranks, ∃ device_id, pairDeviceId pair = some device_id)
      ∧ (∀ ev ∈ new, ∀ status, ev.call status
          = ((groupPairs group ranks).filter
              (fun pair => decide (pairDeviceId pair = some ev.device_id))).map
              (fun pair => (pair.2.2.callback, status)))
      ∧ (new.flatMap Event.callback).Perm
          ((groupPairs group ranks).map (fun pair => pair.2.2.callback)) := by
  obtain ⟨calls, devs, new, comms, _, h2, h3, _, h5⟩ :=
    ExecuteGroup_spec env self self1 group ranks h
  obtain ⟨n1, n2, n3, n4⟩ := NotedFor_spec h5
  obtain ⟨p1, p2, p3, p4⟩ := pushCallback_foldl_spec devs
  have hfst : new.map Event.device_id
      = (devs.foldl (fun m dc => pushCallback dc.1 dc.2 m) []).map Prod.fst := by
    rw [← h3, List.map_map]
    rfl
  have hsnd : new.flatMap Event.callback
      = (devs.foldl (fun m dc => pushCallback dc.1 dc.2 m) []).flatMap Prod.snd := by
    rw [← h3]
    simp only [List.flatMap, List.map_map]
    rfl
  refine ⟨new, h2, ?_, ?_, ?_, n3, ?_, ?_⟩
  · rw [hfst]; exact p1
  · rw [hfst]
    exact p1.imp (fun hab => ne_of_lt hab)
  · intro d
    rw [hfst, p2, n2]
  · intro ev hev status
    have hmem : (ev.device_id, ev.callback)
        ∈ devs.foldl (fun m dc => pushCallback dc.1 dc.2 m) [] := by
      rw [← h3]
      exact List.mem_map_of_mem (fun ev => (ev.device_id, ev.callback)) hev
    have hl := lookup_of_mem_sorted _ p1 _ _ hmem
    have hcb := p3 ev.device_id
    rw [hl, Option.getD_some, n4] at hcb
    unfold Event.call
    rw [hcb, List.map_map]
    rfl
  · rw [hsnd, ← n1]
    exact p4

/-- Witness of C28: `ExecuteGroup` for the two requests of job 7 of `test.plan`, each with
the ranks 0 and 1 on the devices 0 and 1, puts two entries on the empty event list: the
entry of device 0 with the callbacks 10 and 20 of the ranks 0, and the entry of device 1
with the callbacks 11 and 21 of the ranks 1. -/
theorem ExecuteGroup_callbacks_per_device_witness :
    (test.backend_ready 96).event_list_ = []
      ∧ test.backend_executed.event_list_
        = [{ device_id := 0, cuda_event := 0, callback := [10, 20] },
           { device_id := 1, cuda_event := 1, callback := [11, 21] }]
      ∧ ∃ new : List Event,
          test.backend_executed.event_list_ = (test.backend_ready 96).event_list_ ++ new
            ∧ (new.map Event.device_id).Pairwise (fun a b => a < b)
            ∧ (new.map Event.device_id).Nodup
            ∧ (∀ device_id, device_id ∈ new.map Event.device_id
                ↔ ∃ pair ∈ groupPairs [test.request_48, test.request_80]
                    [[(0, test.info 10), (1, test.info 11)],
                     [(0, test.info 20), (1, test.info 21)]],
                  pairDeviceId pair = some device_id)
            ∧ (∀ pair ∈ groupPairs [test.request_48, test.request_80]
                    [[(0, test.info 10), (1, test.info 11)],
                     [(0, test.info 20), (1, test.info 21)]],
                ∃ device_id, pairDeviceId pair = some device_id)
            ∧ (∀ ev ∈ new, ∀ status, ev.call status
                = ((groupPairs [test.request_48, test.request_80]
                    [[(0, test.info 10), (1, test.info 11)],
                     [(0, test.info 20), (1, test.info 21)]]).filter
                    (fun pair => decide (pairDeviceId pair = some ev.device_id))).map
                    (fun pair => (pair.2.2.callback, status)))
            ∧ (new.flatMap Event.callback).Perm
                ((groupPairs [test.request_48, test.request_80]
                    [[(0, test.info 10), (1, test.info 11)],
                     [(0, test.info 20), (1, test.info 21)]]).map
                  (fun pair => pair.2.2.callback)) :=
  ⟨rfl, rfl,
   ExecuteGroup_callbacks_per_device (test.env 96) (test.backend_ready 96)
     test.backend_executed [test.request_48, test.request_80]
     [[(0, test.info 10), (1, test.info 11)], [(0, test.info 20), (1, test.info 21)]] rfl⟩

/-! ## `Enqueue` rejects bad arrivals -/

theorem Init_addRequests_names (env : Env) (job_id : Int) (group_id : Nat)
    (l : List RequestDesc) :
    ∀ (e : CollectiveBoxingExecutor) (ids : List Nat)
      (r : CollectiveBoxingExecutor × List Nat),
      e.name2request_id_.length = e.request_id2request_state_.length →
      (∀ p ∈ e.name2request_id_, p.2 < e.request_id2request_state_.length) →
      CollectiveBoxingExecutor.Init.addRequests env job_id group_id l e ids = some r →
      r.1.name2request_id_.length = r.1.request_id2request_state_.length
        ∧ ∀ p ∈ r.1.name2request_id_, p.2 < r.1.request_id2request_state_.length := by
  induction l with
  | nil =>
    intro e ids r h1 h2 h
    simp only [CollectiveBoxingExecutor.Init.addRequests, Option.some.injEq] at h
    subst h
    exact ⟨h1, h2⟩
  | cons request rest ih =>
    intro e ids r h1 h2 h
    unfold CollectiveBoxingExecutor.Init.addRequests at h
    dsimp only at h
    split at h
    · exact absurd h (by simp)
    · refine ih _ _ r ?_ ?_ h
      · simp only [List.length_append, List.length_singleton, h1]
      · intro p hp
        simp only [List.length_append, List.length_singleton]
        rcases List.mem_append.mp hp with hp | hp
        · exact Nat.lt_succ_of_lt (h2 p hp)
        · rw [List.mem_singleton.mp hp]
          simp only [h1]
          exact Nat.lt_succ_self _

theorem Init_addGroups_names (env : Env) (job_id : Int) (backend : Backend)
    (groups : List (List RequestDesc)) :
    ∀ (e e1 : CollectiveBoxingExecutor),
      e.name2request_id_.length = e.request_id2request_state_.length →
      (∀ p ∈ e.name2request_id_, p.2 < e.request_id2request_state_.length) →
      CollectiveBoxingExecutor.Init.addGroups env job_id backend groups e = some e1 →
      e1.name2request_id_.length = e1.request_id2request_state_.length
        ∧ ∀ p ∈ e1.name2request_id_, p.2 < e1.request_id2request_state_.length := by
  induction groups with
  | nil =>
    intro e e1 h1 h2 h
    simp only [CollectiveBoxingExecutor.Init.addGroups, Option.some.injEq] at h
    subst h
    exact ⟨h1, h2⟩
  | cons group rest ih =>
    intro e e1 h1 h2 h
    simp only [CollectiveBoxingExecutor.Init.addGroups] at h
    split at h
    · exact absurd h (by simp)
    · rename_i r hr
      obtain ⟨a1, a2⟩ := Init_addRequests_names env job_id _ group e [] r h1 h2 hr
      exact ih _ e1 (by exact a1) (by exact a2) h

theorem Init_addRoughGroups_names (env : Env) (job_id : Int)
    (rough_groups : List (List RequestDesc)) :
    ∀ (e e1 : CollectiveBoxingExecutor),
      e.name2request_id_.length = e.request_id2request_state_.length →
      (∀ p ∈ e.name2request_id_, p.2 < e.request_id2request_state_.length) →
      CollectiveBoxingExecutor.Init.addRoughGroups env job_id rough_groups e = some e1 →
      e1.name2request_id_.length = e1.request_id2request_state_.length
        ∧ ∀ p ∈ e1.name2request_id_, p.2 < e1.request_id2request_state_.length := by
  induction rough_groups with
  | nil =>
    intro e e1 h1 h2 h
    simp only [CollectiveBoxingExecutor.Init.addRoughGroups, Option.some.injEq] at h
    subst h
    exact ⟨h1, h2⟩
  | cons rough_group rest ih =>
    intro e e1 h1 h2 h
    simp only [CollectiveBoxingExecutor.Init.addRoughGroups] at h
    split at h
    · exact absurd h (by simp)
    · split at h
      · exact absurd h (by simp)
      · split at h
        · exact absurd h (by simp)
        · rename_i e0 h0
          obtain ⟨a1, a2⟩ := Init_addGroups_names env job_id _ _ e e0 h1 h2 h0
          exact ih e0 e1 a1 a2 h

theorem Init_jobs_names (env : Env) (jobs : List (Int × List RequestDesc)) :
    ∀ (e e1 : CollectiveBoxingExecutor),
      e.name2request_id_.length = e.request_id2request_state_.length →
      (∀ p ∈ e.name2request_id_, p.2 < e.request_id2request_state_.length) →
      CollectiveBoxingExecutor.Init.jobs env jobs e = some e1 →
      e1.name2request_id_.length = e1.request_id2request_state_.length
        ∧ ∀ p ∈ e1.name2request_id_, p.2 < e1.request_id2request_state_.length := by
  induction jobs with
  | nil =>
    intro e e1 h1 h2 h
    simp only [CollectiveBoxingExecutor.Init.jobs, Option.some.injEq] at h
    subst h
    exact ⟨h1, h2⟩
  | cons job rest ih =>
    intro e e1 h1 h2 h
    simp only [CollectiveBoxingExecutor.Init.jobs] at h
    split at h
    · exact absurd h (by simp)
    · rename_i e0 h0
      unfold CollectiveBoxingExecutor.Init.job at h0
      dsimp only at h0
      split at h0
      · exact absurd h0 (by simp)
      · obtain ⟨a1, a2⟩ := Init_addRoughGroups_names env _ _ e e0 h1 h2 h0
        exact ih e0 e1 a1 a2 h

theorem mem_of_lookup_eq_some {β : Type} (name : String) (v : β) (l : List (String × β))
    (h : l.lookup name = some v) : (name, v) ∈ l := by
  induction l with
  | nil => simp [List.lookup] at h
  | cons entry rest ih =>
    obtain ⟨k, w⟩ := entry
    simp only [List.lookup] at h
    split at h
    · rename_i heq
      simp only [Option.some.injEq] at h
      have : name = k := by simpa using heq
      rw [this, h]
      exact List.mem_cons_self _ _
    · exact List.mem_cons_of_mem _ (ih h)

/-- On an executor made by `Init` and calls of `Enqueue`, a name that is registered names a
request that exists. -/
theorem Enqueued_names (env : Env) (plan : CollectiveBoxingPlan)
    (backend : NcclCollectiveBoxingExecutorBackend) (e0 e : CollectiveBoxingExecutor)
    (hinit : CollectiveBoxingExecutor.Init env (CollectiveBoxingExecutor.blank plan backend)
      = some e0)
    (hs : SameTables e0 e) (name : String) (r : Nat)
    (h : e.name2request_id_.lookup name = some r) :
    ∃ st : RequestState, e.request_id2request_state_[r]? = some st := by
  obtain ⟨_, a2⟩ := Init_jobs_names env plan.job_id2request_set _ e0 rfl
    (by intro p hp; exact absurd hp (List.not_mem_nil _)) hinit
  rw [hs.name2request_id] at h
  have hlt := a2 _ (mem_of_lookup_eq_some name r _ h)
  have hlen : e.request_id2request_state_.length = e0.request_id2request_state_.length := by
    have := congrArg List.length hs.request
    simpa using this
  simp only at hlt
  rw [← hlen] at hlt
  exact ⟨e.request_id2request_state_[r], List.getElem?_eq_getElem hlt⟩

/-- The first block of `Enqueue` returns when the request is known, belongs to the job in
flight if there is one, and the rank is a local rank of the planned operation that has not
arrived yet; the rank is registered, and the request is marked ready in its group when all
its local ranks have arrived. -/
theorem Enqueue_arrive_returns (e : CollectiveBoxingExecutor) (hc : EnqueueCore e)
    (rank_desc : RankDesc) (request_info : RuntimeRequestInfo) (r : Nat) (st : RequestState)
    (hr : e.name2request_id_.lookup rank_desc.op_desc.name = some r)
    (hst : e.request_id2request_state_[r]? = some st)
    (hjob : e.current_job_id_ = -1 ∨ e.current_job_id_ = st.job_id)
    (hlocal : rank_desc.rank ∈ st.local_ranks)
    (hop : rank_desc.op_desc = st.request_desc.op_desc)
    (hnew : rank_desc.rank ∉ st.ready_ranks.map Prod.fst) :
    ∃ (e1 : CollectiveBoxingExecutor) (gs : GroupState),
      CollectiveBoxingExecutor.Enqueue.arrive e rank_desc request_info = some e1
        ∧ e.group_id2group_state_[st.group_id]? = some gs
        ∧ r ∈ gs.request_ids ∧ r ∉ gs.ready_request_ids
        ∧ e1.request_id2request_state_ = e.request_id2request_state_.set r
            { st with
              ready_ranks := RankMap.insert rank_desc.rank request_info st.ready_ranks }
        ∧ ((RankMap.insert rank_desc.rank request_info st.ready_ranks).length
              = st.local_ranks.length →
            e1.group_id2group_state_ = e.group_id2group_state_.set st.group_id
              { gs with ready_request_ids := setInsert r gs.ready_request_ids })
        ∧ ((RankMap.insert rank_desc.rank request_info st.ready_ranks).length
              ≠ st.local_ranks.length →
            e1.group_id2group_state_ = e.group_id2group_state_) := by
  obtain ⟨hnodup, hsub⟩ := hc.keys r st hst
  -- not all local ranks have arrived
  have hlt : st.ready_ranks.length < st.local_ranks.length := by
    have hle : (st.ready_ranks.map Prod.fst).length ≤ st.local_ranks.length :=
      (List.subperm_of_subset hnodup hsub).length_le
    rw [List.length_map] at hle
    rcases Nat.lt_or_ge st.ready_ranks.length st.local_ranks.length with h | h
    · exact h
    · exfalso
      apply hnew
      exact perm_of_nodup_subset_length hnodup hsub
        (by rw [List.length_map]; omega) _ hlocal
  obtain ⟨gs, hgs, hmem⟩ := hc.wf.group r st hst
  have hnotready : r ∉ gs.ready_request_ids := by
    intro hin
    obtain ⟨_, st1, hst1, hready⟩ := (hc.ready st.group_id gs hgs).2 r hin
    rw [hst] at hst1
    simp only [Option.some.injEq] at hst1
    subst hst1
    simp only [RequestState.IsReady, decide_eq_true_eq] at hready
    omega
  have hadd : st.AddReadyRank rank_desc request_info
      = some { st with
          ready_ranks := RankMap.insert rank_desc.rank request_info st.ready_ranks } := by
    unfold RequestState.AddReadyRank
    rw [if_neg (by simpa using hlocal), if_neg (by simpa using hop),
      if_neg (by simpa using hlt), if_neg hnew]
  have haddreq : gs.AddReadyRequest r
      = some { gs with ready_request_ids := setInsert r gs.ready_request_ids } := by
    unfold GroupState.AddReadyRequest
    rw [if_neg (by simpa using hmem), if_neg hnotready]
  by_cases hfull : (RankMap.insert rank_desc.rank request_info st.ready_ranks).length
      = st.local_ranks.length
  · have hisready : RequestState.IsReady { st with
        ready_ranks := RankMap.insert rank_desc.rank request_info st.ready_ranks }
        = true := by
      simp [RequestState.IsReady, hfull]
    by_cases hj1 : e.current_job_id_ = -1
    · unfold CollectiveBoxingExecutor.Enqueue.arrive
      simp only [hr, hst, if_pos hj1, hadd, hisready, if_true, hgs, haddreq]
      exact ⟨_, gs, rfl, rfl, hmem, hnotready, rfl, fun _ => rfl,
        fun hne => absurd hfull hne⟩
    · have hj : e.current_job_id_ = st.job_id := by
        rcases hjob with h | h
        · exact absurd h hj1
        · exact h
      unfold CollectiveBoxingExecutor.Enqueue.arrive
      simp only [hr, hst, if_neg hj1, if_pos hj, hadd, hisready, if_true, hgs, haddreq]
      exact ⟨_, gs, rfl, rfl, hmem, hnotready, rfl, fun _ => rfl,
        fun hne => absurd hfull hne⟩
  · have hisready : RequestState.IsReady { st with
        ready_ranks := RankMap.insert rank_desc.rank request_info st.ready_ranks }
        = false := by
      simp [RequestState.IsReady, hfull]
    by_cases hj1 : e.current_job_id_ = -1
    · unfold CollectiveBoxingExecutor.Enqueue.arrive
      simp only [hr, hst, if_pos hj1, hadd, hisready, Bool.false_eq_true, if_false]
      exact ⟨_, gs, rfl, hgs, hmem, hnotready, rfl, fun h => absurd h hfull,
        fun _ => rfl⟩
    · have hj : e.current_job_id_ = st.job_id := by
        rcases hjob with h | h
        · exact absurd h hj1
        · exact h
      unfold CollectiveBoxingExecutor.Enqueue.arrive
      simp only [hr, hst, if_neg hj1, if_pos hj, hadd, hisready, Bool.false_eq_true,
        if_false]
      exact ⟨_, gs, rfl, hgs, hmem, hnotready, rfl, fun h => absurd h hfull,
        fun _ => rfl⟩

/-- C30, as amended: the arrivals that `Enqueue` rejects.  Let the executor be made by
`Init` of a plan without a job of id -1, followed by any sequence of successful calls of
`Enqueue`, and consider one more call.  (1) Its first block fails exactly when the op name
of `rank_desc` is not in `name2request_id_`, or the name is that of a request such that a
job is in flight to which the request does not belong, the rank is not one of the local
ranks of the request, the operation differs from the planned one, or the rank is among the
ready ranks of the request.  (2) The ready ranks of a request are the ranks registered for
it since the last execution of its group.  (3) When the first block fails `Enqueue` fails;
no group is executed before.  (4) When the first block returns, the pair of the rank and
its runtime information has been inserted into the ready ranks of the request, and the
request id has been inserted into the ready request ids of its group, in which it was not,
exactly when the size of the ready ranks has reached that of the local ranks; no other
request and no other group has changed. -/
theorem Enqueue_rejects_bad_arrivals (env : Env) (plan : CollectiveBoxingPlan)
    (backend : NcclCollectiveBoxingExecutorBackend) (e0 e : CollectiveBoxingExecutor)
    (hjobs : ∀ job ∈ plan.job_id2request_set, job.1 ≠ -1)
    (hinit : CollectiveBoxingExecutor.Init env (CollectiveBoxingExecutor.blank plan backend)
      = some e0)
    (hrun : Enqueued env e0 e) (rank_desc : RankDesc) (request_info : RuntimeRequestInfo) :
    (CollectiveBoxingExecutor.Enqueue.arrive e rank_desc request_info = none
        ↔ e.name2request_id_.lookup rank_desc.op_desc.name = none
          ∨ ∃ (r : Nat) (st : RequestState),
              e.name2request_id_.lookup rank_desc.op_desc.name = some r
                ∧ e.request_id2request_state_[r]? = some st
                ∧ ((e.current_job_id_ ≠ -1 ∧ e.current_job_id_ ≠ st.job_id)
                    ∨ rank_desc.rank ∉ st.local_ranks
                    ∨ rank_desc.op_desc ≠ st.request_desc.op_desc
                    ∨ rank_desc.rank ∈ st.ready_ranks.map Prod.fst))
      ∧ (∀ (r : Nat) (st : RequestState), e.request_id2request_state_[r]? = some st →
          ∀ k, k ∈ st.ready_ranks.map Prod.fst
            ↔ ∃ info, EnqueueEvent.ready_rank r k info
                ∈ sinceExecuted st.group_id e.enqueue_trace)
      ∧ (CollectiveBoxingExecutor.Enqueue.arrive e rank_desc request_info = none →
          CollectiveBoxingExecutor.Enqueue env e rank_desc request_info = none)
      ∧ (∀ e1, CollectiveBoxingExecutor.Enqueue.arrive e rank_desc request_info = some e1 →
          ∃ (r : Nat) (st : RequestState) (gs : GroupState),
            e.name2request_id_.lookup rank_desc.op_desc.name = some r
              ∧ e.request_id2request_state_[r]? = some st
              ∧ e.group_id2group_state_[st.group_id]? = some gs
              ∧ r ∈ gs.request_ids ∧ r ∉ gs.ready_request_ids
              ∧ e1.request_id2request_state_ = e.request_id2request_state_.set r
                  { st with ready_ranks :=
                      RankMap.insert rank_desc.rank request_info st.ready_ranks }
              ∧ (∀ x, x ∈ RankMap.insert rank_desc.rank request_info st.ready_ranks
                  ↔ x = (rank_desc.rank, request_info) ∨ x ∈ st.ready_ranks)
              ∧ (RankMap.insert rank_desc.rank request_info st.ready_ranks).length
                  = st.ready_ranks.length + 1
              ∧ ((RankMap.insert rank_desc.rank request_info st.ready_ranks).length
                    = st.local_ranks.length →
                  e1.group_id2group_state_ = e.group_id2group_state_.set st.group_id
                      { gs with ready_request_ids := setInsert r gs.ready_request_ids }
                    ∧ ∀ x, x ∈ setInsert r gs.ready_request_ids
                        ↔ x = r ∨ x ∈ gs.ready_request_ids)
              ∧ ((RankMap.insert rank_desc.rank request_info st.ready_ranks).length
                    ≠ st.local_ranks.length →
                  e1.group_id2group_state_ = e.group_id2group_state_)) := by
  obtain ⟨hw, hidle, _⟩ := Init_wellFormed env plan backend e0 hjobs hinit
  obtain ⟨hinv, hs⟩ := Enqueued_inv env e0 e (EnqueueInv_of_idle e0 hw hidle) hrun
  have hc := hinv.core
  refine ⟨?_, ?_, ?_, ?_⟩
  · constructor
    · intro hnone
      cases hr : e.name2request_id_.lookup rank_desc.op_desc.name with
      | none => exact Or.inl rfl
      | some r =>
        right
        obtain ⟨st, hst⟩ := Enqueued_names env plan backend e0 e hinit hs _ r hr
        refine ⟨r, st, rfl, hst, ?_⟩
        by_contra hcon
        simp only [not_or, not_and, not_not, ne_eq] at hcon
        obtain ⟨c1, c2, c3, c4⟩ := hcon
        have hjob : e.current_job_id_ = -1 ∨ e.current_job_id_ = st.job_id := by
          by_cases h : e.current_job_id_ = -1
          · exact Or.inl h
          · exact Or.inr (c1 h)
        obtain ⟨e1, _, he1, _⟩ := Enqueue_arrive_returns e hc rank_desc request_info r st
          hr hst hjob c2 c3 c4
        rw [hnone] at he1
        exact absurd he1 (by simp)
    · intro hcond
      cases harr : CollectiveBoxingExecutor.Enqueue.arrive e rank_desc request_info with
      | none => rfl
      | some e1 =>
        exfalso
        obtain ⟨r, st, hr, hst, a1, a2, a3, _, _, _, a4, _, _⟩ :=
          Enqueue_arrive_spec e e1 rank_desc request_info hc harr
        rcases hcond with h | ⟨r1, st1, hr1, hst1, h⟩
        · rw [h] at hr
          exact absurd hr (by simp)
        · rw [hr] at hr1
          simp only [Option.some.injEq] at hr1
          subst hr1
          rw [hst] at hst1
          simp only [Option.some.injEq] at hst1
          subst hst1
          rcases h with ⟨h1, h2⟩ | h | h | h
          · exact h2 (a4 h1).1
          · exact h a1
          · exact h a2
          · exact a3 h
  · intro r st hst k
    rw [hc.pending r st hst]
    constructor
    · intro hk
      obtain ⟨x, hx, rfl⟩ := List.mem_map.mp hk
      exact ⟨x.2, (mem_pendingRanks r st.group_id e.enqueue_trace x.1 x.2).mp hx⟩
    · rintro ⟨info, hinfo⟩
      exact List.mem_map.mpr ⟨(k, info),
        (mem_pendingRanks r st.group_id e.enqueue_trace k info).mpr hinfo, rfl⟩
  · intro hnone
    unfold CollectiveBoxingExecutor.Enqueue
    rw [hnone]
  · intro e1 harr
    obtain ⟨r, st, hr, hst, a1, a2, a3, _, _, a5, a4, _, _⟩ :=
      Enqueue_arrive_spec e e1 rank_desc request_info hc harr
    have hjob : e.current_job_id_ = -1 ∨ e.current_job_id_ = st.job_id := by
      by_cases h : e.current_job_id_ = -1
      · exact Or.inl h
      · exact Or.inr (a4 h).1
    obtain ⟨e2, gs, he2, hgs, hmem, hnot, b1, b2, b3⟩ :=
      Enqueue_arrive_returns e hc rank_desc request_info r st hr hst hjob a1 a2 a3
    rw [harr] at he2
    simp only [Option.some.injEq] at he2
    subst he2
    exact ⟨r, st, gs, hr, hst, hgs, hmem, hnot, b1,
      fun x => RankMap_mem_insert _ _ _ x, RankMap_insert_length _ _ _,
      fun h => ⟨b2 h, fun x => setInsert_mem r x _⟩, b3⟩

/-- Witness of C30 as amended: after the first of the calls `test.calls`, which was for
rank 0 of request "a", the first block of `Enqueue` fails for rank 0 of request "a", and
so does `Enqueue`; for rank 1 of request "a" it returns with the two ranks of the request
ready and the request ready in its group, group 0. -/
theorem Enqueue_rejects_bad_arrivals_witness :
    CollectiveBoxingExecutor.Enqueue.arrive (test.enqueued 1)
        (test.rank_of test.request_48 0) (test.info 12) = none
      ∧ CollectiveBoxingExecutor.Enqueue (test.env 96) (test.enqueued 1)
        (test.rank_of test.request_48 0) (test.info 12) = none
      ∧ (CollectiveBoxingExecutor.Enqueue.arrive (test.enqueued 1)
          (test.rank_of test.request_48 1) (test.info 11)).map
          (fun e1 => (e1.request_id2request_state_.map RequestState.ready_ranks,
            e1.group_id2group_state_.map GroupState.ready_request_ids))
        = some ([[(0, test.info 10), (1, test.info 11)], [], []], [[0], [], []]) :=
  ⟨(Enqueue_rejects_bad_arrivals (test.env 96) test.plan (test.backend_ready 96)
      test.executor (test.enqueued 1) (by decide) test_executor_init
      (test_enqueued_run 1 rfl) (test.rank_of test.request_48 0) (test.info 12)).1.mpr
      (Or.inr ⟨0, RequestState.mk test.request_48 7 0 [0, 1] [(0, test.info 10)],
        by decide, by decide, Or.inr (Or.inr (Or.inr (by decide)))⟩),
   (Enqueue_rejects_bad_arrivals (test.env 96) test.plan (test.backend_ready 96)
      test.executor (test.enqueued 1) (by decide) test_executor_init
      (test_enqueued_run 1 rfl) (test.rank_of test.request_48 0) (test.info 12)).2.2.1
      (by decide),
   by decide⟩

/-- C30, counterexample: an arrival that is rejected although none of the four conditions
holds.  After three of the calls `test.calls` job 7 is in flight.  The name of request "c"
of job 8 is in `name2request_id_`, rank 0 is one of its local ranks, the operation is the
planned one and no rank of the request has been enqueued; yet the first block of `Enqueue`
fails for rank 0 of the request, and `Enqueue` with it: nothing is recorded. -/
theorem Enqueue_rejects_other_job :
    (test.enqueued 3).name2request_id_.lookup
        (test.rank_of (test.all_reduce "c" 1024 test.device_set_b 0) 0).op_desc.name = some 2
      ∧ (test.enqueued 3).request_id2request_state_[2]?
        = some (RequestState.mk (test.all_reduce "c" 1024 test.device_set_b 0) 8 2 [0, 1] [])
      ∧ (test.rank_of (test.all_reduce "c" 1024 test.device_set_b 0) 0).rank ∈ [(0 : Int), 1]
      ∧ (test.rank_of (test.all_reduce "c" 1024 test.device_set_b 0) 0).op_desc
        = (test.all_reduce "c" 1024 test.device_set_b 0).op_desc
      ∧ (test.enqueued 3).current_job_id_ = 7
      ∧ CollectiveBoxingExecutor.Enqueue.arrive (test.enqueued 3)
          (test.rank_of (test.all_reduce "c" 1024 test.device_set_b 0) 0) (test.info 30)
          = none
      ∧ CollectiveBoxingExecutor.Enqueue (test.env 96) (test.enqueued 3)
          (test.rank_of (test.all_reduce "c" 1024 test.device_set_b 0) 0) (test.info 30)
          = none :=
  ⟨by decide, by decide, by decide, rfl, by decide, by decide, by decide⟩

/-! ## Fusion loses and invents nothing -/

/-- C32: fusion loses and invents nothing.  `GroupRequests` leaves the groups that are in
the output vector as they are and puts new groups behind them; the new groups are not
empty, their concatenation in the order of the output is the list of the requests, so
every request is in one group, in the order of the input, and all requests of a new group
have the same device set. -/
theorem GroupRequests_partition (env : Env) (self : NcclCollectiveBoxingExecutorBackend)
    (requests : List RequestDesc) (groups : List (List RequestDesc)) :
    ∃ new : List (List RequestDesc),
      NcclCollectiveBoxingExecutorBackend.GroupRequests env self requests groups
          = groups ++ new
        ∧ (NcclCollectiveBoxingExecutorBackend.GroupRequests env self requests groups).take
            groups.length = groups
        ∧ (∀ g ∈ new, g ≠ [])
        ∧ new.flatten = requests
        ∧ (new.map List.length).sum = requests.length
        ∧ ∀ g ∈ new, ∀ a ∈ g, ∀ b ∈ g, a.device_set = b.device_set := by
  obtain ⟨new, h1, h2, h3, h4, _⟩ := GroupRequests_spec env self requests groups
  refine ⟨new, h1, ?_, h3, h2, ?_, ?_⟩
  · rw [h1, List.take_left']
    rfl
  · rw [← h2, List.length_flatten]
  · intro g hg a ha b hb
    cases hgs : g.head? with
    | none =>
      cases g with
      | nil => exact absurd ha (List.not_mem_nil _)
      | cons x xs => simp at hgs
    | some front =>
      rw [(h4 g hg).1 front hgs a ha, (h4 g hg).1 front hgs b hb]

/-- Witness of C32: at a threshold of 96 MiB the requests of 48 MiB and 80 MiB are put
into two groups behind the group that is in the output vector. -/
theorem GroupRequests_partition_witness :
    NcclCollectiveBoxingExecutorBackend.GroupRequests (test.env 96) (test.backend 96)
        [test.request_48, test.request_80] [[test.all_reduce "c" 1024 test.device_set_b 0]]
        = [[test.all_reduce "c" 1024 test.device_set_b 0], [test.request_48],
           [test.request_80]]
      ∧ ∃ new : List (List RequestDesc),
          NcclCollectiveBoxingExecutorBackend.GroupRequests (test.env 96) (test.backend 96)
              [test.request_48, test.request_80]
              [[test.all_reduce "c" 1024 test.device_set_b 0]]
              = [[test.all_reduce "c" 1024 test.device_set_b 0]] ++ new
            ∧ (∀ g ∈ new, g ≠ [])
            ∧ new.flatten = [test.request_48, test.request_80] := by
  refine ⟨by decide, ?_⟩
  obtain ⟨new, h1, _, h3, h4, _⟩ := GroupRequests_partition (test.env 96) (test.backend 96)
    [test.request_48, test.request_80] [[test.all_reduce "c" 1024 test.device_set_b 0]]
  exact ⟨new, h1, h3, h4⟩

/-! ## The keys of the rendezvous -/

theorem digitChar_decimal (d : Nat) (h : d < 10) :
    (Nat.digitChar d).toNat - 48 = d ∧ Nat.digitChar d ≠ '-'
      ∧ (Nat.digitChar d).isDigit = true := by
  interval_cases d <;> decide

theorem toDigitsCore_append (fuel : Nat) :
    ∀ (n : Nat) (ds : List Char),
      Nat.toDigitsCore 10 fuel n ds = Nat.toDigitsCore 10 fuel n [] ++ ds := by
  induction fuel with
  | zero => intro n ds; simp [Nat.toDigitsCore]
  | succ fuel ih =>
    intro n ds
    simp only [Nat.toDigitsCore]
    split
    · simp
    · rw [ih (n / 10) (Nat.digitChar (n % 10) :: ds), ih (n / 10) [Nat.digitChar (n % 10)]]
      simp

theorem toDigitsCore_value (fuel : Nat) :
    ∀ n, n < fuel → decimalValue (Nat.toDigitsCore 10 fuel n []) = n := by
  induction fuel with
  | zero => intro n h; omega
  | succ fuel ih =>
    intro n h
    have hd := (digitChar_decimal (n % 10) (Nat.mod_lt _ (by decide))).1
    simp only [Nat.toDigitsCore]
    split
    · rename_i h0
      simp only [decimalValue, List.foldl_cons, List.foldl_nil, hd]
      omega
    · rename_i h0
      rw [toDigitsCore_append]
      have hlt : n / 10 < fuel := by omega
      have := ih (n / 10) hlt
      simp only [decimalValue, List.foldl_append, List.foldl_cons, List.foldl_nil] at this ⊢
      rw [this, hd]
      omega

theorem toDigitsCore_digits (fuel : Nat) :
    ∀ n, ∀ c ∈ Nat.toDigitsCore 10 fuel n [], c ≠ '-' ∧ c.isDigit = true := by
  induction fuel with
  | zero => intro n c hc; simp [Nat.toDigitsCore] at hc
  | succ fuel ih =>
    intro n c hc
    have hd := digitChar_decimal (n % 10) (Nat.mod_lt _ (by decide))
    simp only [Nat.toDigitsCore] at hc
    split at hc
    · simp only [List.mem_singleton] at hc
      subst hc
      exact ⟨hd.2.1, hd.2.2⟩
    · rw [toDigitsCore_append] at hc
      rcases List.mem_append.mp hc with hc | hc
      · exact ih _ c hc
      · simp only [List.mem_singleton] at hc
        subst hc
        exact ⟨hd.2.1, hd.2.2⟩

theorem to_string_decimal (n : Nat) :
    decimalValue (to_string (n : Int)).data = n
      ∧ ∀ c ∈ (to_string (n : Int)).data, c ≠ '-' ∧ c.isDigit = true := by
  have h : (to_string (n : Int)).data = Nat.toDigitsCore 10 (n + 1) n [] := rfl
  rw [h]
  exact ⟨toDigitsCore_value (n + 1) n (Nat.lt_succ_self n), toDigitsCore_digits (n + 1) n⟩

theorem append_cons_inj_of_not_mem {α : Type} (a : α) :
    ∀ (l1 l2 r1 r2 : List α), l1 ++ a :: r1 = l2 ++ a :: r2 → a ∉ r1 → a ∉ r2 →
      l1 = l2 ∧ r1 = r2 := by
  intro l1
  induction l1 with
  | nil =>
    intro l2 r1 r2 h h1 h2
    cases l2 with
    | nil =>
      simp only [List.nil_append, List.cons.injEq, true_and] at h
      exact ⟨rfl, h⟩
    | cons b l2 =>
      simp only [List.nil_append, List.cons_append, List.cons.injEq] at h
      exfalso
      apply h1
      rw [h.2]
      simp
  | cons x l1 ih =>
    intro l2 r1 r2 h h1 h2
    cases l2 with
    | nil =>
      simp only [List.nil_append, List.cons_append, List.cons.injEq] at h
      exfalso
      apply h2
      rw [← h.2]
      simp
    | cons b l2 =>
      simp only [List.cons_append, List.cons.injEq] at h
      obtain ⟨e1, e2⟩ := ih l2 r1 r2 h.2 h1 h2
      exact ⟨by rw [h.1, e1], e2⟩

/-- C34: the keys of the rendezvous do not collide.  `GetNcclUniqueIdRpcKey` of a name and
a stream id is the prefix, the name, a hyphen and `std::to_string` of the stream id, which
for a stream id that is not negative is a list of decimal digits that stands for the
stream id.  Two keys with stream ids that are not negative are equal only if the names are
equal and the stream ids are equal. -/
theorem GetNcclUniqueIdRpcKey_injective (n1 n2 : String) (s1 s2 : Int) (h1 : 0 ≤ s1)
    (h2 : 0 ≤ s2) :
    GetNcclUniqueIdRpcKey n1 s1
        = "CollectiveBoxingExecutorNcclUniqueIdRpcKey-" ++ n1 ++ "-" ++ to_string s1
      ∧ decimalValue (to_string s1).data = s1.toNat
      ∧ (∀ c ∈ (to_string s1).data, c.isDigit = true)
      ∧ (GetNcclUniqueIdRpcKey n1 s1 = GetNcclUniqueIdRpcKey n2 s2 → n1 = n2 ∧ s1 = s2) := by
  obtain ⟨a, rfl⟩ := Int.eq_ofNat_of_zero_le h1
  obtain ⟨b, rfl⟩ := Int.eq_ofNat_of_zero_le h2
  obtain ⟨va, da⟩ := to_string_decimal a
  obtain ⟨vb, db⟩ := to_string_decimal b
  refine ⟨rfl, by simpa using va, fun c hc => (da c hc).2, ?_⟩
  intro h
  have hdata := congrArg String.data h
  simp only [GetNcclUniqueIdRpcKey, String.data_append] at hdata
  simp only [List.append_assoc, List.singleton_append] at hdata
  have hcancel := List.append_cancel_left hdata
  obtain ⟨e1, e2⟩ := append_cons_inj_of_not_mem '-' _ _ _ _ hcancel
    (fun hm => (da _ hm).1 rfl) (fun hm => (db _ hm).1 rfl)
  refine ⟨String.ext e1, ?_⟩
  have : a = b := by rw [← va, ← vb, e2]
  rw [this]

/-- Witness of C34: the key of the name "a" and the stream id 12, and the keys of the
stream ids 1 and 12 of one name differ. -/
theorem GetNcclUniqueIdRpcKey_injective_witness :
    GetNcclUniqueIdRpcKey "a" 12 = "CollectiveBoxingExecutorNcclUniqueIdRpcKey-a-12"
      ∧ (GetNcclUniqueIdRpcKey "a" 12 = GetNcclUniqueIdRpcKey "a" 1 →
          "a" = "a" ∧ (12 : Int) = 1)
      ∧ GetNcclUniqueIdRpcKey "a" 12 ≠ GetNcclUniqueIdRpcKey "a" 1 :=
  ⟨by decide,
   (GetNcclUniqueIdRpcKey_injective "a" "a" 12 1 (by decide) (by decide)).2.2.2,
   fun h => absurd
     ((GetNcclUniqueIdRpcKey_injective "a" "a" 12 1 (by decide) (by decide)).2.2.2 h).2
     (by decide)⟩

/-! ## The tables that `Init` makes line up -/

theorem setInsert_append_of_lt (x : Nat) (ids : List Nat) (h : ∀ y ∈ ids, y < x) :
    setInsert x ids = ids ++ [x] := by
  induction ids with
  | nil => rfl
  | cons y rest ih =>
    have hy : y < x := h y (List.mem_cons_self _ _)
    have h1 : ¬ x < y := by omega
    have h2 : ¬ x = y := by omega
    simp only [setInsert, if_neg h1, if_neg h2, List.cons_append]
    rw [ih (fun z hz => h z (List.mem_cons_of_mem _ hz))]

theorem pushGroupId_eq_pushCallback (job_id : Int) (group_id : Nat)
    (l : List (Int × List Nat)) : pushGroupId job_id group_id l = pushCallback job_id group_id l := by
  induction l with
  | nil => rfl
  | cons entry rest ih => simp only [pushGroupId, pushCallback, ih]

theorem mem_of_lookup_some {α β : Type} [BEq α] [LawfulBEq α] (k : α) (v : β)
    (l : List (α × β)) (h : l.lookup k = some v) : (k, v) ∈ l := by
  induction l with
  | nil => simp [List.lookup] at h
  | cons entry rest ih =>
    obtain ⟨k1, w⟩ := entry
    simp only [List.lookup] at h
    split at h
    · rename_i heq
      simp only [Option.some.injEq] at h
      have : k = k1 := by simpa using heq
      rw [this, h]
      exact List.mem_cons_self _ _
    · exact List.mem_cons_of_mem _ (ih h)

/-- The loop of `Init` over the requests of a group puts their states behind the states and
their ids, which are the next numbers, behind the ids. -/
theorem Init_addRequests_eq (env : Env) (job_id : Int) (group_id : Nat)
    (l : List RequestDesc) :
    ∀ (e : CollectiveBoxingExecutor) (ids : List Nat)
      (r : CollectiveBoxingExecutor × List Nat),
      e.name2request_id_.length = e.request_id2request_state_.length →
      (∀ x ∈ ids, x < e.name2request_id_.length) →
      CollectiveBoxingExecutor.Init.addRequests env job_id group_id l e ids = some r →
      r.1.request_id2request_state_ = e.request_id2request_state_ ++ l.map (fun request =>
          RequestState.mk request job_id group_id
            (CollectiveBoxingExecutor.Init.localRanks env request) [])
        ∧ r.2 = ids ++ List.range' e.name2request_id_.length l.length
        ∧ r.1.name2request_id_.length = e.name2request_id_.length + l.length
        ∧ r.1.group_id2group_state_ = e.group_id2group_state_
        ∧ r.1.job_id2group_ids_ = e.job_id2group_ids_ := by
  induction l with
  | nil =>
    intro e ids r h1 h2 h
    simp only [CollectiveBoxingExecutor.Init.addRequests, Option.some.injEq] at h
    subst h
    simp
  | cons request rest ih =>
    intro e ids r h1 h2 h
    unfold CollectiveBoxingExecutor.Init.addRequests at h
    dsimp only at h
    split at h
    · exact absurd h (by simp)
    · obtain ⟨a1, a2, a3, a4, a5⟩ := ih _ _ r
        (by simp only [List.length_append, List.length_singleton, h1])
        (by
          intro x hx
          simp only [List.length_append, List.length_singleton]
          rcases (setInsert_mem _ _ _).mp hx with rfl | hx
          · exact Nat.lt_succ_self _
          · exact Nat.lt_succ_of_lt (h2 x hx))
        h
      dsimp only at a1 a2 a3
      refine ⟨?_, ?_, ?_, a4, a5⟩
      · rw [a1]
        simp
      · rw [a2, setInsert_append_of_lt _ _ h2]
        simp [List.range'_succ]
      · rw [a3]
        simp only [List.length_append, List.length_cons, List.length_nil]
        omega

theorem getElem?_append_old {α : Type} (l more : List α) (i : Nat) (x : α)
    (h : l[i]? = some x) : (l ++ more)[i]? = some x := by
  rw [List.getElem?_append_left (lt_length_of_getElem_some h)]
  exact h

theorem getElem?_append_cases {α : Type} (l more : List α) (i : Nat) (x : α)
    (h : (l ++ more)[i]? = some x) :
    l[i]? = some x ∨ (l.length ≤ i ∧ more[i - l.length]? = some x) := by
  rcases Nat.lt_or_ge i l.length with hlt | hge
  · rw [List.getElem?_append_left hlt] at h
    exact Or.inl h
  · rw [List.getElem?_append_right hge] at h
    exact Or.inr ⟨hge, h⟩

/-- The tables line up still when `Init` has added a group that is not empty: the states
of its requests, the group with the next request ids, and the group id under the job. -/
theorem PlanTables_add_group (env : Env) (P : RequestDesc → Prop)
    (e e1 : CollectiveBoxingExecutor) (job_id : Int) (backend : Backend)
    (group : List RequestDesc) (hp : PlanTables env P e) (hne : group ≠ [])
    (hP : ∀ request ∈ group, P request)
    (hn : e1.name2request_id_.length = e.name2request_id_.length + group.length)
    (hs : e1.request_id2request_state_ = e.request_id2request_state_
      ++ group.map (fun request => RequestState.mk request job_id
          e.group_id2group_state_.length
          (CollectiveBoxingExecutor.Init.localRanks env request) []))
    (hg : e1.group_id2group_state_ = e.group_id2group_state_
      ++ [GroupState.mk backend (List.range' e.name2request_id_.length group.length)
            group []])
    (hj : e1.job_id2group_ids_
      = pushGroupId job_id e.group_id2group_state_.length e.job_id2group_ids_) :
    PlanTables env P e1 := by
  have hlook : ∀ j, e1.job_id2group_ids_.lookup j
      = if j = job_id then
          some ((e.job_id2group_ids_.lookup job_id).getD [] ++ [e.group_id2group_state_.length])
        else e.job_id2group_ids_.lookup j := by
    intro j
    rw [hj, pushGroupId_eq_pushCallback, pushCallback_lookup _ _ _ hp.jobs_sorted]
  -- the states of the requests of a group that was there are those that were there
  have hold_req : ∀ (g : Nat) (gs : GroupState), e.group_id2group_state_[g]? = some gs →
      ∀ r ∈ gs.request_ids, ∀ st : RequestState,
        e1.request_id2request_state_[r]? = some st →
        e.request_id2request_state_[r]? = some st := by
    intro g gs hgs r hr st hst
    obtain ⟨start, hids, hreq⟩ := hp.lined g gs hgs
    rw [hids, List.mem_range'_1] at hr
    have hi : r - start < gs.requests.length := by omega
    obtain ⟨st0, hst0, _⟩ := hreq (r - start) (gs.requests[r - start])
      (List.getElem?_eq_getElem hi)
    have hrr : start + (r - start) = r := by omega
    rw [hrr] at hst0
    rw [hs, getElem?_append_old _ _ _ _ hst0] at hst
    rw [hst0, ← hst]
  -- the states of the new requests
  have hnew_req : ∀ (r : Nat) (st : RequestState),
      e1.request_id2request_state_[r]? = some st →
      e.request_id2request_state_[r]? = some st
        ∨ ∃ request ∈ group, st = RequestState.mk request job_id
            e.group_id2group_state_.length
            (CollectiveBoxingExecutor.Init.localRanks env request) [] := by
    intro r st hst
    rw [hs] at hst
    rcases getElem?_append_cases _ _ _ _ hst with h | ⟨_, h⟩
    · exact Or.inl h
    · right
      have := List.getElem?_mem h
      obtain ⟨request, hmem, rfl⟩ := List.mem_map.mp this
      exact ⟨request, hmem, rfl⟩
  constructor
  · -- names
    rw [hn, hs, List.length_append, List.length_map, hp.names]
  · -- lined
    intro g gs hgs
    rw [hg] at hgs
    rcases getElem?_append_cases _ _ _ _ hgs with h | ⟨_, h⟩
    · obtain ⟨start, hids, hreq⟩ := hp.lined g gs h
      refine ⟨start, hids, ?_⟩
      intro i request hi
      obtain ⟨st, hst, hrd⟩ := hreq i request hi
      exact ⟨st, by rw [hs]; exact getElem?_append_old _ _ _ _ hst, hrd⟩
    · have := List.getElem?_mem h
      simp only [List.mem_singleton] at this
      subst this
      refine ⟨e.name2request_id_.length, rfl, ?_⟩
      intro i request hi
      dsimp only at hi
      refine ⟨RequestState.mk request job_id e.group_id2group_state_.length
        (CollectiveBoxingExecutor.Init.localRanks env request) [], ?_, rfl⟩
      rw [hs, hp.names, List.getElem?_append_right (Nat.le_add_right _ _)]
      simp only [Nat.add_sub_cancel_left, List.getElem?_map, hi, Option.map_some']
  · -- populated
    intro g gs hgs
    rw [hg] at hgs
    rcases getElem?_append_cases _ _ _ _ hgs with h | ⟨_, h⟩
    · exact hp.populated g gs h
    · have := List.getElem?_mem h
      simp only [List.mem_singleton] at this
      subst this
      exact hne
  · -- local ranks
    intro r st hst
    rcases hnew_req r st hst with h | ⟨request, _, rfl⟩
    · exact hp.local_ranks r st h
    · rfl
  · -- planned
    intro r st hst
    rcases hnew_req r st hst with h | ⟨request, hmem, rfl⟩
    · exact hp.planned r st h
    · exact hP request hmem
  · -- the jobs are sorted
    rw [hj, pushGroupId_eq_pushCallback]
    exact pushCallback_sorted _ _ _ hp.jobs_sorted
  · -- the job of a request
    intro r st hst
    rw [hlook]
    rcases hnew_req r st hst with h | ⟨request, _, rfl⟩
    · obtain ⟨G, hG, hmem⟩ := hp.job_of_request r st h
      by_cases hjj : st.job_id = job_id
      · rw [if_pos hjj]
        refine ⟨_, rfl, ?_⟩
        rw [← hjj, hG]
        simp only [Option.getD_some, List.mem_append, List.mem_singleton]
        exact Or.inl hmem
      · rw [if_neg hjj]
        exact ⟨G, hG, hmem⟩
    · rw [if_pos rfl]
      exact ⟨_, rfl, by simp⟩
  · -- the requests of a job
    intro j G hG g hgG
    rw [hlook] at hG
    have hold : ∀ G0, e.job_id2group_ids_.lookup j = some G0 → g ∈ G0 →
        ∃ gs : GroupState, e1.group_id2group_state_[g]? = some gs
          ∧ ∀ r ∈ gs.request_ids, ∀ st : RequestState,
              e1.request_id2request_state_[r]? = some st → st.job_id = j := by
      intro G0 hG0 hg0
      obtain ⟨gs, hgs, hreq⟩ := hp.requests_of_job j G0 hG0 g hg0
      refine ⟨gs, by rw [hg]; exact getElem?_append_old _ _ _ _ hgs, ?_⟩
      intro r hr st hst
      exact hreq r hr st (hold_req g gs hgs r hr st hst)
    by_cases hjj : j = job_id
    · rw [if_pos hjj] at hG
      simp only [Option.some.injEq] at hG
      subst hG
      rcases List.mem_append.mp hgG with hmem | hmem
      · cases hl : e.job_id2group_ids_.lookup job_id with
        | none => rw [hl] at hmem; simp at hmem
        | some G0 =>
          rw [hl] at hmem
          exact hold G0 (by rw [hjj]; exact hl) hmem
      · simp only [List.mem_singleton] at hmem
        subst hmem
        refine ⟨GroupState.mk backend (List.range' e.name2request_id_.length group.length)
          group [], ?_, ?_⟩
        · rw [hg, List.getElem?_append_right (le_refl _)]
          simp
        · intro r hr st hst
          dsimp only at hr
          rw [List.mem_range'_1] at hr
          have hge : e.request_id2request_state_.length ≤ r := by
            rw [← hp.names]; exact hr.1
          rw [hs, List.getElem?_append_right hge] at hst
          have := List.getElem?_mem hst
          obtain ⟨request, _, rfl⟩ := List.mem_map.mp this
          exact hjj.symm
    · rw [if_neg hjj] at hG
      exact hold G hG hgG

theorem Init_addGroups_tables (env : Env) (P : RequestDesc → Prop) (job_id : Int)
    (backend : Backend) (groups : List (List RequestDesc)) :
    ∀ (e e1 : CollectiveBoxingExecutor), PlanTables env P e →
      (∀ group ∈ groups, group ≠ [] ∧ ∀ request ∈ group, P request) →
      CollectiveBoxingExecutor.Init.addGroups env job_id backend groups e = some e1 →
      PlanTables env P e1 := by
  induction groups with
  | nil =>
    intro e e1 hp _ h
    simp only [CollectiveBoxingExecutor.Init.addGroups, Option.some.injEq] at h
    subst h
    exact hp
  | cons group rest ih =>
    intro e e1 hp hgroups h
    simp only [CollectiveBoxingExecutor.Init.addGroups] at h
    split at h
    · exact absurd h (by simp)
    · rename_i r hr
      obtain ⟨a1, a2, a3, a4, a5⟩ := Init_addRequests_eq env job_id _ group e [] r hp.names
        (by intro x hx; exact absurd hx (List.not_mem_nil _)) hr
      refine ih _ e1 ?_ (fun g hg => hgroups g (List.mem_cons_of_mem _ hg)) h
      exact PlanTables_add_group env P e _ job_id backend group hp
        (hgroups group (List.mem_cons_self _ _)).1
        (hgroups group (List.mem_cons_self _ _)).2
        a3 a1 (by rw [a2, a4]; rfl) (by rw [a5])

theorem Init_addRoughGroups_tables (env : Env) (P : RequestDesc → Prop) (job_id : Int)
    (rough_groups : List (List RequestDesc)) :
    ∀ (e e1 : CollectiveBoxingExecutor), PlanTables env P e →
      (∀ request ∈ rough_groups.flatten, P request) →
      CollectiveBoxingExecutor.Init.addRoughGroups env job_id rough_groups e = some e1 →
      PlanTables env P e1 := by
  induction rough_groups with
  | nil =>
    intro e e1 hp _ h
    simp only [CollectiveBoxingExecutor.Init.addRoughGroups, Option.some.injEq] at h
    subst h
    exact hp
  | cons rough_group rest ih =>
    intro e e1 hp hP h
    simp only [CollectiveBoxingExecutor.Init.addRoughGroups] at h
    split at h
    · exact absurd h (by simp)
    · split at h
      · exact absurd h (by simp)
      · split at h
        · exact absurd h (by simp)
        · rename_i e0 h0
          obtain ⟨new, g1, g2, g3, _⟩ := GroupRequests_spec env e.backends_ rough_group []
          rw [g1, List.nil_append] at h0
          have hp0 := Init_addGroups_tables env P job_id _ new e e0 hp
            (by
              intro group hgroup
              refine ⟨g3 group hgroup, ?_⟩
              intro request hrequest
              apply hP request
              rw [List.flatten_cons, ← g2]
              exact List.mem_append_left _
                (List.mem_flatten.mpr ⟨group, hgroup, hrequest⟩))
            h0
          exact ih e0 e1 hp0
            (fun request hrequest => hP request (by
              rw [List.flatten_cons]
              exact List.mem_append_right _ hrequest))
            h

theorem Init_jobs_tables (env : Env) (P : RequestDesc → Prop)
    (jobs : List (Int × List RequestDesc)) :
    ∀ (e e1 : CollectiveBoxingExecutor), PlanTables env P e →
      (∀ job ∈ jobs, ∀ request ∈ SortRequestsByOrder env (job.2.filter
        (fun request => HasDeviceOnThisMachine env request.device_set)), P request) →
      CollectiveBoxingExecutor.Init.jobs env jobs e = some e1 →
      PlanTables env P e1 := by
  induction jobs with
  | nil =>
    intro e e1 hp _ h
    simp only [CollectiveBoxingExecutor.Init.jobs, Option.some.injEq] at h
    subst h
    exact hp
  | cons job rest ih =>
    intro e e1 hp hP h
    simp only [CollectiveBoxingExecutor.Init.jobs] at h
    split at h
    · exact absurd h (by simp)
    · rename_i e0 h0
      unfold CollectiveBoxingExecutor.Init.job at h0
      dsimp only at h0
      split at h0
      · exact absurd h0 (by simp)
      · obtain ⟨r1, _⟩ := Init_roughGroups_inv env (SortRequestsByOrder env (job.2.filter
            (fun request => HasDeviceOnThisMachine env request.device_set))) []
          (by intro g hg; exact absurd hg (List.not_mem_nil _))
          (by intro g hg; exact absurd hg (List.not_mem_nil _))
          List.chain'_nil
        simp only [List.flatten_nil, List.nil_append] at r1
        have hp0 := Init_addRoughGroups_tables env P job.1 _ e e0 hp
          (by
            intro request hrequest
            rw [r1] at hrequest
            exact hP job (List.mem_cons_self _ _) request hrequest)
          h0
        exact ih e0 e1 hp0 (fun j hj => hP j (List.mem_cons_of_mem _ hj)) h

theorem PlanTables_blank (env : Env) (P : RequestDesc → Prop) (plan : CollectiveBoxingPlan)
    (backend : NcclCollectiveBoxingExecutorBackend) :
    PlanTables env P (CollectiveBoxingExecutor.blank plan backend) := by
  constructor
  · rfl
  · intro g gs h; simp [CollectiveBoxingExecutor.blank] at h
  · intro g gs h; simp [CollectiveBoxingExecutor.blank] at h
  · intro r st h; simp [CollectiveBoxingExecutor.blank] at h
  · intro r st h; simp [CollectiveBoxingExecutor.blank] at h
  · simp [CollectiveBoxingExecutor.blank]
  · intro r st h; simp [CollectiveBoxingExecutor.blank] at h
  · intro j G h; simp [CollectiveBoxingExecutor.blank, List.lookup] at h

/-- The tables stay lined up under calls of `Enqueue`, which leave the tables as they
are. -/
theorem PlanTables_of_SameTables (env : Env) (P : RequestDesc → Prop)
    {e e1 : CollectiveBoxingExecutor} (hp : PlanTables env P e) (hs : SameTables e e1) :
    PlanTables env P e1 := by
  have hlen : e1.request_id2request_state_.length = e.request_id2request_state_.length := by
    have := congrArg List.length hs.request
    simpa using this
  have hreq : ∀ (r : Nat) (st1 : RequestState),
      e1.request_id2request_state_[r]? = some st1 →
      ∃ st : RequestState, e.request_id2request_state_[r]? = some st
        ∧ st.request_desc = st1.request_desc ∧ st.job_id = st1.job_id
        ∧ st.group_id = st1.group_id ∧ st.local_ranks = st1.local_ranks :=
    fun r st1 h => SameTables_request hs r st1 h
  have hreq' : ∀ (r : Nat) (st : RequestState),
      e.request_id2request_state_[r]? = some st →
      ∃ st1 : RequestState, e1.request_id2request_state_[r]? = some st1
        ∧ st1.request_desc = st.request_desc ∧ st1.job_id = st.job_id
        ∧ st1.group_id = st.group_id ∧ st1.local_ranks = st.local_ranks :=
    fun r st h => SameTables_request (SameTables_symm hs) r st h
  have hgrp : ∀ (g : Nat) (gs1 : GroupState), e1.group_id2group_state_[g]? = some gs1 →
      ∃ gs : GroupState, e.group_id2group_state_[g]? = some gs
        ∧ gs.backend = gs1.backend ∧ gs.request_ids = gs1.request_ids
        ∧ gs.requests = gs1.requests :=
    fun g gs1 h => SameTables_group hs g gs1 h
  have hgrp' : ∀ (g : Nat) (gs : GroupState), e.group_id2group_state_[g]? = some gs →
      ∃ gs1 : GroupState, e1.group_id2group_state_[g]? = some gs1
        ∧ gs1.backend = gs.backend ∧ gs1.request_ids = gs.request_ids
        ∧ gs1.requests = gs.requests :=
    fun g gs h => SameTables_group (SameTables_symm hs) g gs h
  constructor
  · rw [hs.name2request_id, hlen]; exact hp.names
  · intro g gs1 h1
    obtain ⟨gs, hgs, _, hids, hrq⟩ := hgrp g gs1 h1
    obtain ⟨start, a1, a2⟩ := hp.lined g gs hgs
    refine ⟨start, by rw [← hids, ← hrq]; exact a1, ?_⟩
    intro i request hi
    rw [← hrq] at hi
    obtain ⟨st, hst, hrd⟩ := a2 i request hi
    obtain ⟨st1, hst1, b1, _⟩ := hreq' _ st hst
    exact ⟨st1, hst1, b1.trans hrd⟩
  · intro g gs1 h1
    obtain ⟨gs, hgs, _, _, hrq⟩ := hgrp g gs1 h1
    rw [← hrq]
    exact hp.populated g gs hgs
  · intro r st1 h1
    obtain ⟨st, hst, a1, _, _, a4⟩ := hreq r st1 h1
    rw [← a4, ← a1]
    exact hp.local_ranks r st hst
  · intro r st1 h1
    obtain ⟨st, hst, a1, _⟩ := hreq r st1 h1
    rw [← a1]
    exact hp.planned r st hst
  · rw [hs.job_id2group_ids]; exact hp.jobs_sorted
  · intro r st1 h1
    obtain ⟨st, hst, _, a2, a3, _⟩ := hreq r st1 h1
    rw [hs.job_id2group_ids, ← a2, ← a3]
    exact hp.job_of_request r st hst
  · intro j G hG g hg
    rw [hs.job_id2group_ids] at hG
    obtain ⟨gs, hgs, a1⟩ := hp.requests_of_job j G hG g hg
    obtain ⟨gs1, hgs1, _, hids, _⟩ := hgrp' g gs hgs
    refine ⟨gs1, hgs1, ?_⟩
    intro r hr st1 hst1
    obtain ⟨st, hst, _, a2, _⟩ := hreq r st1 hst1
    rw [← a2]
    exact a1 r (by rw [← hids]; exact hr) st hst

theorem Enqueue_moveRanks_length (l : List Nat) :
    ∀ (states : List RequestState) (ranks : List RankMap)
      (r : List RequestState × List RankMap),
      CollectiveBoxingExecutor.Enqueue.moveRanks l states ranks = some r →
      r.2.length = ranks.length + l.length := by
  induction l with
  | nil =>
    intro states ranks r h
    simp only [CollectiveBoxingExecutor.Enqueue.moveRanks, Option.some.injEq] at h
    subst h
    simp
  | cons x rest ih =>
    intro states ranks r h
    simp only [CollectiveBoxingExecutor.Enqueue.moveRanks] at h
    split at h
    · exact absurd h (by simp)
    · rw [ih _ _ r h]
      simp only [List.length_append, List.length_cons, List.length_nil]
      omega

theorem mem_Init_localRanks (env : Env) (request : RequestDesc) (k : Int)
    (h : k ∈ CollectiveBoxingExecutor.Init.localRanks env request) :
    ∃ device_desc, vectorAt request.device_set.device k = some device_desc
      ∧ IsDeviceOnThisMachine env device_desc = true := by
  unfold CollectiveBoxingExecutor.Init.localRanks at h
  obtain ⟨n, hn, rfl⟩ := List.mem_map.mp h
  rw [List.mem_filter] at hn
  obtain ⟨_, hdev⟩ := hn
  cases hd : request.device_set.device[n]? with
  | none => rw [hd] at hdev; simp at hdev
  | some device_desc =>
    rw [hd] at hdev
    refine ⟨device_desc, ?_, hdev⟩
    unfold vectorAt
    have : ¬ ((n : Int) < 0) := by omega
    rw [if_neg this]
    simpa using hd

theorem PlanTables_lined_up (env : Env) (P : RequestDesc → Prop)
    (e : CollectiveBoxingExecutor) (hp : PlanTables env P e) (g : Nat) (gs : GroupState)
    (hgs : e.group_id2group_state_[g]? = some gs) :
    gs.request_ids.length = gs.requests.length
      ∧ gs.request_ids.Pairwise (fun a b => a < b)
      ∧ ∀ (i r : Nat), gs.request_ids[i]? = some r →
          ∃ st : RequestState, e.request_id2request_state_[r]? = some st
            ∧ gs.requests[i]? = some st.request_desc := by
  obtain ⟨start, hids, hreq⟩ := hp.lined g gs hgs
  refine ⟨by rw [hids, List.length_range'], ?_, ?_⟩
  · rw [hids]
    exact List.pairwise_lt_range' start gs.requests.length
  · intro i r hi
    rw [hids] at hi
    have hlt : i < gs.requests.length := by
      have := lt_length_of_getElem_some hi
      simpa using this
    have hr : r = start + i := by
      rw [List.getElem?_range' _ _ hlt] at hi
      simp only [Option.some.injEq] at hi
      omega
    obtain ⟨st, hst, hrd⟩ := hreq i (gs.requests[i]) (List.getElem?_eq_getElem hlt)
    refine ⟨st, by rw [hr]; exact hst, ?_⟩
    rw [hrd]
    exact List.getElem?_eq_getElem hlt

/-- C31: the rank maps line up with the requests.  Let the executor be made by `Init` of a
plan without a job of id -1, followed by any sequence of successful calls of `Enqueue`.
(1) Every group has as many request ids as requests, the request ids ascend, and the
`i`-th request id is the id of the state of the `i`-th request of the group.  (2) On every
executor with the same tables, so at every point of a call of `Enqueue`, the vector of
rank maps that the loop builds for a group has the length of the group: the check of
`ExecuteGroup` on the two sizes holds.  (3) For every recorded invocation of
`ExecuteGroup`, the vector of rank maps has the length of the group; the rank map at the
index of a request of the group holds the ranks registered for that request since the last
execution of the group, with their runtime information; its keys are the local ranks of
the request, and every key is the index of a device of the device set of the request, a
device on this machine. -/
theorem Enqueue_ranks_line_up (env : Env) (plan : CollectiveBoxingPlan)
    (backend : NcclCollectiveBoxingExecutorBackend) (e0 e : CollectiveBoxingExecutor)
    (hjobs : ∀ job ∈ plan.job_id2request_set, job.1 ≠ -1)
    (hinit : CollectiveBoxingExecutor.Init env (CollectiveBoxingExecutor.blank plan backend)
      = some e0)
    (hrun : Enqueued env e0 e) :
    (∀ (g : Nat) (gs : GroupState), e.group_id2group_state_[g]? = some gs →
        gs.request_ids.length = gs.requests.length
          ∧ gs.request_ids.Pairwise (fun a b => a < b)
          ∧ ∀ (i r : Nat), gs.request_ids[i]? = some r →
              ∃ st : RequestState, e.request_id2request_state_[r]? = some st
                ∧ gs.requests[i]? = some st.request_desc)
      ∧ (∀ e1, SameTables e e1 →
          ∀ (g : Nat) (gs : GroupState), e1.group_id2group_state_[g]? = some gs →
          ∀ r, CollectiveBoxingExecutor.Enqueue.moveRanks gs.request_ids
              e1.request_id2request_state_ [] = some r →
            gs.requests.length = r.2.length)
      ∧ (∀ (i g : Nat) (ranks : List RankMap),
          e.enqueue_trace[i]? = some (EnqueueEvent.execute_group g ranks) →
          ∃ gs : GroupState, e.group_id2group_state_[g]? = some gs
            ∧ gs.requests.length = ranks.length
            ∧ ∀ (j : Nat) (request : RequestDesc), gs.requests[j]? = some request →
                ∃ (r : Nat) (st : RequestState) (m : RankMap),
                  gs.request_ids[j]? = some r
                    ∧ e.request_id2request_state_[r]? = some st
                    ∧ st.request_desc = request
                    ∧ ranks[j]? = some m
                    ∧ (∀ k request_info, (k, request_info) ∈ m
                        ↔ EnqueueEvent.ready_rank r k request_info
                          ∈ sinceExecuted g (e.enqueue_trace.take i))
                    ∧ (∀ k, k ∈ m.map Prod.fst ↔ k ∈ st.local_ranks)
                    ∧ ∀ k ∈ m.map Prod.fst, ∃ device_desc,
                        vectorAt request.device_set.device k = some device_desc
                          ∧ IsDeviceOnThisMachine env device_desc = true) := by
  obtain ⟨hw, hidle, _⟩ := Init_wellFormed env plan backend e0 hjobs hinit
  obtain ⟨hinv, hs⟩ := Enqueued_inv env e0 e (EnqueueInv_of_idle e0 hw hidle) hrun
  have hp0 : PlanTables env (fun _ => True) e0 :=
    Init_jobs_tables env (fun _ => True) plan.job_id2request_set _ e0
      (PlanTables_blank env _ plan backend) (fun _ _ _ _ => trivial) hinit
  have hp : PlanTables env (fun _ => True) e := PlanTables_of_SameTables env _ hp0 hs
  refine ⟨fun g gs hgs => PlanTables_lined_up env _ e hp g gs hgs, ?_, ?_⟩
  · intro e1 hs1 g gs hgs r hr
    have hp1 := PlanTables_of_SameTables env _ hp hs1
    rw [Enqueue_moveRanks_length _ _ _ r hr,
      ← (PlanTables_lined_up env _ e1 hp1 g gs hgs).1]
    simp
  · intro i g ranks hi
    obtain ⟨gs, hgs, hlen, hall⟩ := hinv.core.executed i g ranks hi
    obtain ⟨l1, _, l3⟩ := PlanTables_lined_up env _ e hp g gs hgs
    refine ⟨gs, hgs, by rw [hlen, l1], ?_⟩
    intro j request hj
    have hjlt : j < gs.request_ids.length := by
      rw [l1]; exact lt_length_of_getElem_some hj
    obtain ⟨st, hst, hrd⟩ := l3 j (gs.request_ids[j]) (List.getElem?_eq_getElem hjlt)
    obtain ⟨st1, hst1, hm, _, hkeys, hmem⟩ := hall j (gs.request_ids[j])
      (List.getElem?_eq_getElem hjlt)
    rw [hst] at hst1
    simp only [Option.some.injEq] at hst1
    subst hst1
    rw [hj] at hrd
    simp only [Option.some.injEq] at hrd
    refine ⟨gs.request_ids[j], st, _, List.getElem?_eq_getElem hjlt, hst, hrd.symm, hm,
      hmem, hkeys, ?_⟩
    intro k hk
    have hloc := (hkeys k).mp hk
    rw [hp.local_ranks _ st hst] at hloc
    rw [hrd]
    exact mem_Init_localRanks env st.request_desc k hloc

/-- Witness of C31: in the run `test.calls` the event at index 4 is the execution of group
0, whose only request is the request "a" with the id 0; the vector of rank maps has one
entry, with the ranks 0 and 1, which are indices of devices of its device set. -/
theorem Enqueue_ranks_line_up_witness :
    (test.enqueued 5).enqueue_trace[4]?
        = some (EnqueueEvent.execute_group 0 [[(0, test.info 10), (1, test.info 11)]])
      ∧ (test.enqueued 5).group_id2group_state_[0]?
        = some (GroupState.mk Backend.kBackendNCCL [0] [test.request_48] [])
      ∧ ∃ gs : GroupState, (test.enqueued 5).group_id2group_state_[0]? = some gs
          ∧ gs.requests.length
            = [[((0 : Int), test.info 10), ((1 : Int), test.info 11)]].length
          ∧ ∀ (j : Nat) (request : RequestDesc), gs.requests[j]? = some request →
              ∃ (r : Nat) (st : RequestState) (m : RankMap),
                gs.request_ids[j]? = some r
                  ∧ (test.enqueued 5).request_id2request_state_[r]? = some st
                  ∧ st.request_desc = request
                  ∧ [[((0 : Int), test.info 10), ((1 : Int), test.info 11)]][j]? = some m
                  ∧ (∀ k request_info, (k, request_info) ∈ m
                      ↔ EnqueueEvent.ready_rank r k request_info
                        ∈ sinceExecuted 0 ((test.enqueued 5).enqueue_trace.take 4))
                  ∧ (∀ k, k ∈ m.map Prod.fst ↔ k ∈ st.local_ranks)
                  ∧ ∀ k ∈ m.map Prod.fst, ∃ device_desc,
                      vectorAt request.device_set.device k = some device_desc
                        ∧ IsDeviceOnThisMachine (test.env 96) device_desc = true :=
  ⟨by decide, by decide,
   (Enqueue_ranks_line_up (test.env 96) test.plan (test.backend_ready 96) test.executor
      (test.enqueued 5) (by decide) test_executor_init (test_enqueued_run 5 rfl)).2.2 4 0
      [[(0, test.info 10), (1, test.info 11)]] (by decide)⟩

/-! ## A complete round -/

theorem Init_localRanks_ne_nil (env : Env) (request : RequestDesc)
    (h : HasDeviceOnThisMachine env request.device_set = true) :
    CollectiveBoxingExecutor.Init.localRanks env request ≠ [] := by
  unfold HasDeviceOnThisMachine at h
  rw [List.any_eq_true] at h
  obtain ⟨d, hd, hon⟩ := h
  obtain ⟨n, hn, hget⟩ := List.getElem_of_mem hd
  intro hnil
  have hmem : (n : Int) ∈ CollectiveBoxingExecutor.Init.localRanks env request := by
    unfold CollectiveBoxingExecutor.Init.localRanks
    refine List.mem_map.mpr ⟨n, ?_, rfl⟩
    rw [List.mem_filter]
    refine ⟨List.mem_range.mpr hn, ?_⟩
    rw [List.getElem?_eq_getElem hn, hget]
    exact hon
  rw [hnil] at hmem
  exact absurd hmem (List.not_mem_nil _)

theorem ReadyComplete_of_no_ready_ranks (e : CollectiveBoxingExecutor)
    (hloc : ∀ (r : Nat) (st : RequestState), e.request_id2request_state_[r]? = some st →
      st.local_ranks ≠ [])
    (hready : ∀ st ∈ e.request_id2request_state_, st.ready_ranks = []) :
    ReadyComplete e := by
  intro r st hst his
  exfalso
  apply hloc r st hst
  simp only [RequestState.IsReady, decide_eq_true_eq,
    hready st (List.getElem?_mem hst), List.length_nil] at his
  exact List.eq_nil_of_length_eq_zero his.symm

/-- The first block of `Enqueue` keeps every complete request ready in its group. -/
theorem ReadyComplete_arrive (e e1 : CollectiveBoxingExecutor) (rd : RankDesc)
    (info : RuntimeRequestInfo) (hc : EnqueueCore e) (hrc : ReadyComplete e)
    (h : CollectiveBoxingExecutor.Enqueue.arrive e rd info = some e1) :
    ReadyComplete e1 := by
  obtain ⟨r, st, hr, hst, a1, a2, a3, _, _, _, a4, _, _⟩ :=
    Enqueue_arrive_spec e e1 rd info hc h
  have hjob : e.current_job_id_ = -1 ∨ e.current_job_id_ = st.job_id := by
    by_cases hj : e.current_job_id_ = -1
    · exact Or.inl hj
    · exact Or.inr (a4 hj).1
  obtain ⟨e2, gs, he2, hgs, hmem, hnot, b1, b2, b3⟩ :=
    Enqueue_arrive_returns e hc rd info r st hr hst hjob a1 a2 a3
  rw [h] at he2
  simp only [Option.some.injEq] at he2
  subst he2
  have hrlt : r < e.request_id2request_state_.length := lt_length_of_getElem_some hst
  have hglt : st.group_id < e.group_id2group_state_.length := lt_length_of_getElem_some hgs
  intro r1 st1 hst1 his1
  rw [b1, List.getElem?_set] at hst1
  by_cases hr1 : r = r1
  · subst hr1
    simp only [if_true, hrlt, if_pos, Option.some.injEq] at hst1
    subst hst1
    have hfull : (RankMap.insert rd.rank info st.ready_ranks).length
        = st.local_ranks.length := by
      simpa [RequestState.IsReady] using his1
    refine ⟨{ gs with ready_request_ids := setInsert r gs.ready_request_ids }, ?_, ?_⟩
    · rw [b2 hfull, List.getElem?_set]
      simp [hglt]
    · exact (setInsert_mem _ _ _).mpr (Or.inl rfl)
  · rw [if_neg hr1] at hst1
    obtain ⟨gs1, hgs1, hin⟩ := hrc r1 st1 hst1 his1
    by_cases hfull : (RankMap.insert rd.rank info st.ready_ranks).length
        = st.local_ranks.length
    · rw [b2 hfull, List.getElem?_set]
      by_cases hg : st.group_id = st1.group_id
      · rw [if_pos hg]
        rw [← hg, hgs] at hgs1
        simp only [Option.some.injEq] at hgs1
        subst hgs1
        simp only [hglt, if_true]
        exact ⟨_, rfl, (setInsert_mem _ _ _).mpr (Or.inr hin)⟩
      · rw [if_neg hg]
        exact ⟨gs1, hgs1, hin⟩
    · rw [b3 hfull]
      exact ⟨gs1, hgs1, hin⟩

/-- The loop of `Enqueue` keeps every complete request ready in its group, when no request
is without local ranks. -/
theorem ReadyComplete_loop (env : Env) (l : List Nat) :
    ∀ (e e2 : CollectiveBoxingExecutor), EnqueueCore e → ReadyComplete e →
      (∀ (r : Nat) (st : RequestState), e.request_id2request_state_[r]? = some st →
        st.local_ranks ≠ []) →
      CollectiveBoxingExecutor.Enqueue.loop env l e = some e2 → ReadyComplete e2 := by
  induction l with
  | nil =>
    intro e e2 _ hrc _ h
    simp only [CollectiveBoxingExecutor.Enqueue.loop, Option.some.injEq] at h
    subst h
    exact hrc
  | cons g rest ih =>
    intro e e2 hc hrc hloc h
    unfold CollectiveBoxingExecutor.Enqueue.loop at h
    split at h
    · exact absurd h (by simp)
    · rename_i gs hgs
      split at h
      · rename_i hready
        split at h
        · exact absurd h (by simp)
        · rename_i r hmove
          dsimp only at h
          split at h
          · exact absurd h (by simp)
          · rename_i backend hexec
            have hex : ∀ x ∈ gs.request_ids,
                ∃ st : RequestState, e.request_id2request_state_[x]? = some st := by
              intro x hx
              obtain ⟨st, hst, _⟩ := hc.wf.member g gs hgs x hx
              exact ⟨st, hst⟩
            obtain ⟨states1, hm1, hm2⟩ := Enqueue_moveRanks_spec gs.request_ids
              e.request_id2request_state_ [] hex (hc.wf.ids_nodup g gs hgs)
            rw [hmove] at hm1
            simp only [List.nil_append, Option.some.injEq] at hm1
            subst hm1
            obtain ⟨_, hcore⟩ := EnqueueCore_execute e hc g gs backend
              (e.current_group_idx_in_job_ + 1) states1 hgs hready hm2
            have hglt : g < e.group_id2group_state_.length := lt_length_of_getElem_some hgs
            refine ih _ e2 hcore ?_ ?_ h
            · intro r1 st1 hst1 his1
              have hst1' : states1[r1]? = some st1 := hst1
              rw [hm2 r1] at hst1'
              cases hst0 : e.request_id2request_state_[r1]? with
              | none => rw [hst0] at hst1'; simp at hst1'
              | some st0 =>
                rw [hst0] at hst1'
                simp only [Option.map_some', Option.some.injEq] at hst1'
                by_cases hin : r1 ∈ gs.request_ids
                · rw [if_pos hin] at hst1'
                  subst hst1'
                  exfalso
                  apply hloc r1 st0 hst0
                  simp only [RequestState.IsReady, decide_eq_true_eq, List.length_nil]
                    at his1
                  exact List.eq_nil_of_length_eq_zero his1.symm
                · rw [if_neg hin] at hst1'
                  subst hst1'
                  obtain ⟨gs1, hgs1, hr1⟩ := hrc r1 st0 hst0 his1
                  have hne : g ≠ st0.group_id := by
                    intro hg
                    apply hin
                    obtain ⟨gs2, hgs2, hmem2⟩ := hc.wf.group r1 st0 hst0
                    rw [← hg, hgs] at hgs2
                    simp only [Option.some.injEq] at hgs2
                    rw [hgs2]
                    exact hmem2
                  refine ⟨gs1, ?_, hr1⟩
                  show (e.group_id2group_state_.set g _)[st0.group_id]? = some gs1
                  rw [List.getElem?_set, if_neg hne]
                  exact hgs1
            · intro r1 st1 hst1
              have hst1' : states1[r1]? = some st1 := hst1
              rw [hm2 r1] at hst1'
              cases hst0 : e.request_id2request_state_[r1]? with
              | none => rw [hst0] at hst1'; simp at hst1'
              | some st0 =>
                rw [hst0] at hst1'
                simp only [Option.map_some', Option.some.injEq] at hst1'
                have := hloc r1 st0 hst0
                rw [← hst1']
                split <;> exact this
      · simp only [Option.some.injEq] at h
        subst h
        exact hrc

/-- A call of `Enqueue` keeps every complete request ready in its group, when no request is
without local ranks. -/
theorem ReadyComplete_Enqueue (env : Env) (e e2 : CollectiveBoxingExecutor) (rd : RankDesc)
    (info : RuntimeRequestInfo) (hc : EnqueueCore e) (hrc : ReadyComplete e)
    (hloc : ∀ (r : Nat) (st : RequestState), e.request_id2request_state_[r]? = some st →
      st.local_ranks ≠ [])
    (h : CollectiveBoxingExecutor.Enqueue env e rd info = some e2) : ReadyComplete e2 := by
  unfold CollectiveBoxingExecutor.Enqueue at h
  split at h
  · exact absurd h (by simp)
  · rename_i e1 harr
    obtain ⟨_, _, _, _, _, _, _, _, _, _, _, hs1, hc1⟩ :=
      Enqueue_arrive_spec e e1 rd info hc harr
    have hrc1 := ReadyComplete_arrive e e1 rd info hc hrc harr
    have hloc1 : ∀ (r : Nat) (st : RequestState),
        e1.request_id2request_state_[r]? = some st → st.local_ranks ≠ [] := by
      intro r st hst
      obtain ⟨st0, hst0, _, _, _, hl⟩ := SameTables_request hs1 r st hst
      rw [← hl]
      exact hloc r st0 hst0
    split at h
    · exact absurd h (by simp)
    · dsimp only at h
      split at h
      · exact absurd h (by simp)
      · rename_i e3 hloop
        have hrc3 := ReadyComplete_loop env _ e1 e3 hc1 hrc1 hloc1 hloop
        split at h
        · simp only [Option.some.injEq] at h
          subst h
          exact hrc3
        · simp only [Option.some.injEq] at h
          subst h
          exact hrc3

theorem arrivals_append (a b : List EnqueueEvent) :
    arrivals (a ++ b) = arrivals a ++ arrivals b := by
  simp [arrivals, List.filterMap_append]

theorem mem_arrivals (t : List EnqueueEvent) (r : Nat) (k : Int) :
    (r, k) ∈ arrivals t ↔ ∃ info, EnqueueEvent.ready_rank r k info ∈ t := by
  unfold arrivals
  rw [List.mem_filterMap]
  constructor
  · rintro ⟨ev, hev, h⟩
    cases ev with
    | ready_rank r1 k1 info =>
      simp only [Option.some.injEq, Prod.mk.injEq] at h
      obtain ⟨rfl, rfl⟩ := h
      exact ⟨info, hev⟩
    | execute_group g ranks => simp at h
  · rintro ⟨info, h⟩
    exact ⟨_, h, rfl⟩

theorem arrivals_of_executions (t : List EnqueueEvent)
    (h : ∀ ev ∈ t, ∃ g ranks, ev = EnqueueEvent.execute_group g ranks) : arrivals t = [] := by
  unfold arrivals
  rw [List.filterMap_eq_nil_iff]
  intro ev hev
  obtain ⟨g, ranks, rfl⟩ := h ev hev
  rfl

theorem mem_executedGroups (t : List EnqueueEvent) (g : Nat) :
    g ∈ executedGroups t ↔ ∃ ranks, EnqueueEvent.execute_group g ranks ∈ t := by
  unfold executedGroups
  rw [List.mem_filterMap]
  constructor
  · rintro ⟨ev, hev, h⟩
    cases ev with
    | ready_rank r1 k1 info => simp at h
    | execute_group g1 ranks =>
      simp only [Option.some.injEq] at h
      subst h
      exact ⟨ranks, hev⟩
  · rintro ⟨ranks, h⟩
    exact ⟨_, h, rfl⟩

theorem mem_sinceExecuted_append (g : Nat) (a b : List EnqueueEvent) (ev : EnqueueEvent)
    (h : ev ∈ sinceExecuted g (a ++ b)) : ev ∈ sinceExecuted g a ∨ ev ∈ b := by
  induction b using List.reverseRecOn with
  | nil => left; simpa using h
  | append_singleton b x ih =>
    rw [← List.append_assoc] at h
    cases x with
    | ready_rank r1 k1 info =>
      rw [sinceExecuted_append_ready, List.mem_append] at h
      rcases h with h | h
      · rcases ih h with h1 | h1
        · exact Or.inl h1
        · exact Or.inr (List.mem_append_left _ h1)
      · exact Or.inr (List.mem_append_right _ h)
    | execute_group g1 ranks =>
      rw [sinceExecuted_append_execute] at h
      split at h
      · exact absurd h (List.not_mem_nil _)
      · rw [List.mem_append] at h
        rcases h with h | h
        · rcases ih h with h1 | h1
          · exact Or.inl h1
          · exact Or.inr (List.mem_append_left _ h1)
        · exact Or.inr (List.mem_append_right _ h)

theorem mem_sinceExecuted_of_not_executed (g : Nat) (a b : List EnqueueEvent)
    (ev : EnqueueEvent) (hg : g ∉ executedGroups b) (h : ev ∈ b) :
    ev ∈ sinceExecuted g (a ++ b) := by
  induction b using List.reverseRecOn with
  | nil => exact absurd h (List.not_mem_nil _)
  | append_singleton b x ih =>
    rw [executedGroups_append, List.mem_append, not_or] at hg
    rw [← List.append_assoc]
    cases x with
    | ready_rank r1 k1 info =>
      rw [sinceExecuted_append_ready, List.mem_append]
      rcases List.mem_append.mp h with h1 | h1
      · exact Or.inl (ih hg.1 h1)
      · exact Or.inr h1
    | execute_group g1 ranks =>
      have hne : g1 ≠ g := by
        intro heq
        apply hg.2
        rw [heq]
        simp [executedGroups]
      rw [sinceExecuted_append_execute, if_neg hne, List.mem_append]
      rcases List.mem_append.mp h with h1 | h1
      · exact Or.inl (ih hg.1 h1)
      · exact Or.inr h1

theorem mem_sinceExecuted_after (g : Nat) (a b : List EnqueueEvent) (ranks : List RankMap)
    (ev : EnqueueEvent)
    (h : ev ∈ sinceExecuted g (a ++ EnqueueEvent.execute_group g ranks :: b)) : ev ∈ b := by
  have h' : ev ∈ sinceExecuted g ((a ++ [EnqueueEvent.execute_group g ranks]) ++ b) := by
    simpa using h
  rcases mem_sinceExecuted_append g _ b ev h' with h1 | h1
  · rw [sinceExecuted_append_execute, if_pos rfl] at h1
    exact absurd h1 (List.not_mem_nil _)
  · exact h1

/-- The ranks of an executed group have arrived: when a group is executed in a run that
started without ready ranks, every local rank of every request of the group has been
registered in the run before the execution. -/
theorem Round_consumed (e e1 : CollectiveBoxingExecutor) (hc : EnqueueCore e)
    (hi1 : EnqueueInv e1) (hs : SameTables e e1)
    (hready : ∀ st ∈ e.request_id2request_state_, st.ready_ranks = [])
    (t1 t2 : List EnqueueEvent) (g : Nat) (ranks : List RankMap)
    (ht : e1.enqueue_trace
      = e.enqueue_trace ++ t1 ++ EnqueueEvent.execute_group g ranks :: t2)
    (r : Nat) (st : RequestState) (hst : e1.request_id2request_state_[r]? = some st)
    (hg : st.group_id = g) (k : Int) (hk : k ∈ st.local_ranks) :
    (r, k) ∈ arrivals t1 := by
  have hi : e1.enqueue_trace[(e.enqueue_trace ++ t1).length]?
      = some (EnqueueEvent.execute_group g ranks) := by
    rw [ht, List.getElem?_append_right (le_refl _)]
    simp
  obtain ⟨gs, hgs, _, hall⟩ := hi1.core.executed _ g ranks hi
  have hpre : e1.enqueue_trace.take (e.enqueue_trace ++ t1).length
      = e.enqueue_trace ++ t1 := by
    rw [ht, List.take_left']
    rfl
  rw [hpre] at hall
  obtain ⟨gs1, hgs1, hmem⟩ := hi1.core.wf.group r st hst
  rw [hg, hgs] at hgs1
  simp only [Option.some.injEq] at hgs1
  subst hgs1
  obtain ⟨i, hilt, hget⟩ := List.getElem_of_mem hmem
  obtain ⟨st1, hst1, _, _, hkeys, hin⟩ := hall i r (by
    rw [List.getElem?_eq_getElem hilt, hget])
  rw [hst] at hst1
  simp only [Option.some.injEq] at hst1
  subst hst1
  have hkey := (hkeys k).mpr hk
  obtain ⟨x, hx, hxk⟩ := List.mem_map.mp hkey
  have hev := (hin x.1 x.2).mp hx
  rw [hxk] at hev
  rcases mem_sinceExecuted_append g _ _ _ hev with h1 | h1
  · exfalso
    obtain ⟨st0, hst0, _, _, hg0, _⟩ := SameTables_request hs r st hst
    have hp := hc.pending r st0 hst0
    rw [hready st0 (List.getElem?_mem hst0), hg0, hg] at hp
    have := (mem_pendingRanks r g e.enqueue_trace k x.2).mpr h1
    rw [← hp] at this
    exact absurd this (List.not_mem_nil _)
  · exact (mem_arrivals t1 r k).mpr ⟨x.2, h1⟩

/-- A run of calls of `Enqueue` for the requests of one job, none twice for the same
request and rank, from an executor without a job in flight and without ready ranks: either
no call has been made; or the job is in flight, the groups in front of the index have been
executed in their order and the group at the index is not ready; or all groups of the job
have been executed in their order and no job is in flight. -/
theorem Round_inv (env : Env) (P : RequestDesc → Prop) (e : CollectiveBoxingExecutor)
    (hi : EnqueueInv e) (hrc : ReadyComplete e) (hp : PlanTables env P e)
    (hloc : ∀ (r : Nat) (st : RequestState), e.request_id2request_state_[r]? = some st →
      st.local_ranks ≠ [])
    (hcur : e.current_job_id_ = -1)
    (hready : ∀ st ∈ e.request_id2request_state_, st.ready_ranks = [])
    (job_id : Int) (e1 : CollectiveBoxingExecutor) (hrun : Enqueued env e e1) :
    EnqueueInv e1 ∧ SameTables e e1 ∧ ReadyComplete e1
      ∧ ∃ t, e1.enqueue_trace = e.enqueue_trace ++ t
        ∧ ((arrivals t).Nodup →
            (∀ r k, (r, k) ∈ arrivals t →
              ∃ st : RequestState, e.request_id2request_state_[r]? = some st
                ∧ st.job_id = job_id ∧ k ∈ st.local_ranks) →
            (e1 = e ∧ t = [])
              ∨ (∃ (group_ids : List Nat) (p : Nat),
                  e.job_id2group_ids_.lookup job_id = some group_ids
                    ∧ p < group_ids.length
                    ∧ executedGroups t = group_ids.take p
                    ∧ e1.current_job_id_ = job_id
                    ∧ e1.current_group_idx_in_job_ = (p : Int)
                    ∧ ∃ (g : Nat) (gs : GroupState), group_ids[p]? = some g
                        ∧ e1.group_id2group_state_[g]? = some gs ∧ gs.IsReady = false)
              ∨ (∃ group_ids : List Nat,
                  e.job_id2group_ids_.lookup job_id = some group_ids
                    ∧ executedGroups t = group_ids
                    ∧ t ≠ []
                    ∧ e1.current_job_id_ = -1
                    ∧ e1.current_group_idx_in_job_ = -1)) := by
  induction hrun with
  | refl =>
    exact ⟨hi, SameTables_refl _, hrc, [], by simp, fun _ _ => Or.inl ⟨rfl, rfl⟩⟩
  | step e1 e2 rd info hrun1 hstep ih =>
    obtain ⟨hi1, hs1, hrc1, t1, ht1, hcase⟩ := ih
    have hloc1 : ∀ (r : Nat) (st : RequestState),
        e1.request_id2request_state_[r]? = some st → st.local_ranks ≠ [] := by
      intro r st hst
      obtain ⟨st0, hst0, _, _, _, hl⟩ := SameTables_request hs1 r st hst
      rw [← hl]
      exact hloc r st0 hst0
    have hrc2 := ReadyComplete_Enqueue env e1 e2 rd info hi1.core hrc1 hloc1 hstep
    obtain ⟨r, st, group_ids, idx, k, hr, hst, hG, hstart, hle, ⟨tx, htx, hexec⟩, hgroups,
      hend, hs12, hi2⟩ := Enqueue_spec env e1 e2 rd info hi1 hstep
    refine ⟨hi2, SameTables_trans hs1 hs12, hrc2,
      t1 ++ EnqueueEvent.ready_rank r rd.rank info :: tx, ?_, ?_⟩
    · rw [htx, ht1, List.append_assoc]
    · intro hnodup hjob
      have harr : arrivals (t1 ++ EnqueueEvent.ready_rank r rd.rank info :: tx)
          = arrivals t1 ++ [(r, rd.rank)] := by
        rw [arrivals_append]
        have : EnqueueEvent.ready_rank r rd.rank info :: tx
            = [EnqueueEvent.ready_rank r rd.rank info] ++ tx := rfl
        rw [this, arrivals_append, arrivals_of_executions tx hexec]
        rfl
      rw [harr] at hnodup hjob
      -- the request of the call
      obtain ⟨st0, hst0, hj0, hk0⟩ := hjob r rd.rank (by simp)
      obtain ⟨st0', hst0', _, hjeq, hgeq, hleq⟩ := SameTables_request hs1 r st hst
      rw [hst0] at hst0'
      simp only [Option.some.injEq] at hst0'
      subst hst0'
      have hstj : st.job_id = job_id := by rw [← hjeq]; exact hj0
      have hstk : rd.rank ∈ st.local_ranks := by rw [← hleq]; exact hk0
      have hjne : job_id ≠ -1 := by
        rw [← hstj]; exact hi1.core.wf.job r st hst
      have hG0 : e.job_id2group_ids_.lookup job_id = some group_ids := by
        rw [← hs1.job_id2group_ids, ← hstj]; exact hG
      -- the executions of the run
      have hex2 : executedGroups (t1 ++ EnqueueEvent.ready_rank r rd.rank info :: tx)
          = executedGroups t1 ++ (group_ids.drop idx).take k := by
        have h1 : executedGroups e2.enqueue_trace
            = executedGroups e.enqueue_trace
              ++ executedGroups (t1 ++ EnqueueEvent.ready_rank r rd.rank info :: tx) := by
          rw [htx, ht1, List.append_assoc, executedGroups_append]
        have h2 : executedGroups e1.enqueue_trace
            = executedGroups e.enqueue_trace ++ executedGroups t1 := by
          rw [ht1, executedGroups_append]
        rw [h1, h2, List.append_assoc] at hgroups
        exact List.append_cancel_left hgroups
      -- the end of the call, from the index `idx` with `executedGroups t1 = take idx`
      have hfinish : executedGroups t1 = group_ids.take idx →
          (∃ (group_ids : List Nat) (p : Nat),
              e.job_id2group_ids_.lookup job_id = some group_ids
                ∧ p < group_ids.length
                ∧ executedGroups (t1 ++ EnqueueEvent.ready_rank r rd.rank info :: tx)
                  = group_ids.take p
                ∧ e2.current_job_id_ = job_id
                ∧ e2.current_group_idx_in_job_ = (p : Int)
                ∧ ∃ (g : Nat) (gs : GroupState), group_ids[p]? = some g
                    ∧ e2.group_id2group_state_[g]? = some gs ∧ gs.IsReady = false)
            ∨ (∃ group_ids : List Nat,
              e.job_id2group_ids_.lookup job_id = some group_ids
                ∧ executedGroups (t1 ++ EnqueueEvent.ready_rank r rd.rank info :: tx)
                  = group_ids
                ∧ t1 ++ EnqueueEvent.ready_rank r rd.rank info :: tx ≠ []
                ∧ e2.current_job_id_ = -1
                ∧ e2.current_group_idx_in_job_ = -1) := by
        intro hpre
        have htake : executedGroups (t1 ++ EnqueueEvent.ready_rank r rd.rank info :: tx)
            = group_ids.take (idx + k) := by
          rw [hex2, hpre, List.take_add]
        rcases hend with ⟨h1, h2, h3⟩ | ⟨h1, h2, h3, g, gs, h4, h5, h6⟩
        · right
          refine ⟨group_ids, hG0, ?_, by simp, h2, h3⟩
          rw [htake, h1, List.take_length]
        · left
          exact ⟨group_ids, idx + k, hG0, h1, htake, by rw [h2, hstj], h3, g, gs, h4, h5, h6⟩
      have hnodup1 : (arrivals t1).Nodup := (List.nodup_append.mp hnodup).1
      have hjob1 : ∀ r k, (r, k) ∈ arrivals t1 →
          ∃ st : RequestState, e.request_id2request_state_[r]? = some st
            ∧ st.job_id = job_id ∧ k ∈ st.local_ranks :=
        fun r k h => hjob r k (List.mem_append_left _ h)
      right
      rcases hcase hnodup1 hjob1 with ⟨he, ht⟩ | ⟨G, p, hGp, hp1, hp2, hp3, hp4, _⟩
          | ⟨G, hG3, hex3, _, hcur3, _⟩
      · -- the first call of the run
        subst he
        subst ht
        have hidx : idx = 0 := by
          rcases hstart with ⟨_, h⟩ | ⟨h, _⟩
          · exact h
          · exfalso
            rw [hcur] at h
            exact hi.core.wf.job r st hst h.symm
        subst hidx
        exact hfinish (by simp [executedGroups])
      · -- the job is in flight
        rw [hGp] at hG0
        simp only [Option.some.injEq] at hG0
        subst hG0
        have hidx : idx = p := by
          rcases hstart with ⟨h, _⟩ | ⟨_, h⟩
          · exfalso
            rw [hp3] at h
            exact hjne h
          · rw [hp4] at h
            exact_mod_cast h.symm
        subst hidx
        exact hfinish hp2
      · -- every group has been executed: the rank has arrived before
        exfalso
        rw [hG3] at hG0
        simp only [Option.some.injEq] at hG0
        subst hG0
        have hp1 := PlanTables_of_SameTables env P hp hs1
        obtain ⟨G', hG', hgmem⟩ := hp1.job_of_request r st hst
        rw [hG] at hG'
        simp only [Option.some.injEq] at hG'
        subst hG'
        rw [← hex3, mem_executedGroups] at hgmem
        obtain ⟨ranks, hmem⟩ := hgmem
        obtain ⟨ta, tb, hsplit⟩ := List.append_of_mem hmem
        have hcons := Round_consumed e e1 hi.core hi1 hs1 hready ta tb st.group_id ranks
          (by rw [ht1, hsplit, List.append_assoc]) r st hst rfl rd.rank hstk
        have hin : (r, rd.rank) ∈ arrivals t1 := by
          rw [hsplit, arrivals_append]
          exact List.mem_append_left _ hcons
        have hdis := (List.nodup_append.mp hnodup).2.2
        exact hdis hin (List.mem_singleton_self _)

theorem mem_jobPairs (e : CollectiveBoxingExecutor) (job_id : Int) (r : Nat) (k : Int) :
    (r, k) ∈ jobPairs e job_id
      ↔ ∃ st : RequestState, e.request_id2request_state_[r]? = some st
          ∧ st.job_id = job_id ∧ k ∈ st.local_ranks := by
  unfold jobPairs
  rw [List.mem_flatMap]
  constructor
  · rintro ⟨x, _, hx⟩
    cases hst : e.request_id2request_state_[x]? with
    | none => rw [hst] at hx; simp at hx
    | some st =>
      rw [hst] at hx
      dsimp only at hx
      split at hx
      · rename_i hj
        obtain ⟨k1, hk1, heq⟩ := List.mem_map.mp hx
        simp only [Prod.mk.injEq] at heq
        obtain ⟨rfl, rfl⟩ := heq
        exact ⟨st, hst, hj, hk1⟩
      · exact absurd hx (List.not_mem_nil _)
  · rintro ⟨st, hst, hj, hk⟩
    refine ⟨r, List.mem_range.mpr (lt_length_of_getElem_some hst), ?_⟩
    rw [hst]
    dsimp only
    rw [if_pos hj]
    exact List.mem_map.mpr ⟨k, hk, rfl⟩

theorem jobPairs_nodup (e : CollectiveBoxingExecutor) (job_id : Int)
    (h : ∀ (r : Nat) (st : RequestState), e.request_id2request_state_[r]? = some st →
      st.local_ranks.Nodup) :
    (jobPairs e job_id).Nodup := by
  unfold jobPairs
  rw [List.nodup_flatMap]
  constructor
  · intro x _
    cases hst : e.request_id2request_state_[x]? with
    | none => exact List.nodup_nil
    | some st =>
      dsimp only
      split
      · exact List.Nodup.map (fun a b hab => (Prod.mk.inj hab).2) (h x st hst)
      · exact List.nodup_nil
  · refine List.Pairwise.imp ?_ (List.nodup_range _)
    intro a b hab p hpa hpb
    have fst_of : ∀ (x : Nat), p ∈ (match e.request_id2request_state_[x]? with
        | some request_state =>
          if request_state.job_id = job_id then
            request_state.local_ranks.map (fun rank => (x, rank))
          else []
        | none => []) → p.1 = x := by
      intro x hx
      cases hst : e.request_id2request_state_[x]? with
      | none => rw [hst] at hx; simp at hx
      | some st =>
        rw [hst] at hx
        dsimp only at hx
        split at hx
        · obtain ⟨k1, _, heq⟩ := List.mem_map.mp hx
          rw [← heq]
        · exact absurd hx (List.not_mem_nil _)
    exact hab ((fst_of a hpa).symm.trans (fst_of b hpb))

theorem not_mem_take_of_nodup {α : Type} (l : List α) (hn : l.Nodup) (p : Nat) (x : α)
    (h : l[p]? = some x) : x ∉ l.take p := by
  intro hmem
  have hsplit := List.take_append_drop p l
  have hdrop : x ∈ l.drop p := by
    have : (l.drop p)[0]? = some x := by
      rw [List.getElem?_drop]
      simpa using h
    exact List.getElem?_mem this
  rw [← hsplit] at hn
  exact (List.nodup_append.mp hn).2.2 hmem hdrop

/-- Without ready ranks no request is ready in its group, when no request is without local
ranks. -/
theorem no_ready_request_of_no_ready_ranks (e : CollectiveBoxingExecutor)
    (hc : EnqueueCore e)
    (hloc : ∀ (r : Nat) (st : RequestState), e.request_id2request_state_[r]? = some st →
      st.local_ranks ≠ [])
    (hready : ∀ st ∈ e.request_id2request_state_, st.ready_ranks = []) :
    ∀ gs ∈ e.group_id2group_state_, gs.ready_request_ids = [] := by
  intro gs hgs
  obtain ⟨g, hg⟩ := List.mem_iff_getElem?.mp hgs
  rw [List.eq_nil_iff_forall_not_mem]
  intro r hr
  obtain ⟨_, st, hst, his⟩ := (hc.ready g gs hg).2 r hr
  apply hloc r st hst
  simp only [RequestState.IsReady, decide_eq_true_eq,
    hready st (List.getElem?_mem hst), List.length_nil] at his
  exact List.eq_nil_of_length_eq_zero his.symm

/-- C33: a complete round restores the idle state.  Let `std::sort` sort and let the
executor be made by `Init` of a plan without a job of id -1, followed by any sequence of
successful calls of `Enqueue`, after which no job is in flight and no rank is ready; then
no request is ready in its group either.  Let further calls of `Enqueue` follow, one for
every (request, local rank) pair of one job and no other, in any order.  Then
`ExecuteGroup` has been invoked for the groups of the job, each once, in their order in the
job, and for no other group; `current_job_id_` and `current_group_idx_in_job_` are -1; and
again no rank is ready and no request is ready in its group. -/
theorem Enqueue_complete_round (env : Env) (plan : CollectiveBoxingPlan)
    (backend : NcclCollectiveBoxingExecutorBackend) (e0 e e1 : CollectiveBoxingExecutor)
    (hsort : SortsByOrder env)
    (hjobs : ∀ job ∈ plan.job_id2request_set, job.1 ≠ -1)
    (hinit : CollectiveBoxingExecutor.Init env (CollectiveBoxingExecutor.blank plan backend)
      = some e0)
    (hrun0 : Enqueued env e0 e)
    (hcur : e.current_job_id_ = -1)
    (hready : ∀ st ∈ e.request_id2request_state_, st.ready_ranks = [])
    (hrun : Enqueued env e e1) (job_id : Int) (t : List EnqueueEvent)
    (ht : e1.enqueue_trace = e.enqueue_trace ++ t)
    (hcalls : (arrivals t).Perm (jobPairs e job_id)) :
    (∀ gs ∈ e.group_id2group_state_, gs.ready_request_ids = [])
      ∧ executedGroups t = (e.job_id2group_ids_.lookup job_id).getD []
      ∧ (executedGroups t).Nodup
      ∧ e1.current_job_id_ = -1
      ∧ e1.current_group_idx_in_job_ = -1
      ∧ (∀ st ∈ e1.request_id2request_state_, st.ready_ranks = [])
      ∧ (∀ gs ∈ e1.group_id2group_state_, gs.ready_request_ids = []) := by
  obtain ⟨hw, hidle, hasc⟩ := Init_wellFormed env plan backend e0 hjobs hinit
  obtain ⟨hi, hs0⟩ := Enqueued_inv env e0 e (EnqueueInv_of_idle e0 hw hidle) hrun0
  have hp0 : PlanTables env
      (fun request => HasDeviceOnThisMachine env request.device_set = true) e0 :=
    Init_jobs_tables env _ plan.job_id2request_set _ e0
      (PlanTables_blank env _ plan backend)
      (by
        intro job _ request hrequest
        rw [(hsort _).1.mem_iff, List.mem_filter] at hrequest
        exact hrequest.2)
      hinit
  have hp := PlanTables_of_SameTables env _ hp0 hs0
  have hloc : ∀ (r : Nat) (st : RequestState),
      e.request_id2request_state_[r]? = some st → st.local_ranks ≠ [] := by
    intro r st hst
    rw [hp.local_ranks r st hst]
    exact Init_localRanks_ne_nil env _ (hp.planned r st hst)
  have hrc := ReadyComplete_of_no_ready_ranks e hloc hready
  obtain ⟨hi1, hs1, hrc1, t', ht', hcase⟩ :=
    Round_inv env _ e hi hrc hp hloc hcur hready job_id e1 hrun
  have htt : t' = t := by
    rw [ht] at ht'
    exact (List.append_cancel_left ht').symm
  subst htt
  have hp1 := PlanTables_of_SameTables env _ hp hs1
  have hloc1 : ∀ (r : Nat) (st : RequestState),
      e1.request_id2request_state_[r]? = some st → st.local_ranks ≠ [] := by
    intro r st hst
    rw [hp1.local_ranks r st hst]
    exact Init_localRanks_ne_nil env _ (hp1.planned r st hst)
  have hnodup : (arrivals t').Nodup :=
    hcalls.nodup_iff.mpr (jobPairs_nodup e job_id hi.core.wf.ranks_nodup)
  have hall : ∀ r k, (r, k) ∈ arrivals t'
      ↔ ∃ st : RequestState, e.request_id2request_state_[r]? = some st
          ∧ st.job_id = job_id ∧ k ∈ st.local_ranks := by
    intro r k
    rw [hcalls.mem_iff, mem_jobPairs]
  -- the groups of a job are distinct
  have hGnodup : ∀ G, e.job_id2group_ids_.lookup job_id = some G → G.Nodup := by
    intro G hG
    rw [hs0.job_id2group_ids] at hG
    have := (hasc _ (mem_of_lookup_some job_id G _ hG)).1
    exact this.imp (fun hab => Nat.ne_of_lt hab)
  -- no rank of a request of the job is ready without having arrived in the run
  have harrived : ∀ (r : Nat) (st : RequestState),
      e1.request_id2request_state_[r]? = some st →
      ∀ k info, (k, info) ∈ st.ready_ranks →
        EnqueueEvent.ready_rank r k info
          ∈ sinceExecuted st.group_id (e.enqueue_trace ++ t')
          ∧ EnqueueEvent.ready_rank r k info ∈ t' := by
    intro r st hst k info hmem
    rw [hi1.core.pending r st hst, mem_pendingRanks, ht] at hmem
    refine ⟨hmem, ?_⟩
    rcases mem_sinceExecuted_append _ _ _ _ hmem with h1 | h1
    · exfalso
      obtain ⟨st0, hst0, _, _, hg0, _⟩ := SameTables_request hs1 r st hst
      have hpend := hi.core.pending r st0 hst0
      rw [hready st0 (List.getElem?_mem hst0), hg0] at hpend
      have := (mem_pendingRanks r st.group_id e.enqueue_trace k info).mpr h1
      rw [← hpend] at this
      exact absurd this (List.not_mem_nil _)
    · exact h1
  have hids := no_ready_request_of_no_ready_ranks e hi.core hloc hready
  refine ⟨hids, ?_⟩
  rcases hcase hnodup (fun r k h => (hall r k).mp h) with ⟨he, ht0⟩
      | ⟨G, p, hG, hplt, hex, hcur1, hidx1, g, gs, hgp, hgs, hnot⟩
      | ⟨G, hG, hex, _, hcur1, hidx1⟩
  · -- no call: the job has no group
    subst he
    subst ht0
    have hnone : (e1.job_id2group_ids_.lookup job_id).getD [] = [] := by
      cases hG : e1.job_id2group_ids_.lookup job_id with
      | none => rfl
      | some G =>
        simp only [Option.getD_some]
        rw [List.eq_nil_iff_forall_not_mem]
        intro g hg
        obtain ⟨gs, hgs, hreq⟩ := hp.requests_of_job job_id G hG g hg
        obtain ⟨start, hids1, hst1⟩ := hp.lined g gs hgs
        have hne := hp.populated g gs hgs
        have hlen : 0 < gs.requests.length := List.length_pos.mpr hne
        obtain ⟨st, hst, _⟩ := hst1 0 (gs.requests[0]) (List.getElem?_eq_getElem hlen)
        have hmem : start + 0 ∈ gs.request_ids := by
          rw [hids1, List.mem_range'_1]
          omega
        have hj := hreq _ hmem st hst
        obtain ⟨k, hk⟩ := List.exists_mem_of_ne_nil _ (hloc _ st hst)
        have := (hall (start + 0) k).mpr ⟨st, hst, hj, hk⟩
        simp [arrivals] at this
    rw [hnone]
    refine ⟨by simp [executedGroups], by simp [executedGroups], hcur, ?_, hready, hids⟩
    obtain ⟨rounds, _, hrounds⟩ := hi.rounds
    rcases hrounds with ⟨_, h2, _⟩ | ⟨h1, _⟩
    · exact h2
    · exact absurd hcur h1
  · -- the job is in flight: the group at the index is ready, a contradiction
    exfalso
    have hG1 : e1.job_id2group_ids_.lookup job_id = some G := by
      rw [hs1.job_id2group_ids]; exact hG
    have hgG : g ∈ G := List.getElem?_mem hgp
    have hgnot : g ∉ executedGroups t' := by
      rw [hex]
      exact not_mem_take_of_nodup G (hGnodup G hG) p g hgp
    obtain ⟨gs', hgs', hreq⟩ := hp1.requests_of_job job_id G hG1 g hgG
    rw [hgs] at hgs'
    simp only [Option.some.injEq] at hgs'
    subst hgs'
    have hallready : ∀ r ∈ gs.request_ids, r ∈ gs.ready_request_ids := by
      intro r hr
      obtain ⟨st, hst, hgid⟩ := hi1.core.wf.member g gs hgs r hr
      have hj := hreq r hr st hst
      obtain ⟨st0, hst0, _, hj0, _, hl0⟩ := SameTables_request hs1 r st hst
      have hsub : ∀ k ∈ st.local_ranks, k ∈ st.ready_ranks.map Prod.fst := by
        intro k hk
        have hin := (hall r k).mpr ⟨st0, hst0, by rw [hj0]; exact hj, by rw [hl0]; exact hk⟩
        obtain ⟨info, hinfo⟩ := (mem_arrivals t' r k).mp hin
        have hsince := mem_sinceExecuted_of_not_executed g e.enqueue_trace t' _ hgnot hinfo
        rw [← ht, ← hgid, ← mem_pendingRanks, ← hi1.core.pending r st hst] at hsince
        exact List.mem_map.mpr ⟨(k, info), hsince, rfl⟩
      have hkeys := hi1.core.keys r st hst
      have hready1 : st.IsReady = true := by
        have h1 : (st.ready_ranks.map Prod.fst).length ≤ st.local_ranks.length :=
          (List.subperm_of_subset hkeys.1 hkeys.2).length_le
        have h2 : st.local_ranks.length ≤ (st.ready_ranks.map Prod.fst).length :=
          (List.subperm_of_subset (hi1.core.wf.ranks_nodup r st hst) hsub).length_le
        rw [List.length_map] at h1 h2
        simp only [RequestState.IsReady, decide_eq_true_eq]
        omega
      obtain ⟨gs2, hgs2, hin2⟩ := hrc1 r st hst hready1
      rw [hgid, hgs] at hgs2
      simp only [Option.some.injEq] at hgs2
      subst hgs2
      exact hin2
    have hrdy := hi1.core.ready g gs hgs
    have h1 : gs.ready_request_ids.length ≤ gs.request_ids.length :=
      (List.subperm_of_subset hrdy.1 (fun r hr => (hrdy.2 r hr).1)).length_le
    have h2 : gs.request_ids.length ≤ gs.ready_request_ids.length :=
      (List.subperm_of_subset (hi1.core.wf.ids_nodup g gs hgs) hallready).length_le
    have : gs.IsReady = true := by
      simp only [GroupState.IsReady, decide_eq_true_eq]
      omega
    rw [this] at hnot
    exact absurd hnot (by simp)
  · -- the round is complete
    have hnoranks : ∀ st ∈ e1.request_id2request_state_, st.ready_ranks = [] := by
      intro st hstmem
      obtain ⟨r, hst⟩ := List.mem_iff_getElem?.mp hstmem
      rw [List.eq_nil_iff_forall_not_mem]
      rintro ⟨k, info⟩ hmem
      obtain ⟨hsince, hint⟩ := harrived r st hst k info hmem
      have hin : (r, k) ∈ arrivals t' := (mem_arrivals t' r k).mpr ⟨info, hint⟩
      obtain ⟨st0, hst0, hj0, hk0⟩ := (hall r k).mp hin
      obtain ⟨st0', hst0', _, hjeq, _, hleq⟩ := SameTables_request hs1 r st hst
      rw [hst0] at hst0'
      simp only [Option.some.injEq] at hst0'
      subst hst0'
      obtain ⟨G', hG', hgmem⟩ := hp1.job_of_request r st hst
      rw [hs1.job_id2group_ids, ← hjeq, hj0, hG] at hG'
      simp only [Option.some.injEq] at hG'
      subst hG'
      rw [← hex, mem_executedGroups] at hgmem
      obtain ⟨ranks, hexec⟩ := hgmem
      obtain ⟨ta, tb, hsplit⟩ := List.append_of_mem hexec
      have hcons := Round_consumed e e1 hi.core hi1 hs1 hready ta tb st.group_id ranks
        (by rw [ht, hsplit, List.append_assoc]) r st hst rfl k (by rw [← hleq]; exact hk0)
      have hafter : EnqueueEvent.ready_rank r k info ∈ tb := by
        apply mem_sinceExecuted_after st.group_id (e.enqueue_trace ++ ta) tb ranks
        rw [hsplit, ← List.append_assoc] at hsince
        exact hsince
      have hnd := hnodup
      rw [hsplit, arrivals_append] at hnd
      have hb : (r, k) ∈ arrivals (EnqueueEvent.execute_group st.group_id ranks :: tb) := by
        rw [mem_arrivals]
        exact ⟨info, List.mem_cons_of_mem _ hafter⟩
      exact (List.nodup_append.mp hnd).2.2 hcons hb
    rw [hG, Option.getD_some]
    exact ⟨hex, by rw [hex]; exact hGnodup G hG, hcur1, hidx1, hnoranks,
      no_ready_request_of_no_ready_ranks e1 hi1.core hloc1 hnoranks⟩

/-- Witness of C33: the first four of the calls `test.calls` are one call for each of the
four (request, local rank) pairs of job 7, with the ranks of request "b" between those of
request "a".  After them the groups 0 and 1 of job 7 have been executed, in this order, no
job is in flight and no rank and no request is ready. -/
theorem Enqueue_complete_round_witness :
    arrivals (test.enqueued 4).enqueue_trace = [(0, 0), (1, 0), (1, 1), (0, 1)]
      ∧ jobPairs test.executor 7 = [(0, 0), (0, 1), (1, 0), (1, 1)]
      ∧ test.executor.job_id2group_ids_.lookup 7 = some [0, 1]
      ∧ ((∀ gs ∈ test.executor.group_id2group_state_, gs.ready_request_ids = [])
        ∧ executedGroups (test.enqueued 4).enqueue_trace
          = (test.executor.job_id2group_ids_.lookup 7).getD []
        ∧ (executedGroups (test.enqueued 4).enqueue_trace).Nodup
        ∧ (test.enqueued 4).current_job_id_ = -1
        ∧ (test.enqueued 4).current_group_idx_in_job_ = -1
        ∧ (∀ st ∈ (test.enqueued 4).request_id2request_state_, st.ready_ranks = [])
        ∧ (∀ gs ∈ (test.enqueued 4).group_id2group_state_, gs.ready_request_ids = [])) :=
  ⟨by decide, by decide, by decide,
   Enqueue_complete_round (test.env 96) test.plan (test.backend_ready 96) test.executor
     test.executor (test.enqueued 4) (test_env_sorts 96) (by decide) test_executor_init
     Enqueued.refl (by decide) (by decide) (test_enqueued_run 4 rfl) 7
     (test.enqueued 4).enqueue_trace (by decide) (by decide)⟩

end collective
end boxing
end oneflow
